import Mathlib

/-!
# SPL slab allocator (`modules/spl/spl-kmem.c`)

A shallow embedding of the object-cache engine of the Solaris Porting Layer:
slabs, the partial/complete slab lists, the in-use hash, the per-CPU magazines
and the reaper.  Pointers are natural numbers and `0` is `NULL`.  Intrusive
kernel lists become Lean lists of the linked records, a slab is referred to
by the address of its `spl_kmem_slab_t`.  A failed `ASSERT` (or a fault such
as a dereference of a dangling pointer or an array access out of bounds) makes
the embedded function return `none`.

Counters are natural numbers: the header that declares their C types is not
part of the translated sources, and none of the statements below concerns a
state in which a counter wraps.  The size of a large slab goes through the
local `int size` of `spl_slab_alloc_vmem`, as in the source.
-/

set_option autoImplicit false
set_option linter.unusedVariables false

namespace SplKmem

/-! ## Platform constants and the environment -/

/-- Constants and kernel primitives which `spl-kmem.c` takes from headers that
are not part of the translated file. -/
structure Platform where
  /-- `PAGE_SIZE` -/
  PAGE_SIZE : Nat
  /-- `PAGE_SHIFT` -/
  PAGE_SHIFT : Nat
  /-- `HZ`, ticks per second -/
  HZ : Nat
  /-- `BITS_PER_LONG`, the width of `jiffies` -/
  BITS_PER_LONG : Nat
  /-- `SPL_KMEM_CACHE_OBJ_PER_SLAB` -/
  SPL_KMEM_CACHE_OBJ_PER_SLAB : Nat
  /-- `SPL_KMEM_CACHE_DELAY` -/
  SPL_KMEM_CACHE_DELAY : Nat
  /-- `SPL_KMEM_CACHE_HASH_BITS` -/
  SPL_KMEM_CACHE_HASH_BITS : Nat
  /-- `SPL_KMEM_CACHE_HASH_ELTS` -/
  SPL_KMEM_CACHE_HASH_ELTS : Nat
  /-- `SPL_KMEM_CACHE_HASH_SIZE` -/
  SPL_KMEM_CACHE_HASH_SIZE : Nat
  /-- `sizeof(spl_kmem_slab_t)` -/
  SIZEOF_SLAB : Nat
  /-- `sizeof(spl_kmem_obj_t)` -/
  SIZEOF_OBJ : Nat
  /-- `sizeof(spl_kmem_cache_t)` -/
  SIZEOF_CACHE : Nat
  /-- `sizeof(spl_kmem_magazine_t)` -/
  SIZEOF_MAGAZINE : Nat
  /-- `sizeof(void *)` -/
  SIZEOF_PTR : Nat
  /-- number of CPUs visited by `for_each_online_cpu` -/
  NCPUS : Nat
  /-- the kernel's `hash_long(val, bits)` -/
  hash_long : Nat → Nat → Nat

/-- Allocation flags as far as this file looks at them. -/
inductive km_flags where
  | KM_SLEEP
  | KM_NOSLEEP
  deriving DecidableEq, Repr

/-- Calls that leave the cache engine: to the byte allocators, to the two
bootstrap caches and to the user callbacks. -/
inductive Event where
  | kmem_alloc (size : Nat) (ret : Nat)
  | kmem_free (ptr : Nat) (size : Nat)
  | vmem_alloc (size : Nat) (ret : Nat)
  | vmem_free (ptr : Nat) (size : Nat)
  | slab_cache_alloc (ret : Nat)
  | slab_cache_free (ptr : Nat)
  | obj_cache_alloc (ret : Nat)
  | obj_cache_free (ptr : Nat)
  | kmalloc_node (size : Nat) (ret : Nat)
  | kfree (ptr : Nat)
  | ctor (addr : Nat)
  | dtor (addr : Nat)
  | reclaim
  deriving DecidableEq, Repr

/-- The answers of the byte allocators to successive calls; `0` is `NULL`. -/
abbrev Heap := List Nat

/-- Next answer of the allocator; an exhausted script answers `NULL`. -/
def heap_next : Heap → Nat × Heap
  | [] => (0, [])
  | a :: h => (a, h)

/-! ## Data model -/

/-- Object header `spl_kmem_obj_t`.  `sko_ptr` is the address of the header. -/
structure spl_kmem_obj_t where
  sko_ptr : Nat
  sko_addr : Nat
  sko_slab : Nat
  deriving DecidableEq, Repr

/-- Slab `spl_kmem_slab_t`.  `sks_ptr` is the address of the struct. -/
structure spl_kmem_slab_t where
  sks_ptr : Nat
  sks_objs : Nat
  sks_age : Nat
  sks_free_list : List spl_kmem_obj_t
  sks_ref : Nat
  deriving DecidableEq, Repr

/-- Magazine `spl_kmem_magazine_t`; `skm_ptr` is the address of the struct,
`skm_objs` is the pointer array. -/
structure spl_kmem_magazine_t where
  skm_ptr : Nat
  skm_avail : Nat
  skm_size : Nat
  skm_refill : Nat
  skm_age : Nat
  skm_objs : List Nat
  deriving DecidableEq, Repr

/-- Cache `spl_kmem_cache_t`.  `skc_ptr` is the address of the struct,
`skc_name` and `skc_hash_ptr` the addresses of the name copy and of the hash
table; `skc_ctor`, `skc_dtor` and `skc_reclaim` record whether the callback
is set; `skc_events` is the record of the calls made on behalf of the cache
(not a field of the C struct). -/
structure spl_kmem_cache_t where
  skc_ptr : Nat
  skc_name : Nat
  skc_name_size : Nat
  skc_ctor : Bool
  skc_dtor : Bool
  skc_reclaim : Bool
  skc_obj_size : Nat
  skc_delay : Nat
  skc_mag : List spl_kmem_magazine_t
  skc_mag_size : Nat
  skc_mag_refill : Nat
  skc_hash_bits : Nat
  skc_hash_size : Nat
  skc_hash_elts : Nat
  skc_hash_ptr : Nat
  skc_hash : List (List spl_kmem_obj_t)
  skc_complete_list : List spl_kmem_slab_t
  skc_partial_list : List spl_kmem_slab_t
  skc_slab_fail : Nat
  skc_slab_create : Nat
  skc_slab_destroy : Nat
  skc_slab_total : Nat
  skc_slab_alloc : Nat
  skc_slab_max : Nat
  skc_obj_total : Nat
  skc_obj_alloc : Nat
  skc_obj_max : Nat
  skc_hash_depth : Nat
  skc_hash_count : Nat
  skc_events : List Event
  deriving DecidableEq, Repr, Inhabited

/-- What the rest of the kernel does while the cache engine runs: `heap c`
are the answers of the byte allocators to a slab construction started when
the cache is in state `c`, `cpu c` is the CPU the thread finds itself on
after the sleep of a `spl_cache_grow` that left the cache in state `c`. -/
structure Env where
  heap : spl_kmem_cache_t → Heap
  cpu : spl_kmem_cache_t → Nat

/-! ## Pointer and list primitives -/

/-- The slab at address `ptr` on a slab list. -/
def slab_find (ptr : Nat) : List spl_kmem_slab_t → Option spl_kmem_slab_t
  | [] => none
  | s :: l => if s.sks_ptr = ptr then some s else slab_find ptr l

/-- Dereference of a slab pointer: the slab is on one of the two lists. -/
def slab_deref (skc : spl_kmem_cache_t) (ptr : Nat) : Option spl_kmem_slab_t :=
  match slab_find ptr skc.skc_partial_list with
  | some s => some s
  | none => slab_find ptr skc.skc_complete_list

/-- Write through a slab pointer on a slab list, the list order is kept. -/
def slab_store (sks : spl_kmem_slab_t) (l : List spl_kmem_slab_t) : List spl_kmem_slab_t :=
  l.map (fun s => if s.sks_ptr = sks.sks_ptr then sks else s)

/-- Write `sks` back to the cache, wherever the slab is linked. -/
def slab_write (skc : spl_kmem_cache_t) (sks : spl_kmem_slab_t) : spl_kmem_cache_t :=
  { skc with
    skc_partial_list := slab_store sks skc.skc_partial_list
    skc_complete_list := slab_store sks skc.skc_complete_list }

/-- The kernel's `list_del(&sks->sks_list)` seen from one slab list. -/
def list_del (ptr : Nat) (l : List spl_kmem_slab_t) : List spl_kmem_slab_t :=
  l.filter (fun s => s.sks_ptr ≠ ptr)

/-- The kernel's `time_after(a, b)`, that is `(long)(b - a) < 0` on
`unsigned long`. -/
def time_after (P : Platform) (a b : Nat) : Bool :=
  decide (2 ^ (P.BITS_PER_LONG - 1) ≤
    (b % 2 ^ P.BITS_PER_LONG + 2 ^ P.BITS_PER_LONG - a % 2 ^ P.BITS_PER_LONG)
      % 2 ^ P.BITS_PER_LONG)

/-- Store into a C array: `none` when the index is past the end. -/
def array_set (l : List Nat) (i : Nat) (v : Nat) : Option (List Nat) :=
  if i < l.length then some (l.set i v) else none

/-- `ENOMEM` -/
def ENOMEM : Int := 12

/-! ## Slab construction and teardown -/

/-- `spl_slab_init` for the slab struct at address `ptr`. -/
def spl_slab_init (P : Platform) (ptr jiffies : Nat) : spl_kmem_slab_t :=
  { sks_ptr := ptr
    sks_objs := P.SPL_KMEM_CACHE_OBJ_PER_SLAB
    sks_age := jiffies
    sks_free_list := []
    sks_ref := 0 }

/-- The `for` loop of `spl_slab_alloc_kmem` with `n` iterations left: result
code, slab, and the calls made. -/
def spl_slab_alloc_kmem_loop (skc : spl_kmem_cache_t) :
    Nat → spl_kmem_slab_t → Heap → List Event → Int × spl_kmem_slab_t × List Event
  | 0, sks, _, ev => (0, sks, ev)
  | n + 1, sks, heap, ev =>
    let (sko, heap1) := heap_next heap
    if sko = 0 then
      (-ENOMEM, sks, ev ++ [Event.obj_cache_alloc sko])
    else
      let (addr, heap2) := heap_next heap1
      if addr = 0 then
        (-ENOMEM, sks, ev ++ [Event.obj_cache_alloc sko,
          Event.kmem_alloc skc.skc_obj_size addr, Event.obj_cache_free sko])
      else
        spl_slab_alloc_kmem_loop skc n
          { sks with sks_free_list :=
              { sko_ptr := sko, sko_addr := addr, sko_slab := sks.sks_ptr } :: sks.sks_free_list }
          heap2
          (ev ++ [Event.obj_cache_alloc sko, Event.kmem_alloc skc.skc_obj_size addr])

/-- The calls of the unwind loop of `spl_slab_alloc_kmem` (and of the loop of
`spl_slab_free_kmem`) over a free list. -/
def spl_slab_kmem_release (skc : spl_kmem_cache_t) : List spl_kmem_obj_t → List Event
  | [] => []
  | sko :: l =>
    Event.kmem_free sko.sko_addr skc.skc_obj_size :: Event.obj_cache_free sko.sko_ptr ::
      spl_slab_kmem_release skc l

/-- `spl_slab_alloc_kmem` -/
def spl_slab_alloc_kmem (skc : spl_kmem_cache_t) (sks : spl_kmem_slab_t) (heap : Heap) :
    Int × spl_kmem_slab_t × List Event :=
  match spl_slab_alloc_kmem_loop skc sks.sks_objs sks heap [] with
  | (rc, sks1, ev) =>
    if rc ≠ 0 then
      (rc, { sks1 with sks_free_list := [] }, ev ++ spl_slab_kmem_release skc sks1.sks_free_list)
    else (rc, sks1, ev)

/-- The `for` loop of `spl_slab_alloc_vmem`, `n` iterations left, at index `i`. -/
def spl_slab_alloc_vmem_loop (P : Platform) (skc : spl_kmem_cache_t) (sko_base obj_base : Nat) :
    Nat → Nat → spl_kmem_slab_t → spl_kmem_slab_t
  | 0, _, sks => sks
  | n + 1, i, sks =>
    spl_slab_alloc_vmem_loop P skc sko_base obj_base n (i + 1)
      { sks with sks_free_list := sks.sks_free_list ++
          [{ sko_ptr := sko_base + P.SIZEOF_OBJ * i
             sko_addr := obj_base + skc.skc_obj_size * i
             sko_slab := sks.sks_ptr }] }

/-- Conversion of a size to the C type `int` (32 bits): reduction modulo
`2^32` into the signed range.  A `size_t` is reduced alike, its range being a
multiple of `2^32`. -/
def to_int (x : Nat) : Int :=
  if x % 2 ^ 32 < 2 ^ 31 then Int.ofNat (x % 2 ^ 32)
  else Int.ofNat (x % 2 ^ 32) - Int.ofNat (2 ^ 32)

/-- Conversion of an `int` to `size_t`, the type in which the allocators take
a size: reduction modulo `2^BITS_PER_LONG`. -/
def to_size_t (P : Platform) (v : Int) : Nat :=
  (v % Int.ofNat (2 ^ P.BITS_PER_LONG)).toNat

/-- `spl_slab_alloc_vmem`.  The size of the region is held in the local
`int size` and passed to `vmem_alloc` from there. -/
def spl_slab_alloc_vmem (P : Platform) (skc : spl_kmem_cache_t) (jiffies : Nat) (heap : Heap) :
    Option spl_kmem_slab_t × List Event :=
  let size : Int :=
    to_int (P.SIZEOF_SLAB + P.SPL_KMEM_CACHE_OBJ_PER_SLAB * (skc.skc_obj_size + P.SIZEOF_OBJ))
  let (slab, _) := heap_next heap
  if slab = 0 then (none, [Event.vmem_alloc (to_size_t P size) slab])
  else
    let sks := spl_slab_init P slab jiffies
    let sko_base := slab + P.SIZEOF_SLAB
    let obj_base := sko_base + P.SIZEOF_OBJ * sks.sks_objs
    (some (spl_slab_alloc_vmem_loop P skc sko_base obj_base sks.sks_objs 0 sks),
      [Event.vmem_alloc (to_size_t P size) slab])

/-- The constructor calls of `spl_slab_alloc` over the free list. -/
def spl_slab_ctor_calls (skc : spl_kmem_cache_t) (l : List spl_kmem_obj_t) : List Event :=
  if skc.skc_ctor then l.map (fun sko => Event.ctor sko.sko_addr) else []

/-- `spl_slab_alloc` -/
def spl_slab_alloc (P : Platform) (skc : spl_kmem_cache_t) (jiffies : Nat) (heap : Heap) :
    Option spl_kmem_slab_t × List Event :=
  if skc.skc_obj_size ≤ P.PAGE_SIZE then
    let (ptr, heap1) := heap_next heap
    if ptr = 0 then (none, [Event.slab_cache_alloc ptr])
    else
      match spl_slab_alloc_kmem skc (spl_slab_init P ptr jiffies) heap1 with
      | (rc, sks, ev) =>
        if rc ≠ 0 then
          (none, Event.slab_cache_alloc ptr :: ev ++ [Event.slab_cache_free ptr])
        else
          (some sks, Event.slab_cache_alloc ptr :: ev ++ spl_slab_ctor_calls skc sks.sks_free_list)
  else
    match spl_slab_alloc_vmem P skc jiffies heap with
    | (none, ev) => (none, ev)
    | (some sks, ev) => (some sks, ev ++ spl_slab_ctor_calls skc sks.sks_free_list)

/-- Calls of `spl_slab_free_kmem` -/
def spl_slab_free_kmem (skc : spl_kmem_cache_t) (sks : spl_kmem_slab_t) : List Event :=
  spl_slab_kmem_release skc sks.sks_free_list ++ [Event.slab_cache_free sks.sks_ptr]

/-- Calls of `spl_slab_free_vmem` -/
def spl_slab_free_vmem (P : Platform) (skc : spl_kmem_cache_t) (sks : spl_kmem_slab_t) :
    List Event :=
  [Event.vmem_free sks.sks_ptr
    (P.SPL_KMEM_CACHE_OBJ_PER_SLAB * (skc.skc_obj_size + P.SIZEOF_OBJ))]

/-- The destructor calls of `spl_slab_free` over the free list. -/
def spl_slab_dtor_calls (skc : spl_kmem_cache_t) (l : List spl_kmem_obj_t) : List Event :=
  if skc.skc_dtor then l.map (fun sko => Event.dtor sko.sko_addr) else []

/-- `spl_slab_free` of the slab at `ptr`. -/
def spl_slab_free (P : Platform) (skc : spl_kmem_cache_t) (ptr : Nat) : Option spl_kmem_cache_t :=
  match slab_deref skc ptr with
  | none => none
  | some sks =>
    if sks.sks_ref ≠ 0 then none
    else
      some { skc with
        skc_obj_total := skc.skc_obj_total - sks.sks_objs
        skc_slab_total := skc.skc_slab_total - 1
        skc_partial_list := list_del ptr skc.skc_partial_list
        skc_complete_list := list_del ptr skc.skc_complete_list
        skc_events := skc.skc_events ++ spl_slab_dtor_calls skc sks.sks_free_list ++
          (if skc.skc_obj_size ≤ P.PAGE_SIZE then spl_slab_free_kmem skc sks
           else spl_slab_free_vmem P skc sks) }

/-- The loop of `__spl_slab_reclaim` over the slabs of the partial list still
to visit, last slab first. -/
def spl_slab_reclaim_loop (P : Platform) (jiffies : Nat) :
    List spl_kmem_slab_t → Nat → spl_kmem_cache_t → Option (Nat × spl_kmem_cache_t)
  | [], rc, skc => some (rc, skc)
  | sks :: rest, rc, skc =>
    if sks.sks_ref > 0 then some (rc, skc)
    else if time_after P jiffies (sks.sks_age + skc.skc_delay * P.HZ) then
      match spl_slab_free P skc sks.sks_ptr with
      | none => none
      | some skc1 => spl_slab_reclaim_loop P jiffies rest (rc + 1) skc1
    else spl_slab_reclaim_loop P jiffies rest rc skc

/-- `__spl_slab_reclaim`: number of slabs reclaimed and the new state. -/
def __spl_slab_reclaim (P : Platform) (skc : spl_kmem_cache_t) (jiffies : Nat) :
    Option (Nat × spl_kmem_cache_t) :=
  spl_slab_reclaim_loop P jiffies skc.skc_partial_list.reverse 0 skc

/-- `spl_slab_reclaim` -/
def spl_slab_reclaim (P : Platform) (skc : spl_kmem_cache_t) (jiffies : Nat) :
    Option (Nat × spl_kmem_cache_t) :=
  __spl_slab_reclaim P skc jiffies

/-! ## Magazines and cache creation -/

/-- `spl_magazine_size` -/
def spl_magazine_size (P : Platform) (skc : spl_kmem_cache_t) : Nat :=
  if skc.skc_obj_size > P.PAGE_SIZE * 256 then 4
  else if skc.skc_obj_size > P.PAGE_SIZE * 32 then 16
  else if skc.skc_obj_size > P.PAGE_SIZE then 64
  else if skc.skc_obj_size > P.PAGE_SIZE / 4 then 128
  else 512

/-- `spl_magazine_alloc` when `kmalloc_node` answers `ptr`.  The pointer
array of a new magazine is not initialised by the code; it is zero here. -/
def spl_magazine_alloc (skc : spl_kmem_cache_t) (jiffies : Nat) (ptr : Nat) :
    Option spl_kmem_magazine_t :=
  if ptr = 0 then none
  else some
    { skm_ptr := ptr
      skm_avail := 0
      skm_size := skc.skc_mag_size
      skm_refill := skc.skc_mag_refill
      skm_age := jiffies
      skm_objs := List.replicate skc.skc_mag_size 0 }

/-- `spl_magazine_free`: the call made, `none` when the assertion fails. -/
def spl_magazine_free (skm : spl_kmem_magazine_t) : Option Event :=
  if skm.skm_avail ≠ 0 then none else some (Event.kfree skm.skm_ptr)

/-- `spl_magazine_free` over a list of magazines. -/
def spl_magazine_free_all : List spl_kmem_magazine_t → Option (List Event)
  | [] => some []
  | skm :: l =>
    match spl_magazine_free skm, spl_magazine_free_all l with
    | some e, some es => some (e :: es)
    | _, _ => none

/-- The `for_each_online_cpu` loop of `spl_magazine_create` with `n` CPUs
left; `none` is a failed assertion, otherwise the result code and the cache. -/
def spl_magazine_create_loop (P : Platform) (jiffies : Nat) :
    Nat → Heap → spl_kmem_cache_t → Option (Int × spl_kmem_cache_t)
  | 0, _, skc => some (0, skc)
  | n + 1, heap, skc =>
    let (ptr, heap1) := heap_next heap
    let size := P.SIZEOF_MAGAZINE + P.SIZEOF_PTR * skc.skc_mag_size
    let skc1 := { skc with skc_events := skc.skc_events ++ [Event.kmalloc_node size ptr] }
    match spl_magazine_alloc skc jiffies ptr with
    | none =>
      match spl_magazine_free_all skc.skc_mag.reverse with
      | none => none
      | some es => some (-ENOMEM, { skc1 with skc_events := skc1.skc_events ++ es })
    | some skm =>
      spl_magazine_create_loop P jiffies n heap1 { skc1 with skc_mag := skc.skc_mag ++ [skm] }

/-- `spl_magazine_create` -/
def spl_magazine_create (P : Platform) (skc : spl_kmem_cache_t) (jiffies : Nat) (heap : Heap) :
    Option (Int × spl_kmem_cache_t) :=
  let size := spl_magazine_size P skc
  spl_magazine_create_loop P jiffies P.NCPUS heap
    { skc with skc_mag_size := size, skc_mag_refill := (size + 1) / 2 }

/-- `spl_kmem_cache_create`.  `name_len` is `strlen(name)`, `registry` the
addresses on `spl_kmem_cache_list`; the result is the new cache (`none` for a
`NULL` return), the registry and the calls made.  The outer `none` is a
failed assertion. -/
def spl_kmem_cache_create (P : Platform) (name_len size : Nat) (ctor dtor reclaim : Bool)
    (jiffies : Nat) (heap : Heap) (registry : List Nat) :
    Option (Option spl_kmem_cache_t × List Nat × List Event) :=
  let (ptr, heap1) := heap_next heap
  if ptr = 0 then some (none, registry, [Event.kmem_alloc P.SIZEOF_CACHE ptr])
  else
    let name_size := name_len + 1
    let (name, heap2) := heap_next heap1
    let ev1 := [Event.kmem_alloc P.SIZEOF_CACHE ptr, Event.kmem_alloc name_size name]
    if name = 0 then some (none, registry, ev1 ++ [Event.kmem_free ptr P.SIZEOF_CACHE])
    else
      let (hash, heap3) := heap_next heap2
      let ev2 := ev1 ++ [Event.vmem_alloc P.SPL_KMEM_CACHE_HASH_SIZE hash]
      if hash = 0 then
        some (none, registry,
          ev2 ++ [Event.kmem_free name name_size, Event.kmem_free ptr P.SIZEOF_CACHE])
      else
        let skc : spl_kmem_cache_t :=
          { skc_ptr := ptr
            skc_name := name
            skc_name_size := name_size
            skc_ctor := ctor
            skc_dtor := dtor
            skc_reclaim := reclaim
            skc_obj_size := size
            skc_delay := P.SPL_KMEM_CACHE_DELAY
            skc_mag := []
            skc_mag_size := 0
            skc_mag_refill := 0
            skc_hash_bits := P.SPL_KMEM_CACHE_HASH_BITS
            skc_hash_size := P.SPL_KMEM_CACHE_HASH_SIZE
            skc_hash_elts := P.SPL_KMEM_CACHE_HASH_ELTS
            skc_hash_ptr := hash
            skc_hash := List.replicate P.SPL_KMEM_CACHE_HASH_ELTS []
            skc_complete_list := []
            skc_partial_list := []
            skc_slab_fail := 0
            skc_slab_create := 0
            skc_slab_destroy := 0
            skc_slab_total := 0
            skc_slab_alloc := 0
            skc_slab_max := 0
            skc_obj_total := 0
            skc_obj_alloc := 0
            skc_obj_max := 0
            skc_hash_depth := 0
            skc_hash_count := 0
            skc_events := ev2 }
        match spl_magazine_create P skc jiffies heap3 with
        | none => none
        | some (rc, skc1) =>
          if rc ≠ 0 then
            some (none, registry, skc1.skc_events ++
              [Event.vmem_free hash P.SPL_KMEM_CACHE_HASH_SIZE, Event.kmem_free name name_size,
               Event.kmem_free ptr P.SIZEOF_CACHE])
          else some (some skc1, registry ++ [ptr], skc1.skc_events)

/-! ## The in-use hash -/

/-- `spl_hash_ptr` -/
def spl_hash_ptr (P : Platform) (ptr : Nat) (bits : Nat) : Nat :=
  P.hash_long (ptr >>> P.PAGE_SHIFT) bits

/-- The chain walk of `spl_hash_obj`: `i` entries were visited, `depth` is
`skc_hash_depth`.  Result: the header found (`none` is `NULL`) and the depth. -/
def spl_hash_obj_walk (obj : Nat) :
    List spl_kmem_obj_t → Nat → Nat → Option spl_kmem_obj_t × Nat
  | [], _, depth => (none, depth)
  | sko :: l, i, depth =>
    let depth1 := if i + 1 > depth then i + 1 else depth
    if sko.sko_addr = obj then (some sko, depth1)
    else spl_hash_obj_walk obj l (i + 1) depth1

/-- `spl_hash_obj`: the header found (`none` is `NULL`) and the cache with
its `skc_hash_depth`.  The outer `none` is a chain index past the table. -/
def spl_hash_obj (P : Platform) (skc : spl_kmem_cache_t) (obj : Nat) :
    Option (Option spl_kmem_obj_t × spl_kmem_cache_t) :=
  let key := spl_hash_ptr P obj skc.skc_hash_bits
  match skc.skc_hash[key]? with
  | none => none
  | some chain =>
    match spl_hash_obj_walk obj chain 0 skc.skc_hash_depth with
    | (sko, depth) => some (sko, { skc with skc_hash_depth := depth })

/-- The kernel's `hlist_del_init` of the header that `spl_hash_obj` found for
`obj`: the first header of the chain with that body address. -/
def hlist_del (obj : Nat) : List spl_kmem_obj_t → List spl_kmem_obj_t
  | [] => []
  | sko :: l => if sko.sko_addr = obj then l else sko :: hlist_del obj l

/-! ## Moving objects between slabs and the hash -/

/-- `spl_cache_obj` on the slab at `ptr`: the body handed out and the state. -/
def spl_cache_obj (P : Platform) (skc : spl_kmem_cache_t) (ptr : Nat) (jiffies : Nat) :
    Option (Nat × spl_kmem_cache_t) :=
  match slab_deref skc ptr with
  | none => none
  | some sks =>
    match sks.sks_free_list with
    | [] => none
    | sko :: rest =>
      if sko.sko_addr = 0 then none
      else
        let key := spl_hash_ptr P sko.sko_addr skc.skc_hash_bits
        match skc.skc_hash[key]? with
        | none => none
        | some chain =>
          let sks1 := { sks with
            sks_free_list := rest
            sks_age := jiffies
            sks_ref := sks.sks_ref + 1 }
          let skc1 := { skc with
            skc_hash := skc.skc_hash.set key (sko :: chain)
            skc_obj_alloc := skc.skc_obj_alloc + 1
            skc_hash_count := skc.skc_hash_count + 1 }
          let skc2 :=
            if skc1.skc_obj_alloc > skc1.skc_obj_max then
              { skc1 with skc_obj_max := skc1.skc_obj_alloc }
            else skc1
          let skc3 :=
            if sks1.sks_ref = 1 then
              let skc4 := { skc2 with skc_slab_alloc := skc2.skc_slab_alloc + 1 }
              if skc4.skc_slab_alloc > skc4.skc_slab_max then
                { skc4 with skc_slab_max := skc4.skc_slab_alloc }
              else skc4
            else skc2
          some (sko.sko_addr, slab_write skc3 sks1)

/-- `spl_cache_grow`: the address of the new slab (`none` is `NULL`) and the
state. -/
def spl_cache_grow (P : Platform) (env : Env) (skc : spl_kmem_cache_t) (flags : km_flags)
    (jiffies : Nat) : Option Nat × spl_kmem_cache_t :=
  match spl_slab_alloc P skc jiffies (env.heap skc) with
  | (none, ev) => (none, { skc with skc_events := skc.skc_events ++ ev })
  | (some sks, ev) =>
    (some sks.sks_ptr,
      { skc with
        skc_slab_total := skc.skc_slab_total + 1
        skc_obj_total := skc.skc_obj_total + sks.sks_objs
        skc_partial_list := skc.skc_partial_list ++ [sks]
        skc_events := skc.skc_events ++ ev })

/-- The inner `while` of `spl_cache_refill` on the slab at `ptr` and the
magazine of CPU `id`: the new `refill`, `rc` and state.  Where the C loop
leaves `refill` at `-1` the result is `0`; both end the outer loop. -/
def spl_cache_refill_inner (P : Platform) (id ptr jiffies : Nat) :
    Nat → Nat → spl_kmem_cache_t → Option (Nat × Nat × spl_kmem_cache_t)
  | 0, rc, skc =>
    match slab_deref skc ptr with
    | none => none
    | some _ => some (0, rc, skc)
  | refill + 1, rc, skc =>
    match slab_deref skc ptr with
    | none => none
    | some sks =>
      if sks.sks_ref < sks.sks_objs then
        match skc.skc_mag[id]? with
        | none => none
        | some skm =>
          if ¬ (skm.skm_avail < skm.skm_size) then none
          else if ¬ (rc + 1 < skm.skm_size) then none
          else
            match spl_cache_obj P skc ptr jiffies with
            | none => none
            | some (obj, skc1) =>
              match array_set skm.skm_objs skm.skm_avail obj with
              | none => none
              | some objs =>
                spl_cache_refill_inner P id ptr jiffies refill (rc + 1)
                  { skc1 with
                    skc_mag := skc1.skc_mag.set id
                      { skm with skm_objs := objs, skm_avail := skm.skm_avail + 1 } }
      else some (refill + 1, rc, skc)

/-- The outer `while` of `spl_cache_refill`; `fuel` bounds the number of
iterations, `cpu` is the CPU the thread runs on.  Result: `rc`, the CPU and
the state. -/
def spl_cache_refill_loop (P : Platform) (env : Env) (id : Nat) (flags : km_flags)
    (jiffies : Nat) :
    Nat → Nat → Nat → Nat → spl_kmem_cache_t → Option (Nat × Nat × spl_kmem_cache_t)
  | 0, _, _, _, _ => none
  | fuel + 1, cpu, refill, rc, skc =>
    if refill > 0 then
      match skc.skc_partial_list with
      | [] =>
        match spl_cache_grow P env skc flags jiffies with
        | (none, skc1) => some (rc, env.cpu skc1, skc1)
        | (some _, skc1) =>
          if id ≠ env.cpu skc1 then some (rc, env.cpu skc1, skc1)
          else
            match skc1.skc_mag[id]? with
            | none => none
            | some skm =>
              spl_cache_refill_loop P env id flags jiffies fuel (env.cpu skc1)
                (min refill (skm.skm_size - skm.skm_avail)) rc skc1
      | sks :: _ =>
        if ¬ (sks.sks_ref < sks.sks_objs) then none
        else if sks.sks_free_list = [] then none
        else
          match spl_cache_refill_inner P id sks.sks_ptr jiffies refill rc skc with
          | none => none
          | some (refill1, rc1, skc1) =>
            match slab_deref skc1 sks.sks_ptr with
            | none => none
            | some sks1 =>
              spl_cache_refill_loop P env id flags jiffies fuel cpu refill1 rc1
                (if sks1.sks_ref = sks1.sks_objs then
                  { skc1 with
                    skc_partial_list := list_del sks.sks_ptr skc1.skc_partial_list
                    skc_complete_list := sks1 :: list_del sks.sks_ptr skc1.skc_complete_list }
                 else skc1)
    else some (rc, cpu, skc)

/-- `spl_cache_refill` of the magazine of CPU `id` by a thread on CPU `cpu`.
Every iteration of the outer loop either grows the cache or takes an object,
and a grow is followed by a take, so `2 * refill + 1` iterations are enough. -/
def spl_cache_refill (P : Platform) (env : Env) (skc : spl_kmem_cache_t) (id cpu : Nat)
    (flags : km_flags) (jiffies : Nat) : Option (Nat × Nat × spl_kmem_cache_t) :=
  match skc.skc_mag[id]? with
  | none => none
  | some skm =>
    let refill := min skm.skm_refill (skm.skm_size - skm.skm_avail)
    spl_cache_refill_loop P env id flags jiffies (2 * refill + 1) cpu refill 0 skc

/-- `spl_cache_shrink` -/
def spl_cache_shrink (P : Platform) (skc : spl_kmem_cache_t) (obj : Nat) (jiffies : Nat) :
    Option spl_kmem_cache_t :=
  match spl_hash_obj P skc obj with
  | none => none
  | some (none, _) => none
  | some (some sko, skc1) =>
    match slab_deref skc1 sko.sko_slab with
    | none => none
    | some sks =>
      let key := spl_hash_ptr P obj skc1.skc_hash_bits
      match skc1.skc_hash[key]? with
      | none => none
      | some chain =>
        let sks1 := { sks with
          sks_free_list := sko :: sks.sks_free_list
          sks_age := jiffies
          sks_ref := sks.sks_ref - 1 }
        let skc2 := slab_write
          { skc1 with
            skc_hash := skc1.skc_hash.set key (hlist_del obj chain)
            skc_obj_alloc := skc1.skc_obj_alloc - 1
            skc_hash_count := skc1.skc_hash_count - 1 } sks1
        let skc3 :=
          if sks1.sks_ref = sks1.sks_objs - 1 then
            { skc2 with
              skc_complete_list := list_del sks1.sks_ptr skc2.skc_complete_list
              skc_partial_list := sks1 :: list_del sks1.sks_ptr skc2.skc_partial_list }
          else skc2
        let skc4 :=
          if sks1.sks_ref = 0 then
            { skc3 with
              skc_complete_list := list_del sks1.sks_ptr skc3.skc_complete_list
              skc_partial_list := list_del sks1.sks_ptr skc3.skc_partial_list ++ [sks1]
              skc_slab_alloc := skc3.skc_slab_alloc - 1 }
          else skc3
        some skc4

/-- The `for` loop of `spl_cache_flush` on the magazine of CPU `id`: `n`
iterations left, at index `i`. -/
def spl_cache_flush_loop (P : Platform) (id jiffies : Nat) :
    Nat → Nat → spl_kmem_cache_t → Option spl_kmem_cache_t
  | 0, _, skc => some skc
  | n + 1, i, skc =>
    match skc.skc_mag[id]? with
    | none => none
    | some skm =>
      match skm.skm_objs[i]? with
      | none => none
      | some obj =>
        match spl_cache_shrink P skc obj jiffies with
        | none => none
        | some skc1 => spl_cache_flush_loop P id jiffies n (i + 1) skc1

/-- The kernel's `memmove(objs, &objs[count], n * sizeof(void *))` -/
def memmove_down (objs : List Nat) (count n : Nat) : List Nat :=
  (objs.drop count).take n ++ objs.drop n

/-- `spl_cache_flush` of the magazine of CPU `id`: `count` and the state. -/
def spl_cache_flush (P : Platform) (skc : spl_kmem_cache_t) (id : Nat) (flush : Nat)
    (jiffies : Nat) : Option (Nat × spl_kmem_cache_t) :=
  match skc.skc_mag[id]? with
  | none => none
  | some skm =>
    let count := min flush skm.skm_avail
    match spl_cache_flush_loop P id jiffies count 0 skc with
    | none => none
    | some skc1 =>
      match skc1.skc_mag[id]? with
      | none => none
      | some skm1 =>
        let avail := skm1.skm_avail - count
        some (count,
          { skc1 with
            skc_mag := skc1.skc_mag.set id
              { skm1 with
                skm_avail := avail
                skm_objs := memmove_down skm1.skm_objs count avail } })

/-! ## The consumer interface -/

/-- The `restart` loop of `spl_kmem_cache_alloc`; `fuel` bounds the number of
passes.  Result: the object, the CPU the thread ends on, and the state. -/
def spl_kmem_cache_alloc_loop (P : Platform) (env : Env) (flags : km_flags) (jiffies : Nat) :
    Nat → Nat → spl_kmem_cache_t → Option (Nat × Nat × spl_kmem_cache_t)
  | 0, _, _ => none
  | fuel + 1, cpu, skc =>
    if ¬ (cpu < 4) then none
    else
      match skc.skc_mag[cpu]? with
      | none => none
      | some skm =>
        if skm.skm_avail ≠ 0 then
          match skm.skm_objs[skm.skm_avail - 1]? with
          | none => none
          | some obj =>
            if obj = 0 then none
            else some (obj, cpu,
              { skc with
                skc_mag := skc.skc_mag.set cpu
                  { skm with skm_avail := skm.skm_avail - 1, skm_age := jiffies } })
        else
          match spl_cache_refill P env skc cpu cpu flags jiffies with
          | none => none
          | some (_, cpu1, skc1) => spl_kmem_cache_alloc_loop P env flags jiffies fuel cpu1 skc1

/-- `spl_kmem_cache_alloc` by a thread on CPU `cpu`. -/
def spl_kmem_cache_alloc (P : Platform) (env : Env) (skc : spl_kmem_cache_t) (cpu : Nat)
    (flags : km_flags) (jiffies : Nat) (fuel : Nat) :
    Option (Nat × Nat × spl_kmem_cache_t) :=
  if flags ≠ km_flags.KM_SLEEP then none
  else spl_kmem_cache_alloc_loop P env flags jiffies fuel cpu skc

/-- `spl_kmem_cache_free` by a thread on CPU `cpu`. -/
def spl_kmem_cache_free (P : Platform) (skc : spl_kmem_cache_t) (cpu : Nat) (obj : Nat)
    (jiffies : Nat) : Option spl_kmem_cache_t :=
  match skc.skc_mag[cpu]? with
  | none => none
  | some skm =>
    match (if skm.skm_avail ≥ skm.skm_size then
        (spl_cache_flush P skc cpu skm.skm_refill jiffies).map Prod.snd
      else some skc) with
    | none => none
    | some skc1 =>
      match skc1.skc_mag[cpu]? with
      | none => none
      | some skm1 =>
        match array_set skm1.skm_objs skm1.skm_avail obj with
        | none => none
        | some objs =>
          some
            { skc1 with
              skc_mag := skc1.skc_mag.set cpu
                { skm1 with skm_objs := objs, skm_avail := skm1.skm_avail + 1 } }

/-- The `for_each_online_cpu` loop of `spl_kmem_cache_reap_now`: `n` CPUs
left, at CPU `i`. -/
def spl_kmem_cache_reap_now_loop (P : Platform) (jiffies : Nat) :
    Nat → Nat → spl_kmem_cache_t → Option spl_kmem_cache_t
  | 0, _, skc => some skc
  | n + 1, i, skc =>
    match skc.skc_mag[i]? with
    | none => none
    | some skm =>
      if time_after P jiffies (skm.skm_age + skc.skc_delay * P.HZ) then
        match spl_cache_flush P skc i skm.skm_refill jiffies with
        | none => none
        | some (_, skc1) => spl_kmem_cache_reap_now_loop P jiffies n (i + 1) skc1
      else spl_kmem_cache_reap_now_loop P jiffies n (i + 1) skc

/-- `spl_kmem_cache_reap_now`.  The user's reclaim callback is recorded as a
call; what it frees reaches the cache through `spl_kmem_cache_free`. -/
def spl_kmem_cache_reap_now (P : Platform) (skc : spl_kmem_cache_t) (jiffies : Nat) :
    Option spl_kmem_cache_t :=
  let skc0 :=
    if skc.skc_reclaim then { skc with skc_events := skc.skc_events ++ [Event.reclaim] } else skc
  match spl_kmem_cache_reap_now_loop P jiffies P.NCPUS 0 skc0 with
  | none => none
  | some skc1 => (spl_slab_reclaim P skc1 jiffies).map Prod.snd

/-! ## Specification vocabulary -/

/-- What is assumed of the constants and primitives taken from the headers:
a slab has at least one cell and `hash_long` stays inside the hash table. -/
structure Platform.ok (P : Platform) : Prop where
  objs_pos : 0 < P.SPL_KMEM_CACHE_OBJ_PER_SLAB
  hash_bound : ∀ v, P.hash_long v P.SPL_KMEM_CACHE_HASH_BITS < P.SPL_KMEM_CACHE_HASH_ELTS

/-- All slabs of a cache: those on the partial list, then the complete ones. -/
def slabs (c : spl_kmem_cache_t) : List spl_kmem_slab_t :=
  c.skc_partial_list ++ c.skc_complete_list

/-- The object headers linked in the in-use hash. -/
def in_use (c : spl_kmem_cache_t) : List spl_kmem_obj_t :=
  c.skc_hash.flatten

/-- The object headers linked on the free list of some slab. -/
def free_objs (c : spl_kmem_cache_t) : List spl_kmem_obj_t :=
  (slabs c).flatMap (fun s => s.sks_free_list)

/-- Every object header of the cache. -/
def all_objs (c : spl_kmem_cache_t) : List spl_kmem_obj_t :=
  free_objs c ++ in_use c

/-- The entries `skm_objs[0 .. skm_avail)` of a magazine. -/
def mag_live (m : spl_kmem_magazine_t) : List Nat :=
  m.skm_objs.take m.skm_avail

/-- The entries of all magazines of a cache. -/
def mags_live (c : spl_kmem_cache_t) : List Nat :=
  c.skc_mag.flatMap mag_live

/-- The object headers of the slab at `ptr`: those on its free list and those
in the in-use hash. -/
def slab_headers (c : spl_kmem_cache_t) (s : spl_kmem_slab_t) : List spl_kmem_obj_t :=
  s.sks_free_list ++ (in_use c).filter (fun o => decide (o.sko_slab = s.sks_ptr))

/-- The slab which the allocator hands to the cache does not overlap what the
cache already holds: its address is not the address of a linked slab, its
object bodies are distinct and none is the body of an object of the cache. -/
def FreshSlab (c : spl_kmem_cache_t) (sks : spl_kmem_slab_t) : Prop :=
  sks.sks_ptr ∉ (slabs c).map (fun s => s.sks_ptr) ∧
  (sks.sks_free_list.map (fun o => o.sko_addr)).Nodup ∧
  ∀ o ∈ sks.sks_free_list, o.sko_addr ∉ (all_objs c).map (fun o => o.sko_addr)

/-- The assumption on the byte allocators: in whatever state the cache asks,
the memory handed out is fresh. -/
def EnvFresh (P : Platform) (env : Env) : Prop :=
  ∀ c jiffies sks ev, spl_slab_alloc P c jiffies (env.heap c) = (some sks, ev) → FreshSlab c sks

/-- Consistency of the slab lists, the free lists, the in-use hash and the
statistics, without the condition that partial slabs have a free cell (which
is suspended inside `spl_cache_refill`). -/
structure Core (P : Platform) (c : spl_kmem_cache_t) : Prop where
  ptrs : ((slabs c).map (fun s => s.sks_ptr)).Nodup
  comp : ∀ s ∈ c.skc_complete_list, s.sks_ref = s.sks_objs
  sorted : c.skc_partial_list.Pairwise (fun a b => a.sks_ref = 0 → b.sks_ref = 0)
  free_len : ∀ s ∈ slabs c, s.sks_free_list.length + s.sks_ref = s.sks_objs
  objs_eq : ∀ s ∈ slabs c, s.sks_objs = P.SPL_KMEM_CACHE_OBJ_PER_SLAB
  free_owner : ∀ s ∈ slabs c, ∀ o ∈ s.sks_free_list, o.sko_slab = s.sks_ptr
  ref_hash : ∀ s ∈ slabs c,
    (in_use c).countP (fun o => decide (o.sko_slab = s.sks_ptr)) = s.sks_ref
  hash_owner : ∀ o ∈ in_use c, o.sko_slab ∈ (slabs c).map (fun s => s.sks_ptr)
  bodies : ((all_objs c).map (fun o => o.sko_addr)).Nodup
  nonnull : ∀ o ∈ all_objs c, o.sko_addr ≠ 0
  chain_key : ∀ k chain, c.skc_hash[k]? = some chain →
    ∀ o ∈ chain, spl_hash_ptr P o.sko_addr c.skc_hash_bits = k
  key_bound : ∀ a, spl_hash_ptr P a c.skc_hash_bits < c.skc_hash.length
  count_hash : c.skc_hash_count = (in_use c).length
  count_alloc : c.skc_obj_alloc = c.skc_hash_count
  count_ref : ((slabs c).map (fun s => s.sks_ref)).sum = c.skc_hash_count
  total : c.skc_slab_total = c.skc_partial_list.length + c.skc_complete_list.length

/-- Consistency of the magazines with the in-use hash; `held` are the bodies
in the hands of callers. -/
structure MagOK (P : Platform) (c : spl_kmem_cache_t) (held : List Nat) : Prop where
  ncpus : c.skc_mag.length = P.NCPUS
  size_eq : c.skc_mag_size = spl_magazine_size P c
  refill_eq : c.skc_mag_refill = (c.skc_mag_size + 1) / 2
  shape : ∀ m ∈ c.skc_mag, m.skm_size = c.skc_mag_size ∧ m.skm_refill = c.skc_mag_refill ∧
    m.skm_objs.length = m.skm_size ∧ m.skm_avail ≤ m.skm_size
  nodup : (mags_live c ++ held).Nodup
  in_hash : ∀ p ∈ mags_live c ++ held, p ∈ (in_use c).map (fun o => o.sko_addr)

/-- The invariant of a cache between two operations. -/
structure Inv (P : Platform) (c : spl_kmem_cache_t) (held : List Nat) : Prop where
  core : Core P c
  part : ∀ s ∈ c.skc_partial_list, s.sks_ref < s.sks_objs
  mags : MagOK P c held

/-- The states of a cache, together with the bodies in the hands of its
callers, that are reached from `spl_kmem_cache_create` by the operations of
the file.  Callers free only what they were given and have not yet freed. -/
inductive Reachable (P : Platform) : spl_kmem_cache_t → List Nat → Prop where
  | create {name_len size : Nat} {ctor dtor reclaim : Bool} {jiffies : Nat} {heap : Heap}
      {registry registry1 : List Nat} {ev : List Event} {c : spl_kmem_cache_t} :
      spl_kmem_cache_create P name_len size ctor dtor reclaim jiffies heap registry
        = some (some c, registry1, ev) →
      Reachable P c []
  | grow {c c1 : spl_kmem_cache_t} {held : List Nat} {env : Env} {flags : km_flags}
      {jiffies : Nat} {r : Option Nat} :
      Reachable P c held → EnvFresh P env →
      spl_cache_grow P env c flags jiffies = (r, c1) →
      Reachable P c1 held
  | refill {c c1 : spl_kmem_cache_t} {held : List Nat} {env : Env} {flags : km_flags}
      {id cpu jiffies rc cpu1 : Nat} :
      Reachable P c held → EnvFresh P env →
      spl_cache_refill P env c id cpu flags jiffies = some (rc, cpu1, c1) →
      Reachable P c1 held
  | flush {c c1 : spl_kmem_cache_t} {held : List Nat} {id flush jiffies count : Nat} :
      Reachable P c held →
      spl_cache_flush P c id flush jiffies = some (count, c1) →
      Reachable P c1 held
  | alloc {c c1 : spl_kmem_cache_t} {held : List Nat} {env : Env} {flags : km_flags}
      {cpu jiffies fuel obj cpu1 : Nat} :
      Reachable P c held → EnvFresh P env →
      spl_kmem_cache_alloc P env c cpu flags jiffies fuel = some (obj, cpu1, c1) →
      Reachable P c1 (obj :: held)
  | free {c c1 : spl_kmem_cache_t} {held : List Nat} {cpu obj jiffies : Nat} :
      Reachable P c held → obj ∈ held →
      spl_kmem_cache_free P c cpu obj jiffies = some c1 →
      Reachable P c1 (held.erase obj)
  | reclaim {c c1 : spl_kmem_cache_t} {held : List Nat} {jiffies rc : Nat} :
      Reachable P c held →
      __spl_slab_reclaim P c jiffies = some (rc, c1) →
      Reachable P c1 held
  | reap_now {c c1 : spl_kmem_cache_t} {held : List Nat} {jiffies : Nat} :
      Reachable P c held →
      spl_kmem_cache_reap_now P c jiffies = some c1 →
      Reachable P c1 held

/-! ## Vocabulary of the proofs and a worked scenario -/

/-- The slab after `spl_cache_shrink` has linked `sko` back on its free list. -/
def slab_released (sks : spl_kmem_slab_t) (sko : spl_kmem_obj_t) (j : Nat) : spl_kmem_slab_t :=
  { sks with
    sks_free_list := sko :: sks.sks_free_list
    sks_age := j
    sks_ref := sks.sks_ref - 1 }

/-- The fields of a cache that are set when it is created. -/
def SameCfg (c c1 : spl_kmem_cache_t) : Prop :=
  c1.skc_obj_size = c.skc_obj_size ∧ c1.skc_mag_size = c.skc_mag_size ∧
  c1.skc_mag_refill = c.skc_mag_refill ∧ c1.skc_hash_bits = c.skc_hash_bits ∧
  c1.skc_delay = c.skc_delay ∧ c1.skc_ctor = c.skc_ctor ∧ c1.skc_dtor = c.skc_dtor ∧
  c1.skc_reclaim = c.skc_reclaim

/-- `spl_cache_shrink` applied to the bodies of a list, first to last. -/
def shrink_all (P : Platform) (j : Nat) : List Nat → spl_kmem_cache_t → Option spl_kmem_cache_t
  | [], c => some c
  | x :: xs, c =>
    match spl_cache_shrink P c x j with
    | none => none
    | some c1 => shrink_all P j xs c1

/-- The magazine after `spl_cache_flush` has dropped its first `count` entries. -/
def mag_flushed (m : spl_kmem_magazine_t) (count : Nat) : spl_kmem_magazine_t :=
  { m with
    skm_avail := m.skm_avail - count
    skm_objs := memmove_down m.skm_objs count (m.skm_avail - count) }

/-- The magazine after `obj` was stored on top of it. -/
def mag_pushed (m : spl_kmem_magazine_t) (obj : Nat) : spl_kmem_magazine_t :=
  { m with
    skm_objs := m.skm_objs.set m.skm_avail obj
    skm_avail := m.skm_avail + 1 }

/-- The magazine after its top entry was taken at tick `j`. -/
def mag_popped (m : spl_kmem_magazine_t) (j : Nat) : spl_kmem_magazine_t :=
  { m with
    skm_avail := m.skm_avail - 1
    skm_age := j }

/-- The cache with the magazine of CPU `id` replaced. -/
def set_mag (c : spl_kmem_cache_t) (id : Nat) (m : spl_kmem_magazine_t) : spl_kmem_cache_t :=
  { c with skc_mag := c.skc_mag.set id m }

/-- Every slab construction succeeds. -/
def EnvSucceeds (P : Platform) (env : Env) : Prop :=
  ∀ c jiffies, (spl_slab_alloc P c jiffies (env.heap c)).1 ≠ none

/-- The thread stays on CPU `id` when it sleeps. -/
def EnvStays (env : Env) (id : Nat) : Prop :=
  ∀ c, env.cpu c = id

/-- A platform with 4 KiB pages, two cells per slab, two CPUs and a hash of
four chains. -/
def demoP : Platform :=
  { PAGE_SIZE := 4096
    PAGE_SHIFT := 12
    HZ := 100
    BITS_PER_LONG := 64
    SPL_KMEM_CACHE_OBJ_PER_SLAB := 2
    SPL_KMEM_CACHE_DELAY := 5
    SPL_KMEM_CACHE_HASH_BITS := 2
    SPL_KMEM_CACHE_HASH_ELTS := 4
    SPL_KMEM_CACHE_HASH_SIZE := 32
    SIZEOF_SLAB := 56
    SIZEOF_OBJ := 56
    SIZEOF_CACHE := 256
    SIZEOF_MAGAZINE := 32
    SIZEOF_PTR := 8
    NCPUS := 2
    hash_long := fun v bits => v % 2 ^ bits }

/-- A bound above every slab address and body address of a cache. -/
def demo_top (c : spl_kmem_cache_t) : Nat :=
  ((slabs c).map (fun s => s.sks_ptr)).sum + ((all_objs c).map (fun o => o.sko_addr)).sum

/-- An allocator that always succeeds with memory above everything the cache
holds, and a scheduler that keeps the thread on CPU 0. -/
def demoEnv : Env :=
  { heap := fun c =>
      [demo_top c + 4096, demo_top c + 4160, demo_top c + 4224, demo_top c + 4288,
       demo_top c + 4352]
    cpu := fun _ => 0 }

/-- A cache of objects of 256 pages and one byte: large slabs, magazines of 4. -/
def demo_c0 : spl_kmem_cache_t :=
  match spl_kmem_cache_create demoP 8 1048577 true true false 1000 [8, 16, 24, 32, 40] [] with
  | some (some c, _, _) => c
  | _ => default

/-- First allocation on CPU 0: the body, the CPU and the state. -/
def demo_a1 : Nat × Nat × spl_kmem_cache_t :=
  (spl_kmem_cache_alloc demoP demoEnv demo_c0 0 km_flags.KM_SLEEP 1001 2).getD (0, 0, demo_c0)

/-- Second allocation on CPU 0. -/
def demo_a2 : Nat × Nat × spl_kmem_cache_t :=
  (spl_kmem_cache_alloc demoP demoEnv demo_a1.2.2 0 km_flags.KM_SLEEP 1002 2).getD
    (0, 0, demo_c0)

/-- Third allocation on CPU 0; it grows a second slab. -/
def demo_a3 : Nat × Nat × spl_kmem_cache_t :=
  (spl_kmem_cache_alloc demoP demoEnv demo_a2.2.2 0 km_flags.KM_SLEEP 1003 2).getD
    (0, 0, demo_c0)

/-- Fourth allocation on CPU 0. -/
def demo_a4 : Nat × Nat × spl_kmem_cache_t :=
  (spl_kmem_cache_alloc demoP demoEnv demo_a3.2.2 0 km_flags.KM_SLEEP 1004 2).getD
    (0, 0, demo_c0)

/-- The state after the first body was freed on CPU 0. -/
def demo_f1 : spl_kmem_cache_t :=
  (spl_kmem_cache_free demoP demo_a4.2.2 0 demo_a1.1 2001).getD demo_c0

/-- The state after the second body was freed on CPU 0. -/
def demo_f2 : spl_kmem_cache_t :=
  (spl_kmem_cache_free demoP demo_f1 0 demo_a2.1 2002).getD demo_c0

/-- The state after the third body was freed on CPU 0. -/
def demo_f3 : spl_kmem_cache_t :=
  (spl_kmem_cache_free demoP demo_f2 0 demo_a3.1 2003).getD demo_c0

/-- The state after the fourth body was freed on CPU 0: its magazine is full. -/
def demo_f4 : spl_kmem_cache_t :=
  (spl_kmem_cache_free demoP demo_f3 0 demo_a4.1 2004).getD demo_c0

/-- The state after three entries of the full magazine of CPU 0 were flushed. -/
def demo_flushed : spl_kmem_cache_t :=
  ((spl_cache_flush demoP demo_f4 0 3 3001).getD (0, demo_c0)).2

/-- Where the slabs of a cache are linked: full slabs on the complete list,
the others on the partial list, and on the partial list no slab with objects
in use after a slab without. -/
def Placement (c : spl_kmem_cache_t) : Prop :=
  (∀ s ∈ slabs c, (s.sks_ref = s.sks_objs → s ∈ c.skc_complete_list) ∧
    (s.sks_ref < s.sks_objs → s ∈ c.skc_partial_list)) ∧
  (∀ s ∈ c.skc_complete_list, s.sks_ref = s.sks_objs) ∧
  (∀ s ∈ c.skc_partial_list, s.sks_ref < s.sks_objs) ∧
  (∀ A B s, c.skc_partial_list = A ++ s :: B → s.sks_ref = 0 → ∀ b ∈ B, b.sks_ref = 0)

/-- The magazine capacity as the specification words it, for an object of
`s` bytes and pages of `page` bytes. -/
def magazine_capacity (page s : Nat) : Nat :=
  if s > 256 * page then 4
  else if s > 32 * page then 16
  else if s > page then 64
  else if s > page / 4 then 128
  else 512

/-- The magazine of CPU 0 of a cache (an all-zero magazine when the cache has
none). -/
def demo_mag0 (c : spl_kmem_cache_t) : spl_kmem_magazine_t :=
  c.skc_mag.headD ⟨0, 0, 0, 0, 0, []⟩

/-! ## Cache teardown -/

/-- The `for_each_online_cpu` loop of `spl_magazine_destroy`: `n` CPUs left,
at CPU `i`.  Each magazine is flushed whole and handed to
`spl_magazine_free`. -/
def spl_magazine_destroy_loop (P : Platform) (jiffies : Nat) :
    Nat → Nat → spl_kmem_cache_t → Option spl_kmem_cache_t
  | 0, _, skc => some skc
  | n + 1, i, skc =>
    match skc.skc_mag[i]? with
    | none => none
    | some skm =>
      match spl_cache_flush P skc i skm.skm_avail jiffies with
      | none => none
      | some (_, skc1) =>
        match skc1.skc_mag[i]? with
        | none => none
        | some skm1 =>
          match spl_magazine_free skm1 with
          | none => none
          | some e =>
            spl_magazine_destroy_loop P jiffies n (i + 1)
              { skc1 with skc_events := skc1.skc_events ++ [e] }

/-- `spl_magazine_destroy` -/
def spl_magazine_destroy (P : Platform) (skc : spl_kmem_cache_t) (jiffies : Nat) :
    Option spl_kmem_cache_t :=
  spl_magazine_destroy_loop P jiffies P.NCPUS 0 skc

/-- The `list_for_each_entry_safe` loop of `spl_kmem_cache_destroy` over the
slabs of the partial list still to visit. -/
def spl_kmem_cache_destroy_loop (P : Platform) :
    List spl_kmem_slab_t → spl_kmem_cache_t → Option spl_kmem_cache_t
  | [], skc => some skc
  | sks :: rest, skc =>
    match spl_slab_free P skc sks.sks_ptr with
    | none => none
    | some skc1 => spl_kmem_cache_destroy_loop P rest skc1

/-- `spl_kmem_cache_destroy`: the state of the cache when its struct is
released, and the registry.  `none` is a failed assertion. -/
def spl_kmem_cache_destroy (P : Platform) (skc : spl_kmem_cache_t) (jiffies : Nat)
    (registry : List Nat) : Option (spl_kmem_cache_t × List Nat) :=
  match spl_magazine_destroy P skc jiffies with
  | none => none
  | some skc1 =>
    if skc1.skc_complete_list ≠ [] then none
    else if skc1.skc_hash_count ≠ 0 then none
    else
      match spl_kmem_cache_destroy_loop P skc1.skc_partial_list skc1 with
      | none => none
      | some skc2 =>
        some ({ skc2 with
                skc_events := skc2.skc_events ++
                  [Event.vmem_free skc2.skc_hash_ptr skc2.skc_hash_size,
                   Event.kmem_free skc2.skc_name skc2.skc_name_size,
                   Event.kmem_free skc2.skc_ptr P.SIZEOF_CACHE] },
              registry.erase skc.skc_ptr)

/-! ## Vocabulary for the callbacks and the reaper -/

/-- The bodies passed to the constructor, in call order. -/
def ctor_addrs (ev : List Event) : List Nat :=
  ev.filterMap (fun e => match e with
    | Event.ctor a => some a
    | _ => none)

/-- The bodies passed to the destructor, in call order. -/
def dtor_addrs (ev : List Event) : List Nat :=
  ev.filterMap (fun e => match e with
    | Event.dtor a => some a
    | _ => none)

/-- Number of constructor calls. -/
def ctor_calls (ev : List Event) : Nat := (ctor_addrs ev).length

/-- Number of destructor calls. -/
def dtor_calls (ev : List Event) : Nat := (dtor_addrs ev).length

/-- The test of `__spl_slab_reclaim` on a slab: it has no object in use and
was last touched more than `skc_delay * HZ` ticks before `jiffies`. -/
def reapable (P : Platform) (c : spl_kmem_cache_t) (jiffies : Nat) (s : spl_kmem_slab_t) :
    Bool :=
  decide (s.sks_ref = 0) && time_after P jiffies (s.sks_age + c.skc_delay * P.HZ)

/-- The bodies parked in the magazines: the sum of `skm_avail`. -/
def parked (c : spl_kmem_cache_t) : Nat :=
  (c.skc_mag.map (fun m => m.skm_avail)).sum

/-- What an operation that grows `g` slabs and tears down `f` slabs does to
the record of callback calls and to the statistics of cells and slabs. -/
def LedgerStep (P : Platform) (c c1 : spl_kmem_cache_t) (g f : Nat) : Prop :=
  c1.skc_ctor = c.skc_ctor ∧ c1.skc_dtor = c.skc_dtor ∧
  ctor_calls c1.skc_events = ctor_calls c.skc_events +
    (if c.skc_ctor then P.SPL_KMEM_CACHE_OBJ_PER_SLAB * g else 0) ∧
  dtor_calls c1.skc_events = dtor_calls c.skc_events +
    (if c.skc_dtor then P.SPL_KMEM_CACHE_OBJ_PER_SLAB * f else 0) ∧
  c1.skc_obj_total + P.SPL_KMEM_CACHE_OBJ_PER_SLAB * f
    = c.skc_obj_total + P.SPL_KMEM_CACHE_OBJ_PER_SLAB * g ∧
  c1.skc_slab_total + f = c.skc_slab_total + g

/-- The callback calls recorded for a cache agree with its statistics. -/
structure Ledger (P : Platform) (c : spl_kmem_cache_t) : Prop where
  cells : c.skc_obj_total = P.SPL_KMEM_CACHE_OBJ_PER_SLAB * c.skc_slab_total
  both : c.skc_ctor = true → c.skc_dtor = true →
    ctor_calls c.skc_events = dtor_calls c.skc_events + c.skc_obj_total
  no_ctor : c.skc_ctor = false → ctor_calls c.skc_events = 0
  no_dtor : c.skc_dtor = false → dtor_calls c.skc_events = 0

/-- Moving bodies between the hash and the magazines keeps the number of
hashed objects that are not parked in a magazine. -/
def ParkStep (c c1 : spl_kmem_cache_t) : Prop :=
  c1.skc_hash_count + parked c = c.skc_hash_count + parked c1

/-- The cache when `spl_kmem_cache_reap_now` has called the user's reclaim
callback. -/
def reap_called (c : spl_kmem_cache_t) : spl_kmem_cache_t :=
  if c.skc_reclaim then { c with skc_events := c.skc_events ++ [Event.reclaim] } else c

/-- Every slab of `c1` is a slab of `c` or was last touched at tick `j`. -/
def Touched (j : Nat) (c c1 : spl_kmem_cache_t) : Prop :=
  ∀ s ∈ slabs c1, s ∈ slabs c ∨ s.sks_age = j

/-- The scan as the specification words it: when `s` is the first slab from
the tail of the partial list that fails the test (the slabs `B` behind it all
pass), no slab `A` closer to the head is torn down. -/
def ScanStopsAtFirstFailure (P : Platform) (c : spl_kmem_cache_t) (jiffies : Nat) : Prop :=
  ∀ A s B rc c1, c.skc_partial_list = A ++ s :: B → reapable P c jiffies s = false →
    (∀ b ∈ B, reapable P c jiffies b = true) →
    __spl_slab_reclaim P c jiffies = some (rc, c1) → ∀ a ∈ A, a ∈ c1.skc_partial_list

/-- The state after the last entry of the magazine of CPU 0 was flushed at
tick 3400: both slabs are empty, the one at 4096 since tick 3001, the one at
1065297 since tick 3400. -/
def demo_drained : spl_kmem_cache_t :=
  ((spl_cache_flush demoP demo_flushed 0 1 3400).getD (0, demo_c0)).2

/-- The result of `__spl_slab_reclaim` at tick 3600, when with a delay of 500
ticks only the slab at 4096 is old enough. -/
def demo_reaped : Nat × spl_kmem_cache_t :=
  (__spl_slab_reclaim demoP demo_drained 3600).getD (0, demo_c0)

/-- The slab at 4096 in `demo_drained`, at the head of the partial list. -/
def demo_slab_old : spl_kmem_slab_t :=
  { sks_ptr := 4096
    sks_objs := 2
    sks_age := 3001
    sks_free_list := [⟨4152, 4264, 4096⟩, ⟨4208, 1052841, 4096⟩]
    sks_ref := 0 }

/-- The slab at 1065297 in `demo_drained`, at the tail of the partial list. -/
def demo_slab_young : spl_kmem_slab_t :=
  { sks_ptr := 1065297
    sks_objs := 2
    sks_age := 3400
    sks_free_list := [⟨1065353, 1065465, 1065297⟩, ⟨1065409, 2114042, 1065297⟩]
    sks_ref := 0 }

/-- A platform with 4 KiB pages, 32 cells per slab, two CPUs and a hash of 64
chains. -/
def smallP : Platform :=
  { PAGE_SIZE := 4096
    PAGE_SHIFT := 12
    HZ := 100
    BITS_PER_LONG := 64
    SPL_KMEM_CACHE_OBJ_PER_SLAB := 32
    SPL_KMEM_CACHE_DELAY := 5
    SPL_KMEM_CACHE_HASH_BITS := 6
    SPL_KMEM_CACHE_HASH_ELTS := 64
    SPL_KMEM_CACHE_HASH_SIZE := 512
    SIZEOF_SLAB := 56
    SIZEOF_OBJ := 56
    SIZEOF_CACHE := 256
    SIZEOF_MAGAZINE := 32
    SIZEOF_PTR := 8
    NCPUS := 2
    hash_long := fun v bits => v % 2 ^ bits }

/-- An allocator that always succeeds: the slab built when the cache has `n`
slabs gets its struct, headers and bodies at `(n + 1) * 2^20 + 4096 * k`; the
thread stays on CPU 0. -/
def smallEnv : Env :=
  { heap := fun c =>
      (List.range 65).map (fun k => 1048576 * (c.skc_slab_total + 1) + 4096 * k)
    cpu := fun _ => 0 }

/-- A run of `n` calls of `spl_kmem_cache_alloc` on CPU `cpu`, at ticks
`jiffies`, `jiffies + 1`, ...: the bodies handed out, first to last, and the
state. -/
def alloc_seq (P : Platform) (env : Env) (cpu : Nat) :
    Nat → Nat → spl_kmem_cache_t → Option (List Nat × spl_kmem_cache_t)
  | 0, _, c => some ([], c)
  | n + 1, jiffies, c =>
    match spl_kmem_cache_alloc P env c cpu km_flags.KM_SLEEP jiffies 2 with
    | none => none
    | some (obj, _, c1) =>
      match alloc_seq P env cpu n (jiffies + 1) c1 with
      | none => none
      | some (objs, c2) => some (obj :: objs, c2)

/-- A run of calls of `spl_kmem_cache_free` on CPU `cpu` for the bodies of a
list, first to last: for each call the number of objects that left the in-use
hash during it (the size of its flush, 0 without one), and the state. -/
def free_seq (P : Platform) (cpu : Nat) :
    List Nat → Nat → spl_kmem_cache_t → Option (List Nat × spl_kmem_cache_t)
  | [], _, c => some ([], c)
  | obj :: objs, jiffies, c =>
    match spl_kmem_cache_free P c cpu obj jiffies with
    | none => none
    | some c1 =>
      match free_seq P cpu objs (jiffies + 1) c1 with
      | none => none
      | some (ns, c2) => some ((c.skc_hash_count - c1.skc_hash_count) :: ns, c2)

/-- A fresh cache of 64-byte objects without constructor and destructor:
small slabs of 32 cells, magazines of 512 with a refill of 256. -/
def small_c0 : spl_kmem_cache_t :=
  match spl_kmem_cache_create smallP 8 64 false false false 1000 [8, 16, 24, 32, 40] [] with
  | some (some c, _, _) => c
  | _ => default

/-- The cache `small_c0` after 33 allocations on CPU 0. -/
def small_run : Option (List Nat × spl_kmem_cache_t) :=
  alloc_seq smallP smallEnv 0 33 1001 small_c0

/-- A fresh cache of 2048-byte objects: magazines of 128 with a refill of 64. -/
def mid_c0 : spl_kmem_cache_t :=
  match spl_kmem_cache_create smallP 8 2048 false false false 1000 [8, 16, 24, 32, 40] [] with
  | some (some c, _, _) => c
  | _ => default

/-- The cache `mid_c0` after 200 allocations on CPU 0. -/
def mid_allocated : Option (List Nat × spl_kmem_cache_t) :=
  alloc_seq smallP smallEnv 0 200 1001 mid_c0

/-- The 200 bodies of `mid_allocated` freed on CPU 0, last one first. -/
def mid_run : Option (List Nat × spl_kmem_cache_t) :=
  match mid_allocated with
  | none => none
  | some (objs, c) => free_seq smallP 0 objs.reverse 2001 c

/-- An allocator that has no memory left, and a scheduler that keeps the
thread on CPU 0. -/
def failEnv : Env :=
  { heap := fun _ => []
    cpu := fun _ => 0 }

/-- The large slab built at address 4096 for the cache `demo_c0` at tick 1001. -/
def demo_vmem_slab : spl_kmem_slab_t :=
  { sks_ptr := 4096
    sks_objs := 2
    sks_age := 1001
    sks_free_list := [⟨4152, 4264, 4096⟩, ⟨4208, 1052841, 4096⟩]
    sks_ref := 0 }

/-- The magazine after a body was pushed on it and popped again at tick `j`:
the slot above the top of the stack holds the body, the tick is `j`. -/
def mag_touched (m : spl_kmem_magazine_t) (obj j : Nat) : spl_kmem_magazine_t :=
  { m with
    skm_objs := m.skm_objs.set m.skm_avail obj
    skm_age := j }

/-- The state after `spl_kmem_cache_reap_now` ran on `demo_drained` at tick
3501, when the older slab was last touched exactly 500 ticks before. -/
def demo_reap1 : spl_kmem_cache_t :=
  (spl_kmem_cache_reap_now demoP demo_drained 3501).getD demo_c0

/-- The state after a second `spl_kmem_cache_reap_now`, one tick later. -/
def demo_reap2 : spl_kmem_cache_t :=
  (spl_kmem_cache_reap_now demoP demo_reap1 3502).getD demo_c0

/-! ## Vocabulary for the memory taken and given back -/

/-- A piece of memory obtained from one of the allocators: from `kmem_alloc`
or `vmem_alloc` (address and size), from `kmalloc_node` (a magazine), from
the cache of object headers or from the cache of slab structs. -/
inductive Res where
  | kmem (ptr : Nat) (size : Nat)
  | vmem (ptr : Nat) (size : Nat)
  | node (ptr : Nat)
  | obj (ptr : Nat)
  | slab (ptr : Nat)
  deriving DecidableEq, Repr

/-- The memory obtained by the calls of a record: the allocations that did
not answer `NULL`, in call order. -/
def acquired (ev : List Event) : List Res :=
  ev.filterMap (fun e => match e with
    | Event.kmem_alloc size ret => if ret = 0 then none else some (Res.kmem ret size)
    | Event.vmem_alloc size ret => if ret = 0 then none else some (Res.vmem ret size)
    | Event.kmalloc_node _ ret => if ret = 0 then none else some (Res.node ret)
    | Event.obj_cache_alloc ret => if ret = 0 then none else some (Res.obj ret)
    | Event.slab_cache_alloc ret => if ret = 0 then none else some (Res.slab ret)
    | _ => none)

/-- The memory given back by the calls of a record, in call order. -/
def released (ev : List Event) : List Res :=
  ev.filterMap (fun e => match e with
    | Event.kmem_free ptr size => some (Res.kmem ptr size)
    | Event.vmem_free ptr size => some (Res.vmem ptr size)
    | Event.kfree ptr => some (Res.node ptr)
    | Event.obj_cache_free ptr => some (Res.obj ptr)
    | Event.slab_cache_free ptr => some (Res.slab ptr)
    | _ => none)

/-- The cells obtained for a small slab when the first `2 * i` answers of the
allocator are not `NULL`: header, body, header, body and so on. -/
def kmem_cells (size : Nat) : Nat → Heap → List Res
  | 0, _ => []
  | i + 1, heap =>
    Res.obj (heap_next heap).1 :: Res.kmem (heap_next (heap_next heap).2).1 size ::
      kmem_cells size i (heap_next (heap_next heap).2).2

/-- The bounds of the magazines of a cache: `0 <= skm_avail <= skm_size`, the
pointer array `skm_objs` having `skm_size` slots. -/
def MagBounds (c : spl_kmem_cache_t) : Prop :=
  ∀ m ∈ c.skc_mag, m.skm_avail ≤ m.skm_size ∧ m.skm_objs.length = m.skm_size

/-- A cache like `demo_c0` but created with a constructor and no destructor. -/
def ctoronly_c0 : spl_kmem_cache_t :=
  match spl_kmem_cache_create demoP 8 1048577 true false false 1000 [8, 16, 24, 32, 40] [] with
  | some (some c, _, _) => c
  | _ => default

/-- One allocation on CPU 0 of `ctoronly_c0`: it builds a slab of two cells. -/
def ctoronly_a1 : Nat × Nat × spl_kmem_cache_t :=
  (spl_kmem_cache_alloc demoP demoEnv ctoronly_c0 0 km_flags.KM_SLEEP 1001 2).getD
    (0, 0, ctoronly_c0)

/-- The state after the body was freed on CPU 0. -/
def ctoronly_f1 : spl_kmem_cache_t :=
  (spl_kmem_cache_free demoP ctoronly_a1.2.2 0 ctoronly_a1.1 2001).getD ctoronly_c0

/-- The state after the two entries of the magazine of CPU 0 were flushed at
tick 3000: the slab is empty. -/
def ctoronly_flushed : spl_kmem_cache_t :=
  ((spl_cache_flush demoP ctoronly_f1 0 2 3000).getD (0, ctoronly_c0)).2

/-- The result of `__spl_slab_reclaim` at tick 4000: the slab is torn down. -/
def ctoronly_reaped : Nat × spl_kmem_cache_t :=
  (__spl_slab_reclaim demoP ctoronly_flushed 4000).getD (0, ctoronly_c0)

/-- The state in which `spl_kmem_cache_destroy` releases the struct of
`ctoronly_f1`. -/
def ctoronly_destroyed : spl_kmem_cache_t :=
  ((spl_kmem_cache_destroy demoP ctoronly_f1 5000 [8]).getD (ctoronly_c0, [])).1

/-- A fresh cache of 128 MiB objects on the platform `smallP`, whose slabs
have 32 cells. -/
def huge_c0 : spl_kmem_cache_t :=
  match spl_kmem_cache_create smallP 8 134217728 false false false 1000 [8, 16, 24, 32, 40]
      [] with
  | some (some c, _, _) => c
  | _ => default

/-- The slab that `spl_slab_alloc_vmem` builds for `huge_c0` at address 4096. -/
def huge_slab : spl_kmem_slab_t :=
  match (spl_slab_alloc_vmem smallP huge_c0 1001 [4096]).1 with
  | some sks => sks
  | none => spl_slab_init smallP 0 0

/-! # Theorems -/

/-! ## Lists -/

theorem list_split_at {α : Type} (L : List α) (k : Nat) (x : α) (h : L[k]? = some x) :
    ∃ A B, L = A ++ x :: B ∧ A.length = k := by
  induction L generalizing k with
  | nil => simp at h
  | cons a L ih =>
    cases k with
    | zero =>
      simp at h
      exact ⟨[], L, by simp [h], rfl⟩
    | succ k =>
      simp at h
      obtain ⟨A, B, hL, hA⟩ := ih k h
      exact ⟨a :: A, B, by simp [hL], by simp [hA]⟩

theorem list_set_split {α : Type} (A B : List α) (x y : α) :
    (A ++ x :: B).set A.length y = A ++ y :: B := by
  induction A with
  | nil => simp
  | cons a A ih => simp [ih]

theorem list_get_split {α : Type} (A B : List α) (x : α) :
    (A ++ x :: B)[A.length]? = some x := by
  induction A with
  | nil => simp
  | cons a A ih => simpa using ih

/-! ## Slab lists -/

theorem slab_find_none (ptr : Nat) (l : List spl_kmem_slab_t)
    (h : ptr ∉ l.map (fun s => s.sks_ptr)) : slab_find ptr l = none := by
  induction l with
  | nil => rfl
  | cons s l ih =>
    simp only [List.map_cons, List.mem_cons, not_or] at h
    simp [slab_find, Ne.symm h.1, ih h.2]

theorem slab_find_split (A B : List spl_kmem_slab_t) (s : spl_kmem_slab_t)
    (hA : s.sks_ptr ∉ A.map (fun s => s.sks_ptr)) :
    slab_find s.sks_ptr (A ++ s :: B) = some s := by
  induction A with
  | nil => simp [slab_find]
  | cons a A ih =>
    simp only [List.map_cons, List.mem_cons, not_or] at hA
    simp [slab_find, Ne.symm hA.1, ih hA.2]

theorem slab_find_some (ptr : Nat) (l : List spl_kmem_slab_t) (s : spl_kmem_slab_t)
    (h : slab_find ptr l = some s) : s ∈ l ∧ s.sks_ptr = ptr := by
  induction l with
  | nil => simp [slab_find] at h
  | cons a l ih =>
    simp only [slab_find] at h
    split at h
    · simp at h; subst h; simp [*]
    · have := ih h; simp [this]

theorem slab_store_notin (sks : spl_kmem_slab_t) (l : List spl_kmem_slab_t)
    (h : sks.sks_ptr ∉ l.map (fun s => s.sks_ptr)) : slab_store sks l = l := by
  induction l with
  | nil => rfl
  | cons s l ih =>
    simp only [List.map_cons, List.mem_cons, not_or] at h
    simp only [slab_store, List.map_cons] at ih ⊢
    rw [ih h.2, if_neg (Ne.symm h.1)]

theorem slab_store_split (A B : List spl_kmem_slab_t) (s sks : spl_kmem_slab_t)
    (hs : s.sks_ptr = sks.sks_ptr)
    (hA : sks.sks_ptr ∉ A.map (fun s => s.sks_ptr))
    (hB : sks.sks_ptr ∉ B.map (fun s => s.sks_ptr)) :
    slab_store sks (A ++ s :: B) = A ++ sks :: B := by
  have h1 := slab_store_notin sks A hA
  have h2 := slab_store_notin sks B hB
  simp only [slab_store, List.map_append, List.map_cons] at h1 h2 ⊢
  rw [h1, h2, if_pos hs]

theorem list_del_notin (ptr : Nat) (l : List spl_kmem_slab_t)
    (h : ptr ∉ l.map (fun s => s.sks_ptr)) : list_del ptr l = l := by
  simp only [list_del]
  rw [List.filter_eq_self]
  intro s hs
  simp only [List.mem_map, not_exists, not_and] at h
  simpa using h s hs

theorem list_del_split (A B : List spl_kmem_slab_t) (s : spl_kmem_slab_t)
    (hA : s.sks_ptr ∉ A.map (fun s => s.sks_ptr))
    (hB : s.sks_ptr ∉ B.map (fun s => s.sks_ptr)) :
    list_del s.sks_ptr (A ++ s :: B) = A ++ B := by
  have h1 := list_del_notin _ A hA
  have h2 := list_del_notin _ B hB
  simp only [list_del, List.filter_append, List.filter_cons] at h1 h2 ⊢
  rw [h1, h2]; simp

/-! ## Hash chains -/

theorem flatten_split {α : Type} (A B : List (List α)) (x : List α) :
    (A ++ x :: B).flatten = A.flatten ++ x ++ B.flatten := by
  simp

theorem hash_walk_some (obj : Nat) (chain : List spl_kmem_obj_t) (i depth : Nat)
    (sko : spl_kmem_obj_t) (d : Nat)
    (h : spl_hash_obj_walk obj chain i depth = (some sko, d)) :
    sko.sko_addr = obj ∧ List.Perm chain (sko :: hlist_del obj chain) := by
  induction chain generalizing i depth with
  | nil => simp [spl_hash_obj_walk] at h
  | cons o l ih =>
    simp only [spl_hash_obj_walk] at h
    by_cases ho : o.sko_addr = obj
    · simp only [ho, if_true] at h
      simp only [Prod.mk.injEq, Option.some.injEq] at h
      obtain ⟨rfl, _⟩ := h
      simp [hlist_del, ho]
    · simp only [ho, if_false] at h
      obtain ⟨h1, h2⟩ := ih _ _ h
      refine ⟨h1, ?_⟩
      simp only [hlist_del, ho, if_false]
      exact (List.Perm.cons o h2).trans (List.Perm.swap _ _ _)

theorem hash_walk_mem (obj : Nat) (chain : List spl_kmem_obj_t) (i depth : Nat)
    (h : obj ∈ chain.map (fun o => o.sko_addr)) :
    ∃ sko d, spl_hash_obj_walk obj chain i depth = (some sko, d) ∧ sko ∈ chain := by
  induction chain generalizing i depth with
  | nil => simp at h
  | cons o l ih =>
    simp only [spl_hash_obj_walk]
    by_cases ho : o.sko_addr = obj
    · simp [ho]
    · simp only [ho, if_false]
      simp only [List.map_cons, List.mem_cons] at h
      rcases h with h | h
      · exact absurd h.symm ho
      · obtain ⟨sko, d, h1, h2⟩ := ih _ _ h
        exact ⟨sko, d, h1, List.mem_cons_of_mem _ h2⟩

/-! ## `spl_cache_obj` -/

theorem slabs_ptr_split (c : spl_kmem_cache_t) (P : Platform) (hc : Core P c)
    (sks : spl_kmem_slab_t) (rest : List spl_kmem_slab_t)
    (hp : c.skc_partial_list = sks :: rest) :
    sks.sks_ptr ∉ rest.map (fun s => s.sks_ptr) ∧
    sks.sks_ptr ∉ c.skc_complete_list.map (fun s => s.sks_ptr) := by
  have h := hc.ptrs
  simp only [slabs, hp, List.cons_append, List.map_cons, List.map_append, List.nodup_cons,
    List.mem_append, not_or] at h
  exact h.1

theorem spl_cache_obj_shape (P : Platform) (c : spl_kmem_cache_t) (sks : spl_kmem_slab_t)
    (rest : List spl_kmem_slab_t) (j : Nat) (hc : Core P c)
    (hp : c.skc_partial_list = sks :: rest) (hlt : sks.sks_ref < sks.sks_objs) :
    ∃ sko frest chain om sa sm,
      sks.sks_free_list = sko :: frest ∧
      c.skc_hash[spl_hash_ptr P sko.sko_addr c.skc_hash_bits]? = some chain ∧
      spl_cache_obj P c sks.sks_ptr j = some (sko.sko_addr,
        { c with
          skc_partial_list :=
            { sks with sks_free_list := frest, sks_age := j, sks_ref := sks.sks_ref + 1 } :: rest
          skc_hash := c.skc_hash.set (spl_hash_ptr P sko.sko_addr c.skc_hash_bits) (sko :: chain)
          skc_obj_alloc := c.skc_obj_alloc + 1
          skc_hash_count := c.skc_hash_count + 1
          skc_obj_max := om
          skc_slab_alloc := sa
          skc_slab_max := sm }) := by
  obtain ⟨hr, hcm⟩ := slabs_ptr_split c P hc sks rest hp
  have hmem : sks ∈ slabs c := by simp [slabs, hp]
  have hlen := hc.free_len sks hmem
  obtain ⟨sko, frest, hfl⟩ : ∃ sko frest, sks.sks_free_list = sko :: frest := by
    cases hf : sks.sks_free_list with
    | nil => simp [hf] at hlen; omega
    | cons a l => exact ⟨a, l, rfl⟩
  have hnn : sko.sko_addr ≠ 0 := by
    apply hc.nonnull
    simp only [all_objs, free_objs, List.mem_append, List.mem_flatMap]
    exact Or.inl ⟨sks, hmem, by simp [hfl]⟩
  have hk := hc.key_bound sko.sko_addr
  have hch : c.skc_hash[spl_hash_ptr P sko.sko_addr c.skc_hash_bits]? =
      some (c.skc_hash[spl_hash_ptr P sko.sko_addr c.skc_hash_bits]) :=
    List.getElem?_eq_getElem hk
  have hderef : slab_deref c sks.sks_ptr = some sks := by
    simp [slab_deref, hp, slab_find]
  have hst1 : ∀ s1 : spl_kmem_slab_t, s1.sks_ptr = sks.sks_ptr →
      slab_store s1 (sks :: rest) = s1 :: rest := by
    intro s1 h1
    have := slab_store_split [] rest sks s1 h1.symm (by simp) (by rw [h1]; exact hr)
    simpa using this
  have hst2 : ∀ s1 : spl_kmem_slab_t, s1.sks_ptr = sks.sks_ptr →
      slab_store s1 c.skc_complete_list = c.skc_complete_list := by
    intro s1 h1
    exact slab_store_notin _ _ (by rw [h1]; exact hcm)
  refine ⟨sko, frest, _,
    (if c.skc_obj_alloc + 1 > c.skc_obj_max then c.skc_obj_alloc + 1 else c.skc_obj_max),
    (if sks.sks_ref + 1 = 1 then c.skc_slab_alloc + 1 else c.skc_slab_alloc),
    (if sks.sks_ref + 1 = 1 then
      (if c.skc_slab_alloc + 1 > c.skc_slab_max then c.skc_slab_alloc + 1 else c.skc_slab_max)
     else c.skc_slab_max), hfl, hch, ?_⟩
  simp only [spl_cache_obj, hderef, hfl, hnn, if_false, hch]
  simp only [slab_write]
  split <;> split <;> (try split) <;>
    simp_all only [hst1, hst2, Option.some.injEq, Prod.mk.injEq, true_and, if_true, if_false]

theorem flatten_set_cons {α : Type} (L : List (List α)) (k : Nat) (chain : List α) (o : α)
    (h : L[k]? = some chain) :
    List.Perm (L.set k (o :: chain)).flatten (o :: L.flatten) := by
  obtain ⟨A, B, rfl, rfl⟩ := list_split_at L k chain h
  rw [list_set_split]
  simp only [List.flatten_append, List.flatten_cons, List.cons_append]
  exact List.perm_middle

theorem flatten_set_perm {α : Type} (L : List (List α)) (k : Nat) (chain chain1 : List α) (o : α)
    (h : L[k]? = some chain) (hp : List.Perm chain (o :: chain1)) :
    List.Perm L.flatten (o :: (L.set k chain1).flatten) := by
  obtain ⟨A, B, rfl, rfl⟩ := list_split_at L k chain h
  rw [list_set_split]
  simp only [List.flatten_append, List.flatten_cons]
  refine List.Perm.trans ?_ List.perm_middle
  exact List.Perm.append_left _ (List.Perm.append_right _ hp)

theorem core_obj (P : Platform) (c : spl_kmem_cache_t) (sks : spl_kmem_slab_t)
    (rest : List spl_kmem_slab_t) (sko : spl_kmem_obj_t) (frest chain : List spl_kmem_obj_t)
    (j om sa sm : Nat) (hc : Core P c)
    (hp : c.skc_partial_list = sks :: rest) (hfl : sks.sks_free_list = sko :: frest)
    (hch : c.skc_hash[spl_hash_ptr P sko.sko_addr c.skc_hash_bits]? = some chain) :
    Core P { c with
      skc_partial_list :=
        { sks with sks_free_list := frest, sks_age := j, sks_ref := sks.sks_ref + 1 } :: rest
      skc_hash := c.skc_hash.set (spl_hash_ptr P sko.sko_addr c.skc_hash_bits) (sko :: chain)
      skc_obj_alloc := c.skc_obj_alloc + 1
      skc_hash_count := c.skc_hash_count + 1
      skc_obj_max := om
      skc_slab_alloc := sa
      skc_slab_max := sm } := by
  obtain ⟨hr, hcm⟩ := slabs_ptr_split c P hc sks rest hp
  have hmem : sks ∈ slabs c := by simp [slabs, hp]
  have hperm := flatten_set_cons c.skc_hash _ chain sko hch
  have hown : sko.sko_slab = sks.sks_ptr := hc.free_owner sks hmem sko (by simp [hfl])
  have hslabs : slabs c = sks :: (rest ++ c.skc_complete_list) := by simp [slabs, hp]
  constructor
  · have := hc.ptrs
    simpa [slabs, hp] using this
  · exact hc.comp
  · have := hc.sorted
    rw [hp, List.pairwise_cons] at this
    simp only [List.pairwise_cons]
    exact ⟨fun _ _ h => by simp at h, this.2⟩
  · intro s hs
    simp only [slabs, List.cons_append, List.mem_cons] at hs
    rcases hs with rfl | hs
    · have := hc.free_len sks hmem
      simp only [hfl, List.length_cons] at this
      simp only; omega
    · exact hc.free_len s (by rw [hslabs]; exact List.mem_cons_of_mem _ hs)
  · intro s hs
    simp only [slabs, List.cons_append, List.mem_cons] at hs
    rcases hs with rfl | hs
    · exact hc.objs_eq sks hmem
    · exact hc.objs_eq s (by rw [hslabs]; exact List.mem_cons_of_mem _ hs)
  · intro s hs
    simp only [slabs, List.cons_append, List.mem_cons] at hs
    rcases hs with rfl | hs
    · intro o ho
      exact hc.free_owner sks hmem o (by simp [hfl, ho])
    · exact hc.free_owner s (by rw [hslabs]; exact List.mem_cons_of_mem _ hs)
  · intro s hs
    simp only [in_use]
    rw [List.Perm.countP_eq _ hperm, List.countP_cons]
    simp only [slabs, List.cons_append, List.mem_cons] at hs
    rcases hs with rfl | hs
    · have := hc.ref_hash sks hmem
      simp only [in_use] at this
      simp [this, hown]
    · have h1 := hc.ref_hash s (by rw [hslabs]; exact List.mem_cons_of_mem _ hs)
      simp only [in_use] at h1
      have hne : sks.sks_ptr ≠ s.sks_ptr := by
        intro he
        have : s.sks_ptr ∈ (rest ++ c.skc_complete_list).map (fun s => s.sks_ptr) :=
          List.mem_map_of_mem _ hs
        rw [← he] at this
        simp only [List.map_append, List.mem_append] at this
        exact this.elim hr hcm
      simp [h1, hown, hne]
  · intro o ho
    simp only [in_use] at ho
    rw [hperm.mem_iff, List.mem_cons] at ho
    simp only [slabs, List.cons_append, List.map_cons, List.mem_cons]
    rcases ho with rfl | ho
    · exact Or.inl hown
    · have := hc.hash_owner o ho
      simpa [hslabs] using this
  · have h1 := hc.bodies
    have : List.Perm (all_objs c) (all_objs { c with
      skc_partial_list :=
        { sks with sks_free_list := frest, sks_age := j, sks_ref := sks.sks_ref + 1 } :: rest
      skc_hash := c.skc_hash.set (spl_hash_ptr P sko.sko_addr c.skc_hash_bits) (sko :: chain)
      skc_obj_alloc := c.skc_obj_alloc + 1
      skc_hash_count := c.skc_hash_count + 1
      skc_obj_max := om
      skc_slab_alloc := sa
      skc_slab_max := sm }) := by
      simp only [all_objs, free_objs, in_use, slabs, hp, List.cons_append, List.flatMap_cons, hfl]
      refine List.Perm.trans ?_ (List.Perm.append_left _ hperm.symm)
      have := @List.perm_middle _ sko
        (frest ++ (rest ++ c.skc_complete_list).flatMap (fun s => s.sks_free_list))
        c.skc_hash.flatten
      simpa using this.symm
    exact ((this.map _).nodup_iff).1 h1
  · intro o ho
    apply hc.nonnull
    simp only [all_objs, free_objs, in_use, slabs, List.cons_append, List.flatMap_cons,
      List.mem_append] at ho ⊢
    rw [hperm.mem_iff] at ho
    simp only [hp, List.cons_append, List.flatMap_cons, hfl, List.mem_append, List.mem_cons]
    simp only [List.mem_cons] at ho
    tauto
  · intro k ch hk o ho
    simp only [List.getElem?_set] at hk
    split at hk
    · rename_i hkk
      split at hk
      · simp only [Option.some.injEq] at hk
        subst hk
        simp only [List.mem_cons] at ho
        rcases ho with rfl | ho
        · exact hkk
        · rw [← hkk]; exact hc.chain_key _ chain hch o ho
      · simp at hk
    · exact hc.chain_key k ch hk o ho
  · intro a
    simpa using hc.key_bound a
  · simp only [in_use]
    rw [hperm.length_eq]
    have := hc.count_hash
    simp only [in_use] at this
    simp [this]
  · simp [hc.count_alloc]
  · have := hc.count_ref
    simp only [hslabs, List.map_cons, List.sum_cons] at this
    simp only [slabs, List.cons_append, List.map_cons, List.sum_cons]
    omega
  · have := hc.total
    simpa [hp] using this

/-! ## Releasing an object: the part of the invariant that does not depend on list order -/

theorem core_release (P : Platform) (c c1 : spl_kmem_cache_t) (sks : spl_kmem_slab_t)
    (sko : spl_kmem_obj_t) (L : List spl_kmem_slab_t) (j : Nat)
    (hc : Core P c)
    (hs : List.Perm (slabs c) (sks :: L))
    (hs1 : List.Perm (slabs c1) (slab_released sks sko j :: L))
    (hu : List.Perm (in_use c) (sko :: in_use c1))
    (hown : sko.sko_slab = sks.sks_ptr)
    (hcomp : ∀ s ∈ c1.skc_complete_list, s.sks_ref = s.sks_objs)
    (hsorted : c1.skc_partial_list.Pairwise (fun a b => a.sks_ref = 0 → b.sks_ref = 0))
    (hchain : ∀ k chain, c1.skc_hash[k]? = some chain →
      ∀ o ∈ chain, spl_hash_ptr P o.sko_addr c1.skc_hash_bits = k)
    (hkey : ∀ a, spl_hash_ptr P a c1.skc_hash_bits < c1.skc_hash.length)
    (hcount : c1.skc_hash_count + 1 = c.skc_hash_count)
    (halloc : c1.skc_obj_alloc + 1 = c.skc_obj_alloc)
    (htotal : c1.skc_slab_total = c1.skc_partial_list.length + c1.skc_complete_list.length) :
    Core P c1 ∧ 1 ≤ sks.sks_ref := by
  have hmem : sks ∈ slabs c := hs.symm.subset (List.mem_cons_self _ _)
  have hL : ∀ s ∈ L, s ∈ slabs c := fun s h => hs.symm.subset (List.mem_cons_of_mem _ h)
  have hnd : (sks.sks_ptr :: L.map (fun s => s.sks_ptr)).Nodup := by
    have := ((hs.map (fun s => s.sks_ptr)).nodup_iff).1 hc.ptrs
    simpa using this
  have hLne : ∀ s ∈ L, sks.sks_ptr ≠ s.sks_ptr := by
    intro s h he
    rw [List.nodup_cons] at hnd
    exact hnd.1 (by rw [he]; exact List.mem_map_of_mem _ h)
  have hsko : sko ∈ in_use c := hu.symm.subset (List.mem_cons_self _ _)
  have href : 1 ≤ sks.sks_ref := by
    rw [← hc.ref_hash sks hmem]
    exact List.countP_pos_iff.2 ⟨sko, hsko, by simp [hown]⟩
  have hmem1 : ∀ s ∈ slabs c1, s = slab_released sks sko j ∨ s ∈ L := by
    intro s h
    simpa using hs1.subset h
  have hpall : List.Perm (all_objs c1) (all_objs c) := by
    simp only [all_objs, free_objs]
    have a1 := hs1.flatMap_right (fun s => s.sks_free_list)
    have a2 := hs.flatMap_right (fun s => s.sks_free_list)
    simp only [List.flatMap_cons, List.cons_append, slab_released] at a1 a2
    refine (a1.append (List.Perm.refl _)).trans ?_
    refine List.Perm.trans ?_ (a2.append hu).symm
    simp only [List.cons_append, List.append_assoc]
    have := @List.perm_middle _ sko
      (sks.sks_free_list ++ L.flatMap (fun s => s.sks_free_list)) (in_use c1)
    simpa using this.symm
  refine ⟨?_, href⟩
  constructor
  · have := (hs1.map (fun s => s.sks_ptr)).nodup_iff.2 (by simpa using hnd)
    exact this
  · exact hcomp
  · exact hsorted
  · intro s h
    rcases hmem1 s h with rfl | h
    · have := hc.free_len sks hmem
      simp only [slab_released, List.length_cons]; omega
    · exact hc.free_len s (hL s h)
  · intro s h
    rcases hmem1 s h with rfl | h
    · exact hc.objs_eq sks hmem
    · exact hc.objs_eq s (hL s h)
  · intro s h
    rcases hmem1 s h with rfl | h
    · intro o ho
      simp only [slab_released, List.mem_cons] at ho
      rcases ho with rfl | ho
      · exact hown
      · exact hc.free_owner sks hmem o ho
    · exact hc.free_owner s (hL s h)
  · intro s h
    rcases hmem1 s h with rfl | h
    · have := hc.ref_hash sks hmem
      rw [List.Perm.countP_eq _ hu, List.countP_cons] at this
      simp only [hown, decide_True, if_true] at this
      simp only [slab_released]; omega
    · have := hc.ref_hash s (hL s h)
      rw [List.Perm.countP_eq _ hu, List.countP_cons] at this
      have hne := hLne s h
      simp only [hown, hne, decide_False] at this
      simpa using this
  · intro o ho
    have h1 := hc.hash_owner o (hu.symm.subset (List.mem_cons_of_mem _ ho))
    have h2 := ((hs.map (fun s => s.sks_ptr)).mem_iff (a := o.sko_slab)).1 h1
    exact ((hs1.map (fun s => s.sks_ptr)).mem_iff (a := o.sko_slab)).2 (by simpa using h2)
  · exact ((hpall.map _).nodup_iff).2 hc.bodies
  · intro o ho
    exact hc.nonnull o (hpall.subset ho)
  · exact hchain
  · exact hkey
  · have := hc.count_hash
    rw [hu.length_eq] at this
    simp only [List.length_cons] at this
    omega
  · have := hc.count_alloc
    omega
  · have h1 := hc.count_ref
    rw [((hs.map (fun s => s.sks_ref)).sum_eq)] at h1
    rw [((hs1.map (fun s => s.sks_ref)).sum_eq)]
    simp only [List.map_cons, List.sum_cons, slab_released] at h1 ⊢
    omega
  · exact htotal

theorem SameCfg.refl (c : spl_kmem_cache_t) : SameCfg c c := by
  simp [SameCfg]

theorem SameCfg.trans {a b c : spl_kmem_cache_t} (h1 : SameCfg a b) (h2 : SameCfg b c) :
    SameCfg a c := by
  simp only [SameCfg] at *
  obtain ⟨a1, a2, a3, a4, a5, a6, a7, a8⟩ := h1
  obtain ⟨b1, b2, b3, b4, b5, b6, b7, b8⟩ := h2
  exact ⟨b1.trans a1, b2.trans a2, b3.trans a3, b4.trans a4, b5.trans a5, b6.trans a6,
    b7.trans a7, b8.trans a8⟩

theorem spl_hash_obj_found (P : Platform) (c : spl_kmem_cache_t) (p : Nat) (hc : Core P c)
    (hp : p ∈ (in_use c).map (fun o => o.sko_addr)) :
    ∃ sko chain d,
      c.skc_hash[spl_hash_ptr P p c.skc_hash_bits]? = some chain ∧ sko ∈ chain ∧
      sko.sko_addr = p ∧
      spl_hash_obj P c p = some (some sko, { c with skc_hash_depth := d }) ∧
      List.Perm chain (sko :: hlist_del p chain) := by
  simp only [in_use, List.mem_map, List.mem_flatten] at hp
  obtain ⟨o, ⟨ch, hch, ho⟩, rfl⟩ := hp
  obtain ⟨k, hk⟩ := List.mem_iff_getElem?.1 hch
  have hkey := hc.chain_key k ch hk o ho
  subst hkey
  obtain ⟨sko, d, hw, hmem⟩ := hash_walk_mem o.sko_addr ch 0 c.skc_hash_depth
    (List.mem_map_of_mem _ ho)
  obtain ⟨ha, hperm⟩ := hash_walk_some _ _ _ _ _ _ hw
  exact ⟨sko, ch, d, hk, hmem, ha, by simp [spl_hash_obj, hk, hw], hperm⟩

theorem shrink_fields (P : Platform) (c : spl_kmem_cache_t) (p j d : Nat)
    (sko : spl_kmem_obj_t) (sks : spl_kmem_slab_t) (chain : List spl_kmem_obj_t)
    (hobj : spl_hash_obj P c p = some (some sko, { c with skc_hash_depth := d }))
    (hderef : slab_deref c sko.sko_slab = some sks)
    (hch : c.skc_hash[spl_hash_ptr P p c.skc_hash_bits]? = some chain) :
    ∃ c1, spl_cache_shrink P c p j = some c1 ∧
      c1.skc_hash = c.skc_hash.set (spl_hash_ptr P p c.skc_hash_bits) (hlist_del p chain) ∧
      c1.skc_mag = c.skc_mag ∧ SameCfg c c1 ∧
      c1.skc_obj_alloc = c.skc_obj_alloc - 1 ∧ c1.skc_hash_count = c.skc_hash_count - 1 ∧
      c1.skc_slab_total = c.skc_slab_total ∧ c1.skc_obj_total = c.skc_obj_total ∧
      c1.skc_events = c.skc_events ∧
      c1.skc_partial_list =
        (let s1 := slab_released sks sko j
         let P0 := slab_store s1 c.skc_partial_list
         let P1 := if s1.sks_ref = s1.sks_objs - 1 then s1 :: list_del s1.sks_ptr P0 else P0
         if s1.sks_ref = 0 then list_del s1.sks_ptr P1 ++ [s1] else P1) ∧
      c1.skc_complete_list =
        (let s1 := slab_released sks sko j
         let C0 := slab_store s1 c.skc_complete_list
         let C1 := if s1.sks_ref = s1.sks_objs - 1 then list_del s1.sks_ptr C0 else C0
         if s1.sks_ref = 0 then list_del s1.sks_ptr C1 else C1) := by
  have hderef1 : slab_deref { c with skc_hash_depth := d } sko.sko_slab = some sks := hderef
  simp only [spl_cache_shrink, hobj, hderef1, hch, slab_write, slab_released, SameCfg]
  split <;> split <;> simp

theorem nodup_split_ptr (A B C : List spl_kmem_slab_t) (s : spl_kmem_slab_t)
    (h : ((A ++ s :: B ++ C).map (fun s => s.sks_ptr)).Nodup) :
    s.sks_ptr ∉ A.map (fun s => s.sks_ptr) ∧ s.sks_ptr ∉ B.map (fun s => s.sks_ptr) ∧
    s.sks_ptr ∉ C.map (fun s => s.sks_ptr) := by
  simp only [List.map_append, List.map_cons, List.append_assoc, List.cons_append] at h
  rw [List.nodup_middle, List.nodup_cons] at h
  simp only [List.mem_append, not_or] at h
  exact ⟨h.1.1, h.1.2.1, h.1.2.2⟩

theorem hlist_del_subset (p : Nat) (chain : List spl_kmem_obj_t) :
    ∀ o ∈ hlist_del p chain, o ∈ chain := by
  induction chain with
  | nil => simp [hlist_del]
  | cons a l ih =>
    intro o ho
    simp only [hlist_del] at ho
    split at ho
    · exact List.mem_cons_of_mem _ ho
    · simp only [List.mem_cons] at ho ⊢
      rcases ho with rfl | ho
      · exact Or.inl rfl
      · exact Or.inr (ih o ho)

theorem chain_key_del (P : Platform) (p bits : Nat)
    (hash : List (List spl_kmem_obj_t)) (chain : List spl_kmem_obj_t)
    (hkey : ∀ k chain, hash[k]? = some chain →
      ∀ o ∈ chain, spl_hash_ptr P o.sko_addr bits = k)
    (hch : hash[spl_hash_ptr P p bits]? = some chain) :
    ∀ k ch, (hash.set (spl_hash_ptr P p bits) (hlist_del p chain))[k]? = some ch →
      ∀ o ∈ ch, spl_hash_ptr P o.sko_addr bits = k := by
  intro k ch hk o ho
  simp only [List.getElem?_set] at hk
  split at hk
  · rename_i hkk
    split at hk
    · simp only [Option.some.injEq] at hk
      subst hk
      rw [← hkk]
      exact hkey _ chain hch o (hlist_del_subset p chain o ho)
    · simp at hk
  · exact hkey k ch hk o ho

theorem spl_cache_shrink_spec (P : Platform) (c : spl_kmem_cache_t) (p j : Nat)
    (hc : Core P c) (hpart : ∀ s ∈ c.skc_partial_list, s.sks_ref < s.sks_objs)
    (hp : p ∈ (in_use c).map (fun o => o.sko_addr)) :
    ∃ c1 sko sks L,
      spl_cache_shrink P c p j = some c1 ∧ sko.sko_addr = p ∧ sko.sko_slab = sks.sks_ptr ∧
      1 ≤ sks.sks_ref ∧
      List.Perm (in_use c) (sko :: in_use c1) ∧
      List.Perm (slabs c) (sks :: L) ∧
      List.Perm (slabs c1) (slab_released sks sko j :: L) ∧
      Core P c1 ∧ (∀ s ∈ c1.skc_partial_list, s.sks_ref < s.sks_objs) ∧
      c1.skc_mag = c.skc_mag ∧ SameCfg c c1 ∧
      c1.skc_obj_alloc + 1 = c.skc_obj_alloc ∧ c1.skc_hash_count + 1 = c.skc_hash_count ∧
      c1.skc_slab_total = c.skc_slab_total ∧ c1.skc_obj_total = c.skc_obj_total ∧
      c1.skc_events = c.skc_events := by
  obtain ⟨sko, chain, d, hch, hmem, ha, hobj, hperm⟩ := spl_hash_obj_found P c p hc hp
  have hsko : sko ∈ in_use c := by
    simp only [in_use, List.mem_flatten]
    exact ⟨chain, List.mem_iff_getElem?.2 ⟨_, hch⟩, hmem⟩
  have hown := hc.hash_owner sko hsko
  simp only [List.mem_map] at hown
  obtain ⟨sks, hsks, hptr⟩ := hown
  have href : 1 ≤ sks.sks_ref := by
    rw [← hc.ref_hash sks hsks]
    exact List.countP_pos_iff.2 ⟨sko, hsko, by simp [hptr]⟩
  have hcnt : 1 ≤ c.skc_hash_count := by
    rw [hc.count_hash]
    exact List.length_pos_of_mem hsko
  have hcnt2 := hc.count_alloc
  have hs1p : (slab_released sks sko j).sks_ptr = sks.sks_ptr := rfl
  have hs1r : (slab_released sks sko j).sks_ref = sks.sks_ref - 1 := rfl
  have hs1o : (slab_released sks sko j).sks_objs = sks.sks_objs := rfl
  have hfl := hc.free_len sks hsks
  have hck := chain_key_del P p c.skc_hash_bits c.skc_hash chain hc.chain_key hch
  have hkb : ∀ a, spl_hash_ptr P a c.skc_hash_bits <
      (c.skc_hash.set (spl_hash_ptr P p c.skc_hash_bits) (hlist_del p chain)).length := by
    intro a; rw [List.length_set]; exact hc.key_bound a
  have hsorted := hc.sorted
  have htot := hc.total
  simp only [slabs, List.mem_append] at hsks
  rcases hsks with hin | hin
  · -- the slab is on the partial list
    obtain ⟨A, B, hAB⟩ := List.append_of_mem hin
    have hnd := hc.ptrs
    simp only [slabs, hAB] at hnd
    obtain ⟨hA, hB, hC⟩ := nodup_split_ptr A B _ sks hnd
    have hderef : slab_deref c sko.sko_slab = some sks := by
      simp only [slab_deref, hAB, ← hptr, slab_find_split A B sks hA]
    obtain ⟨c1, hc1, hhash, hmag, hcfg, hoa, hhc, hst, hot, hev, hpl, hcl⟩ :=
      shrink_fields P c p j d sko sks chain hobj hderef hch
    have hlt := hpart sks hin
    have hne : sks.sks_ref - 1 ≠ sks.sks_objs - 1 := by omega
    have hdel := list_del_split A B (slab_released sks sko j) hA hB
    simp only [hs1p] at hdel
    simp only [hs1p, hs1r, hs1o, hne, if_false, hAB,
      slab_store_split A B sks (slab_released sks sko j) rfl hA hB,
      slab_store_notin (slab_released sks sko j) c.skc_complete_list hC,
      list_del_notin sks.sks_ptr c.skc_complete_list hC, ite_self, hdel] at hpl hcl
    have hu : List.Perm (in_use c) (sko :: in_use c1) := by
      simp only [in_use, hhash]
      exact flatten_set_perm _ _ _ _ _ hch hperm
    have hbits : c1.skc_hash_bits = c.skc_hash_bits := hcfg.2.2.2.1
    have hs : List.Perm (slabs c) (sks :: (A ++ B ++ c.skc_complete_list)) := by
      simp only [slabs, hAB, List.append_assoc, List.cons_append]
      exact List.perm_middle
    rw [hAB] at hsorted hpart htot
    have hsAB : (A ++ B).Pairwise (fun a b => a.sks_ref = 0 → b.sks_ref = 0) :=
      hsorted.sublist (List.Sublist.append (List.Sublist.refl _) (List.sublist_cons_self _ _))
    have hs1 : List.Perm (slabs c1) (slab_released sks sko j :: (A ++ B ++ c.skc_complete_list)) := by
      simp only [slabs, hpl, hcl]
      split
      · simp only [List.append_assoc, List.cons_append, List.nil_append]
        have := @List.perm_middle _ (slab_released sks sko j) (A ++ B) c.skc_complete_list
        simpa using this
      · simp only [List.append_assoc, List.cons_append]
        exact List.perm_middle
    have hcore := core_release P c c1 sks sko _ j hc hs hs1 hu hptr.symm
      (by rw [hcl]; exact hc.comp)
      (by
        rw [hpl]
        split
        · rename_i h0
          rw [List.pairwise_append]
          refine ⟨hsAB, List.pairwise_singleton _ _, ?_⟩
          intro a _ b hb _
          simp only [List.mem_singleton] at hb
          subst hb
          exact h0
        · rename_i h0
          rw [List.pairwise_append] at hsorted ⊢
          obtain ⟨h1, h2, h3⟩ := hsorted
          rw [List.pairwise_cons] at h2 ⊢
          refine ⟨h1, ⟨fun b _ hb => absurd hb h0, h2.2⟩, ?_⟩
          intro a ha b hb ha0
          have := h3 a ha sks (List.mem_cons_self _ _) ha0
          omega)
      (by rw [hhash, hbits]; exact hck)
      (by rw [hhash, hbits]; exact hkb)
      (by omega) (by omega)
      (by
        rw [hst, htot, hpl, hcl]
        split <;> simp)
    refine ⟨c1, sko, sks, _, hc1, ha, hptr.symm, href, hu, hs, hs1, hcore.1, ?_, hmag, hcfg,
      by omega, by omega, hst, hot, hev⟩
    intro s hs
    have key : s = slab_released sks sko j ∨ s ∈ A ∨ s ∈ B := by
      rw [hpl] at hs
      split at hs
      · simp only [List.mem_append, List.mem_singleton] at hs; tauto
      · simp only [List.mem_append, List.mem_cons] at hs; tauto
    rcases key with rfl | h | h
    · rw [hs1r, hs1o]; omega
    · exact hpart s (by simp [h])
    · exact hpart s (by simp [h])
  · -- the slab is on the complete list
    obtain ⟨A, B, hAB⟩ := List.append_of_mem hin
    have hnd := hc.ptrs
    have hnd2 : ((A ++ sks :: B ++ c.skc_partial_list).map (fun s => s.sks_ptr)).Nodup := by
      refine (List.Perm.nodup_iff ?_).1 hnd
      simp only [slabs, hAB]
      exact (List.perm_append_comm).map _
    obtain ⟨hA, hB, hC⟩ := nodup_split_ptr A B _ sks hnd2
    have hderef : slab_deref c sko.sko_slab = some sks := by
      simp only [slab_deref, hAB, ← hptr, slab_find_split A B sks hA,
        slab_find_none sks.sks_ptr c.skc_partial_list hC]
    obtain ⟨c1, hc1, hhash, hmag, hcfg, hoa, hhc, hst, hot, hev, hpl, hcl⟩ :=
      shrink_fields P c p j d sko sks chain hobj hderef hch
    have heq := hc.comp sks hin
    have hne : sks.sks_ref - 1 = sks.sks_objs - 1 := by omega
    have hdel := list_del_split A B (slab_released sks sko j) hA hB
    have hdel2 := list_del_split [] c.skc_partial_list (slab_released sks sko j) (by simp) hC
    simp only [hs1p, List.nil_append] at hdel hdel2
    have hA' : sks.sks_ptr ∉ (A ++ B).map (fun s => s.sks_ptr) := by
      simp only [List.map_append, List.mem_append, not_or]; exact ⟨hA, hB⟩
    simp only [hs1p, hs1r, hs1o, hne, if_true, hAB,
      slab_store_split A B sks (slab_released sks sko j) rfl hA hB,
      slab_store_notin (slab_released sks sko j) c.skc_partial_list hC,
      list_del_notin sks.sks_ptr c.skc_partial_list hC,
      list_del_notin sks.sks_ptr (A ++ B) hA', ite_self, hdel, hdel2] at hpl hcl
    have hu : List.Perm (in_use c) (sko :: in_use c1) := by
      simp only [in_use, hhash]
      exact flatten_set_perm _ _ _ _ _ hch hperm
    have hbits : c1.skc_hash_bits = c.skc_hash_bits := hcfg.2.2.2.1
    have hs : List.Perm (slabs c) (sks :: (c.skc_partial_list ++ (A ++ B))) := by
      simp only [slabs, hAB]
      have := @List.perm_middle _ sks (c.skc_partial_list ++ A) B
      simpa using this
    have hs1 : List.Perm (slabs c1)
        (slab_released sks sko j :: (c.skc_partial_list ++ (A ++ B))) := by
      simp only [slabs, hpl, hcl]
      split
      · simp only [List.append_assoc, List.cons_append, List.nil_append]
        exact List.perm_middle
      · simp
    have hcomp := hc.comp
    rw [hAB] at hcomp htot
    have hcore := core_release P c c1 sks sko _ j hc hs hs1 hu hptr.symm
      (by
        rw [hcl]
        intro s hs
        apply hcomp
        simp only [List.mem_append, List.mem_cons] at hs ⊢
        tauto)
      (by
        rw [hpl]
        split
        · rename_i h0
          rw [List.pairwise_append]
          refine ⟨hsorted, List.pairwise_singleton _ _, ?_⟩
          intro a _ b hb _
          simp only [List.mem_singleton] at hb
          subst hb
          rw [hs1r]; omega
        · rename_i h0
          rw [List.pairwise_cons]
          refine ⟨fun b _ hb => ?_, hsorted⟩
          rw [hs1r] at hb
          omega)
      (by rw [hhash, hbits]; exact hck)
      (by rw [hhash, hbits]; exact hkb)
      (by omega) (by omega)
      (by
        rw [hst, htot, hpl, hcl]
        split <;> simp <;> omega)
    refine ⟨c1, sko, sks, _, hc1, ha, hptr.symm, href, hu, hs, hs1, hcore.1, ?_, hmag, hcfg,
      by omega, by omega, hst, hot, hev⟩
    intro s hs
    have key : s = slab_released sks sko j ∨ s ∈ c.skc_partial_list := by
      rw [hpl] at hs
      split at hs
      · simp only [List.mem_append, List.mem_singleton] at hs; tauto
      · simp only [List.mem_cons] at hs; tauto
    rcases key with rfl | h
    · rw [hs1r, hs1o]; omega
    · exact hpart s h

theorem spl_hash_obj_mag (P : Platform) (c c1 : spl_kmem_cache_t) (p : Nat)
    (r : Option spl_kmem_obj_t) (h : spl_hash_obj P c p = some (r, c1)) :
    c1 = { c with skc_hash_depth := c1.skc_hash_depth } := by
  simp only [spl_hash_obj] at h
  split at h
  · simp at h
  · simp only [Option.some.injEq, Prod.mk.injEq] at h
    obtain ⟨_, rfl⟩ := h
    rfl

theorem spl_cache_shrink_mag (P : Platform) (c c1 : spl_kmem_cache_t) (p j : Nat)
    (h : spl_cache_shrink P c p j = some c1) : c1.skc_mag = c.skc_mag := by
  simp only [spl_cache_shrink] at h
  split at h
  · simp at h
  · simp at h
  · rename_i sko c0 hobj
    have h0 := spl_hash_obj_mag P c c0 p _ hobj
    split at h
    · simp at h
    · split at h
      · simp at h
      · simp only [Option.some.injEq] at h
        subst h
        rw [h0]
        simp only [slab_write]
        split <;> split <;> rfl

theorem flush_loop_eq (P : Platform) (id j : Nat) (m : spl_kmem_magazine_t) (n i : Nat)
    (c : spl_kmem_cache_t) (hm : c.skc_mag[id]? = some m) (hlen : i + n ≤ m.skm_objs.length) :
    spl_cache_flush_loop P id j n i c = shrink_all P j ((m.skm_objs.drop i).take n) c := by
  induction n generalizing i c with
  | zero => simp [spl_cache_flush_loop, shrink_all]
  | succ n ih =>
    have hi : i < m.skm_objs.length := by omega
    have hget : m.skm_objs[i]? = some m.skm_objs[i] := List.getElem?_eq_getElem hi
    have hd : (m.skm_objs.drop i).take (n + 1) =
        m.skm_objs[i] :: (m.skm_objs.drop (i + 1)).take n := by
      rw [List.drop_eq_getElem_cons hi, List.take_succ_cons]
    simp only [spl_cache_flush_loop, hm, hget, hd, shrink_all]
    cases hs : spl_cache_shrink P c m.skm_objs[i] j with
    | none => rfl
    | some c1 =>
      simp only
      have hm1 : c1.skc_mag[id]? = some m := by
        rw [spl_cache_shrink_mag P c c1 _ j hs]; exact hm
      exact ih (i + 1) c1 hm1 (by omega)

theorem in_use_bodies_nodup (P : Platform) (c : spl_kmem_cache_t) (hc : Core P c) :
    ((in_use c).map (fun o => o.sko_addr)).Nodup := by
  have := hc.bodies
  simp only [all_objs, List.map_append] at this
  exact (List.nodup_append.1 this).2.1

theorem shrink_all_spec (P : Platform) (j : Nat) (xs : List Nat) (c : spl_kmem_cache_t)
    (hc : Core P c) (hpart : ∀ s ∈ c.skc_partial_list, s.sks_ref < s.sks_objs)
    (hnd : xs.Nodup) (hin : ∀ x ∈ xs, x ∈ (in_use c).map (fun o => o.sko_addr)) :
    ∃ c1, shrink_all P j xs c = some c1 ∧ Core P c1 ∧
      (∀ s ∈ c1.skc_partial_list, s.sks_ref < s.sks_objs) ∧
      c1.skc_mag = c.skc_mag ∧ SameCfg c c1 ∧
      List.Perm ((in_use c).map (fun o => o.sko_addr))
        (xs ++ (in_use c1).map (fun o => o.sko_addr)) ∧
      c1.skc_obj_alloc + xs.length = c.skc_obj_alloc ∧
      c1.skc_hash_count + xs.length = c.skc_hash_count ∧
      c1.skc_slab_total = c.skc_slab_total ∧ c1.skc_obj_total = c.skc_obj_total ∧
      c1.skc_events = c.skc_events := by
  induction xs generalizing c with
  | nil => exact ⟨c, rfl, hc, hpart, rfl, SameCfg.refl c, by simp, rfl, rfl, rfl, rfl, rfl⟩
  | cons x xs ih =>
    obtain ⟨c1, sko, sks, L, h1, ha, _, _, hu, _, _, hc1, hp1, hm1, hcfg1, hoa, hhc, hst, hot,
      hev⟩ := spl_cache_shrink_spec P c x j hc hpart (hin x (List.mem_cons_self _ _))
    rw [List.nodup_cons] at hnd
    have hub := hu.map (fun o => o.sko_addr)
    simp only [List.map_cons, ha] at hub
    have hin1 : ∀ y ∈ xs, y ∈ (in_use c1).map (fun o => o.sko_addr) := by
      intro y hy
      have := hub.subset (hin y (List.mem_cons_of_mem _ hy))
      simp only [List.mem_cons] at this
      rcases this with rfl | h
      · exact absurd hy hnd.1
      · exact h
    obtain ⟨c2, h2, hc2, hp2, hm2, hcfg2, hperm, hoa2, hhc2, hst2, hot2, hev2⟩ :=
      ih c1 hc1 hp1 hnd.2 hin1
    refine ⟨c2, by simp [shrink_all, h1, h2], hc2, hp2, hm2.trans hm1, hcfg1.trans hcfg2, ?_,
      by simp only [List.length_cons]; omega, by simp only [List.length_cons]; omega,
      hst2.trans hst, hot2.trans hot, hev2.trans hev⟩
    exact hub.trans (List.Perm.cons _ hperm)

/-! ## Magazines -/

theorem take_set_succ (l : List Nat) (n p : Nat) (h : n < l.length) :
    (l.set n p).take (n + 1) = l.take n ++ [p] := by
  induction l generalizing n with
  | nil => simp at h
  | cons a l ih =>
    cases n with
    | zero => simp
    | succ n =>
      simp only [List.length_cons, Nat.add_lt_add_iff_right] at h
      simp [ih n h]

theorem take_pred (l : List Nat) (n : Nat) (h0 : n ≠ 0) (h : n ≤ l.length) :
    ∃ x, l[n - 1]? = some x ∧ l.take n = l.take (n - 1) ++ [x] := by
  obtain ⟨k, rfl⟩ : ∃ k, n = k + 1 := ⟨n - 1, by omega⟩
  have hk : k < l.length := by omega
  refine ⟨l[k], by simp [List.getElem?_eq_getElem hk], ?_⟩
  rw [List.take_succ]
  simp [List.getElem?_eq_getElem hk]

theorem memmove_down_take (l : List Nat) (count avail : Nat) (h2 : avail ≤ l.length) :
    (memmove_down l count (avail - count)).take (avail - count) = (l.take avail).drop count := by
  simp only [memmove_down]
  rw [List.take_append_of_le_length (by simp [List.length_take, List.length_drop]; omega)]
  rw [List.take_take, Nat.min_self, List.drop_take]

theorem memmove_down_length (l : List Nat) (count n : Nat) (h : n + count ≤ l.length) :
    (memmove_down l count n).length = l.length := by
  simp only [memmove_down, List.length_append, List.length_take, List.length_drop]
  omega

theorem memmove_down_get (l : List Nat) (count n i : Nat) (h : n + count ≤ l.length)
    (hi : i < n) : (memmove_down l count n)[i]? = l[i + count]? := by
  simp only [memmove_down]
  rw [List.getElem?_append_left (by simp [List.length_take, List.length_drop]; omega)]
  rw [List.getElem?_take_of_lt hi, List.getElem?_drop, Nat.add_comm]

theorem mag_live_push (m : spl_kmem_magazine_t) (p : Nat) (h : m.skm_avail < m.skm_objs.length) :
    mag_live { m with skm_objs := m.skm_objs.set m.skm_avail p, skm_avail := m.skm_avail + 1 }
      = mag_live m ++ [p] := by
  simp only [mag_live]
  exact take_set_succ _ _ _ h

theorem mags_live_split (mags : List spl_kmem_magazine_t) (id : Nat) (m : spl_kmem_magazine_t)
    (h : mags[id]? = some m) :
    ∃ A B, mags = A ++ m :: B ∧ A.length = id ∧
      mags.flatMap mag_live = A.flatMap mag_live ++ mag_live m ++ B.flatMap mag_live ∧
      ∀ m1, (mags.set id m1).flatMap mag_live
        = A.flatMap mag_live ++ mag_live m1 ++ B.flatMap mag_live := by
  obtain ⟨A, B, rfl, rfl⟩ := list_split_at mags id m h
  refine ⟨A, B, rfl, rfl, by simp, ?_⟩
  intro m1
  rw [list_set_split]
  simp

theorem magok_shape (P : Platform) (c c2 : spl_kmem_cache_t) (held held2 : List Nat) (id : Nat)
    (m m1 : spl_kmem_magazine_t)
    (h : MagOK P c held) (hm : c.skc_mag[id]? = some m)
    (hmag : c2.skc_mag = c.skc_mag.set id m1) (hcfg : SameCfg c c2)
    (hsz : m1.skm_size = m.skm_size) (hrf : m1.skm_refill = m.skm_refill)
    (hlen : m1.skm_objs.length = m1.skm_size) (hav : m1.skm_avail ≤ m1.skm_size)
    (hnd : (mags_live c2 ++ held2).Nodup)
    (hin : ∀ p ∈ mags_live c2 ++ held2, p ∈ (in_use c2).map (fun o => o.sko_addr)) :
    MagOK P c2 held2 := by
  obtain ⟨h1, h2, h3, h4, h5, h6, h7, h8⟩ := hcfg
  have hmm : m ∈ c.skc_mag := List.mem_iff_getElem?.2 ⟨id, hm⟩
  constructor
  · rw [hmag, List.length_set]; exact h.ncpus
  · rw [h2, h.size_eq]; simp [spl_magazine_size, h1]
  · rw [h3, h2]; exact h.refill_eq
  · intro x hx
    rw [hmag] at hx
    rcases List.mem_or_eq_of_mem_set hx with hx | rfl
    · rw [h2, h3]; exact h.shape x hx
    · have := h.shape m hmm
      rw [h2, h3, hsz, hrf]
      exact ⟨this.1, this.2.1, by rw [hlen, hsz], by rw [← hsz]; exact hav⟩
  · exact hnd
  · exact hin

theorem core_with_mag (P : Platform) (c : spl_kmem_cache_t) (h : Core P c)
    (mags : List spl_kmem_magazine_t) : Core P { c with skc_mag := mags } :=
  ⟨h.ptrs, h.comp, h.sorted, h.free_len, h.objs_eq, h.free_owner, h.ref_hash, h.hash_owner,
    h.bodies, h.nonnull, h.chain_key, h.key_bound, h.count_hash, h.count_alloc, h.count_ref,
    h.total⟩

theorem nodup_take_drop (X Y H L : List Nat) (n : Nat) (h : (X ++ L ++ Y ++ H).Nodup) :
    (X ++ L.drop n ++ Y ++ H).Nodup ∧ ∀ p ∈ L.take n, p ∉ X ++ L.drop n ++ Y ++ H := by
  have hp : List.Perm (X ++ L ++ Y ++ H) (L.take n ++ (X ++ L.drop n ++ Y ++ H)) := by
    conv_lhs => rw [← List.take_append_drop n L]
    simp only [List.append_assoc]
    exact List.perm_append_comm_assoc _ _ _
  have h2 := (hp.nodup_iff).1 h
  rw [List.nodup_append] at h2
  exact ⟨h2.2.1, fun p hp1 hp2 => h2.2.2 hp1 hp2⟩

theorem spl_cache_flush_spec (P : Platform) (c : spl_kmem_cache_t) (held : List Nat)
    (id k j : Nat) (m : spl_kmem_magazine_t) (hinv : Inv P c held)
    (hm : c.skc_mag[id]? = some m) :
    ∃ c1, shrink_all P j (m.skm_objs.take (min k m.skm_avail)) c = some c1 ∧
      spl_cache_flush P c id k j
        = some (min k m.skm_avail, set_mag c1 id (mag_flushed m (min k m.skm_avail))) ∧
      Inv P (set_mag c1 id (mag_flushed m (min k m.skm_avail))) held ∧
      c1.skc_mag = c.skc_mag ∧ SameCfg c c1 ∧
      c1.skc_obj_alloc + min k m.skm_avail = c.skc_obj_alloc ∧
      c1.skc_hash_count + min k m.skm_avail = c.skc_hash_count ∧
      c1.skc_slab_total = c.skc_slab_total ∧ c1.skc_obj_total = c.skc_obj_total ∧
      c1.skc_events = c.skc_events ∧
      List.Perm ((in_use c).map (fun o => o.sko_addr))
        (m.skm_objs.take (min k m.skm_avail) ++ (in_use c1).map (fun o => o.sko_addr)) := by
  obtain ⟨hcore, hpart, hmags⟩ := hinv
  have hmm : m ∈ c.skc_mag := List.mem_iff_getElem?.2 ⟨id, hm⟩
  obtain ⟨hsz, hrf, hlen, hav⟩ := hmags.shape m hmm
  obtain ⟨A, B, hAB, hA, hlive, hset⟩ := mags_live_split c.skc_mag id m hm
  have hcnt : min k m.skm_avail ≤ m.skm_avail := Nat.min_le_right _ _
  have hxs : m.skm_objs.take (min k m.skm_avail) = (mag_live m).take (min k m.skm_avail) := by
    simp only [mag_live, List.take_take]
    rw [Nat.min_eq_left hcnt]
  have hnd := hmags.nodup
  simp only [mags_live, hlive] at hnd
  obtain ⟨hnd1, hdisj⟩ := nodup_take_drop _ _ held (mag_live m) (min k m.skm_avail) hnd
  have hsub : ∀ p ∈ (mag_live m).take (min k m.skm_avail), p ∈ mags_live c ++ held := by
    intro p hp
    simp only [mags_live, hlive, List.mem_append]
    exact Or.inl (Or.inl (Or.inr (List.mem_of_mem_take hp)))
  obtain ⟨c1, h1, hc1, hp1, hm1, hcfg, hperm, hoa, hhc, hst, hot, hev⟩ :=
    shrink_all_spec P j (m.skm_objs.take (min k m.skm_avail)) c hcore hpart
      (by
        rw [hxs]
        have : ((mag_live m).take (min k m.skm_avail)).Sublist (mags_live c ++ held) := by
          simp only [mags_live, hlive]
          refine List.Sublist.trans (List.take_sublist _ _) ?_
          refine List.Sublist.trans ?_ (List.sublist_append_left _ _)
          refine List.Sublist.trans ?_ (List.sublist_append_left _ _)
          exact List.sublist_append_right _ _
        exact hmags.nodup.sublist this)
      (by
        intro x hx
        rw [hxs] at hx
        exact hmags.in_hash x (hsub x hx))
  have hlen1 : (min k m.skm_avail) ≤ m.skm_objs.length := by omega
  have hloop := flush_loop_eq P id j m (min k m.skm_avail) 0 c hm (by omega)
  simp only [List.drop_zero] at hloop
  have hm1' : c1.skc_mag[id]? = some m := by rw [hm1]; exact hm
  have hl : mag_live (mag_flushed m (min k m.skm_avail)) =
      (mag_live m).drop (min k m.skm_avail) := by
    simp only [mag_live, mag_flushed]
    exact memmove_down_take _ _ _ (by omega)
  have hlen_take : (m.skm_objs.take (min k m.skm_avail)).length = min k m.skm_avail := by
    rw [List.length_take]; omega
  rw [hlen_take] at hoa hhc
  refine ⟨c1, h1, ?_, ⟨core_with_mag P c1 hc1 _, hp1, ?_⟩, hm1, hcfg, hoa, hhc, hst, hot, hev,
    hperm⟩
  · simp only [spl_cache_flush, hm, hloop, h1, hm1', set_mag, mag_flushed]
  · refine magok_shape P c _ held held id m (mag_flushed m (min k m.skm_avail)) hmags hm
      (by simp only [set_mag, hm1]) hcfg rfl rfl ?_ ?_ ?_ ?_
    · simp only [mag_flushed]
      rw [memmove_down_length _ _ _ (by omega)]; exact hlen
    · simp only [mag_flushed]; omega
    · simp only [mags_live, set_mag, hm1, hset, hl]
      exact hnd1
    · intro p hp
      simp only [mags_live, set_mag, hm1, hset, hl] at hp
      have hp0 : p ∈ mags_live c ++ held := by
        simp only [mags_live, hlive, List.mem_append] at hp ⊢
        rcases hp with ((hp | hp) | hp) | hp
        · exact Or.inl (Or.inl (Or.inl hp))
        · exact Or.inl (Or.inl (Or.inr (List.mem_of_mem_drop hp)))
        · exact Or.inl (Or.inr hp)
        · exact Or.inr hp
      have hb := hperm.subset (hmags.in_hash p hp0)
      simp only [List.mem_append] at hb
      rcases hb with hb | hb
      · rw [hxs] at hb
        exact absurd hp (hdisj p hb)
      · exact hb

/-! ## Relinking slabs -/

theorem core_perm (P : Platform) (c c1 : spl_kmem_cache_t) (hc : Core P c)
    (hs : List.Perm (slabs c1) (slabs c))
    (hhash : c1.skc_hash = c.skc_hash) (hbits : c1.skc_hash_bits = c.skc_hash_bits)
    (hcount : c1.skc_hash_count = c.skc_hash_count)
    (halloc : c1.skc_obj_alloc = c.skc_obj_alloc)
    (hcomp : ∀ s ∈ c1.skc_complete_list, s.sks_ref = s.sks_objs)
    (hsorted : c1.skc_partial_list.Pairwise (fun a b => a.sks_ref = 0 → b.sks_ref = 0))
    (htotal : c1.skc_slab_total = c1.skc_partial_list.length + c1.skc_complete_list.length) :
    Core P c1 := by
  have hu : in_use c1 = in_use c := by simp only [in_use, hhash]
  have hall : List.Perm (all_objs c1) (all_objs c) := by
    simp only [all_objs, free_objs, hu]
    exact (hs.flatMap_right _).append_right _
  constructor
  · exact ((hs.map _).nodup_iff).2 hc.ptrs
  · exact hcomp
  · exact hsorted
  · exact fun s h => hc.free_len s (hs.subset h)
  · exact fun s h => hc.objs_eq s (hs.subset h)
  · exact fun s h => hc.free_owner s (hs.subset h)
  · intro s h; rw [hu]; exact hc.ref_hash s (hs.subset h)
  · intro o ho
    rw [hu] at ho
    exact ((hs.map (fun s => s.sks_ptr)).mem_iff).2 (hc.hash_owner o ho)
  · exact ((hall.map _).nodup_iff).2 hc.bodies
  · exact fun o ho => hc.nonnull o (hall.subset ho)
  · rw [hhash, hbits]; exact hc.chain_key
  · rw [hhash, hbits]; exact hc.key_bound
  · rw [hcount, hu]; exact hc.count_hash
  · rw [halloc, hcount]; exact hc.count_alloc
  · rw [(hs.map (fun s => s.sks_ref)).sum_eq, hcount]; exact hc.count_ref
  · exact htotal

/-- Removing a slab without objects in use keeps the invariant. -/
theorem core_remove (P : Platform) (c c1 : spl_kmem_cache_t) (s : spl_kmem_slab_t)
    (hc : Core P c)
    (hs : List.Perm (slabs c) (s :: slabs c1)) (hs0 : s.sks_ref = 0)
    (hhash : c1.skc_hash = c.skc_hash) (hbits : c1.skc_hash_bits = c.skc_hash_bits)
    (hcount : c1.skc_hash_count = c.skc_hash_count)
    (halloc : c1.skc_obj_alloc = c.skc_obj_alloc)
    (hcomp : ∀ s ∈ c1.skc_complete_list, s.sks_ref = s.sks_objs)
    (hsorted : c1.skc_partial_list.Pairwise (fun a b => a.sks_ref = 0 → b.sks_ref = 0))
    (htotal : c1.skc_slab_total = c1.skc_partial_list.length + c1.skc_complete_list.length) :
    Core P c1 := by
  have hu : in_use c1 = in_use c := by simp only [in_use, hhash]
  have hsub : ∀ x ∈ slabs c1, x ∈ slabs c := fun x h =>
    hs.symm.subset (List.mem_cons_of_mem _ h)
  have hsm : s ∈ slabs c := hs.symm.subset (List.mem_cons_self _ _)
  have hall : List.Sublist (all_objs c1) (s.sks_free_list ++ all_objs c1) :=
    List.sublist_append_right _ _
  have hall2 : List.Perm (all_objs c) (s.sks_free_list ++ all_objs c1) := by
    simp only [all_objs, free_objs, hu]
    have := hs.flatMap_right (fun s => s.sks_free_list)
    simp only [List.flatMap_cons] at this
    simpa using this.append_right (in_use c)
  constructor
  · have := ((hs.map (fun s => s.sks_ptr)).nodup_iff).1 hc.ptrs
    simp only [List.map_cons, List.nodup_cons] at this
    exact this.2
  · exact hcomp
  · exact hsorted
  · exact fun x h => hc.free_len x (hsub x h)
  · exact fun x h => hc.objs_eq x (hsub x h)
  · exact fun x h => hc.free_owner x (hsub x h)
  · intro x h; rw [hu]; exact hc.ref_hash x (hsub x h)
  · intro o ho
    rw [hu] at ho
    have h1 := ((hs.map (fun s => s.sks_ptr)).mem_iff).1 (hc.hash_owner o ho)
    simp only [List.map_cons, List.mem_cons] at h1
    rcases h1 with h1 | h1
    · have h2 := hc.ref_hash s hsm
      rw [hs0] at h2
      have : 0 < (in_use c).countP (fun o => decide (o.sko_slab = s.sks_ptr)) :=
        List.countP_pos_iff.2 ⟨o, ho, by simp [h1]⟩
      omega
    · exact h1
  · have := ((hall2.map (fun o => o.sko_addr)).nodup_iff).1 hc.bodies
    exact this.sublist (hall.map _)
  · exact fun o ho => hc.nonnull o (hall2.symm.subset (hall.subset ho))
  · rw [hhash, hbits]; exact hc.chain_key
  · rw [hhash, hbits]; exact hc.key_bound
  · rw [hcount, hu]; exact hc.count_hash
  · rw [halloc, hcount]; exact hc.count_alloc
  · have := hc.count_ref
    rw [(hs.map (fun s => s.sks_ref)).sum_eq] at this
    simp only [List.map_cons, List.sum_cons, hs0, Nat.zero_add] at this
    rw [hcount]; exact this
  · exact htotal

/-- Linking a fresh slab at the tail of the partial list keeps the invariant. -/
theorem core_grow (P : Platform) (c : spl_kmem_cache_t) (sks : spl_kmem_slab_t)
    (hc : Core P c) (hfresh : FreshSlab c sks)
    (href : sks.sks_ref = 0) (hobjs : sks.sks_objs = P.SPL_KMEM_CACHE_OBJ_PER_SLAB)
    (hlen : sks.sks_free_list.length = sks.sks_objs)
    (hown : ∀ o ∈ sks.sks_free_list, o.sko_slab = sks.sks_ptr)
    (hnn : ∀ o ∈ sks.sks_free_list, o.sko_addr ≠ 0) (ev : List Event) :
    Core P { c with
      skc_slab_total := c.skc_slab_total + 1
      skc_obj_total := c.skc_obj_total + sks.sks_objs
      skc_partial_list := c.skc_partial_list ++ [sks]
      skc_events := c.skc_events ++ ev } := by
  obtain ⟨hf1, hf2, hf3⟩ := hfresh
  have hs : List.Perm (slabs { c with
      skc_slab_total := c.skc_slab_total + 1
      skc_obj_total := c.skc_obj_total + sks.sks_objs
      skc_partial_list := c.skc_partial_list ++ [sks]
      skc_events := c.skc_events ++ ev }) (sks :: slabs c) := by
    simp only [slabs, List.append_assoc, List.singleton_append]
    exact List.perm_middle
  have hmem := fun x (h : x ∈ slabs _) => (List.mem_cons.1 (hs.subset h))
  constructor
  · refine ((hs.map (fun s => s.sks_ptr)).nodup_iff).2 ?_
    simp only [List.map_cons, List.nodup_cons]
    exact ⟨hf1, hc.ptrs⟩
  · exact hc.comp
  · simp only [List.pairwise_append]
    refine ⟨hc.sorted, List.pairwise_singleton _ _, ?_⟩
    intro a _ b hb _
    simp only [List.mem_singleton] at hb
    subst hb; exact href
  · intro x h
    rcases hmem x h with rfl | h
    · omega
    · exact hc.free_len x h
  · intro x h
    rcases hmem x h with rfl | h
    · exact hobjs
    · exact hc.objs_eq x h
  · intro x h
    rcases hmem x h with rfl | h
    · exact hown
    · exact hc.free_owner x h
  · intro x h
    rcases hmem x h with rfl | h
    · rw [href]
      simp only [in_use]
      rw [List.countP_eq_zero]
      intro o ho hh
      simp only [decide_eq_true_eq] at hh
      have := hc.hash_owner o ho
      rw [hh] at this
      exact hf1 this
    · exact hc.ref_hash x h
  · intro o ho
    have := hc.hash_owner o ho
    exact ((hs.map (fun s => s.sks_ptr)).mem_iff).2 (List.mem_cons_of_mem _ this)
  · have hall : List.Perm (all_objs { c with
        skc_slab_total := c.skc_slab_total + 1
        skc_obj_total := c.skc_obj_total + sks.sks_objs
        skc_partial_list := c.skc_partial_list ++ [sks]
        skc_events := c.skc_events ++ ev }) (sks.sks_free_list ++ all_objs c) := by
      simp only [all_objs, free_objs]
      have := hs.flatMap_right (fun s => s.sks_free_list)
      simp only [List.flatMap_cons] at this
      simpa using this.append_right (in_use c)
    refine ((hall.map (fun o => o.sko_addr)).nodup_iff).2 ?_
    rw [List.map_append, List.nodup_append]
    refine ⟨hf2, hc.bodies, ?_⟩
    intro a ha hb
    simp only [List.mem_map] at ha
    obtain ⟨o, ho, rfl⟩ := ha
    exact hf3 o ho hb
  · intro o ho
    have hall : List.Perm (all_objs { c with
        skc_slab_total := c.skc_slab_total + 1
        skc_obj_total := c.skc_obj_total + sks.sks_objs
        skc_partial_list := c.skc_partial_list ++ [sks]
        skc_events := c.skc_events ++ ev }) (sks.sks_free_list ++ all_objs c) := by
      simp only [all_objs, free_objs]
      have := hs.flatMap_right (fun s => s.sks_free_list)
      simp only [List.flatMap_cons] at this
      simpa using this.append_right (in_use c)
    have := hall.subset ho
    simp only [List.mem_append] at this
    rcases this with h | h
    · exact hnn o h
    · exact hc.nonnull o h
  · exact hc.chain_key
  · exact hc.key_bound
  · exact hc.count_hash
  · exact hc.count_alloc
  · have := hc.count_ref
    rw [(hs.map (fun s => s.sks_ref)).sum_eq]
    simp only [List.map_cons, List.sum_cons, href, Nat.zero_add]
    exact this
  · have := hc.total
    simp only [List.length_append, List.length_singleton]
    omega

/-! ## Slab construction -/

theorem spl_slab_alloc_kmem_loop_wf (skc : spl_kmem_cache_t) (n : Nat) (sks : spl_kmem_slab_t)
    (heap : Heap) (ev : List Event) :
    (spl_slab_alloc_kmem_loop skc n sks heap ev).2.1.sks_ptr = sks.sks_ptr ∧
    (spl_slab_alloc_kmem_loop skc n sks heap ev).2.1.sks_objs = sks.sks_objs ∧
    (spl_slab_alloc_kmem_loop skc n sks heap ev).2.1.sks_ref = sks.sks_ref ∧
    (∀ o ∈ (spl_slab_alloc_kmem_loop skc n sks heap ev).2.1.sks_free_list,
      o ∈ sks.sks_free_list ∨ (o.sko_slab = sks.sks_ptr ∧ o.sko_addr ≠ 0)) ∧
    ((spl_slab_alloc_kmem_loop skc n sks heap ev).1 = 0 →
      (spl_slab_alloc_kmem_loop skc n sks heap ev).2.1.sks_free_list.length
        = sks.sks_free_list.length + n) := by
  induction n generalizing sks heap ev with
  | zero => exact ⟨rfl, rfl, rfl, fun o ho => Or.inl ho, fun _ => rfl⟩
  | succ n ih =>
    simp only [spl_slab_alloc_kmem_loop]
    split
    · exact ⟨rfl, rfl, rfl, fun o ho => Or.inl ho, by simp [ENOMEM]⟩
    · split
      · exact ⟨rfl, rfl, rfl, fun o ho => Or.inl ho, by simp [ENOMEM]⟩
      · rename_i h1 h2
        obtain ⟨a1, a2, a3, a4, a5⟩ := ih
          { sks with sks_free_list :=
              { sko_ptr := (heap_next heap).1, sko_addr := (heap_next (heap_next heap).2).1,
                sko_slab := sks.sks_ptr } :: sks.sks_free_list }
          (heap_next (heap_next heap).2).2
          (ev ++ [Event.obj_cache_alloc (heap_next heap).1,
            Event.kmem_alloc skc.skc_obj_size (heap_next (heap_next heap).2).1])
        refine ⟨a1, a2, a3, ?_, ?_⟩
        · intro o ho
          rcases a4 o ho with h | h
          · simp only [List.mem_cons] at h
            rcases h with rfl | h
            · exact Or.inr ⟨rfl, h2⟩
            · exact Or.inl h
          · exact Or.inr h
        · intro h
          rw [a5 h]
          simp only [List.length_cons]; omega

theorem spl_slab_alloc_vmem_loop_wf (P : Platform) (skc : spl_kmem_cache_t)
    (sko_base obj_base : Nat) (hb : obj_base ≠ 0) (n i : Nat) (sks : spl_kmem_slab_t) :
    (spl_slab_alloc_vmem_loop P skc sko_base obj_base n i sks).sks_ptr = sks.sks_ptr ∧
    (spl_slab_alloc_vmem_loop P skc sko_base obj_base n i sks).sks_objs = sks.sks_objs ∧
    (spl_slab_alloc_vmem_loop P skc sko_base obj_base n i sks).sks_ref = sks.sks_ref ∧
    (∀ o ∈ (spl_slab_alloc_vmem_loop P skc sko_base obj_base n i sks).sks_free_list,
      o ∈ sks.sks_free_list ∨ (o.sko_slab = sks.sks_ptr ∧ o.sko_addr ≠ 0)) ∧
    (spl_slab_alloc_vmem_loop P skc sko_base obj_base n i sks).sks_free_list.length
        = sks.sks_free_list.length + n := by
  induction n generalizing i sks with
  | zero => exact ⟨rfl, rfl, rfl, fun o ho => Or.inl ho, rfl⟩
  | succ n ih =>
    simp only [spl_slab_alloc_vmem_loop]
    obtain ⟨a1, a2, a3, a4, a5⟩ := ih (i + 1)
      { sks with sks_free_list := sks.sks_free_list ++
          [{ sko_ptr := sko_base + P.SIZEOF_OBJ * i
             sko_addr := obj_base + skc.skc_obj_size * i
             sko_slab := sks.sks_ptr }] }
    refine ⟨a1, a2, a3, ?_, ?_⟩
    · intro o ho
      rcases a4 o ho with h | h
      · simp only [List.mem_append, List.mem_singleton] at h
        rcases h with h | rfl
        · exact Or.inl h
        · exact Or.inr ⟨rfl, by simp only; omega⟩
      · exact Or.inr h
    · rw [a5]
      simp only [List.length_append, List.length_singleton]; omega

/-- What `spl_slab_alloc` hands over when it succeeds: a slab without objects
in use whose free list holds all its cells. -/
theorem spl_slab_alloc_wf (P : Platform) (skc : spl_kmem_cache_t) (j : Nat) (heap : Heap)
    (sks : spl_kmem_slab_t) (ev : List Event)
    (h : spl_slab_alloc P skc j heap = (some sks, ev)) :
    sks.sks_ref = 0 ∧ sks.sks_objs = P.SPL_KMEM_CACHE_OBJ_PER_SLAB ∧
    sks.sks_free_list.length = sks.sks_objs ∧
    (∀ o ∈ sks.sks_free_list, o.sko_slab = sks.sks_ptr) ∧
    (∀ o ∈ sks.sks_free_list, o.sko_addr ≠ 0) := by
  simp only [spl_slab_alloc] at h
  split at h
  · split at h
    · simp at h
    · rename_i hptr
      simp only [spl_slab_alloc_kmem] at h
      have hw := spl_slab_alloc_kmem_loop_wf skc (spl_slab_init P (heap_next heap).1 j).sks_objs
        (spl_slab_init P (heap_next heap).1 j) (heap_next heap).2 []
      generalize spl_slab_alloc_kmem_loop skc (spl_slab_init P (heap_next heap).1 j).sks_objs
        (spl_slab_init P (heap_next heap).1 j) (heap_next heap).2 [] = r at h hw
      obtain ⟨rc, s1, e1⟩ := r
      simp only at h hw
      by_cases hrc : rc = 0
      · simp only [hrc, ne_eq, not_true_eq_false, if_false, Prod.mk.injEq,
          Option.some.injEq] at h
        obtain ⟨rfl, _⟩ := h
        obtain ⟨a1, a2, a3, a4, a5⟩ := hw
        refine ⟨a3, a2, by rw [a5 hrc, a2]; simp [spl_slab_init], ?_, ?_⟩
        · intro o ho
          rcases a4 o ho with h | h
          · simp [spl_slab_init] at h
          · rw [a1]; exact h.1
        · intro o ho
          rcases a4 o ho with h | h
          · simp [spl_slab_init] at h
          · exact h.2
      · simp [hrc] at h
  · simp only [spl_slab_alloc_vmem] at h
    split at h
    · simp at h
    · rename_i s1 e1 h0
      split at h0
      · simp at h0
      · rename_i hslab
        simp only [Prod.mk.injEq, Option.some.injEq] at h0 h
        obtain ⟨rfl, _⟩ := h
        obtain ⟨rfl, _⟩ := h0
        have hw := spl_slab_alloc_vmem_loop_wf P skc ((heap_next heap).1 + P.SIZEOF_SLAB)
          ((heap_next heap).1 + P.SIZEOF_SLAB +
            P.SIZEOF_OBJ * (spl_slab_init P (heap_next heap).1 j).sks_objs)
          (by omega) (spl_slab_init P (heap_next heap).1 j).sks_objs 0
          (spl_slab_init P (heap_next heap).1 j)
        obtain ⟨a1, a2, a3, a4, a5⟩ := hw
        refine ⟨a3, a2, by rw [a5, a2]; simp [spl_slab_init], ?_, ?_⟩
        · intro o ho
          rcases a4 o ho with h | h
          · simp [spl_slab_init] at h
          · rw [a1]; exact h.1
        · intro o ho
          rcases a4 o ho with h | h
          · simp [spl_slab_init] at h
          · exact h.2

theorem magok_frame (P : Platform) (c c1 : spl_kmem_cache_t) (held : List Nat)
    (h : MagOK P c held) (hmag : c1.skc_mag = c.skc_mag) (hcfg : SameCfg c c1)
    (hin : ∀ p ∈ (in_use c).map (fun o => o.sko_addr),
      p ∈ (in_use c1).map (fun o => o.sko_addr)) :
    MagOK P c1 held := by
  obtain ⟨h1, h2, h3, h4, h5, h6, h7, h8⟩ := hcfg
  have hl : mags_live c1 = mags_live c := by simp only [mags_live, hmag]
  constructor
  · rw [hmag]; exact h.ncpus
  · rw [h2, h.size_eq]; simp [spl_magazine_size, h1]
  · rw [h3, h2]; exact h.refill_eq
  · rw [hmag, h2, h3]; exact h.shape
  · rw [hl]; exact h.nodup
  · rw [hl]; exact fun p hp => hin p (h.in_hash p hp)

theorem spl_cache_grow_spec (P : Platform) (env : Env) (c c1 : spl_kmem_cache_t)
    (flags : km_flags) (j : Nat) (held : List Nat) (r : Option Nat)
    (hP : P.ok) (hinv : Inv P c held) (henv : EnvFresh P env)
    (h : spl_cache_grow P env c flags j = (r, c1)) :
    Inv P c1 held ∧ c1.skc_mag = c.skc_mag ∧ SameCfg c c1 ∧ c1.skc_hash = c.skc_hash ∧
    c1.skc_obj_alloc = c.skc_obj_alloc ∧ c1.skc_hash_count = c.skc_hash_count ∧
    c1.skc_complete_list = c.skc_complete_list ∧
    (r = none → c1.skc_partial_list = c.skc_partial_list ∧
      c1.skc_slab_total = c.skc_slab_total) ∧
    (∀ ptr, r = some ptr → ∃ sks, c1.skc_partial_list = c.skc_partial_list ++ [sks] ∧
      sks.sks_ptr = ptr ∧ sks.sks_ref = 0 ∧ sks.sks_objs = P.SPL_KMEM_CACHE_OBJ_PER_SLAB ∧
      c1.skc_slab_total = c.skc_slab_total + 1) := by
  obtain ⟨hcore, hpart, hmags⟩ := hinv
  simp only [spl_cache_grow] at h
  split at h
  · simp only [Prod.mk.injEq] at h
    obtain ⟨rfl, rfl⟩ := h
    refine ⟨⟨?_, hpart, ?_⟩, rfl, by simp [SameCfg], rfl, rfl, rfl, rfl, fun _ => ⟨rfl, rfl⟩,
      fun ptr h => by simp at h⟩
    · exact core_perm P c _ hcore (List.Perm.refl _) rfl rfl rfl rfl hcore.comp hcore.sorted
        hcore.total
    · exact magok_frame P c _ held hmags rfl (by simp [SameCfg]) (fun p hp => hp)
  · rename_i sks ev halloc
    simp only [Prod.mk.injEq] at h
    obtain ⟨rfl, rfl⟩ := h
    obtain ⟨w1, w2, w3, w4, w5⟩ := spl_slab_alloc_wf P c j _ sks ev halloc
    have hfresh := henv c j sks ev halloc
    refine ⟨⟨core_grow P c sks hcore hfresh w1 w2 w3 w4 w5 ev, ?_, ?_⟩, rfl, by simp [SameCfg],
      rfl, rfl, rfl, rfl, fun h => by simp at h, ?_⟩
    · intro s hs
      simp only [List.mem_append, List.mem_singleton] at hs
      rcases hs with hs | rfl
      · exact hpart s hs
      · rw [w1, w2]; exact hP.objs_pos
    · exact magok_frame P c _ held hmags rfl (by simp [SameCfg]) (fun p hp => hp)
    · intro ptr hptr
      simp only [Option.some.injEq] at hptr
      exact ⟨sks, rfl, hptr, w1, w2, rfl⟩

/-! ## Slab teardown -/

theorem spl_slab_free_spec (P : Platform) (c : spl_kmem_cache_t) (held : List Nat)
    (s : spl_kmem_slab_t) (hinv : Inv P c held) (hs : s ∈ c.skc_partial_list)
    (h0 : s.sks_ref = 0) :
    ∃ c1, spl_slab_free P c s.sks_ptr = some c1 ∧ Inv P c1 held ∧
      c1.skc_partial_list = list_del s.sks_ptr c.skc_partial_list ∧
      (∀ x ∈ c.skc_partial_list, x.sks_ptr ≠ s.sks_ptr → x ∈ c1.skc_partial_list) ∧
      (∀ x ∈ c1.skc_partial_list, x ∈ c.skc_partial_list) ∧
      c1.skc_complete_list = c.skc_complete_list ∧
      c1.skc_mag = c.skc_mag ∧ SameCfg c c1 ∧ c1.skc_hash = c.skc_hash ∧
      c1.skc_obj_alloc = c.skc_obj_alloc ∧ c1.skc_hash_count = c.skc_hash_count ∧
      c1.skc_slab_total + 1 = c.skc_slab_total := by
  obtain ⟨hcore, hpart, hmags⟩ := hinv
  obtain ⟨A, B, hAB⟩ := List.append_of_mem hs
  have hnd := hcore.ptrs
  simp only [slabs, hAB] at hnd
  obtain ⟨hA, hB, hC⟩ := nodup_split_ptr A B _ s hnd
  have hderef : slab_deref c s.sks_ptr = some s := by
    simp only [slab_deref, hAB, slab_find_split A B s hA]
  have hdel : list_del s.sks_ptr c.skc_partial_list = A ++ B := by
    rw [hAB]; exact list_del_split A B s hA hB
  have hdel2 := list_del_notin s.sks_ptr c.skc_complete_list hC
  have htot := hcore.total
  have hsorted := hcore.sorted
  rw [hAB] at htot hsorted
  simp only [List.length_append, List.length_cons] at htot
  cases hres : spl_slab_free P c s.sks_ptr with
  | none => simp [spl_slab_free, hderef, h0] at hres
  | some c1 =>
  simp only [spl_slab_free, hderef, h0, ne_eq, not_true_eq_false, if_false,
    Option.some.injEq] at hres
  subst hres
  refine ⟨_, rfl, ⟨?_, ?_, ?_⟩, rfl, ?_, ?_, hdel2, rfl, by simp [SameCfg], rfl, rfl, rfl, ?_⟩
  · refine core_remove P c _ s hcore ?_ h0 rfl rfl rfl rfl ?_ ?_ ?_
    · simp only [slabs, hdel, hdel2]
      rw [hAB]
      simp only [List.append_assoc, List.cons_append]
      exact List.perm_middle
    · simp only [hdel2]; exact hcore.comp
    · simp only [hdel]
      exact hsorted.sublist
        (List.Sublist.append (List.Sublist.refl _) (List.sublist_cons_self _ _))
    · simp only [hdel, hdel2, List.length_append]; omega
  · intro x hx
    simp only [hdel] at hx
    apply hpart
    rw [hAB]
    simp only [List.mem_append, List.mem_cons] at hx ⊢
    tauto
  · refine magok_frame P c _ held hmags rfl (by simp [SameCfg]) (fun p hp => hp)
  · intro x hx hne
    simp only [list_del, List.mem_filter]
    exact ⟨hx, by simpa using hne⟩
  · intro x hx
    simp only [list_del, List.mem_filter] at hx
    exact hx.1
  · simp only; omega

theorem spl_slab_reclaim_loop_spec (P : Platform) (j : Nat) (l : List spl_kmem_slab_t)
    (rc : Nat) (c : spl_kmem_cache_t) (held : List Nat) (hinv : Inv P c held)
    (hl : ∀ s ∈ l, s ∈ c.skc_partial_list) (hnd : (l.map (fun s => s.sks_ptr)).Nodup) :
    ∃ rc1 c1, spl_slab_reclaim_loop P j l rc c = some (rc1, c1) ∧ Inv P c1 held ∧
      c1.skc_mag = c.skc_mag ∧ SameCfg c c1 ∧ c1.skc_hash = c.skc_hash ∧
      c1.skc_obj_alloc = c.skc_obj_alloc ∧ c1.skc_hash_count = c.skc_hash_count ∧
      c1.skc_complete_list = c.skc_complete_list ∧
      c1.skc_slab_total + (rc1 - rc) = c.skc_slab_total ∧ rc ≤ rc1 := by
  induction l generalizing rc c with
  | nil =>
    exact ⟨rc, c, rfl, hinv, rfl, SameCfg.refl c, rfl, rfl, rfl, rfl, by omega, Nat.le_refl _⟩
  | cons s l ih =>
    simp only [spl_slab_reclaim_loop]
    by_cases hr : s.sks_ref > 0
    · simp only [hr, if_true]
      exact ⟨rc, c, rfl, hinv, rfl, SameCfg.refl c, rfl, rfl, rfl, rfl, by omega, Nat.le_refl _⟩
    · simp only [hr, if_false]
      simp only [List.map_cons, List.nodup_cons] at hnd
      split
      · obtain ⟨c1, h1, hinv1, hp1, hk1, _, hcl1, hm1, hcfg1, hh1, ha1, hc1, ht1⟩ :=
          spl_slab_free_spec P c held s hinv (hl s (List.mem_cons_self _ _)) (by omega)
        simp only [h1]
        obtain ⟨rc2, c2, h2, hinv2, hm2, hcfg2, hh2, ha2, hc2, hcl2, ht2, hle⟩ :=
          ih (rc + 1) c1 hinv1
            (by
              intro x hx
              apply hk1 x (hl x (List.mem_cons_of_mem _ hx))
              intro he
              exact hnd.1 (by rw [← he]; exact List.mem_map_of_mem _ hx))
            hnd.2
        exact ⟨rc2, c2, h2, hinv2, hm2.trans hm1, hcfg1.trans hcfg2, hh2.trans hh1,
          ha2.trans ha1, hc2.trans hc1, hcl2.trans hcl1, by omega, by omega⟩
      · exact ih rc c hinv (fun x hx => hl x (List.mem_cons_of_mem _ hx)) hnd.2

theorem spl_slab_reclaim_spec (P : Platform) (j : Nat) (c : spl_kmem_cache_t) (held : List Nat)
    (hinv : Inv P c held) :
    ∃ rc1 c1, __spl_slab_reclaim P c j = some (rc1, c1) ∧ Inv P c1 held ∧
      c1.skc_mag = c.skc_mag ∧ SameCfg c c1 ∧ c1.skc_hash = c.skc_hash ∧
      c1.skc_obj_alloc = c.skc_obj_alloc ∧ c1.skc_hash_count = c.skc_hash_count ∧
      c1.skc_complete_list = c.skc_complete_list ∧
      c1.skc_slab_total + rc1 = c.skc_slab_total := by
  have hnd : (c.skc_partial_list.reverse.map (fun s => s.sks_ptr)).Nodup := by
    have := hinv.core.ptrs
    simp only [slabs, List.map_append] at this
    rw [List.map_reverse, List.nodup_reverse]
    exact (List.nodup_append.1 this).1
  obtain ⟨rc1, c1, h1, hinv1, a1, a2, a3, a4, a5, a6, a7, _⟩ :=
    spl_slab_reclaim_loop_spec P j c.skc_partial_list.reverse 0 c held hinv
      (fun s hs => List.mem_reverse.1 hs) hnd
  exact ⟨rc1, c1, h1, hinv1, a1, a2, a3, a4, a5, a6, by omega⟩

/-! ## `spl_cache_refill` -/

theorem free_not_in_use (P : Platform) (c : spl_kmem_cache_t) (hc : Core P c)
    (s : spl_kmem_slab_t) (hs : s ∈ slabs c) (o : spl_kmem_obj_t) (ho : o ∈ s.sks_free_list) :
    o.sko_addr ∉ (in_use c).map (fun o => o.sko_addr) := by
  have h := hc.bodies
  simp only [all_objs, List.map_append] at h
  have hd := (List.nodup_append.1 h).2.2
  intro hin
  refine hd ?_ hin
  simp only [free_objs, List.mem_map, List.mem_flatMap]
  exact ⟨o, ⟨s, hs, ho⟩, rfl⟩

theorem spl_cache_refill_inner_spec (P : Platform) (id j : Nat) (refill : Nat) :
    ∀ (rc : Nat) (c : spl_kmem_cache_t) (held : List Nat) (sks : spl_kmem_slab_t)
      (rest : List spl_kmem_slab_t) (m : spl_kmem_magazine_t),
      Core P c → MagOK P c held → c.skc_partial_list = sks :: rest →
      c.skc_mag[id]? = some m → m.skm_avail + refill ≤ m.skm_size →
      rc + refill < m.skm_size →
      ∃ c1 sks1 m1,
        spl_cache_refill_inner P id sks.sks_ptr j refill rc c
          = some (refill - min refill (sks.sks_objs - sks.sks_ref),
                  rc + min refill (sks.sks_objs - sks.sks_ref), c1) ∧
        Core P c1 ∧ MagOK P c1 held ∧ c1.skc_partial_list = sks1 :: rest ∧
        sks1.sks_ptr = sks.sks_ptr ∧ sks1.sks_objs = sks.sks_objs ∧
        sks1.sks_ref = sks.sks_ref + min refill (sks.sks_objs - sks.sks_ref) ∧
        c1.skc_complete_list = c.skc_complete_list ∧
        c1.skc_mag[id]? = some m1 ∧
        m1.skm_avail = m.skm_avail + min refill (sks.sks_objs - sks.sks_ref) ∧
        m1.skm_size = m.skm_size ∧ m1.skm_refill = m.skm_refill ∧
        c1.skc_obj_alloc = c.skc_obj_alloc + min refill (sks.sks_objs - sks.sks_ref) ∧
        c1.skc_slab_total = c.skc_slab_total ∧ SameCfg c c1 := by
  induction refill with
  | zero =>
    intro rc c held sks rest m hcore hmags hp hm _ _
    have hderef : slab_deref c sks.sks_ptr = some sks := by
      simp [slab_deref, hp, slab_find]
    exact ⟨c, sks, m, by simp [spl_cache_refill_inner, hderef], hcore, hmags, hp, rfl, rfl,
      by simp, rfl, hm, by simp, rfl, rfl, by simp, rfl, SameCfg.refl c⟩
  | succ r ih =>
    intro rc c held sks rest m hcore hmags hp hm hroom hrc
    have hderef : slab_deref c sks.sks_ptr = some sks := by
      simp [slab_deref, hp, slab_find]
    have hsm : sks ∈ slabs c := by simp [slabs, hp]
    have hlen := hcore.free_len sks hsm
    by_cases hlt : sks.sks_ref < sks.sks_objs
    · obtain ⟨sko, frest, chain, om, sa, sm, hfl, hch, hobj⟩ :=
        spl_cache_obj_shape P c sks rest j hcore hp hlt
      have hcore1 := core_obj P c sks rest sko frest chain j om sa sm hcore hp hfl hch
      have hperm := flatten_set_cons c.skc_hash _ chain sko hch
      have hmm : m ∈ c.skc_mag := List.mem_iff_getElem?.2 ⟨id, hm⟩
      obtain ⟨hsz, hrf, hlenm, hav⟩ := hmags.shape m hmm
      have hidlt : id < c.skc_mag.length := by
        obtain ⟨h, _⟩ := List.getElem?_eq_some.1 hm
        exact h
      have hnew : sko.sko_addr ∉ (in_use c).map (fun o => o.sko_addr) :=
        free_not_in_use P c hcore sks hsm sko (by simp [hfl])
      obtain ⟨A, B, hAB, hA, hlive, hset⟩ := mags_live_split c.skc_mag id m hm
      have hset1 : array_set m.skm_objs m.skm_avail sko.sko_addr
          = some (m.skm_objs.set m.skm_avail sko.sko_addr) := by
        simp only [array_set]; rw [if_pos (by omega)]
      -- the state after one object has moved
      have hmag2 : MagOK P
          { ({ c with
              skc_partial_list :=
                { sks with sks_free_list := frest, sks_age := j, sks_ref := sks.sks_ref + 1 }
                  :: rest
              skc_hash :=
                c.skc_hash.set (spl_hash_ptr P sko.sko_addr c.skc_hash_bits) (sko :: chain)
              skc_obj_alloc := c.skc_obj_alloc + 1
              skc_hash_count := c.skc_hash_count + 1
              skc_obj_max := om
              skc_slab_alloc := sa
              skc_slab_max := sm } : spl_kmem_cache_t) with
            skc_mag := c.skc_mag.set id (mag_pushed m sko.sko_addr) } held := by
        refine magok_shape P c _ held held id m (mag_pushed m sko.sko_addr) hmags hm rfl
          (by simp [SameCfg]) rfl rfl ?_ ?_ ?_ ?_
        · simp only [mag_pushed, List.length_set]; exact hlenm
        · simp only [mag_pushed]; omega
        · simp only [mags_live, hset]
          have hl : mag_live (mag_pushed m sko.sko_addr) = mag_live m ++ [sko.sko_addr] :=
            mag_live_push m _ (by omega)
          rw [hl]
          have hnd := hmags.nodup
          simp only [mags_live, hlive] at hnd
          have hnotin : sko.sko_addr ∉
              A.flatMap mag_live ++ mag_live m ++ B.flatMap mag_live ++ held := by
            intro hin
            apply hnew
            apply hmags.in_hash
            simpa only [mags_live, hlive] using hin
          have hp2 : List.Perm
              (A.flatMap mag_live ++ (mag_live m ++ [sko.sko_addr]) ++ B.flatMap mag_live ++ held)
              (sko.sko_addr ::
                (A.flatMap mag_live ++ mag_live m ++ B.flatMap mag_live ++ held)) := by
            have := @List.perm_middle _ sko.sko_addr (A.flatMap mag_live ++ mag_live m)
              (B.flatMap mag_live ++ held)
            simpa using this
          exact (hp2.nodup_iff).2 (List.nodup_cons.2 ⟨hnotin, hnd⟩)
        · intro p hp1
          simp only [mags_live, hset] at hp1
          have hl : mag_live (mag_pushed m sko.sko_addr) = mag_live m ++ [sko.sko_addr] :=
            mag_live_push m _ (by omega)
          rw [hl] at hp1
          simp only [in_use, List.mem_map]
          have hcase : p = sko.sko_addr ∨ p ∈ mags_live c ++ held := by
            simp only [mags_live, hlive, List.mem_append, List.mem_singleton] at hp1 ⊢
            tauto
          rcases hcase with rfl | hold
          · exact ⟨sko, hperm.symm.subset (List.mem_cons_self _ _), rfl⟩
          · have := hmags.in_hash p hold
            simp only [in_use, List.mem_map] at this
            obtain ⟨o, ho, rfl⟩ := this
            exact ⟨o, hperm.symm.subset (List.mem_cons_of_mem _ ho), rfl⟩
      obtain ⟨c1, sks1, m1, e1, e2, e3, e4, e5, e6, e7, e8, e9, e10, e11, e12, e13, e14, e15⟩ :=
        ih (rc + 1) _ held
          { sks with sks_free_list := frest, sks_age := j, sks_ref := sks.sks_ref + 1 } rest
          (mag_pushed m sko.sko_addr) (core_with_mag P _ hcore1 _) hmag2 rfl
          (by simp only [List.getElem?_set_self hidlt])
          (by simp only [mag_pushed]; omega) (by simp only [mag_pushed]; omega)
      have hmin : min (r + 1) (sks.sks_objs - sks.sks_ref)
          = min r (sks.sks_objs - (sks.sks_ref + 1)) + 1 := by omega
      refine ⟨c1, sks1, m1, ?_, e2, e3, e4, e5, e6, ?_, e8, e9, ?_, e11, e12, ?_, e14, ?_⟩
      · simp only [spl_cache_refill_inner, hderef, hlt, if_true, hm, hobj, hset1]
        rw [if_neg (by omega), if_neg (by omega)]
        simp only [mag_pushed] at e1
        rw [e1, hmin]
        simp only [Option.some.injEq, Prod.mk.injEq, and_true]
        constructor <;> omega
      · rw [e7, hmin]; simp only; omega
      · rw [e10, hmin]; simp only [mag_pushed]; omega
      · rw [e13, hmin]; simp only; omega
      · exact SameCfg.trans (by simp [SameCfg]) e15
    · have hmin : min (r + 1) (sks.sks_objs - sks.sks_ref) = 0 := by omega
      refine ⟨c, sks, m, ?_, hcore, hmags, hp, rfl, rfl, by omega, rfl, hm, by omega, rfl, rfl,
        by omega, rfl, SameCfg.refl c⟩
      simp only [spl_cache_refill_inner, hderef, hlt, if_false, hmin]
      rfl

theorem inv_promote (P : Platform) (c : spl_kmem_cache_t) (held : List Nat)
    (sks : spl_kmem_slab_t) (rest : List spl_kmem_slab_t)
    (hcore : Core P c) (hmags : MagOK P c held) (hp : c.skc_partial_list = sks :: rest)
    (hrest : ∀ s ∈ rest, s.sks_ref < s.sks_objs) (hfull : sks.sks_ref = sks.sks_objs) :
    Inv P { c with
      skc_partial_list := list_del sks.sks_ptr c.skc_partial_list
      skc_complete_list := sks :: list_del sks.sks_ptr c.skc_complete_list } held := by
  obtain ⟨hr, hcm⟩ := slabs_ptr_split c P hcore sks rest hp
  have h1 : list_del sks.sks_ptr c.skc_partial_list = rest := by
    rw [hp]
    have := list_del_split [] rest sks (by simp) hr
    simpa using this
  have h2 : list_del sks.sks_ptr c.skc_complete_list = c.skc_complete_list :=
    list_del_notin _ _ hcm
  have hsorted := hcore.sorted
  have htot := hcore.total
  rw [hp] at hsorted htot
  refine ⟨?_, ?_, ?_⟩
  · refine core_perm P c _ hcore ?_ rfl rfl rfl rfl ?_ ?_ ?_
    · simp only [slabs, h1, h2]
      rw [hp]
      simp only [List.cons_append]
      exact List.perm_middle
    · simp only [h2, List.mem_cons]
      rintro s (rfl | hs)
      · exact hfull
      · exact hcore.comp s hs
    · simp only [h1]
      exact (List.pairwise_cons.1 hsorted).2
    · simp only [h1, h2, List.length_cons] at htot ⊢
      omega
  · simp only [h1]; exact hrest
  · exact magok_frame P c _ held hmags rfl (by simp [SameCfg]) (fun p hp => hp)

theorem spl_cache_refill_loop_spec (P : Platform) (env : Env) (id : Nat) (flags : km_flags)
    (j : Nat) (hP : P.ok) (henv : EnvFresh P env) (fuel : Nat) :
    ∀ (cpu refill rc : Nat) (c : spl_kmem_cache_t) (held : List Nat) (m : spl_kmem_magazine_t),
      Inv P c held → c.skc_mag[id]? = some m → m.skm_avail + refill ≤ m.skm_size →
      rc + refill < m.skm_size →
      (∀ rc1 cpu1 c1,
        spl_cache_refill_loop P env id flags j fuel cpu refill rc c = some (rc1, cpu1, c1) →
        Inv P c1 held ∧ SameCfg c c1 ∧ rc ≤ rc1 ∧ rc1 ≤ rc + refill ∧
        c1.skc_obj_alloc = c.skc_obj_alloc + (rc1 - rc) ∧
        ∃ m1, c1.skc_mag[id]? = some m1 ∧ m1.skm_avail = m.skm_avail + (rc1 - rc) ∧
          m1.skm_size = m.skm_size ∧ m1.skm_refill = m.skm_refill) ∧
      (EnvSucceeds P env → EnvStays env id → cpu = id →
        (2 * refill + 1 ≤ fuel ∨ (c.skc_partial_list ≠ [] ∧ 0 < refill ∧ 2 * refill ≤ fuel)) →
        ∃ c1, spl_cache_refill_loop P env id flags j fuel cpu refill rc c
          = some (rc + refill, cpu, c1)) := by
  induction fuel with
  | zero =>
    intro cpu refill rc c held m hinv hm hroom hrc
    refine ⟨fun rc1 cpu1 c1 h => by simp [spl_cache_refill_loop] at h, ?_⟩
    intro _ _ _ hf
    omega
  | succ fuel ih =>
    intro cpu refill rc c held m hinv hm hroom hrc
    by_cases hz : refill > 0
    · cases hpl : c.skc_partial_list with
      | nil =>
        -- grow the cache
        cases hg : spl_cache_grow P env c flags j with
        | mk r c1 =>
        obtain ⟨hinv1, hmag1, hcfg1, hh1, hoa1, hhc1, hcl1, hnone, hsome⟩ :=
          spl_cache_grow_spec P env c c1 flags j held r hP hinv henv hg
        have hm1 : c1.skc_mag[id]? = some m := by rw [hmag1]; exact hm
        cases r with
        | none =>
          constructor
          · intro rc1 cpu1 c2 h
            simp only [spl_cache_refill_loop, hz, if_true, hpl, hg, Option.some.injEq,
              Prod.mk.injEq] at h
            obtain ⟨rfl, _, rfl⟩ := h
            exact ⟨hinv1, hcfg1, Nat.le_refl _, by omega, by simp [hoa1],
              m, hm1, by simp, rfl, rfl⟩
          · intro hs _ _ _
            exfalso
            have := hs c j
            simp only [spl_cache_grow] at hg
            split at hg
            · rename_i h0
              rw [h0] at this
              exact this rfl
            · simp at hg
        | some ptr =>
          obtain ⟨sks, hp1, _, _, _, _⟩ := hsome ptr rfl
          rw [hpl] at hp1
          by_cases hcpu : id ≠ env.cpu c1
          · constructor
            · intro rc1 cpu1 c2 h
              simp only [spl_cache_refill_loop, hz, if_true, hpl, hg, hcpu, ne_eq,
                not_false_eq_true, Option.some.injEq, Prod.mk.injEq] at h
              obtain ⟨rfl, _, rfl⟩ := h
              exact ⟨hinv1, hcfg1, Nat.le_refl _, by omega, by simp [hoa1],
                m, hm1, by simp, rfl, rfl⟩
            · intro _ hst _ _
              exact absurd (hst c1).symm hcpu
          · have hmin : min refill (m.skm_size - m.skm_avail) = refill := by omega
            obtain ⟨ihA, ihB⟩ := ih (env.cpu c1) refill rc c1 held m hinv1 hm1 hroom hrc
            have heq : spl_cache_refill_loop P env id flags j (fuel + 1) cpu refill rc c
                = spl_cache_refill_loop P env id flags j fuel (env.cpu c1) refill rc c1 := by
              simp only [spl_cache_refill_loop, hz, if_true, hpl, hg, hcpu, if_false, hm1,
                hmin]
            rw [heq]
            constructor
            · intro rc1 cpu1 c2 h
              obtain ⟨a1, a2, a3, a4, a5, a6⟩ := ihA rc1 cpu1 c2 h
              exact ⟨a1, hcfg1.trans a2, a3, a4, by rw [a5, hoa1], a6⟩
            · intro hs hst hc hf
              have hcc : env.cpu c1 = cpu := by rw [hc]; exact hst c1
              rw [hcc] at ihB ⊢
              rcases hf with hf | ⟨hne, _, _⟩
              · exact ihB hs hst hc (Or.inr ⟨by rw [hp1]; simp, hz, by omega⟩)
              · exact absurd rfl hne
      | cons sks rest =>
        obtain ⟨hcore, hpart, hmags⟩ := hinv
        have hlt : sks.sks_ref < sks.sks_objs := hpart sks (by simp [hpl])
        have hsm : sks ∈ slabs c := by simp [slabs, hpl]
        have hlen := hcore.free_len sks hsm
        have hne : sks.sks_free_list ≠ [] := by
          intro h0
          rw [h0] at hlen
          simp only [List.length_nil] at hlen
          omega
        have hrest : ∀ s ∈ rest, s.sks_ref < s.sks_objs := fun s hs =>
          hpart s (by simp [hpl, hs])
        obtain ⟨c1, sks1, m1, e1, e2, e3, e4, e5, e6, e7, e8, e9, e10, e11, e12, e13, e14,
          e15⟩ := spl_cache_refill_inner_spec P id j refill rc c held sks rest m hcore hmags hpl
            hm hroom hrc
        have hk : 1 ≤ min refill (sks.sks_objs - sks.sks_ref) := by omega
        have hkle : min refill (sks.sks_objs - sks.sks_ref) ≤ refill := Nat.min_le_left _ _
        have hderef1 : slab_deref c1 sks.sks_ptr = some sks1 := by
          simp [slab_deref, e4, slab_find, e5]
        have hsm1 : sks1 ∈ slabs c1 := by simp [slabs, e4]
        have hlen1 := e2.free_len sks1 hsm1
        -- the state at the end of this pass
        have hinv2 : Inv P
            (if sks1.sks_ref = sks1.sks_objs then
              { c1 with
                skc_partial_list := list_del sks.sks_ptr c1.skc_partial_list
                skc_complete_list := sks1 :: list_del sks.sks_ptr c1.skc_complete_list }
             else c1) held := by
          split
          · rename_i hfull
            have := inv_promote P c1 held sks1 rest e2 e3 e4 hrest hfull
            rw [e5] at this
            exact this
          · rename_i hnf
            refine ⟨e2, ?_, e3⟩
            rw [e4]
            intro s hs
            simp only [List.mem_cons] at hs
            rcases hs with rfl | hs
            · omega
            · exact hrest s hs
        have hcfg2 : SameCfg c1
            (if sks1.sks_ref = sks1.sks_objs then
              { c1 with
                skc_partial_list := list_del sks.sks_ptr c1.skc_partial_list
                skc_complete_list := sks1 :: list_del sks.sks_ptr c1.skc_complete_list }
             else c1) := by
          split <;> simp [SameCfg]
        have hm2 : (if sks1.sks_ref = sks1.sks_objs then
              { c1 with
                skc_partial_list := list_del sks.sks_ptr c1.skc_partial_list
                skc_complete_list := sks1 :: list_del sks.sks_ptr c1.skc_complete_list }
             else c1).skc_mag[id]? = some m1 := by
          split <;> exact e9
        have hoa2 : (if sks1.sks_ref = sks1.sks_objs then
              { c1 with
                skc_partial_list := list_del sks.sks_ptr c1.skc_partial_list
                skc_complete_list := sks1 :: list_del sks.sks_ptr c1.skc_complete_list }
             else c1).skc_obj_alloc = c1.skc_obj_alloc := by
          split <;> rfl
        have heq : spl_cache_refill_loop P env id flags j (fuel + 1) cpu refill rc c
            = spl_cache_refill_loop P env id flags j fuel cpu
                (refill - min refill (sks.sks_objs - sks.sks_ref))
                (rc + min refill (sks.sks_objs - sks.sks_ref))
                (if sks1.sks_ref = sks1.sks_objs then
                  { c1 with
                    skc_partial_list := list_del sks.sks_ptr c1.skc_partial_list
                    skc_complete_list := sks1 :: list_del sks.sks_ptr c1.skc_complete_list }
                 else c1) := by
          simp only [spl_cache_refill_loop, hz, if_true, hpl, hlt, not_true_eq_false, if_false,
            hne, e1, hderef1]
        obtain ⟨ihA, ihB⟩ := ih cpu (refill - min refill (sks.sks_objs - sks.sks_ref))
          (rc + min refill (sks.sks_objs - sks.sks_ref)) _ held m1 hinv2 hm2
          (by rw [e10, e11]; omega) (by rw [e11]; omega)
        rw [heq]
        constructor
        · intro rc1 cpu1 c2 h
          obtain ⟨a1, a2, a3, a4, a5, m2, a6, a7, a8, a9⟩ := ihA rc1 cpu1 c2 h
          refine ⟨a1, (e15.trans hcfg2).trans a2, by omega, by omega, ?_, m2, a6, ?_,
            a8.trans e11, a9.trans e12⟩
          · rw [a5, hoa2, e13]; omega
          · rw [a7, e10]; omega
        · intro hs hst hc hf
          have hrc : rc + min refill (sks.sks_objs - sks.sks_ref)
              + (refill - min refill (sks.sks_objs - sks.sks_ref)) = rc + refill := by omega
          obtain ⟨c2, h2⟩ := ihB hs hst hc (Or.inl (by
            rcases hf with hf | ⟨_, _, hf⟩ <;> omega))
          rw [hrc] at h2
          exact ⟨c2, h2⟩
    · have hr0 : refill = 0 := by omega
      subst hr0
      refine ⟨?_, ?_⟩
      · intro rc1 cpu1 c1 h
        simp only [spl_cache_refill_loop, gt_iff_lt, Nat.lt_irrefl, if_false,
          Option.some.injEq, Prod.mk.injEq] at h
        obtain ⟨rfl, _, rfl⟩ := h
        exact ⟨hinv, SameCfg.refl c, Nat.le_refl _, by omega, by simp, m, hm, by simp, rfl, rfl⟩
      · intro _ _ _ _
        exact ⟨c, by simp [spl_cache_refill_loop]⟩

theorem spl_magazine_size_cases (P : Platform) (c : spl_kmem_cache_t) :
    spl_magazine_size P c = 4 ∨ spl_magazine_size P c = 16 ∨ spl_magazine_size P c = 64 ∨
    spl_magazine_size P c = 128 ∨ spl_magazine_size P c = 512 := by
  simp only [spl_magazine_size]
  split
  · exact Or.inl rfl
  · split
    · exact Or.inr (Or.inl rfl)
    · split
      · exact Or.inr (Or.inr (Or.inl rfl))
      · split
        · exact Or.inr (Or.inr (Or.inr (Or.inl rfl)))
        · exact Or.inr (Or.inr (Or.inr (Or.inr rfl)))

theorem magok_sizes (P : Platform) (c : spl_kmem_cache_t) (held : List Nat)
    (h : MagOK P c held) (m : spl_kmem_magazine_t) (hm : m ∈ c.skc_mag) :
    1 ≤ m.skm_refill ∧ m.skm_refill < m.skm_size ∧ m.skm_refill = (m.skm_size + 1) / 2 ∧
    m.skm_size = spl_magazine_size P c ∧
    m.skm_objs.length = m.skm_size ∧ m.skm_avail ≤ m.skm_size := by
  obtain ⟨h1, h2, h3, h4⟩ := h.shape m hm
  have h5 := h.size_eq
  have h6 := h.refill_eq
  have h7 := spl_magazine_size_cases P c
  refine ⟨?_, ?_, ?_, ?_, h3, h4⟩
  · rw [h2, h6, h5]; rcases h7 with h | h | h | h | h <;> rw [h] <;> decide
  · rw [h2, h6, h1, h5]; rcases h7 with h | h | h | h | h <;> rw [h] <;> decide
  · rw [h2, h6, h1]
  · rw [h1, h5]

theorem spl_cache_refill_spec (P : Platform) (env : Env) (c : spl_kmem_cache_t)
    (held : List Nat) (id cpu : Nat) (flags : km_flags) (j : Nat) (hP : P.ok)
    (henv : EnvFresh P env) (hinv : Inv P c held) :
    (∀ rc1 cpu1 c1, spl_cache_refill P env c id cpu flags j = some (rc1, cpu1, c1) →
      Inv P c1 held ∧ SameCfg c c1 ∧
      ∃ m m1, c.skc_mag[id]? = some m ∧ c1.skc_mag[id]? = some m1 ∧
        rc1 ≤ min m.skm_refill (m.skm_size - m.skm_avail) ∧
        m1.skm_avail = m.skm_avail + rc1 ∧ m1.skm_size = m.skm_size ∧
        m1.skm_refill = m.skm_refill ∧ c1.skc_obj_alloc = c.skc_obj_alloc + rc1) ∧
    (∀ m, c.skc_mag[id]? = some m → EnvSucceeds P env → EnvStays env id → cpu = id →
      ∃ c1, spl_cache_refill P env c id cpu flags j
        = some (min m.skm_refill (m.skm_size - m.skm_avail), cpu, c1)) := by
  cases hm : c.skc_mag[id]? with
  | none =>
    refine ⟨fun rc1 cpu1 c1 h => by simp [spl_cache_refill, hm] at h, fun m h => by simp at h⟩
  | some m =>
    have hmm : m ∈ c.skc_mag := List.mem_iff_getElem?.2 ⟨id, hm⟩
    obtain ⟨s1, s2, s3, s4, s5, s6⟩ := magok_sizes P c held hinv.mags m hmm
    obtain ⟨hA, hB⟩ := spl_cache_refill_loop_spec P env id flags j hP henv
      (2 * min m.skm_refill (m.skm_size - m.skm_avail) + 1) cpu
      (min m.skm_refill (m.skm_size - m.skm_avail)) 0 c held m hinv hm (by omega) (by omega)
    constructor
    · intro rc1 cpu1 c1 h
      simp only [spl_cache_refill, hm] at h
      obtain ⟨a1, a2, a3, a4, a5, m1, a6, a7, a8, a9⟩ := hA rc1 cpu1 c1 h
      exact ⟨a1, a2, m, m1, rfl, a6, by omega, by rw [a7]; omega, a8, a9, by rw [a5]; omega⟩
    · intro m' hm' hs hst hc
      simp only [Option.some.injEq] at hm'
      subst hm'
      obtain ⟨c1, h1⟩ := hB hs hst hc (Or.inl (Nat.le_refl _))
      simp only [Nat.zero_add] at h1
      exact ⟨c1, by simp only [spl_cache_refill, hm, h1]⟩

theorem nodup_pop (X Y H L : List Nat) (p : Nat) :
    List.Perm (X ++ L ++ Y ++ (p :: H)) (X ++ (L ++ [p]) ++ Y ++ H) := by
  have h1 : List.Perm (X ++ (L ++ [p]) ++ Y ++ H) (p :: (X ++ L ++ Y ++ H)) := by
    have := @List.perm_middle _ p (X ++ L) (Y ++ H)
    simpa using this
  have h2 : List.Perm (X ++ L ++ Y ++ (p :: H)) (p :: (X ++ L ++ Y ++ H)) := by
    have := @List.perm_middle _ p (X ++ L ++ Y) H
    simpa using this
  exact h2.trans h1.symm

theorem spl_kmem_cache_alloc_loop_inv (P : Platform) (env : Env) (flags : km_flags) (j : Nat)
    (hP : P.ok) (henv : EnvFresh P env) (fuel : Nat) :
    ∀ (cpu : Nat) (c : spl_kmem_cache_t) (held : List Nat) (obj cpu1 : Nat)
      (c1 : spl_kmem_cache_t),
      Inv P c held →
      spl_kmem_cache_alloc_loop P env flags j fuel cpu c = some (obj, cpu1, c1) →
      Inv P c1 (obj :: held) ∧ SameCfg c c1 := by
  induction fuel with
  | zero =>
    intro cpu c held obj cpu1 c1 _ h
    simp [spl_kmem_cache_alloc_loop] at h
  | succ fuel ih =>
    intro cpu c held obj cpu1 c1 hinv h
    simp only [spl_kmem_cache_alloc_loop] at h
    split at h
    · simp at h
    · split at h
      · simp at h
      · rename_i m hm
        split at h
        · rename_i hav
          split at h
          · simp at h
          · rename_i p hp
            split at h
            · simp at h
            · simp only [Option.some.injEq, Prod.mk.injEq] at h
              obtain ⟨rfl, _, rfl⟩ := h
              obtain ⟨hcore, hpart, hmags⟩ := hinv
              have hmm : m ∈ c.skc_mag := List.mem_iff_getElem?.2 ⟨cpu, hm⟩
              obtain ⟨hsz, hrf, hlen, hav2⟩ := hmags.shape m hmm
              obtain ⟨x, hx1, hx2⟩ := take_pred m.skm_objs m.skm_avail hav (by omega)
              rw [hp] at hx1
              simp only [Option.some.injEq] at hx1
              subst hx1
              obtain ⟨A, B, hAB, hA, hlive, hset⟩ := mags_live_split c.skc_mag cpu m hm
              have hl1 : mag_live { m with skm_avail := m.skm_avail - 1, skm_age := j }
                  = m.skm_objs.take (m.skm_avail - 1) := rfl
              have hl0 : mag_live m = m.skm_objs.take (m.skm_avail - 1) ++ [p] := hx2
              have hnd := hmags.nodup
              simp only [mags_live, hlive, hl0] at hnd
              have hperm := nodup_pop (A.flatMap mag_live) (B.flatMap mag_live) held
                (m.skm_objs.take (m.skm_avail - 1)) p
              refine ⟨⟨core_with_mag P c hcore _, hpart, ?_⟩, by simp [SameCfg]⟩
              refine magok_shape P c _ held (p :: held) cpu m _ hmags hm rfl
                (by simp [SameCfg]) rfl rfl hlen (by simp only; omega) ?_ ?_
              · simp only [mags_live, hset, hl1]
                exact (hperm.nodup_iff).2 hnd
              · intro q hq
                simp only [mags_live, hset, hl1] at hq
                have := hperm.subset hq
                apply hmags.in_hash
                simpa only [mags_live, hlive, hl0] using this
        · split at h
          · simp at h
          · rename_i rc cpu2 c2 hr
            obtain ⟨hA, _⟩ := spl_cache_refill_spec P env c held cpu cpu flags j hP henv hinv
            obtain ⟨hinv2, hcfg2, _⟩ := hA rc cpu2 c2 hr
            obtain ⟨a1, a2⟩ := ih cpu2 c2 held obj cpu1 c1 hinv2 h
            exact ⟨a1, hcfg2.trans a2⟩

/-! ## `spl_kmem_cache_free` -/

theorem spl_kmem_cache_free_spec (P : Platform) (c : spl_kmem_cache_t) (held : List Nat)
    (cpu obj j : Nat) (m : spl_kmem_magazine_t) (hinv : Inv P c held)
    (hm : c.skc_mag[cpu]? = some m) :
    ∃ c0 m0,
      (if m.skm_avail ≥ m.skm_size then
        spl_cache_flush P c cpu m.skm_refill j = some (m.skm_refill, c0) ∧
        m0.skm_avail = m.skm_size - m.skm_refill ∧
        c0.skc_hash_count + m.skm_refill = c.skc_hash_count ∧
        c0.skc_obj_alloc + m.skm_refill = c.skc_obj_alloc
       else c0 = c ∧ m0 = m) ∧
      Inv P c0 held ∧ SameCfg c c0 ∧
      c0.skc_mag[cpu]? = some m0 ∧ m0.skm_avail < m0.skm_size ∧ m0.skm_size = m.skm_size ∧
      m0.skm_refill = m.skm_refill ∧ m0.skm_objs.length = m0.skm_size ∧
      spl_kmem_cache_free P c cpu obj j = some (set_mag c0 cpu (mag_pushed m0 obj)) ∧
      (obj ∈ held → Inv P (set_mag c0 cpu (mag_pushed m0 obj)) (held.erase obj)) := by
  have hmm : m ∈ c.skc_mag := List.mem_iff_getElem?.2 ⟨cpu, hm⟩
  obtain ⟨s1, s2, s3, s4, s5, s6⟩ := magok_sizes P c held hinv.mags m hmm
  have hidlt : cpu < c.skc_mag.length := (List.getElem?_eq_some.1 hm).1
  -- the state in which the body is pushed
  have key : ∃ c0 m0,
      (if m.skm_avail ≥ m.skm_size then
        spl_cache_flush P c cpu m.skm_refill j = some (m.skm_refill, c0) ∧
        m0.skm_avail = m.skm_size - m.skm_refill ∧
        c0.skc_hash_count + m.skm_refill = c.skc_hash_count ∧
        c0.skc_obj_alloc + m.skm_refill = c.skc_obj_alloc
       else c0 = c ∧ m0 = m) ∧
      Inv P c0 held ∧ SameCfg c c0 ∧
      c0.skc_mag[cpu]? = some m0 ∧ m0.skm_avail < m0.skm_size ∧ m0.skm_size = m.skm_size ∧
      m0.skm_refill = m.skm_refill ∧ m0.skm_objs.length = m0.skm_size ∧
      (if m.skm_avail ≥ m.skm_size then
        (spl_cache_flush P c cpu m.skm_refill j).map Prod.snd
       else some c) = some c0 := by
    by_cases hfull : m.skm_avail ≥ m.skm_size
    · obtain ⟨c1, _, h2, h3, h4, h5, h6, h7, _⟩ :=
        spl_cache_flush_spec P c held cpu m.skm_refill j m hinv hm
      have hmin : min m.skm_refill m.skm_avail = m.skm_refill := by omega
      rw [hmin] at h2 h3 h6 h7
      have hlt1 : cpu < c1.skc_mag.length := by rw [h4]; exact hidlt
      refine ⟨set_mag c1 cpu (mag_flushed m m.skm_refill), mag_flushed m m.skm_refill, ?_, h3,
        ?_, ?_, ?_, rfl, rfl, ?_, ?_⟩
      · rw [if_pos hfull]
        exact ⟨h2, by simp only [mag_flushed]; omega, h7, h6⟩
      · exact SameCfg.trans h5 (by simp [SameCfg, set_mag])
      · simp only [set_mag, List.getElem?_set_self hlt1]
      · simp only [mag_flushed]; omega
      · simp only [mag_flushed]
        rw [memmove_down_length _ _ _ (by omega)]; exact s5
      · rw [if_pos hfull, h2]; rfl
    · refine ⟨c, m, ?_, hinv, SameCfg.refl c, hm, by omega, rfl, rfl, s5, ?_⟩
      · rw [if_neg hfull]; exact ⟨rfl, rfl⟩
      · rw [if_neg hfull]
  obtain ⟨c0, m0, k1, k2, k3, k4, k5, k6, k7, k8, k9⟩ := key
  have hset : array_set m0.skm_objs m0.skm_avail obj
      = some (m0.skm_objs.set m0.skm_avail obj) := by
    simp only [array_set]; rw [if_pos (by omega)]
  refine ⟨c0, m0, k1, k2, k3, k4, k5, k6, k7, k8, ?_, ?_⟩
  · simp only [spl_kmem_cache_free, hm, k9, k4, hset, set_mag, mag_pushed]
  · intro hobj
    obtain ⟨hcore, hpart, hmags⟩ := k2
    obtain ⟨A, B, hAB, hA, hlive, hsetl⟩ := mags_live_split c0.skc_mag cpu m0 k4
    have hl : mag_live (mag_pushed m0 obj) = mag_live m0 ++ [obj] :=
      mag_live_push m0 _ (by omega)
    have hnd := hmags.nodup
    simp only [mags_live, hlive] at hnd
    have hpe : List.Perm held (obj :: held.erase obj) := List.perm_cons_erase hobj
    have hperm : List.Perm
        (A.flatMap mag_live ++ (mag_live m0 ++ [obj]) ++ B.flatMap mag_live ++ held.erase obj)
        (A.flatMap mag_live ++ mag_live m0 ++ B.flatMap mag_live ++ held) := by
      refine (nodup_pop _ _ _ _ obj).symm.trans ?_
      exact List.Perm.append_left _ hpe.symm
    refine ⟨core_with_mag P c0 hcore _, hpart, ?_⟩
    refine magok_shape P c0 _ held (held.erase obj) cpu m0 (mag_pushed m0 obj) hmags k4 rfl
      (by simp [SameCfg, set_mag]) rfl rfl ?_ ?_ ?_ ?_
    · simp only [mag_pushed, List.length_set]; exact k8
    · simp only [mag_pushed]; omega
    · simp only [mags_live, set_mag, hsetl, hl]
      exact (hperm.nodup_iff).2 hnd
    · intro q hq
      simp only [mags_live, set_mag, hsetl, hl] at hq
      have := hperm.subset hq
      apply hmags.in_hash
      simpa only [mags_live, hlive] using this

/-! ## `spl_kmem_cache_reap_now` -/

theorem spl_kmem_cache_reap_now_loop_spec (P : Platform) (j : Nat) (n : Nat) :
    ∀ (i : Nat) (c : spl_kmem_cache_t) (held : List Nat), Inv P c held →
      i + n ≤ c.skc_mag.length →
      ∃ c1, spl_kmem_cache_reap_now_loop P j n i c = some c1 ∧ Inv P c1 held ∧
        SameCfg c c1 ∧ c1.skc_mag.length = c.skc_mag.length := by
  induction n with
  | zero =>
    intro i c held hinv _
    exact ⟨c, rfl, hinv, SameCfg.refl c, rfl⟩
  | succ n ih =>
    intro i c held hinv hlen
    have hi : i < c.skc_mag.length := by omega
    have hm : c.skc_mag[i]? = some c.skc_mag[i] := List.getElem?_eq_getElem hi
    simp only [spl_kmem_cache_reap_now_loop, hm]
    split
    · obtain ⟨c1, _, h2, h3, h4, h5, _⟩ :=
        spl_cache_flush_spec P c held i c.skc_mag[i].skm_refill j c.skc_mag[i] hinv hm
      simp only [h2]
      have hl : (set_mag c1 i (mag_flushed c.skc_mag[i]
          (min c.skc_mag[i].skm_refill c.skc_mag[i].skm_avail))).skc_mag.length
          = c.skc_mag.length := by
        simp only [set_mag, List.length_set, h4]
      obtain ⟨c2, e1, e2, e3, e4⟩ := ih (i + 1) _ held h3 (by rw [hl]; omega)
      exact ⟨c2, e1, e2, (SameCfg.trans h5 (by simp [SameCfg, set_mag])).trans e3,
        e4.trans hl⟩
    · exact ih (i + 1) c held hinv (by omega)

theorem spl_kmem_cache_reap_now_spec (P : Platform) (j : Nat) (c : spl_kmem_cache_t)
    (held : List Nat) (hinv : Inv P c held) :
    ∃ c1, spl_kmem_cache_reap_now P c j = some c1 ∧ Inv P c1 held ∧ SameCfg c c1 := by
  have hinv0 : Inv P (if c.skc_reclaim then
      { c with skc_events := c.skc_events ++ [Event.reclaim] } else c) held := by
    split
    · obtain ⟨hcore, hpart, hmags⟩ := hinv
      exact ⟨core_perm P c _ hcore (List.Perm.refl _) rfl rfl rfl rfl hcore.comp hcore.sorted
          hcore.total, hpart,
        magok_frame P c _ held hmags rfl (by simp [SameCfg]) (fun p hp => hp)⟩
    · exact hinv
  have hcfg0 : SameCfg c (if c.skc_reclaim then
      { c with skc_events := c.skc_events ++ [Event.reclaim] } else c) := by
    split <;> simp [SameCfg]
  have hlen0 : (if c.skc_reclaim then
      { c with skc_events := c.skc_events ++ [Event.reclaim] } else c).skc_mag.length
      = P.NCPUS := by
    split
    · exact hinv.mags.ncpus
    · exact hinv.mags.ncpus
  obtain ⟨c1, h1, hinv1, hcfg1, _⟩ :=
    spl_kmem_cache_reap_now_loop_spec P j P.NCPUS 0 _ held hinv0 (by rw [hlen0]; omega)
  obtain ⟨rc, c2, h2, hinv2, _, hcfg2, _⟩ := spl_slab_reclaim_spec P j c1 held hinv1
  refine ⟨c2, ?_, hinv2, (hcfg0.trans hcfg1).trans hcfg2⟩
  simp only [spl_kmem_cache_reap_now, h1, spl_slab_reclaim, h2, Option.map_some']

/-! ## `spl_kmem_cache_create` -/

theorem spl_magazine_create_loop_spec (P : Platform) (j : Nat) (n : Nat) :
    ∀ (heap : Heap) (c c1 : spl_kmem_cache_t),
      spl_magazine_create_loop P j n heap c = some (0, c1) →
      c1 = { c with skc_mag := c1.skc_mag, skc_events := c1.skc_events } ∧
      c1.skc_mag.length = c.skc_mag.length + n ∧
      ∀ m ∈ c1.skc_mag, m ∈ c.skc_mag ∨
        (m.skm_avail = 0 ∧ m.skm_size = c.skc_mag_size ∧ m.skm_refill = c.skc_mag_refill ∧
          m.skm_objs.length = m.skm_size) := by
  induction n with
  | zero =>
    intro heap c c1 h
    simp only [spl_magazine_create_loop, Option.some.injEq, Prod.mk.injEq, true_and] at h
    subst h
    exact ⟨rfl, rfl, fun m hm => Or.inl hm⟩
  | succ n ih =>
    intro heap c c1 h
    simp only [spl_magazine_create_loop] at h
    split at h
    · split at h
      · simp at h
      · simp [ENOMEM] at h
    · rename_i skm hskm
      obtain ⟨a1, a2, a3⟩ := ih _ _ _ h
      simp only [spl_magazine_alloc] at hskm
      split at hskm
      · simp at hskm
      · simp only [Option.some.injEq] at hskm
        subst hskm
        refine ⟨?_, ?_, ?_⟩
        · rw [a1]
        · rw [a2]; simp only [List.length_append, List.length_singleton]; omega
        · intro m hm
          rcases a3 m hm with h1 | h1
          · simp only [List.mem_append, List.mem_singleton] at h1
            rcases h1 with h1 | rfl
            · exact Or.inl h1
            · exact Or.inr ⟨rfl, rfl, rfl, by simp⟩
          · exact Or.inr h1

theorem spl_kmem_cache_create_inv (P : Platform) (hP : P.ok) (name_len size : Nat)
    (ctor dtor reclaim : Bool) (j : Nat) (heap : Heap) (registry registry1 : List Nat)
    (ev : List Event) (c : spl_kmem_cache_t)
    (h : spl_kmem_cache_create P name_len size ctor dtor reclaim j heap registry
      = some (some c, registry1, ev)) :
    Inv P c [] ∧ c.skc_partial_list = [] ∧ c.skc_complete_list = [] ∧
    c.skc_obj_size = size ∧ c.skc_slab_total = 0 ∧ c.skc_obj_alloc = 0 ∧
    c.skc_hash_count = 0 ∧ in_use c = [] ∧ (∀ m ∈ c.skc_mag, m.skm_avail = 0) := by
  simp only [spl_kmem_cache_create] at h
  split at h
  · simp at h
  · split at h
    · simp at h
    · split at h
      · simp at h
      · split at h
        · simp at h
        · rename_i rc c1 hmc
          split at h
          · simp at h
          · rename_i hrc
            simp only [ne_eq, Decidable.not_not] at hrc
            subst hrc
            simp only [Option.some.injEq, Prod.mk.injEq] at h
            obtain ⟨rfl, _, _⟩ := h
            simp only [spl_magazine_create] at hmc
            obtain ⟨a1, a2, a3⟩ := spl_magazine_create_loop_spec P j P.NCPUS _ _ _ hmc
            simp only [List.not_mem_nil, false_or, List.length_nil, Nat.zero_add] at a2 a3
            have hu : in_use c1 = [] := by
              rw [a1]; simp [in_use]
            have hpl : c1.skc_partial_list = [] := by rw [a1]
            have hcl : c1.skc_complete_list = [] := by rw [a1]
            have hsl : slabs c1 = [] := by simp [slabs, hpl, hcl]
            have hav : ∀ m ∈ c1.skc_mag, m.skm_avail = 0 := fun m hm => (a3 m hm).1
            have hlive : mags_live c1 = [] := by
              simp only [mags_live, List.flatMap_eq_nil_iff]
              intro m hm
              simp [mag_live, hav m hm]
            refine ⟨⟨?_, ?_, ?_⟩, hpl, hcl, by rw [a1], by rw [a1], by rw [a1], by rw [a1], hu,
              hav⟩
            · constructor
              · simp [hsl]
              · simp [hcl]
              · simp [hpl]
              · simp [hsl]
              · simp [hsl]
              · simp [hsl]
              · simp [hsl]
              · simp [hu]
              · simp [all_objs, free_objs, hsl, hu]
              · simp [all_objs, free_objs, hsl, hu]
              · intro k chain hk o ho
                rw [a1] at hk
                simp only [List.getElem?_replicate] at hk
                split at hk
                · simp only [Option.some.injEq] at hk
                  subst hk
                  simp at ho
                · simp at hk
              · intro a
                rw [a1]
                simp only [List.length_replicate, spl_hash_ptr]
                exact hP.hash_bound _
              · rw [hu, a1]; rfl
              · rw [a1]
              · rw [hsl, a1]; rfl
              · rw [hpl, hcl, a1]; rfl
            · simp [hpl]
            · constructor
              · exact a2
              · rw [a1]
                simp [spl_magazine_size]
              · rw [a1]
              · intro m hm
                obtain ⟨b1, b2, b3, b4⟩ := a3 m hm
                refine ⟨?_, ?_, b4, by omega⟩
                · rw [b2, a1]
                · rw [b3, a1]
              · simp [hlive]
              · simp [hlive]

/-! ## The invariant holds in every reachable state -/

theorem reachable_inv (P : Platform) (hP : P.ok) (c : spl_kmem_cache_t) (held : List Nat)
    (h : Reachable P c held) : Inv P c held := by
  induction h with
  | create hc => exact (spl_kmem_cache_create_inv P hP _ _ _ _ _ _ _ _ _ _ _ hc).1
  | grow _ henv hg ih => exact (spl_cache_grow_spec P _ _ _ _ _ _ _ hP ih henv hg).1
  | refill _ henv hr ih =>
    exact ((spl_cache_refill_spec P _ _ _ _ _ _ _ hP henv ih).1 _ _ _ hr).1
  | @flush c c1 held id k j count _ hf ih =>
    cases hm : c.skc_mag[id]? with
    | none => simp [spl_cache_flush, hm] at hf
    | some m =>
      obtain ⟨c2, _, h2, h3, _⟩ := spl_cache_flush_spec P c held id k j m ih hm
      rw [h2] at hf
      simp only [Option.some.injEq, Prod.mk.injEq] at hf
      rw [← hf.2]; exact h3
  | @alloc c c1 held env flags cpu j fuel obj cpu1 _ henv ha ih =>
    simp only [spl_kmem_cache_alloc] at ha
    split at ha
    · simp at ha
    · exact (spl_kmem_cache_alloc_loop_inv P env flags j hP henv fuel cpu c held obj cpu1 c1
        ih ha).1
  | @free c c1 held cpu obj j _ hobj hf ih =>
    cases hm : c.skc_mag[cpu]? with
    | none => simp [spl_kmem_cache_free, hm] at hf
    | some m =>
      obtain ⟨c0, m0, _, _, _, _, _, _, _, _, h9, h10⟩ :=
        spl_kmem_cache_free_spec P c held cpu obj j m ih hm
      rw [h9] at hf
      simp only [Option.some.injEq] at hf
      rw [← hf]; exact h10 hobj
  | @reclaim c c1 held j rc _ hr ih =>
    obtain ⟨rc1, c2, h1, h2, _⟩ := spl_slab_reclaim_spec P j c held ih
    rw [h1] at hr
    simp only [Option.some.injEq, Prod.mk.injEq] at hr
    rw [← hr.2]; exact h2
  | @reap_now c c1 held j _ hr ih =>
    obtain ⟨c2, h1, h2, _⟩ := spl_kmem_cache_reap_now_spec P j c held ih
    rw [h1] at hr
    simp only [Option.some.injEq] at hr
    rw [← hr]; exact h2

/-! ## Further consequences of the invariant -/

theorem spl_hash_obj_in_use (P : Platform) (c : spl_kmem_cache_t) (hc : Core P c)
    (o : spl_kmem_obj_t) (ho : o ∈ in_use c) :
    ∃ d, spl_hash_obj P c o.sko_addr = some (some o, { c with skc_hash_depth := d }) := by
  obtain ⟨sko, chain, d, hch, hmem, ha, hobj, _⟩ :=
    spl_hash_obj_found P c o.sko_addr hc (List.mem_map_of_mem _ ho)
  have hsko : sko ∈ in_use c := by
    simp only [in_use, List.mem_flatten]
    exact ⟨chain, List.mem_iff_getElem?.2 ⟨_, hch⟩, hmem⟩
  have := List.inj_on_of_nodup_map (in_use_bodies_nodup P c hc) hsko ho ha
  subst this
  exact ⟨d, hobj⟩

theorem all_objs_nodup (P : Platform) (c : spl_kmem_cache_t) (hc : Core P c) :
    (all_objs c).Nodup :=
  List.Nodup.of_map _ hc.bodies

theorem slab_headers_length (P : Platform) (c : spl_kmem_cache_t) (hc : Core P c)
    (s : spl_kmem_slab_t) (hs : s ∈ slabs c) :
    (slab_headers c s).length = s.sks_objs := by
  simp only [slab_headers, List.length_append]
  rw [← List.countP_eq_length_filter, hc.ref_hash s hs]
  exact hc.free_len s hs

theorem shrink_all_relinked (P : Platform) (j : Nat) (xs : List Nat) :
    ∀ (c c1 : spl_kmem_cache_t), Core P c →
      (∀ s ∈ c.skc_partial_list, s.sks_ref < s.sks_objs) → xs.Nodup →
      (∀ x ∈ xs, x ∈ (in_use c).map (fun o => o.sko_addr)) →
      shrink_all P j xs c = some c1 →
      (∀ s ∈ slabs c, ∃ s1 ∈ slabs c1, s1.sks_ptr = s.sks_ptr ∧
        ∀ o ∈ s.sks_free_list, o ∈ s1.sks_free_list) ∧
      (∀ x ∈ xs, ∃ o ∈ in_use c, o.sko_addr = x ∧ o ∉ in_use c1 ∧
        ∃ s1 ∈ slabs c1, s1.sks_ptr = o.sko_slab ∧ o ∈ s1.sks_free_list) := by
  induction xs with
  | nil =>
    intro c c1 _ _ _ _ h
    simp only [shrink_all, Option.some.injEq] at h
    subst h
    exact ⟨fun s hs => ⟨s, hs, rfl, fun o ho => ho⟩, fun x hx => by simp at hx⟩
  | cons x xs ih =>
    intro c c2 hc hpart hnd hin h
    obtain ⟨c1, sko, sks, L, h1, ha, hown, _, hu, hs, hs1, hc1, hp1, _⟩ :=
      spl_cache_shrink_spec P c x j hc hpart (hin x (List.mem_cons_self _ _))
    simp only [shrink_all, h1] at h
    rw [List.nodup_cons] at hnd
    have hub := hu.map (fun o => o.sko_addr)
    simp only [List.map_cons, ha] at hub
    have hin1 : ∀ y ∈ xs, y ∈ (in_use c1).map (fun o => o.sko_addr) := by
      intro y hy
      have := hub.subset (hin y (List.mem_cons_of_mem _ hy))
      simp only [List.mem_cons] at this
      rcases this with rfl | h
      · exact absurd hy hnd.1
      · exact h
    obtain ⟨m1, r1⟩ := ih c1 c2 hc1 hp1 hnd.2 hin1 h
    have hmono : ∀ s ∈ slabs c, ∃ s1 ∈ slabs c1, s1.sks_ptr = s.sks_ptr ∧
        ∀ o ∈ s.sks_free_list, o ∈ s1.sks_free_list := by
      intro s hsm
      have := hs.subset hsm
      simp only [List.mem_cons] at this
      rcases this with rfl | hL
      · exact ⟨slab_released s sko j, hs1.symm.subset (List.mem_cons_self _ _), rfl,
          fun o ho => List.mem_cons_of_mem _ ho⟩
      · exact ⟨s, hs1.symm.subset (List.mem_cons_of_mem _ hL), rfl, fun o ho => ho⟩
    -- what is removed from the hash stays removed
    obtain ⟨c2', hc2', _, _, _, _, hperm2, _⟩ := shrink_all_spec P j xs c1 hc1 hp1 hnd.2 hin1
    have hc2eq : c2' = c2 := by
      rw [h] at hc2'
      simp only [Option.some.injEq] at hc2'
      exact hc2'.symm
    subst hc2eq
    constructor
    · intro s hsm
      obtain ⟨s1, hs1m, hp, hf⟩ := hmono s hsm
      obtain ⟨s2, hs2m, hp2, hf2⟩ := m1 s1 hs1m
      exact ⟨s2, hs2m, hp2.trans hp, fun o ho => hf2 o (hf o ho)⟩
    · intro y hy
      simp only [List.mem_cons] at hy
      rcases hy with rfl | hy
      · have hreleased : slab_released sks sko j ∈ slabs c1 :=
          hs1.symm.subset (List.mem_cons_self _ _)
        obtain ⟨s2, hs2m, hp2, hf2⟩ := m1 _ hreleased
        refine ⟨sko, hu.symm.subset (List.mem_cons_self _ _), ha, ?_,
          s2, hs2m, hp2.trans hown.symm, hf2 sko (List.mem_cons_self _ _)⟩
        intro hin2
        have hbod : sko.sko_addr ∈ (in_use c2').map (fun o => o.sko_addr) :=
          List.mem_map_of_mem _ hin2
        have h3 : sko.sko_addr ∈ (in_use c1).map (fun o => o.sko_addr) :=
          hperm2.symm.subset (List.mem_append_right _ hbod)
        have hndc := in_use_bodies_nodup P c hc
        rw [hub.nodup_iff, List.nodup_cons] at hndc
        exact hndc.1 (ha ▸ h3)
      · obtain ⟨o, ho, e1, e2, e3⟩ := r1 y hy
        exact ⟨o, hu.symm.subset (List.mem_cons_of_mem _ ho), e1, e2, e3⟩

theorem spl_magazine_create_loop_cfg (P : Platform) (j : Nat) (n : Nat) :
    ∀ (heap : Heap) (c c1 : spl_kmem_cache_t) (rc : Int),
      spl_magazine_create_loop P j n heap c = some (rc, c1) →
      c1.skc_mag_size = c.skc_mag_size ∧ c1.skc_mag_refill = c.skc_mag_refill ∧
      c1.skc_obj_size = c.skc_obj_size := by
  induction n with
  | zero =>
    intro heap c c1 rc h
    simp only [spl_magazine_create_loop, Option.some.injEq, Prod.mk.injEq] at h
    obtain ⟨_, rfl⟩ := h
    exact ⟨rfl, rfl, rfl⟩
  | succ n ih =>
    intro heap c c1 rc h
    simp only [spl_magazine_create_loop] at h
    split at h
    · split at h
      · simp at h
      · simp only [Option.some.injEq, Prod.mk.injEq] at h
        obtain ⟨_, rfl⟩ := h
        exact ⟨rfl, rfl, rfl⟩
    · have := ih _ _ _ _ h
      exact this

/-! ## A worked scenario -/

theorem demoP_ok : demoP.ok :=
  ⟨by decide, fun v => Nat.mod_lt _ (by decide)⟩

theorem le_sum_of_mem (l : List Nat) (x : Nat) (h : x ∈ l) : x ≤ l.sum := by
  induction l with
  | nil => simp at h
  | cons a l ih =>
    simp only [List.mem_cons] at h
    simp only [List.sum_cons]
    rcases h with rfl | h
    · omega
    · have := ih h; omega

theorem demoEnv_stays : EnvStays demoEnv 0 := fun _ => rfl

theorem demo_alloc_kmem (c : spl_kmem_cache_t) (j : Nat) (h : c.skc_obj_size ≤ 4096) :
    (spl_slab_alloc demoP c j (demoEnv.heap c)).1 = some
      { sks_ptr := demo_top c + 4096
        sks_objs := 2
        sks_age := j
        sks_free_list :=
          [{ sko_ptr := demo_top c + 4288, sko_addr := demo_top c + 4352,
             sko_slab := demo_top c + 4096 },
           { sko_ptr := demo_top c + 4160, sko_addr := demo_top c + 4224,
             sko_slab := demo_top c + 4096 }]
        sks_ref := 0 } := by
  simp [spl_slab_alloc, demoP, demoEnv, h, heap_next, spl_slab_alloc_kmem, spl_slab_init,
    spl_slab_alloc_kmem_loop]

theorem demo_alloc_vmem (c : spl_kmem_cache_t) (j : Nat) (h : ¬ c.skc_obj_size ≤ 4096) :
    (spl_slab_alloc demoP c j (demoEnv.heap c)).1 = some
      { sks_ptr := demo_top c + 4096
        sks_objs := 2
        sks_age := j
        sks_free_list :=
          [{ sko_ptr := demo_top c + 4096 + 56 + 56 * 0,
             sko_addr := demo_top c + 4096 + 56 + 56 * 2 + c.skc_obj_size * 0,
             sko_slab := demo_top c + 4096 },
           { sko_ptr := demo_top c + 4096 + 56 + 56 * 1,
             sko_addr := demo_top c + 4096 + 56 + 56 * 2 + c.skc_obj_size * 1,
             sko_slab := demo_top c + 4096 }]
        sks_ref := 0 } := by
  simp [spl_slab_alloc, demoP, demoEnv, h, heap_next, spl_slab_alloc_vmem, spl_slab_init,
    spl_slab_alloc_vmem_loop]

theorem demoEnv_succeeds : EnvSucceeds demoP demoEnv := by
  intro c j
  by_cases h : c.skc_obj_size ≤ 4096
  · rw [demo_alloc_kmem c j h]; simp
  · rw [demo_alloc_vmem c j h]; simp

theorem demoEnv_fresh : EnvFresh demoP demoEnv := by
  intro c j sks ev hs
  have hs1 : (spl_slab_alloc demoP c j (demoEnv.heap c)).1 = some sks := by rw [hs]
  have hptr : ∀ x ∈ (slabs c).map (fun s => s.sks_ptr), x ≤ demo_top c := by
    intro x hx
    have := le_sum_of_mem _ x hx
    simp only [demo_top]; omega
  have hbody : ∀ x ∈ (all_objs c).map (fun o => o.sko_addr), x ≤ demo_top c := by
    intro x hx
    have := le_sum_of_mem _ x hx
    simp only [demo_top]; omega
  by_cases h : c.skc_obj_size ≤ 4096
  · rw [demo_alloc_kmem c j h] at hs1
    simp only [Option.some.injEq] at hs1
    subst hs1
    refine ⟨fun hin => ?_, by simp, ?_⟩
    · have := hptr _ hin
      simp only at this; omega
    · intro o ho hin
      have := hbody _ hin
      simp only [List.mem_cons, List.mem_singleton, List.not_mem_nil, or_false] at ho
      rcases ho with rfl | rfl <;> simp only at this <;> omega
  · rw [demo_alloc_vmem c j h] at hs1
    simp only [Option.some.injEq] at hs1
    subst hs1
    refine ⟨fun hin => ?_, ?_, ?_⟩
    · have := hptr _ hin
      simp only at this; omega
    · simp only [List.map_cons, List.map_nil, List.nodup_cons, List.mem_singleton,
        List.not_mem_nil, not_false_eq_true, List.nodup_nil, and_true]
      omega
    · intro o ho hin
      have := hbody _ hin
      simp only [List.mem_cons, List.mem_singleton, List.not_mem_nil, or_false] at ho
      rcases ho with rfl | rfl <;> simp only at this <;> omega

theorem demo_reach0 : Reachable demoP demo_c0 [] :=
  @Reachable.create demoP 8 1048577 true true false 1000 [8, 16, 24, 32, 40] [] [8]
    demo_c0.skc_events demo_c0 rfl

theorem demo_reach_a1 : Reachable demoP demo_a1.2.2 [demo_a1.1] :=
  @Reachable.alloc demoP demo_c0 demo_a1.2.2 [] demoEnv km_flags.KM_SLEEP 0 1001 2
    demo_a1.1 demo_a1.2.1 demo_reach0 demoEnv_fresh rfl

theorem demo_reach_a2 : Reachable demoP demo_a2.2.2 [demo_a2.1, demo_a1.1] :=
  @Reachable.alloc demoP demo_a1.2.2 demo_a2.2.2 _ demoEnv km_flags.KM_SLEEP 0
    1002 2 demo_a2.1 demo_a2.2.1 demo_reach_a1 demoEnv_fresh rfl

theorem demo_reach_a3 : Reachable demoP demo_a3.2.2 [demo_a3.1, demo_a2.1, demo_a1.1] :=
  @Reachable.alloc demoP demo_a2.2.2 demo_a3.2.2 _ demoEnv km_flags.KM_SLEEP 0
    1003 2 demo_a3.1 demo_a3.2.1 demo_reach_a2 demoEnv_fresh rfl

theorem demo_reach_a4 :
    Reachable demoP demo_a4.2.2 [demo_a4.1, demo_a3.1, demo_a2.1, demo_a1.1] :=
  @Reachable.alloc demoP demo_a3.2.2 demo_a4.2.2 _ demoEnv km_flags.KM_SLEEP 0
    1004 2 demo_a4.1 demo_a4.2.1 demo_reach_a3 demoEnv_fresh rfl

theorem demo_reach_f1 : Reachable demoP demo_f1 [demo_a4.1, demo_a3.1, demo_a2.1] :=
  @Reachable.free demoP demo_a4.2.2 demo_f1 _ 0 demo_a1.1 2001 demo_reach_a4 (by decide) rfl

theorem demo_reach_f2 : Reachable demoP demo_f2 [demo_a4.1, demo_a3.1] :=
  @Reachable.free demoP demo_f1 demo_f2 _ 0 demo_a2.1 2002 demo_reach_f1 (by decide) rfl

theorem demo_reach_f3 : Reachable demoP demo_f3 [demo_a4.1] :=
  @Reachable.free demoP demo_f2 demo_f3 _ 0 demo_a3.1 2003 demo_reach_f2 (by decide) rfl

theorem demo_reach_f4 : Reachable demoP demo_f4 [] :=
  @Reachable.free demoP demo_f3 demo_f4 _ 0 demo_a4.1 2004 demo_reach_f3 (by decide) rfl

theorem demo_reach_flushed : Reachable demoP demo_flushed [] :=
  @Reachable.flush demoP demo_f4 demo_flushed [] 0 3 3001 3 demo_reach_f4 rfl

theorem placement_of_core (P : Platform) (c : spl_kmem_cache_t) (hc : Core P c)
    (hpart : ∀ s ∈ c.skc_partial_list, s.sks_ref < s.sks_objs) : Placement c := by
  refine ⟨?_, hc.comp, hpart, ?_⟩
  · intro s hs
    simp only [slabs, List.mem_append] at hs
    rcases hs with hs | hs
    · have := hpart s hs
      exact ⟨fun h => by omega, fun _ => hs⟩
    · have := hc.comp s hs
      exact ⟨fun _ => hs, fun h => by omega⟩
  · intro A B s hAB h0 b hb
    have := hc.sorted
    rw [hAB, List.pairwise_append] at this
    exact (List.pairwise_cons.1 this.2.1).1 b hb h0

/-- C1: in every cache state reached from a freshly created cache by grow,
refill, flush, alloc, free, reap and slab teardown, `skc_hash_count` equals
the sum of `sks_ref` over the slabs of the partial and the complete list, and
both equal `skc_obj_alloc`; the counter is the number of headers linked in the
in-use hash. -/
theorem C1_counters_agree (P : Platform) (hP : P.ok) (c : spl_kmem_cache_t) (held : List Nat)
    (h : Reachable P c held) :
    c.skc_hash_count
      = (c.skc_partial_list.map (fun s => s.sks_ref)).sum
        + (c.skc_complete_list.map (fun s => s.sks_ref)).sum ∧
    (c.skc_partial_list.map (fun s => s.sks_ref)).sum
        + (c.skc_complete_list.map (fun s => s.sks_ref)).sum = c.skc_obj_alloc ∧
    c.skc_hash_count = (in_use c).length := by
  have hinv := reachable_inv P hP c held h
  have h1 := hinv.core.count_ref
  have h2 := hinv.core.count_alloc
  simp only [slabs, List.map_append, List.sum_append] at h1
  exact ⟨h1.symm, by omega, hinv.core.count_hash⟩

/-- C2: in every reachable cache state a slab with `sks_ref == sks_objs` is
on the complete list, a slab with `sks_ref < sks_objs` is on the partial list,
and behind a slab with `sks_ref == 0` on the partial list every slab has
`sks_ref == 0`.  Every result of `spl_cache_grow` and of `spl_cache_refill`
from such a state, the result of `spl_cache_shrink` of a body that is in the
in-use hash, and the result of `__spl_slab_reclaim` have the same property;
the last two always return.  Reachable states follow the contract of free: a
caller frees only bodies it was given and has not yet freed. -/
theorem C2_slab_placement (P : Platform) (hP : P.ok) (c : spl_kmem_cache_t) (held : List Nat)
    (h : Reachable P c held) :
    Placement c ∧
    (∀ env flags j r c1, EnvFresh P env →
      spl_cache_grow P env c flags j = (r, c1) → Placement c1) ∧
    (∀ env id cpu flags j rc cpu1 c1, EnvFresh P env →
      spl_cache_refill P env c id cpu flags j = some (rc, cpu1, c1) → Placement c1) ∧
    (∀ p j, p ∈ (in_use c).map (fun o => o.sko_addr) →
      ∃ c1, spl_cache_shrink P c p j = some c1 ∧ Placement c1) ∧
    (∀ j, ∃ rc c1, __spl_slab_reclaim P c j = some (rc, c1) ∧ Placement c1) := by
  have hinv := reachable_inv P hP c held h
  refine ⟨placement_of_core P c hinv.core hinv.part, ?_, ?_, ?_, ?_⟩
  · intro env flags j r c1 henv hg
    have hinv1 := (spl_cache_grow_spec P env c c1 flags j held r hP hinv henv hg).1
    exact placement_of_core P c1 hinv1.core hinv1.part
  · intro env id cpu flags j rc cpu1 c1 henv hr
    have hinv1 := ((spl_cache_refill_spec P env c held id cpu flags j hP henv hinv).1
      rc cpu1 c1 hr).1
    exact placement_of_core P c1 hinv1.core hinv1.part
  · intro p j hp
    obtain ⟨c1, _, _, _, h1, _, _, _, _, _, _, hc1, hp1, _⟩ :=
      spl_cache_shrink_spec P c p j hinv.core hinv.part hp
    exact ⟨c1, h1, placement_of_core P c1 hc1 hp1⟩
  · intro j
    obtain ⟨rc, c1, h1, hinv1, _⟩ := spl_slab_reclaim_spec P j c held hinv
    exact ⟨rc, c1, h1, placement_of_core P c1 hinv1.core hinv1.part⟩

/-- C3: in every reachable cache state `skc_slab_total` is the number of
slabs on the partial list plus the number on the complete list.  A successful
`spl_cache_grow` adds one slab and increments the counter, `spl_slab_free` of
an empty slab removes one slab and decrements it, and `spl_cache_obj` and
`spl_cache_shrink` change neither side. -/
theorem C3_slab_total (P : Platform) (hP : P.ok) (c : spl_kmem_cache_t) (held : List Nat)
    (h : Reachable P c held) :
    c.skc_slab_total = c.skc_partial_list.length + c.skc_complete_list.length ∧
    (∀ env flags j ptr c1, EnvFresh P env →
      spl_cache_grow P env c flags j = (some ptr, c1) →
      c1.skc_slab_total = c.skc_slab_total + 1 ∧
      c1.skc_partial_list.length + c1.skc_complete_list.length
        = c.skc_partial_list.length + c.skc_complete_list.length + 1) ∧
    (∀ s ∈ c.skc_partial_list, s.sks_ref = 0 →
      ∃ c1, spl_slab_free P c s.sks_ptr = some c1 ∧
        c1.skc_slab_total + 1 = c.skc_slab_total ∧
        c1.skc_partial_list.length + c1.skc_complete_list.length + 1
          = c.skc_partial_list.length + c.skc_complete_list.length) ∧
    (∀ sks rest j, c.skc_partial_list = sks :: rest →
      ∃ p c1, spl_cache_obj P c sks.sks_ptr j = some (p, c1) ∧
        c1.skc_slab_total = c.skc_slab_total ∧
        c1.skc_partial_list.length + c1.skc_complete_list.length
          = c.skc_partial_list.length + c.skc_complete_list.length) ∧
    (∀ p j, p ∈ (in_use c).map (fun o => o.sko_addr) →
      ∃ c1, spl_cache_shrink P c p j = some c1 ∧
        c1.skc_slab_total = c.skc_slab_total ∧
        c1.skc_partial_list.length + c1.skc_complete_list.length
          = c.skc_partial_list.length + c.skc_complete_list.length) := by
  have hinv := reachable_inv P hP c held h
  have htot := hinv.core.total
  refine ⟨htot, ?_, ?_, ?_, ?_⟩
  · intro env flags j ptr c1 henv hg
    obtain ⟨hinv1, _, _, _, _, _, _, _, hsome⟩ :=
      spl_cache_grow_spec P env c c1 flags j held (some ptr) hP hinv henv hg
    obtain ⟨sks, _, _, _, _, ht⟩ := hsome ptr rfl
    have := hinv1.core.total
    exact ⟨ht, by omega⟩
  · intro s hs h0
    obtain ⟨c1, h1, hinv1, _, _, _, _, _, _, _, _, _, ht⟩ :=
      spl_slab_free_spec P c held s hinv hs h0
    have := hinv1.core.total
    exact ⟨c1, h1, ht, by omega⟩
  · intro sks rest j hp
    have hlt := hinv.part sks (by simp [hp])
    obtain ⟨sko, frest, chain, om, sa, sm, _, _, hobj⟩ :=
      spl_cache_obj_shape P c sks rest j hinv.core hp hlt
    exact ⟨_, _, hobj, rfl, by simp [hp]⟩
  · intro p j hp
    obtain ⟨c1, _, _, _, h1, _, _, _, _, hs, hs1, hc1, _, _, _, _, _, ht, _⟩ :=
      spl_cache_shrink_spec P c p j hinv.core hinv.part hp
    have := hc1.total
    exact ⟨c1, h1, ht, by omega⟩

/-- C4: in every reachable state `spl_hash_obj` finds every header linked in
the in-use hash under its body address (it returns that header, not `NULL`);
every body held in a magazine or by a caller is found; `spl_cache_obj` links
the header of the body it hands out and leaves the other headers linked, and
`spl_cache_shrink` of one body leaves the headers of all other bodies
linked. -/
theorem C4_hash_lookup_finds (P : Platform) (hP : P.ok) (c : spl_kmem_cache_t)
    (held : List Nat) (h : Reachable P c held) :
    (∀ o ∈ in_use c, ∃ d,
      spl_hash_obj P c o.sko_addr = some (some o, { c with skc_hash_depth := d })) ∧
    (∀ p ∈ mags_live c ++ held, ∃ o d, o ∈ in_use c ∧ o.sko_addr = p ∧
      spl_hash_obj P c p = some (some o, { c with skc_hash_depth := d })) ∧
    (∀ sks rest j, c.skc_partial_list = sks :: rest →
      ∃ p c1 o, spl_cache_obj P c sks.sks_ptr j = some (p, c1) ∧ o ∈ in_use c1 ∧
        o.sko_addr = p ∧ ∀ o1 ∈ in_use c, o1 ∈ in_use c1) ∧
    (∀ q j, q ∈ (in_use c).map (fun o => o.sko_addr) →
      ∃ c1, spl_cache_shrink P c q j = some c1 ∧
        ∀ o ∈ in_use c, o.sko_addr ≠ q → o ∈ in_use c1) := by
  have hinv := reachable_inv P hP c held h
  refine ⟨fun o ho => spl_hash_obj_in_use P c hinv.core o ho, ?_, ?_, ?_⟩
  · intro p hp
    have := hinv.mags.in_hash p hp
    simp only [List.mem_map] at this
    obtain ⟨o, ho, rfl⟩ := this
    obtain ⟨d, hd⟩ := spl_hash_obj_in_use P c hinv.core o ho
    exact ⟨o, d, ho, rfl, hd⟩
  · intro sks rest j hp
    have hlt := hinv.part sks (by simp [hp])
    obtain ⟨sko, frest, chain, om, sa, sm, _, hch, hobj⟩ :=
      spl_cache_obj_shape P c sks rest j hinv.core hp hlt
    have hperm := flatten_set_cons c.skc_hash _ chain sko hch
    refine ⟨_, _, sko, hobj, hperm.symm.subset (List.mem_cons_self _ _), rfl, ?_⟩
    intro o1 ho1
    exact hperm.symm.subset (List.mem_cons_of_mem _ ho1)
  · intro q j hq
    obtain ⟨c1, sko, _, _, h1, ha, _, _, hu, _⟩ :=
      spl_cache_shrink_spec P c q j hinv.core hinv.part hq
    refine ⟨c1, h1, ?_⟩
    intro o ho hne
    have := hu.subset ho
    simp only [List.mem_cons] at this
    rcases this with rfl | h2
    · exact absurd ha hne
    · exact h2

/-- C5: when callers free only bodies they were given and have not yet freed,
in every reachable state each entry `skm_objs[0 .. skm_avail)` of each
magazine is the body address of exactly one header in the in-use hash, no body
occurs twice among the magazines, and `spl_cache_flush` of any magazine runs
to its end: no lookup of `spl_cache_shrink` misses. -/
theorem C5_magazine_entries_in_hash (P : Platform) (hP : P.ok) (c : spl_kmem_cache_t)
    (held : List Nat) (h : Reachable P c held) :
    (∀ m ∈ c.skc_mag, ∀ p ∈ m.skm_objs.take m.skm_avail,
      ((in_use c).map (fun o => o.sko_addr)).count p = 1) ∧
    (c.skc_mag.flatMap (fun m => m.skm_objs.take m.skm_avail)).Nodup ∧
    (∀ id k j, id < P.NCPUS → ∃ count c1, spl_cache_flush P c id k j = some (count, c1)) := by
  have hinv := reachable_inv P hP c held h
  refine ⟨?_, ?_, ?_⟩
  · intro m hm p hp
    have hin : p ∈ mags_live c ++ held := by
      simp only [mags_live, List.mem_append, List.mem_flatMap]
      exact Or.inl ⟨m, hm, hp⟩
    exact List.count_eq_one_of_mem (in_use_bodies_nodup P c hinv.core) (hinv.mags.in_hash p hin)
  · have := hinv.mags.nodup
    exact (List.nodup_append.1 this).1
  · intro id k j hid
    have hlt : id < c.skc_mag.length := by rw [hinv.mags.ncpus]; exact hid
    obtain ⟨c1, _, h2, _⟩ := spl_cache_flush_spec P c held id k j c.skc_mag[id] hinv
      (List.getElem?_eq_getElem hlt)
    exact ⟨_, _, h2⟩

theorem slab_headers_nodup (P : Platform) (c : spl_kmem_cache_t) (hc : Core P c)
    (s : spl_kmem_slab_t) (hs : s ∈ slabs c) : (slab_headers c s).Nodup := by
  have hall := all_objs_nodup P c hc
  have hp : List.Perm (slabs c) (s :: (slabs c).erase s) := List.perm_cons_erase hs
  have h1 := hp.flatMap_right (fun s => s.sks_free_list)
  simp only [List.flatMap_cons] at h1
  have h2 : List.Perm (all_objs c)
      (s.sks_free_list ++ (((slabs c).erase s).flatMap (fun s => s.sks_free_list) ++ in_use c)) := by
    simp only [all_objs, free_objs]
    simpa using h1.append_right (in_use c)
  have h3 := (h2.nodup_iff).1 hall
  refine h3.sublist ?_
  simp only [slab_headers]
  refine List.Sublist.append (List.Sublist.refl _) ?_
  exact (List.filter_sublist _).trans (List.sublist_append_right _ _)

/-- C6: in every reachable state no object header is linked twice, in
particular none is on a free list and in the in-use hash at once; the headers
of a slab (those on its free list and those of the hash that point to it) are
`sks_objs` distinct headers, so none is linked nowhere; and the free list of
a slab has `sks_objs - sks_ref` entries. -/
theorem C6_one_linkage (P : Platform) (hP : P.ok) (c : spl_kmem_cache_t) (held : List Nat)
    (h : Reachable P c held) :
    (all_objs c).Nodup ∧
    (∀ o, ¬ (o ∈ free_objs c ∧ o ∈ in_use c)) ∧
    (∀ s ∈ slabs c, (slab_headers c s).length = s.sks_objs ∧ (slab_headers c s).Nodup ∧
      (∀ o ∈ slab_headers c s, o.sko_slab = s.sks_ptr) ∧
      s.sks_free_list.length = s.sks_objs - s.sks_ref) ∧
    (∀ o ∈ in_use c, ∃ s ∈ slabs c, o ∈ slab_headers c s) := by
  have hinv := reachable_inv P hP c held h
  have hall := all_objs_nodup P c hinv.core
  refine ⟨hall, ?_, ?_, ?_⟩
  · intro o ⟨h1, h2⟩
    simp only [all_objs] at hall
    exact (List.nodup_append.1 hall).2.2 h1 h2
  · intro s hs
    refine ⟨slab_headers_length P c hinv.core s hs, slab_headers_nodup P c hinv.core s hs, ?_,
      ?_⟩
    · intro o ho
      simp only [slab_headers, List.mem_append, List.mem_filter, decide_eq_true_eq] at ho
      rcases ho with ho | ho
      · exact hinv.core.free_owner s hs o ho
      · exact ho.2
    · have := hinv.core.free_len s hs
      omega
  · intro o ho
    have := hinv.core.hash_owner o ho
    simp only [List.mem_map] at this
    obtain ⟨s, hs, hp⟩ := this
    refine ⟨s, hs, ?_⟩
    simp only [slab_headers, List.mem_append, List.mem_filter, decide_eq_true_eq]
    exact Or.inr ⟨ho, hp.symm⟩

theorem spl_magazine_free_all_total (l : List spl_kmem_magazine_t)
    (hl : ∀ m ∈ l, m.skm_avail = 0) : ∃ es, spl_magazine_free_all l = some es := by
  induction l with
  | nil => exact ⟨[], rfl⟩
  | cons m l ih =>
    obtain ⟨es, hes⟩ := ih (fun x hx => hl x (List.mem_cons_of_mem _ hx))
    have hm := hl m (List.mem_cons_self _ _)
    exact ⟨Event.kfree m.skm_ptr :: es,
      by simp [spl_magazine_free_all, spl_magazine_free, hm, hes]⟩

theorem spl_magazine_create_loop_total (P : Platform) (j : Nat) (n : Nat) :
    ∀ (heap : Heap) (c : spl_kmem_cache_t), (∀ m ∈ c.skc_mag, m.skm_avail = 0) →
      ∃ rc c1, spl_magazine_create_loop P j n heap c = some (rc, c1) := by
  induction n with
  | zero => intro heap c _; exact ⟨0, c, rfl⟩
  | succ n ih =>
    intro heap c hc
    simp only [spl_magazine_create_loop]
    split
    · obtain ⟨es, hes⟩ := spl_magazine_free_all_total c.skc_mag.reverse
        (fun m hm => hc m (List.mem_reverse.1 hm))
      rw [hes]
      exact ⟨_, _, rfl⟩
    · rename_i skm hskm
      apply ih
      intro m hm
      simp only [List.mem_append, List.mem_singleton] at hm
      rcases hm with hm | rfl
      · exact hc m hm
      · simp only [spl_magazine_alloc] at hskm
        split at hskm
        · simp at hskm
        · simp only [Option.some.injEq] at hskm
          subst hskm
          rfl

/-- C7: `spl_magazine_size` is the step function 4, 16, 64, 128, 512 of the
object size with thresholds 256, 32, 1 and 1/4 pages, and
`spl_magazine_create` sets `skc_mag_refill = (skc_mag_size + 1) / 2`, which is
one of 2, 8, 32, 64, 256, at least 1 and less than the capacity; on a cache
without magazines, as `spl_kmem_cache_create` calls it, `spl_magazine_create`
returns whatever the allocator answers. -/
theorem C7_magazine_size (P : Platform) (skc : spl_kmem_cache_t) :
    spl_magazine_size P skc = magazine_capacity P.PAGE_SIZE skc.skc_obj_size ∧
    (∀ jiffies heap rc c1, spl_magazine_create P skc jiffies heap = some (rc, c1) →
      c1.skc_mag_size = magazine_capacity P.PAGE_SIZE skc.skc_obj_size ∧
      c1.skc_mag_refill = (c1.skc_mag_size + 1) / 2 ∧
      c1.skc_mag_refill ∈ [2, 8, 32, 64, 256] ∧
      1 ≤ c1.skc_mag_refill ∧ c1.skc_mag_refill < c1.skc_mag_size) ∧
    (skc.skc_mag = [] → ∀ jiffies heap,
      ∃ rc c1, spl_magazine_create P skc jiffies heap = some (rc, c1)) := by
  have hsz : spl_magazine_size P skc = magazine_capacity P.PAGE_SIZE skc.skc_obj_size := by
    simp only [spl_magazine_size, magazine_capacity, Nat.mul_comm]
  refine ⟨hsz, ?_, ?_⟩
  rotate_left
  · intro hnil j heap
    simp only [spl_magazine_create]
    exact spl_magazine_create_loop_total P j _ heap _ (by simp [hnil])
  intro j heap rc c1 hc
  simp only [spl_magazine_create] at hc
  obtain ⟨h1, h2, _⟩ := spl_magazine_create_loop_cfg P j _ _ _ _ _ hc
  simp only at h1 h2
  rw [h2, h1, ← hsz]
  refine ⟨rfl, rfl, ?_⟩
  rcases spl_magazine_size_cases P skc with h | h | h | h | h <;> rw [h] <;> decide

/-- C8: in a reachable state `spl_kmem_cache_free(skc, p)` on a CPU with a
magazine succeeds and leaves `p` as the top entry of that magazine.  When
`skm_avail >= skm_size` on entry it first flushes exactly `skm_refill`
entries, the in-use hash loses that many headers, and `skm_avail` ends at
`skm_size - skm_refill + 1`; otherwise nothing but the magazine changes and
`skm_avail` grows by one. -/
theorem C8_free_pushes (P : Platform) (hP : P.ok) (c : spl_kmem_cache_t) (held : List Nat)
    (cpu p j : Nat) (m : spl_kmem_magazine_t) (h : Reachable P c held)
    (hm : c.skc_mag[cpu]? = some m) :
    ∃ c1 m1, spl_kmem_cache_free P c cpu p j = some c1 ∧ c1.skc_mag[cpu]? = some m1 ∧
      0 < m1.skm_avail ∧ m1.skm_objs[m1.skm_avail - 1]? = some p ∧
      (m.skm_avail ≥ m.skm_size →
        (∃ c0 m0, spl_cache_flush P c cpu m.skm_refill j = some (m.skm_refill, c0) ∧
          c0.skc_mag[cpu]? = some m0 ∧ c1 = set_mag c0 cpu (mag_pushed m0 p)) ∧
        c1.skc_hash_count + m.skm_refill = c.skc_hash_count ∧
        m1.skm_avail = m.skm_size - m.skm_refill + 1) ∧
      (m.skm_avail < m.skm_size →
        c1 = set_mag c cpu (mag_pushed m p) ∧ m1.skm_avail = m.skm_avail + 1) := by
  have hinv := reachable_inv P hP c held h
  obtain ⟨c0, m0, k1, k2, k3, k4, k5, k6, k7, k8, k9, _⟩ :=
    spl_kmem_cache_free_spec P c held cpu p j m hinv hm
  have hlt : cpu < c0.skc_mag.length := (List.getElem?_eq_some.1 k4).1
  refine ⟨_, mag_pushed m0 p, k9, by simp only [set_mag, List.getElem?_set_self hlt],
    by simp only [mag_pushed]; omega, ?_, ?_, ?_⟩
  · simp only [mag_pushed, Nat.add_sub_cancel]
    rw [List.getElem?_set_self (by omega)]
  · intro hfull
    rw [if_pos hfull] at k1
    obtain ⟨f1, f2, f3, f4⟩ := k1
    refine ⟨⟨c0, m0, f1, k4, rfl⟩, by simpa [set_mag] using f3, ?_⟩
    simp only [mag_pushed]; omega
  · intro hroom
    rw [if_neg (by omega)] at k1
    obtain ⟨rfl, rfl⟩ := k1
    exact ⟨rfl, rfl⟩

/-- C9: in a reachable state `spl_cache_flush` of a magazine with `avail`
entries, asked for `k`, returns `c = min(k, avail)`; its cache is the one
`spl_cache_shrink` produces from the bottom entries `skm_objs[0 .. c)` taken
in that order; each of those bodies has left the in-use hash and its header
is on the free list of its slab; `skc_hash_count`, `skc_obj_alloc` and the
sum of `sks_ref` have dropped by `c`; the magazine is left with
`skm_avail = avail - c` and `skm_objs[i]` equal to the old `skm_objs[i + c]`
for `i < avail - c`. -/
theorem C9_flush (P : Platform) (hP : P.ok) (c : spl_kmem_cache_t) (held : List Nat)
    (id k j : Nat) (m : spl_kmem_magazine_t) (h : Reachable P c held)
    (hm : c.skc_mag[id]? = some m) :
    ∃ c1 c2 m2,
      shrink_all P j (m.skm_objs.take (min k m.skm_avail)) c = some c1 ∧
      spl_cache_flush P c id k j = some (min k m.skm_avail, c2) ∧
      c2 = set_mag c1 id (mag_flushed m (min k m.skm_avail)) ∧
      c2.skc_mag[id]? = some m2 ∧
      m2.skm_avail = m.skm_avail - min k m.skm_avail ∧
      (∀ i, i < m.skm_avail - min k m.skm_avail →
        m2.skm_objs[i]? = m.skm_objs[i + min k m.skm_avail]?) ∧
      c2.skc_hash_count + min k m.skm_avail = c.skc_hash_count ∧
      c2.skc_obj_alloc + min k m.skm_avail = c.skc_obj_alloc ∧
      ((slabs c2).map (fun s => s.sks_ref)).sum + min k m.skm_avail
        = ((slabs c).map (fun s => s.sks_ref)).sum ∧
      (∀ x ∈ m.skm_objs.take (min k m.skm_avail),
        ∃ o ∈ in_use c, o.sko_addr = x ∧ o ∉ in_use c2 ∧
          ∃ s ∈ slabs c2, s.sks_ptr = o.sko_slab ∧ o ∈ s.sks_free_list) := by
  have hinv := reachable_inv P hP c held h
  have hmm : m ∈ c.skc_mag := List.mem_iff_getElem?.2 ⟨id, hm⟩
  obtain ⟨s1, s2, s3, s4, s5, s6⟩ := magok_sizes P c held hinv.mags m hmm
  obtain ⟨c1, h1, h2, h3, h4, h5, h6, h7, h8, h9, h10, h11⟩ :=
    spl_cache_flush_spec P c held id k j m hinv hm
  have hlt : id < c1.skc_mag.length := by rw [h4]; exact (List.getElem?_eq_some.1 hm).1
  have hcnt : min k m.skm_avail ≤ m.skm_avail := Nat.min_le_right _ _
  have hxs : m.skm_objs.take (min k m.skm_avail) = (mag_live m).take (min k m.skm_avail) := by
    simp only [mag_live, List.take_take]
    rw [Nat.min_eq_left hcnt]
  have hsub : ((mag_live m).take (min k m.skm_avail)).Sublist (mags_live c ++ held) := by
    obtain ⟨A, B, _, _, hlive, _⟩ := mags_live_split c.skc_mag id m hm
    simp only [mags_live, hlive]
    refine List.Sublist.trans (List.take_sublist _ _) ?_
    refine List.Sublist.trans ?_ (List.sublist_append_left _ _)
    refine List.Sublist.trans ?_ (List.sublist_append_left _ _)
    exact List.sublist_append_right _ _
  obtain ⟨_, hrel⟩ := shrink_all_relinked P j _ c c1 hinv.core hinv.part
    (by rw [hxs]; exact hinv.mags.nodup.sublist hsub)
    (by
      intro x hx
      rw [hxs] at hx
      exact hinv.mags.in_hash x (hsub.subset hx))
    h1
  refine ⟨c1, _, mag_flushed m (min k m.skm_avail), h1, h2, rfl,
    by simp only [set_mag, List.getElem?_set_self hlt], rfl, ?_, h7, h6, ?_, hrel⟩
  · intro i hi
    simp only [mag_flushed]
    exact memmove_down_get _ _ _ _ (by omega) hi
  · have e1 := h3.core.count_ref
    have e2 := hinv.core.count_ref
    have e3 : (set_mag c1 id (mag_flushed m (min k m.skm_avail))).skc_hash_count
        = c1.skc_hash_count := rfl
    rw [e1, e2, e3]
    exact h7

/-- C10: in a reachable state, when every slab construction succeeds with
fresh memory and the thread stays on its CPU, `spl_cache_refill` runs through
all its assertions and returns exactly
`r = min(skm_refill, skm_size - skm_avail)`; `skm_avail`, `skc_obj_alloc` and
`skc_hash_count` have grown by `r`, and the magazine is not filled beyond
`skm_size`.  The capacity of the magazine is whatever `spl_magazine_size`
gave the cache. -/
theorem C10_refill (P : Platform) (hP : P.ok) (env : Env) (c : spl_kmem_cache_t)
    (held : List Nat) (id : Nat) (flags : km_flags) (j : Nat) (m : spl_kmem_magazine_t)
    (h : Reachable P c held) (hm : c.skc_mag[id]? = some m)
    (hfresh : EnvFresh P env) (hgrow : EnvSucceeds P env) (hcpu : EnvStays env id) :
    ∃ c1 m1,
      spl_cache_refill P env c id id flags j
        = some (min m.skm_refill (m.skm_size - m.skm_avail), id, c1) ∧
      c1.skc_mag[id]? = some m1 ∧
      m1.skm_avail = m.skm_avail + min m.skm_refill (m.skm_size - m.skm_avail) ∧
      m1.skm_avail ≤ m1.skm_size ∧ m1.skm_size = m.skm_size ∧
      m.skm_size = spl_magazine_size P c ∧
      c1.skc_obj_alloc = c.skc_obj_alloc + min m.skm_refill (m.skm_size - m.skm_avail) ∧
      c1.skc_hash_count = c.skc_hash_count + min m.skm_refill (m.skm_size - m.skm_avail) := by
  have hinv := reachable_inv P hP c held h
  have hmm : m ∈ c.skc_mag := List.mem_iff_getElem?.2 ⟨id, hm⟩
  obtain ⟨s1, s2, s3, s4, s5, s6⟩ := magok_sizes P c held hinv.mags m hmm
  obtain ⟨hA, hB⟩ := spl_cache_refill_spec P env c held id id flags j hP hfresh hinv
  obtain ⟨c1, h1⟩ := hB m hm hgrow hcpu rfl
  obtain ⟨hinv1, _, m', m1, e1, e2, _, e4, e5, _, e7⟩ := hA _ _ _ h1
  rw [hm] at e1
  simp only [Option.some.injEq] at e1
  subst e1
  refine ⟨c1, m1, h1, e2, e4, by rw [e4, e5]; omega, e5, s4, e7, ?_⟩
  have a1 := hinv1.core.count_alloc
  have a2 := hinv.core.count_alloc
  omega

/-- C1 at the scenario state after four allocations and one free. -/
theorem C1_counters_agree_witness :
    demoP.ok ∧ Reachable demoP demo_f1 [demo_a4.1, demo_a3.1, demo_a2.1] ∧
    demo_f1.skc_hash_count
      = (demo_f1.skc_partial_list.map (fun s => s.sks_ref)).sum
        + (demo_f1.skc_complete_list.map (fun s => s.sks_ref)).sum ∧
    (demo_f1.skc_partial_list.map (fun s => s.sks_ref)).sum
        + (demo_f1.skc_complete_list.map (fun s => s.sks_ref)).sum = demo_f1.skc_obj_alloc ∧
    demo_f1.skc_hash_count = (in_use demo_f1).length :=
  ⟨demoP_ok, demo_reach_f1, C1_counters_agree demoP demoP_ok demo_f1 _ demo_reach_f1⟩

/-- C2 at the scenario state after the flush, where the partial list holds a
slab with one object in use followed by an empty slab. -/
theorem C2_slab_placement_witness :
    demoP.ok ∧ Reachable demoP demo_flushed [] ∧
    Placement demo_flushed ∧
    (∀ p j, p ∈ (in_use demo_flushed).map (fun o => o.sko_addr) →
      ∃ c1, spl_cache_shrink demoP demo_flushed p j = some c1 ∧ Placement c1) ∧
    (∀ j, ∃ rc c1, __spl_slab_reclaim demoP demo_flushed j = some (rc, c1) ∧ Placement c1) :=
  ⟨demoP_ok, demo_reach_flushed,
    (C2_slab_placement demoP demoP_ok demo_flushed [] demo_reach_flushed).1,
    (C2_slab_placement demoP demoP_ok demo_flushed [] demo_reach_flushed).2.2.2⟩

/-- C3 at the scenario state after the flush: two slabs. -/
theorem C3_slab_total_witness :
    demoP.ok ∧ Reachable demoP demo_flushed [] ∧
    demo_flushed.skc_slab_total
      = demo_flushed.skc_partial_list.length + demo_flushed.skc_complete_list.length :=
  ⟨demoP_ok, demo_reach_flushed,
    (C3_slab_total demoP demoP_ok demo_flushed [] demo_reach_flushed).1⟩

/-- C4 at the scenario state after four allocations: every header of the hash
is found. -/
theorem C4_hash_lookup_finds_witness :
    demoP.ok ∧ Reachable demoP demo_a4.2.2 [demo_a4.1, demo_a3.1, demo_a2.1, demo_a1.1] ∧
    ∀ o ∈ in_use demo_a4.2.2, ∃ d,
      spl_hash_obj demoP demo_a4.2.2 o.sko_addr
        = some (some o, { demo_a4.2.2 with skc_hash_depth := d }) :=
  ⟨demoP_ok, demo_reach_a4,
    (C4_hash_lookup_finds demoP demoP_ok demo_a4.2.2 _ demo_reach_a4).1⟩

/-- C5 at the scenario state with the full magazine. -/
theorem C5_magazine_entries_in_hash_witness :
    demoP.ok ∧ Reachable demoP demo_f4 [] ∧
    (∀ m ∈ demo_f4.skc_mag, ∀ p ∈ m.skm_objs.take m.skm_avail,
      ((in_use demo_f4).map (fun o => o.sko_addr)).count p = 1) ∧
    (demo_f4.skc_mag.flatMap (fun m => m.skm_objs.take m.skm_avail)).Nodup ∧
    (∀ id k j, id < demoP.NCPUS →
      ∃ count c1, spl_cache_flush demoP demo_f4 id k j = some (count, c1)) :=
  ⟨demoP_ok, demo_reach_f4, C5_magazine_entries_in_hash demoP demoP_ok demo_f4 [] demo_reach_f4⟩

/-- C6 at the scenario state after the flush. -/
theorem C6_one_linkage_witness :
    demoP.ok ∧ Reachable demoP demo_flushed [] ∧
    (all_objs demo_flushed).Nodup ∧
    (∀ s ∈ slabs demo_flushed,
      s.sks_free_list.length = s.sks_objs - s.sks_ref) :=
  ⟨demoP_ok, demo_reach_flushed,
    (C6_one_linkage demoP demoP_ok demo_flushed [] demo_reach_flushed).1,
    fun s hs => ((C6_one_linkage demoP demoP_ok demo_flushed [] demo_reach_flushed).2.2.1
      s hs).2.2.2⟩

/-- C7 at the scenario cache: objects of 256 pages and one byte get magazines
of 4 and a refill of 2. -/
theorem C7_magazine_size_witness :
    spl_magazine_size demoP demo_c0 = 4 ∧ demo_c0.skc_mag_size = 4 ∧
    demo_c0.skc_mag_refill = 2 :=
  ⟨(C7_magazine_size demoP demo_c0).1.trans (by decide), by decide, by decide⟩

/-- C8 at the scenario state with the full magazine of CPU 0: a free flushes
two entries and ends with three. -/
theorem C8_free_pushes_witness :
    demoP.ok ∧ Reachable demoP demo_f4 [] ∧
    demo_f4.skc_mag[0]? = some (demo_mag0 demo_f4) ∧
    ∃ c1 m1, spl_kmem_cache_free demoP demo_f4 0 demo_a1.1 4001 = some c1 ∧
      c1.skc_mag[0]? = some m1 ∧ 0 < m1.skm_avail ∧
      m1.skm_objs[m1.skm_avail - 1]? = some demo_a1.1 :=
  ⟨demoP_ok, demo_reach_f4, rfl,
    match C8_free_pushes demoP demoP_ok demo_f4 [] 0 demo_a1.1 4001
      (demo_mag0 demo_f4) demo_reach_f4 rfl with
    | ⟨c1, m1, h1, h2, h3, h4, _⟩ => ⟨c1, m1, h1, h2, h3, h4⟩⟩

/-- C9 at the scenario state with the full magazine of CPU 0, asked to flush
three entries. -/
theorem C9_flush_witness :
    demoP.ok ∧ Reachable demoP demo_f4 [] ∧
    demo_f4.skc_mag[0]? = some (demo_mag0 demo_f4) ∧
    ∃ c2, spl_cache_flush demoP demo_f4 0 3 3001
      = some (min 3 (demo_mag0 demo_f4).skm_avail, c2) ∧
      c2.skc_hash_count + min 3 (demo_mag0 demo_f4).skm_avail
        = demo_f4.skc_hash_count :=
  ⟨demoP_ok, demo_reach_f4, rfl,
    match C9_flush demoP demoP_ok demo_f4 [] 0 3 3001 (demo_mag0 demo_f4)
      demo_reach_f4 rfl with
    | ⟨_, c2, _, _, h2, _, _, _, _, h7, _⟩ => ⟨c2, h2, h7⟩⟩

/-- C10 at the freshly created scenario cache: the empty magazine of CPU 0 is
refilled with two objects. -/
theorem C10_refill_witness :
    demoP.ok ∧ Reachable demoP demo_c0 [] ∧
    demo_c0.skc_mag[0]? = some (demo_mag0 demo_c0) ∧
    EnvFresh demoP demoEnv ∧ EnvSucceeds demoP demoEnv ∧ EnvStays demoEnv 0 ∧
    ∃ c1, spl_cache_refill demoP demoEnv demo_c0 0 0 km_flags.KM_SLEEP 1001
        = some (2, 0, c1) ∧
      c1.skc_obj_alloc = demo_c0.skc_obj_alloc + 2 :=
  ⟨demoP_ok, demo_reach0, rfl, demoEnv_fresh, demoEnv_succeeds, demoEnv_stays,
    match C10_refill demoP demoP_ok demoEnv demo_c0 [] 0 km_flags.KM_SLEEP 1001
      (demo_mag0 demo_c0) demo_reach0 rfl demoEnv_fresh demoEnv_succeeds
      demoEnv_stays with
    | ⟨c1, _, h1, _, _, _, _, _, h7, _⟩ => ⟨c1, h1, h7⟩⟩

theorem time_after_self_add (P : Platform) (j D : Nat)
    (hD : D < 2 ^ (P.BITS_PER_LONG - 1)) (hw : 0 < P.BITS_PER_LONG) :
    time_after P j (j + D) = false := by
  have hM : 2 ^ P.BITS_PER_LONG = 2 * 2 ^ (P.BITS_PER_LONG - 1) := by
    rw [← pow_succ']
    congr 1
    omega
  simp only [time_after, decide_eq_false_iff_not, not_le]
  generalize 2 ^ P.BITS_PER_LONG = M at hM
  generalize 2 ^ (P.BITS_PER_LONG - 1) = H at hM hD
  have hMpos : 0 < M := by omega
  have h1 : ((j + D) % M + M - j % M) % M = D % M := by
    have hj : j % M < M := Nat.mod_lt _ hMpos
    have e1 : (j + D) % M + M - j % M = (j + D) % M + (M - j % M) := by omega
    rw [e1, Nat.add_mod, Nat.mod_mod]
    have e2 : ((j + D) % M + (M - j % M) % M) % M = ((j + D) + (M - j % M)) % M := by
      rw [Nat.add_mod (j + D)]
    rw [e2]
    have e3 : j + D + (M - j % M) = D + (j / M + 1) * M := by
      have := Nat.div_add_mod j M
      have h4 : (j / M + 1) * M = M * (j / M) + M := by ring
      rw [h4]
      omega
    rw [e3, Nat.add_mul_mod_self_right]
  rw [h1]
  have : D % M = D := Nat.mod_eq_of_lt (by omega)
  omega

theorem ledger_step_refl (P : Platform) (c : spl_kmem_cache_t) : LedgerStep P c c 0 0 := by
  refine ⟨rfl, rfl, ?_, ?_, rfl, rfl⟩ <;> simp

theorem ledger_step_trans (P : Platform) (c c1 c2 : spl_kmem_cache_t) (g f g1 f1 : Nat)
    (h : LedgerStep P c c1 g f) (h1 : LedgerStep P c1 c2 g1 f1) :
    LedgerStep P c c2 (g + g1) (f + f1) := by
  obtain ⟨a1, a2, a3, a4, a5, a6⟩ := h
  obtain ⟨b1, b2, b3, b4, b5, b6⟩ := h1
  rw [a1] at b3
  rw [a2] at b4
  refine ⟨b1.trans a1, b2.trans a2, ?_, ?_, ?_, ?_⟩
  · rw [b3, a3]
    split
    · simp only [Nat.mul_add]; omega
    · omega
  · rw [b4, a4]
    split
    · simp only [Nat.mul_add]; omega
    · omega
  · simp only [Nat.mul_add]; omega
  · omega

/-- An operation that leaves the record of calls and the statistics alone. -/
theorem ledger_step_of_eq (P : Platform) (c c1 : spl_kmem_cache_t)
    (hc : c1.skc_ctor = c.skc_ctor) (hd : c1.skc_dtor = c.skc_dtor)
    (hev : c1.skc_events = c.skc_events) (hobj : c1.skc_obj_total = c.skc_obj_total)
    (hslab : c1.skc_slab_total = c.skc_slab_total) : LedgerStep P c c1 0 0 := by
  refine ⟨hc, hd, ?_, ?_, ?_, ?_⟩ <;> simp [hev, hobj, hslab]

theorem ledger_apply_step (P : Platform) (c c1 : spl_kmem_cache_t) (g f : Nat)
    (h : Ledger P c) (hs : LedgerStep P c c1 g f) : Ledger P c1 := by
  obtain ⟨a1, a2, a3, a4, a5, a6⟩ := hs
  obtain ⟨b1, b2, b3, b4⟩ := h
  refine ⟨?_, ?_, ?_, ?_⟩
  · have e : P.SPL_KMEM_CACHE_OBJ_PER_SLAB * (c1.skc_slab_total + f)
        = P.SPL_KMEM_CACHE_OBJ_PER_SLAB * (c.skc_slab_total + g) := by rw [a6]
    simp only [Nat.mul_add] at e
    omega
  · intro hc hd
    rw [a1] at hc
    rw [a2] at hd
    have := b2 hc hd
    rw [a3, a4, if_pos hc, if_pos hd]
    omega
  · intro hc
    rw [a1] at hc
    rw [a3, b3 hc]
    simp [hc]
  · intro hd
    rw [a2] at hd
    rw [a4, b4 hd]
    simp [hd]

theorem ctor_addrs_append (a b : List Event) :
    ctor_addrs (a ++ b) = ctor_addrs a ++ ctor_addrs b := by
  simp [ctor_addrs, List.filterMap_append]

theorem dtor_addrs_append (a b : List Event) :
    dtor_addrs (a ++ b) = dtor_addrs a ++ dtor_addrs b := by
  simp [dtor_addrs, List.filterMap_append]

theorem spl_slab_kmem_release_calls (skc : spl_kmem_cache_t) (l : List spl_kmem_obj_t) :
    ctor_addrs (spl_slab_kmem_release skc l) = [] ∧
    dtor_addrs (spl_slab_kmem_release skc l) = [] := by
  induction l with
  | nil => exact ⟨rfl, rfl⟩
  | cons o l ih =>
    obtain ⟨h1, h2⟩ := ih
    simp only [spl_slab_kmem_release, ctor_addrs, dtor_addrs, List.filterMap_cons] at h1 h2 ⊢
    exact ⟨h1, h2⟩

theorem spl_slab_ctor_calls_addrs (skc : spl_kmem_cache_t) (l : List spl_kmem_obj_t) :
    ctor_addrs (spl_slab_ctor_calls skc l)
      = (if skc.skc_ctor then l.map (fun o => o.sko_addr) else []) ∧
    dtor_addrs (spl_slab_ctor_calls skc l) = [] := by
  simp only [spl_slab_ctor_calls]
  split
  · simp only [ctor_addrs, dtor_addrs, List.filterMap_map, Function.comp_def]
    refine ⟨?_, ?_⟩
    · induction l with
      | nil => rfl
      | cons o l ih => simp only [List.filterMap_cons, List.map_cons, ih]
    · induction l with
      | nil => rfl
      | cons o l ih => simp only [List.filterMap_cons, ih]
  · exact ⟨rfl, rfl⟩

theorem spl_slab_dtor_calls_addrs (skc : spl_kmem_cache_t) (l : List spl_kmem_obj_t) :
    dtor_addrs (spl_slab_dtor_calls skc l)
      = (if skc.skc_dtor then l.map (fun o => o.sko_addr) else []) ∧
    ctor_addrs (spl_slab_dtor_calls skc l) = [] := by
  simp only [spl_slab_dtor_calls]
  split
  · simp only [ctor_addrs, dtor_addrs, List.filterMap_map, Function.comp_def]
    refine ⟨?_, ?_⟩
    · induction l with
      | nil => rfl
      | cons o l ih => simp only [List.filterMap_cons, List.map_cons, ih]
    · induction l with
      | nil => rfl
      | cons o l ih => simp only [List.filterMap_cons, ih]
  · exact ⟨rfl, rfl⟩

theorem spl_slab_alloc_kmem_loop_calls (skc : spl_kmem_cache_t) (n : Nat) :
    ∀ (sks : spl_kmem_slab_t) (heap : Heap) (ev : List Event),
      ctor_addrs (spl_slab_alloc_kmem_loop skc n sks heap ev).2.2 = ctor_addrs ev ∧
      dtor_addrs (spl_slab_alloc_kmem_loop skc n sks heap ev).2.2 = dtor_addrs ev := by
  induction n with
  | zero => intro sks heap ev; exact ⟨rfl, rfl⟩
  | succ n ih =>
    intro sks heap ev
    simp only [spl_slab_alloc_kmem_loop]
    split
    · simp [ctor_addrs_append, dtor_addrs_append, ctor_addrs, dtor_addrs]
    · split
      · simp [ctor_addrs_append, dtor_addrs_append, ctor_addrs, dtor_addrs]
      · obtain ⟨h1, h2⟩ := ih _ _ _
        rw [h1, h2]
        simp [ctor_addrs_append, dtor_addrs_append, ctor_addrs, dtor_addrs]

theorem spl_slab_alloc_kmem_calls (skc : spl_kmem_cache_t) (sks : spl_kmem_slab_t)
    (heap : Heap) :
    ctor_addrs (spl_slab_alloc_kmem skc sks heap).2.2 = [] ∧
    dtor_addrs (spl_slab_alloc_kmem skc sks heap).2.2 = [] := by
  obtain ⟨h1, h2⟩ := spl_slab_alloc_kmem_loop_calls skc sks.sks_objs sks heap []
  obtain ⟨r1, r2⟩ := spl_slab_kmem_release_calls skc
    (spl_slab_alloc_kmem_loop skc sks.sks_objs sks heap []).2.1.sks_free_list
  simp only [spl_slab_alloc_kmem]
  split
  · simp only [ctor_addrs_append, dtor_addrs_append, h1, h2, r1, r2]
    exact ⟨rfl, rfl⟩
  · exact ⟨h1, h2⟩

/-- The callback calls of one `spl_slab_alloc`: the constructor once for each
cell of a slab that was built, the destructor never. -/
theorem spl_slab_alloc_calls (P : Platform) (skc : spl_kmem_cache_t) (j : Nat) (heap : Heap)
    (r : Option spl_kmem_slab_t) (ev : List Event)
    (h : spl_slab_alloc P skc j heap = (r, ev)) :
    dtor_addrs ev = [] ∧ (r = none → ctor_addrs ev = []) ∧
    (∀ sks, r = some sks →
      ctor_addrs ev = if skc.skc_ctor then sks.sks_free_list.map (fun o => o.sko_addr) else []) := by
  simp only [spl_slab_alloc] at h
  split at h
  · split at h
    · simp only [Prod.mk.injEq] at h
      obtain ⟨rfl, rfl⟩ := h
      exact ⟨rfl, fun _ => rfl, fun sks hs => by simp at hs⟩
    · obtain ⟨k1, k2⟩ := spl_slab_alloc_kmem_calls skc
        (spl_slab_init P (heap_next heap).1 j) (heap_next heap).2
      split at h
      · simp only [Prod.mk.injEq] at h
        obtain ⟨rfl, rfl⟩ := h
        refine ⟨?_, fun _ => ?_, fun sks hs => by simp at hs⟩
        · rw [List.cons_append, ← List.singleton_append, dtor_addrs_append, dtor_addrs_append, k2]
          rfl
        · rw [List.cons_append, ← List.singleton_append, ctor_addrs_append, ctor_addrs_append, k1]
          rfl
      · simp only [Prod.mk.injEq] at h
        obtain ⟨rfl, rfl⟩ := h
        obtain ⟨c1, c2⟩ := spl_slab_ctor_calls_addrs skc
          (spl_slab_alloc_kmem skc (spl_slab_init P (heap_next heap).1 j)
            (heap_next heap).2).2.1.sks_free_list
        refine ⟨?_, fun hn => by simp at hn, fun sks hs => ?_⟩
        · rw [List.cons_append, ← List.singleton_append, dtor_addrs_append, dtor_addrs_append,
            k2, c2]
          rfl
        · simp only [Option.some.injEq] at hs
          subst hs
          rw [List.cons_append, ← List.singleton_append, ctor_addrs_append, ctor_addrs_append,
            k1, c1]
          rfl
  · split at h
    · rename_i ev1 hv
      simp only [Prod.mk.injEq] at h
      obtain ⟨rfl, rfl⟩ := h
      simp only [spl_slab_alloc_vmem] at hv
      split at hv
      · simp only [Prod.mk.injEq] at hv
        obtain ⟨_, rfl⟩ := hv
        exact ⟨rfl, fun _ => rfl, fun sks hs => by simp at hs⟩
      · simp at hv
    · rename_i sks ev1 hv
      simp only [Prod.mk.injEq] at h
      obtain ⟨rfl, rfl⟩ := h
      obtain ⟨c1, c2⟩ := spl_slab_ctor_calls_addrs skc sks.sks_free_list
      simp only [spl_slab_alloc_vmem] at hv
      split at hv
      · simp at hv
      · simp only [Prod.mk.injEq] at hv
        obtain ⟨_, rfl⟩ := hv
        refine ⟨?_, fun hn => by simp at hn, fun sks1 hs => ?_⟩
        · rw [dtor_addrs_append, c2]; rfl
        · simp only [Option.some.injEq] at hs
          subst hs
          rw [ctor_addrs_append, c1]; rfl

theorem spl_slab_free_calls (P : Platform) (skc : spl_kmem_cache_t) (sks : spl_kmem_slab_t) :
    ctor_addrs (if skc.skc_obj_size ≤ P.PAGE_SIZE then spl_slab_free_kmem skc sks
      else spl_slab_free_vmem P skc sks) = [] ∧
    dtor_addrs (if skc.skc_obj_size ≤ P.PAGE_SIZE then spl_slab_free_kmem skc sks
      else spl_slab_free_vmem P skc sks) = [] := by
  obtain ⟨r1, r2⟩ := spl_slab_kmem_release_calls skc sks.sks_free_list
  split
  · simp only [spl_slab_free_kmem, ctor_addrs_append, dtor_addrs_append, r1, r2]
    exact ⟨rfl, rfl⟩
  · exact ⟨rfl, rfl⟩

/-- What `spl_slab_free` of an empty slab of the partial list does to the
record of calls: the destructor once for each cell of the slab. -/
theorem spl_slab_free_ledger (P : Platform) (c c1 : spl_kmem_cache_t) (held : List Nat)
    (s : spl_kmem_slab_t) (hinv : Inv P c held) (hs : s ∈ c.skc_partial_list)
    (h0 : s.sks_ref = 0) (hcells : c.skc_obj_total = P.SPL_KMEM_CACHE_OBJ_PER_SLAB * c.skc_slab_total)
    (h : spl_slab_free P c s.sks_ptr = some c1) :
    LedgerStep P c c1 0 1 ∧ s.sks_free_list.length = P.SPL_KMEM_CACHE_OBJ_PER_SLAB ∧
    ∃ ev, c1.skc_events = c.skc_events ++ ev ∧ ctor_addrs ev = [] ∧
      dtor_addrs ev = (if c.skc_dtor then s.sks_free_list.map (fun o => o.sko_addr) else []) := by
  obtain ⟨hcore, hpart, hmags⟩ := hinv
  obtain ⟨A, B, hAB⟩ := List.append_of_mem hs
  have hnd := hcore.ptrs
  simp only [slabs, hAB] at hnd
  obtain ⟨hA, hB, hC⟩ := nodup_split_ptr A B _ s hnd
  have hderef : slab_deref c s.sks_ptr = some s := by
    simp only [slab_deref, hAB, slab_find_split A B s hA]
  have hmem : s ∈ slabs c := by simp only [slabs, List.mem_append]; exact Or.inl hs
  have hlen := hcore.free_len s hmem
  have hobjs := hcore.objs_eq s hmem
  have hlen2 : s.sks_free_list.length = P.SPL_KMEM_CACHE_OBJ_PER_SLAB := by omega
  have htot := hcore.total
  rw [hAB] at htot
  simp only [List.length_append, List.length_cons] at htot
  simp only [spl_slab_free, hderef, h0, ne_eq, not_true_eq_false, if_false,
    Option.some.injEq] at h
  subst h
  obtain ⟨d1, d2⟩ := spl_slab_dtor_calls_addrs c s.sks_free_list
  obtain ⟨f1, f2⟩ := spl_slab_free_calls P c s
  refine ⟨⟨rfl, rfl, ?_, ?_, ?_, ?_⟩, hlen2, _, List.append_assoc _ _ _, ?_, ?_⟩
  · simp only [ctor_calls, ctor_addrs_append, d2, f1, List.length_append, List.length_nil]
    simp
  · simp only [dtor_calls, dtor_addrs_append, d1, f2, List.length_append, List.length_nil]
    split
    · simp only [List.length_map, hlen2]; omega
    · simp
  · have hge : P.SPL_KMEM_CACHE_OBJ_PER_SLAB ≤ c.skc_obj_total := by
      rw [hcells]
      exact Nat.le_mul_of_pos_right _ (by omega)
    simp only [hobjs]; omega
  · simp only; omega
  · rw [ctor_addrs_append, d2, f1]; rfl
  · rw [dtor_addrs_append, d1, f2, List.append_nil]

/-- What `spl_cache_grow` does to the record of calls: on success the
constructor once for each cell of the new slab. -/
theorem spl_cache_grow_ledger (P : Platform) (env : Env) (c c1 : spl_kmem_cache_t)
    (flags : km_flags) (j : Nat) (r : Option Nat)
    (h : spl_cache_grow P env c flags j = (r, c1)) :
    c1.skc_mag = c.skc_mag ∧
    (r = none → LedgerStep P c c1 0 0) ∧
    (∀ ptr, r = some ptr → LedgerStep P c c1 1 0 ∧
      ∃ sks ev, c1.skc_partial_list = c.skc_partial_list ++ [sks] ∧ sks.sks_ptr = ptr ∧
        sks.sks_free_list.length = P.SPL_KMEM_CACHE_OBJ_PER_SLAB ∧
        c1.skc_events = c.skc_events ++ ev ∧ dtor_addrs ev = [] ∧
        ctor_addrs ev
          = (if c.skc_ctor then sks.sks_free_list.map (fun o => o.sko_addr) else [])) := by
  simp only [spl_cache_grow] at h
  split at h
  · rename_i ev halloc
    simp only [Prod.mk.injEq] at h
    obtain ⟨rfl, rfl⟩ := h
    obtain ⟨e1, e2, _⟩ := spl_slab_alloc_calls P c j _ _ _ halloc
    refine ⟨rfl, fun _ => ⟨rfl, rfl, ?_, ?_, rfl, rfl⟩, fun ptr hp => by simp at hp⟩
    · simp [ctor_calls, ctor_addrs_append, e2 rfl]
    · simp [dtor_calls, dtor_addrs_append, e1]
  · rename_i sks ev halloc
    simp only [Prod.mk.injEq] at h
    obtain ⟨rfl, rfl⟩ := h
    obtain ⟨e1, _, e3⟩ := spl_slab_alloc_calls P c j _ _ _ halloc
    obtain ⟨w1, w2, w3, _⟩ := spl_slab_alloc_wf P c j _ sks ev halloc
    have hlen : sks.sks_free_list.length = P.SPL_KMEM_CACHE_OBJ_PER_SLAB := by omega
    refine ⟨rfl, fun hn => by simp at hn, fun ptr hp => ?_⟩
    simp only [Option.some.injEq] at hp
    refine ⟨⟨rfl, rfl, ?_, ?_, ?_, rfl⟩, sks, ev, rfl, hp, hlen, rfl, e1, e3 sks rfl⟩
    · simp only [ctor_calls, ctor_addrs_append, e3 sks rfl, List.length_append]
      split
      · simp only [List.length_map, hlen]; omega
      · simp
    · simp [dtor_calls, dtor_addrs_append, e1]
    · simp only [w2]; omega

theorem reapable_cfg (P : Platform) (c c1 : spl_kmem_cache_t) (j : Nat)
    (h : c1.skc_delay = c.skc_delay) : reapable P c1 j = reapable P c j := by
  funext s
  simp only [reapable, h]

/-- The scan of `__spl_slab_reclaim` over the slabs `A` of the partial list
not yet visited, when the slabs `B` behind them are empty: it tears down
exactly the slabs of `A` that pass the test and keeps the others in place. -/
theorem spl_slab_reclaim_loop_exact (P : Platform) (j : Nat) (l : List spl_kmem_slab_t) :
    ∀ (rc : Nat) (c : spl_kmem_cache_t) (held : List Nat) (A B : List spl_kmem_slab_t),
      Inv P c held → c.skc_obj_total = P.SPL_KMEM_CACHE_OBJ_PER_SLAB * c.skc_slab_total →
      c.skc_partial_list = A ++ B → l = A.reverse → (∀ b ∈ B, b.sks_ref = 0) →
      ∃ c1, spl_slab_reclaim_loop P j l rc c
          = some (rc + (A.filter (reapable P c j)).length, c1) ∧
        Inv P c1 held ∧
        c1.skc_partial_list = A.filter (fun s => !reapable P c j s) ++ B ∧
        c1.skc_complete_list = c.skc_complete_list ∧ c1.skc_mag = c.skc_mag ∧
        SameCfg c c1 ∧ c1.skc_hash = c.skc_hash ∧ c1.skc_obj_alloc = c.skc_obj_alloc ∧
        c1.skc_hash_count = c.skc_hash_count ∧
        LedgerStep P c c1 0 (A.filter (reapable P c j)).length := by
  induction l with
  | nil =>
    intro rc c held A B hinv hcells hAB hl hB
    have hA : A = [] := by simpa using hl.symm
    subst hA
    exact ⟨c, rfl, hinv, hAB, rfl, rfl, SameCfg.refl c, rfl, rfl, rfl, ledger_step_refl P c⟩
  | cons s rest ih =>
    intro rc c held A B hinv hcells hAB hl hB
    have hA : A = rest.reverse ++ [s] := by
      have := congrArg List.reverse hl
      simpa using this.symm
    subst hA
    have hAB2 : c.skc_partial_list = rest.reverse ++ s :: B := by
      rw [hAB]; simp
    simp only [spl_slab_reclaim_loop]
    by_cases hr : s.sks_ref > 0
    · simp only [hr, if_true]
      have hall : ∀ a ∈ rest.reverse ++ [s], reapable P c j a = false := by
        intro a ha
        have ha0 : a.sks_ref ≠ 0 := by
          simp only [List.mem_append, List.mem_singleton] at ha
          rcases ha with ha | rfl
          · have hsorted := hinv.core.sorted
            rw [hAB2, List.pairwise_append] at hsorted
            intro h0
            have := hsorted.2.2 a ha s (List.mem_cons_self _ _) h0
            omega
          · omega
        simp [reapable, ha0]
      have e1 : (rest.reverse ++ [s]).filter (reapable P c j) = [] := by
        rw [List.filter_eq_nil_iff]
        intro a ha
        simp [hall a ha]
      have e2 : (rest.reverse ++ [s]).filter (fun s => !reapable P c j s)
          = rest.reverse ++ [s] := by
        rw [List.filter_eq_self]
        intro a ha
        simp [hall a ha]
      rw [e1, e2]
      exact ⟨c, rfl, hinv, hAB, rfl, rfl, SameCfg.refl c, rfl, rfl, rfl, ledger_step_refl P c⟩
    · have h0 : s.sks_ref = 0 := by omega
      simp only [hr, if_false]
      have hs : s ∈ c.skc_partial_list := by rw [hAB2]; simp
      by_cases ht : time_after P j (s.sks_age + c.skc_delay * P.HZ) = true
      · simp only [ht, if_true]
        have hreap : reapable P c j s = true := by simp [reapable, h0, ht]
        obtain ⟨c1, h1, hinv1, hp1, _, _, hcl1, hm1, hcfg1, hh1, ha1, hc1, ht1⟩ :=
          spl_slab_free_spec P c held s hinv hs h0
        obtain ⟨hstep, _, _⟩ := spl_slab_free_ledger P c c1 held s hinv hs h0 hcells h1
        have hnd := hinv.core.ptrs
        simp only [slabs, hAB2] at hnd
        obtain ⟨hA, hB1, _⟩ := nodup_split_ptr rest.reverse B _ s hnd
        have hp2 : c1.skc_partial_list = rest.reverse ++ B := by
          rw [hp1, hAB2]; exact list_del_split _ _ s hA hB1
        have hcells1 : c1.skc_obj_total
            = P.SPL_KMEM_CACHE_OBJ_PER_SLAB * c1.skc_slab_total := by
          obtain ⟨_, _, _, _, k5, k6⟩ := hstep
          have e : P.SPL_KMEM_CACHE_OBJ_PER_SLAB * (c1.skc_slab_total + 1)
              = P.SPL_KMEM_CACHE_OBJ_PER_SLAB * (c.skc_slab_total + 0) := by rw [k6]
          simp only [Nat.mul_add] at e k5
          omega
        simp only [h1]
        obtain ⟨c2, h2, hinv2, hp, hcl2, hm2, hcfg2, hh2, ha2, hc2, hstep2⟩ :=
          ih (rc + 1) c1 held rest.reverse B hinv1 hcells1 hp2 (by simp) hB
        have hre := reapable_cfg P c c1 j hcfg1.2.2.2.2.1
        rw [hre] at h2 hp hstep2
        have e1 : ((rest.reverse ++ [s]).filter (reapable P c j)).length
            = (rest.reverse.filter (reapable P c j)).length + 1 := by
          simp [List.filter_append, hreap]
        have e2 : (rest.reverse ++ [s]).filter (fun s => !reapable P c j s)
            = rest.reverse.filter (fun s => !reapable P c j s) := by
          simp [List.filter_append, hreap]
        have hst := ledger_step_trans P c c1 c2 0 1 0 _ hstep hstep2
        rw [e1, e2]
        refine ⟨c2, ?_, hinv2, hp, hcl2.trans hcl1, hm2.trans hm1, hcfg1.trans hcfg2,
          hh2.trans hh1, ha2.trans ha1, hc2.trans hc1, ?_⟩
        · rw [h2]
          congr 2
          omega
        · have e3 : (rest.reverse.filter (reapable P c j)).length + 1
              = 1 + (rest.reverse.filter (reapable P c j)).length := by omega
          rw [e3]
          exact hst
      · simp only [ht, if_false]
        have hreap : reapable P c j s = false := by simp [reapable, ht]
        obtain ⟨c2, h2, hinv2, hp, hrest⟩ :=
          ih rc c held rest.reverse (s :: B) hinv hcells hAB2 (by simp)
            (by
              intro b hb
              simp only [List.mem_cons] at hb
              rcases hb with rfl | hb
              · exact h0
              · exact hB b hb)
        have e1 : (rest.reverse ++ [s]).filter (reapable P c j)
            = rest.reverse.filter (reapable P c j) := by
          simp [List.filter_append, hreap]
        have e2 : (rest.reverse ++ [s]).filter (fun s => !reapable P c j s)
            = rest.reverse.filter (fun s => !reapable P c j s) ++ [s] := by
          simp [List.filter_append, hreap]
        rw [e1, e2]
        exact ⟨c2, h2, hinv2, by rw [hp]; simp, hrest⟩

/-- `__spl_slab_reclaim` in a consistent state: the slabs of the partial list
that pass the test are torn down, the others stay in place, and the result is
the number of slabs torn down. -/
theorem spl_slab_reclaim_exact (P : Platform) (j : Nat) (c : spl_kmem_cache_t)
    (held : List Nat) (hinv : Inv P c held)
    (hcells : c.skc_obj_total = P.SPL_KMEM_CACHE_OBJ_PER_SLAB * c.skc_slab_total) :
    ∃ c1, __spl_slab_reclaim P c j
        = some ((c.skc_partial_list.filter (reapable P c j)).length, c1) ∧
      Inv P c1 held ∧
      c1.skc_partial_list = c.skc_partial_list.filter (fun s => !reapable P c j s) ∧
      c1.skc_complete_list = c.skc_complete_list ∧ c1.skc_mag = c.skc_mag ∧
      SameCfg c c1 ∧ c1.skc_hash = c.skc_hash ∧ c1.skc_obj_alloc = c.skc_obj_alloc ∧
      c1.skc_hash_count = c.skc_hash_count ∧
      LedgerStep P c c1 0 (c.skc_partial_list.filter (reapable P c j)).length := by
  obtain ⟨c1, h1, h2, h3, hrest⟩ :=
    spl_slab_reclaim_loop_exact P j c.skc_partial_list.reverse 0 c held c.skc_partial_list []
      hinv hcells (by simp) rfl (by simp)
  refine ⟨c1, ?_, h2, by simpa using h3, hrest⟩
  simp only [__spl_slab_reclaim, h1, Nat.zero_add]

theorem park_step_refl (c : spl_kmem_cache_t) : ParkStep c c := rfl

theorem park_step_trans (c c1 c2 : spl_kmem_cache_t) (h : ParkStep c c1) (h1 : ParkStep c1 c2) :
    ParkStep c c2 := by
  simp only [ParkStep] at *
  omega

theorem sum_avail_set (mags : List spl_kmem_magazine_t) (id : Nat) (m m1 : spl_kmem_magazine_t)
    (h : mags[id]? = some m) :
    ((mags.set id m1).map (fun m => m.skm_avail)).sum + m.skm_avail
      = (mags.map (fun m => m.skm_avail)).sum + m1.skm_avail := by
  induction mags generalizing id with
  | nil => simp at h
  | cons a l ih =>
    cases id with
    | zero =>
      simp only [List.getElem?_cons_zero, Option.some.injEq] at h
      subst h
      simp only [List.set_cons_zero, List.map_cons, List.sum_cons]
      omega
    | succ n =>
      simp only [List.getElem?_cons_succ] at h
      have := ih n h
      simp only [List.set_cons_succ, List.map_cons, List.sum_cons]
      omega

theorem spl_cache_obj_frame (P : Platform) (c c1 : spl_kmem_cache_t) (ptr j p : Nat)
    (h : spl_cache_obj P c ptr j = some (p, c1)) :
    c1.skc_mag = c.skc_mag ∧ c1.skc_events = c.skc_events ∧
    c1.skc_obj_total = c.skc_obj_total ∧ c1.skc_slab_total = c.skc_slab_total ∧
    c1.skc_ctor = c.skc_ctor ∧ c1.skc_dtor = c.skc_dtor ∧
    c1.skc_hash_count = c.skc_hash_count + 1 := by
  simp only [spl_cache_obj] at h
  split at h
  · simp at h
  · split at h
    · simp at h
    · split at h
      · simp at h
      · split at h
        · simp at h
        · simp only [Option.some.injEq, Prod.mk.injEq] at h
          obtain ⟨_, rfl⟩ := h
          simp only [slab_write]
          split <;> split <;> (try split) <;> exact ⟨rfl, rfl, rfl, rfl, rfl, rfl, rfl⟩

/-- The inner loop of `spl_cache_refill` calls no callback and parks every
body it takes. -/
theorem spl_cache_refill_inner_frame (P : Platform) (id ptr j : Nat) (refill : Nat) :
    ∀ (rc : Nat) (c c1 : spl_kmem_cache_t) (r1 rc1 : Nat),
      spl_cache_refill_inner P id ptr j refill rc c = some (r1, rc1, c1) →
      LedgerStep P c c1 0 0 ∧ ParkStep c c1 := by
  induction refill with
  | zero =>
    intro rc c c1 r1 rc1 h
    simp only [spl_cache_refill_inner] at h
    split at h
    · simp at h
    · simp only [Option.some.injEq, Prod.mk.injEq] at h
      obtain ⟨_, _, rfl⟩ := h
      exact ⟨ledger_step_refl P c, park_step_refl c⟩
  | succ n ih =>
    intro rc c c1 r1 rc1 h
    simp only [spl_cache_refill_inner] at h
    split at h
    · simp at h
    · split at h
      · split at h
        · simp at h
        · rename_i skm hskm
          split at h
          · simp at h
          · split at h
            · simp at h
            · split at h
              · simp at h
              · rename_i obj skc1 hobj
                split at h
                · simp at h
                · rename_i objs hobjs
                  obtain ⟨f1, f2, f3, f4, f5, f6, f7⟩ := spl_cache_obj_frame P c skc1 ptr j obj hobj
                  obtain ⟨s1, s2⟩ := ih _ _ _ _ _ h
                  have hm1 : skc1.skc_mag[id]? = some skm := by rw [f1]; exact hskm
                  have hsum := sum_avail_set skc1.skc_mag id skm
                    { skm with skm_objs := objs, skm_avail := skm.skm_avail + 1 } hm1
                  refine ⟨?_, ?_⟩
                  · have := ledger_step_trans P c _ c1 0 0 0 0
                      (ledger_step_of_eq P c _ f5 f6 f2 f3 f4) s1
                    exact this
                  · refine park_step_trans c _ c1 ?_ s2
                    simp only [ParkStep, parked, f7]
                    simp only at hsum
                    rw [f1] at hsum ⊢
                    omega
      · simp only [Option.some.injEq, Prod.mk.injEq] at h
        obtain ⟨_, _, rfl⟩ := h
        exact ⟨ledger_step_refl P c, park_step_refl c⟩

theorem spl_cache_grow_park (P : Platform) (env : Env) (c c1 : spl_kmem_cache_t)
    (flags : km_flags) (j : Nat) (r : Option Nat)
    (h : spl_cache_grow P env c flags j = (r, c1)) : ParkStep c c1 := by
  simp only [spl_cache_grow] at h
  split at h <;>
  · simp only [Prod.mk.injEq] at h
    obtain ⟨_, rfl⟩ := h
    rfl

theorem spl_cache_grow_step (P : Platform) (env : Env) (c c1 : spl_kmem_cache_t)
    (flags : km_flags) (j : Nat) (r : Option Nat)
    (h : spl_cache_grow P env c flags j = (r, c1)) :
    ∃ g, LedgerStep P c c1 g 0 := by
  obtain ⟨_, h1, h2⟩ := spl_cache_grow_ledger P env c c1 flags j r h
  cases r with
  | none => exact ⟨0, h1 rfl⟩
  | some ptr => exact ⟨1, (h2 ptr rfl).1⟩

/-- The outer loop of `spl_cache_refill` calls the constructor for the slabs it
grows and nothing else, and parks every body it takes. -/
theorem spl_cache_refill_loop_frame (P : Platform) (env : Env) (id : Nat) (flags : km_flags)
    (j : Nat) (fuel : Nat) :
    ∀ (cpu refill rc : Nat) (c c1 : spl_kmem_cache_t) (rc1 cpu1 : Nat),
      spl_cache_refill_loop P env id flags j fuel cpu refill rc c = some (rc1, cpu1, c1) →
      (∃ g, LedgerStep P c c1 g 0) ∧ ParkStep c c1 := by
  induction fuel with
  | zero =>
    intro cpu refill rc c c1 rc1 cpu1 h
    simp [spl_cache_refill_loop] at h
  | succ fuel ih =>
    intro cpu refill rc c c1 rc1 cpu1 h
    simp only [spl_cache_refill_loop] at h
    split at h
    · split at h
      · split at h
        · rename_i skc1 hg
          simp only [Option.some.injEq, Prod.mk.injEq] at h
          obtain ⟨_, _, rfl⟩ := h
          exact ⟨spl_cache_grow_step P env c _ flags j _ hg,
            spl_cache_grow_park P env c _ flags j _ hg⟩
        · rename_i ptr skc1 hg
          have hs := spl_cache_grow_step P env c _ flags j _ hg
          have hp := spl_cache_grow_park P env c _ flags j _ hg
          split at h
          · simp only [Option.some.injEq, Prod.mk.injEq] at h
            obtain ⟨_, _, rfl⟩ := h
            exact ⟨hs, hp⟩
          · split at h
            · simp at h
            · obtain ⟨⟨g1, s1⟩, p1⟩ := ih _ _ _ _ _ _ _ h
              obtain ⟨g, s⟩ := hs
              exact ⟨⟨g + g1, ledger_step_trans P c _ c1 g 0 g1 0 s s1⟩,
                park_step_trans c _ c1 hp p1⟩
      · split at h
        · simp at h
        · split at h
          · simp at h
          · split at h
            · simp at h
            · rename_i refill1 rc2 skc1 hin
              obtain ⟨s0, p0⟩ := spl_cache_refill_inner_frame P id _ j refill rc c skc1 _ _ hin
              split at h
              · simp at h
              · obtain ⟨⟨g1, s1⟩, p1⟩ := ih _ _ _ _ _ _ _ h
                refine ⟨⟨0 + g1, ledger_step_trans P c _ c1 0 0 g1 0 ?_ s1⟩,
                  park_step_trans c _ c1 ?_ p1⟩
                · split
                  · exact ledger_step_trans P c skc1 _ 0 0 0 0 s0
                      (ledger_step_of_eq P skc1 _ rfl rfl rfl rfl rfl)
                  · exact s0
                · split
                  · exact park_step_trans c skc1 _ p0 rfl
                  · exact p0
    · simp only [Option.some.injEq, Prod.mk.injEq] at h
      obtain ⟨_, _, rfl⟩ := h
      exact ⟨⟨0, ledger_step_refl P c⟩, park_step_refl c⟩

theorem spl_cache_refill_frame (P : Platform) (env : Env) (c c1 : spl_kmem_cache_t)
    (id cpu : Nat) (flags : km_flags) (j rc1 cpu1 : Nat)
    (h : spl_cache_refill P env c id cpu flags j = some (rc1, cpu1, c1)) :
    (∃ g, LedgerStep P c c1 g 0) ∧ ParkStep c c1 := by
  simp only [spl_cache_refill] at h
  split at h
  · simp at h
  · exact spl_cache_refill_loop_frame P env id flags j _ _ _ _ _ _ _ _ h

/-- `spl_kmem_cache_alloc` calls the constructor for the slabs it grows and
nothing else, and takes one body out of the magazines. -/
theorem spl_kmem_cache_alloc_loop_frame (P : Platform) (env : Env) (flags : km_flags)
    (j : Nat) (fuel : Nat) :
    ∀ (cpu : Nat) (c c1 : spl_kmem_cache_t) (obj cpu1 : Nat),
      spl_kmem_cache_alloc_loop P env flags j fuel cpu c = some (obj, cpu1, c1) →
      (∃ g, LedgerStep P c c1 g 0) ∧
      c1.skc_hash_count + parked c = c.skc_hash_count + parked c1 + 1 := by
  induction fuel with
  | zero =>
    intro cpu c c1 obj cpu1 h
    simp [spl_kmem_cache_alloc_loop] at h
  | succ fuel ih =>
    intro cpu c c1 obj cpu1 h
    simp only [spl_kmem_cache_alloc_loop] at h
    split at h
    · simp at h
    · split at h
      · simp at h
      · rename_i skm hskm
        split at h
        · rename_i hav
          split at h
          · simp at h
          · split at h
            · simp at h
            · simp only [Option.some.injEq, Prod.mk.injEq] at h
              obtain ⟨_, _, rfl⟩ := h
              have hsum := sum_avail_set c.skc_mag cpu skm
                { skm with skm_avail := skm.skm_avail - 1, skm_age := j } hskm
              refine ⟨⟨0, ledger_step_of_eq P c _ rfl rfl rfl rfl rfl⟩, ?_⟩
              simp only [parked]
              simp only at hsum
              omega
        · split at h
          · simp at h
          · rename_i rc cpu2 skc1 hre
            obtain ⟨⟨g, s⟩, p⟩ := spl_cache_refill_frame P env c skc1 cpu cpu flags j _ _ hre
            obtain ⟨⟨g1, s1⟩, p1⟩ := ih _ _ _ _ _ h
            refine ⟨⟨g + g1, ledger_step_trans P c _ c1 g 0 g1 0 s s1⟩, ?_⟩
            simp only [ParkStep] at p
            omega

theorem spl_cache_flush_step (P : Platform) (c c2 : spl_kmem_cache_t) (held : List Nat)
    (id k j count : Nat) (hinv : Inv P c held)
    (h : spl_cache_flush P c id k j = some (count, c2)) :
    LedgerStep P c c2 0 0 ∧ ParkStep c c2 ∧ c2.skc_events = c.skc_events := by
  cases hm : c.skc_mag[id]? with
  | none => simp [spl_cache_flush, hm] at h
  | some m =>
    obtain ⟨c1, _, h2, _, h4, h5, _, h7, h8, h9, h10, _⟩ :=
      spl_cache_flush_spec P c held id k j m hinv hm
    rw [h2] at h
    simp only [Option.some.injEq, Prod.mk.injEq] at h
    obtain ⟨_, rfl⟩ := h
    have hcnt : min k m.skm_avail ≤ m.skm_avail := Nat.min_le_right _ _
    have hm1 : c1.skc_mag[id]? = some m := by rw [h4]; exact hm
    have hsum := sum_avail_set c1.skc_mag id m (mag_flushed m (min k m.skm_avail)) hm1
    refine ⟨ledger_step_of_eq P c _ h5.2.2.2.2.2.1 h5.2.2.2.2.2.2.1 h10 h9 h8, ?_, h10⟩
    have e : (mag_flushed m (min k m.skm_avail)).skm_avail
        = m.skm_avail - min k m.skm_avail := rfl
    rw [e, h4] at hsum
    simp only [ParkStep, parked, set_mag, h4]
    omega

theorem spl_kmem_cache_free_step (P : Platform) (c c1 : spl_kmem_cache_t) (held : List Nat)
    (cpu obj j : Nat) (hinv : Inv P c held)
    (h : spl_kmem_cache_free P c cpu obj j = some c1) :
    LedgerStep P c c1 0 0 ∧ c1.skc_events = c.skc_events ∧
    c1.skc_hash_count + parked c + 1 = c.skc_hash_count + parked c1 := by
  cases hm : c.skc_mag[cpu]? with
  | none => simp [spl_kmem_cache_free, hm] at h
  | some m =>
    obtain ⟨c0, m0, k1, k2, k3, k4, k5, k6, k7, k8, k9, _⟩ :=
      spl_kmem_cache_free_spec P c held cpu obj j m hinv hm
    rw [k9] at h
    simp only [Option.some.injEq] at h
    subst h
    have h0 : LedgerStep P c c0 0 0 ∧ ParkStep c c0 ∧ c0.skc_events = c.skc_events := by
      split at k1
      · exact spl_cache_flush_step P c c0 held cpu _ j _ hinv k1.1
      · obtain ⟨rfl, _⟩ := k1
        exact ⟨ledger_step_refl P _, park_step_refl _, rfl⟩
    obtain ⟨s0, p0, e0⟩ := h0
    have hsum := sum_avail_set c0.skc_mag cpu m0 (mag_pushed m0 obj) k4
    refine ⟨ledger_step_trans P c c0 _ 0 0 0 0 s0 (ledger_step_of_eq P c0 _ rfl rfl rfl rfl rfl),
      e0, ?_⟩
    simp only [ParkStep, parked] at p0 ⊢
    simp only [set_mag, mag_pushed] at hsum ⊢
    omega

theorem spl_kmem_cache_reap_now_loop_step (P : Platform) (j : Nat) (n : Nat) :
    ∀ (i : Nat) (c c1 : spl_kmem_cache_t) (held : List Nat), Inv P c held →
      spl_kmem_cache_reap_now_loop P j n i c = some c1 →
      LedgerStep P c c1 0 0 ∧ ParkStep c c1 ∧ c1.skc_events = c.skc_events ∧ Inv P c1 held := by
  induction n with
  | zero =>
    intro i c c1 held hinv h
    simp only [spl_kmem_cache_reap_now_loop, Option.some.injEq] at h
    subst h
    exact ⟨ledger_step_refl P _, park_step_refl _, rfl, hinv⟩
  | succ n ih =>
    intro i c c1 held hinv h
    simp only [spl_kmem_cache_reap_now_loop] at h
    split at h
    · simp at h
    · rename_i skm hskm
      split at h
      · split at h
        · simp at h
        · rename_i cnt skc1 hf
          obtain ⟨s0, p0, e0⟩ := spl_cache_flush_step P c skc1 held i _ j _ hinv hf
          have hinv1 : Inv P skc1 held := by
            obtain ⟨c2, _, h2, h3, _⟩ :=
              spl_cache_flush_spec P c held i skm.skm_refill j skm hinv hskm
            rw [h2] at hf
            simp only [Option.some.injEq, Prod.mk.injEq] at hf
            rw [← hf.2]; exact h3
          obtain ⟨s1, p1, e1, i1⟩ := ih _ _ _ held hinv1 h
          exact ⟨ledger_step_trans P c skc1 c1 0 0 0 0 s0 s1, park_step_trans _ _ _ p0 p1,
            e1.trans e0, i1⟩
      · exact ih _ _ _ held hinv h

theorem spl_magazine_free_all_calls (l : List spl_kmem_magazine_t) (es : List Event)
    (h : spl_magazine_free_all l = some es) : ctor_addrs es = [] ∧ dtor_addrs es = [] := by
  induction l generalizing es with
  | nil =>
    simp only [spl_magazine_free_all, Option.some.injEq] at h
    subst h
    exact ⟨rfl, rfl⟩
  | cons m l ih =>
    simp only [spl_magazine_free_all] at h
    split at h
    · rename_i e es1 he hes
      simp only [Option.some.injEq] at h
      subst h
      obtain ⟨a1, a2⟩ := ih es1 hes
      simp only [spl_magazine_free] at he
      split at he
      · simp at he
      · simp only [Option.some.injEq] at he
        subst he
        simp only [ctor_addrs, dtor_addrs, List.filterMap_cons] at a1 a2 ⊢
        exact ⟨a1, a2⟩
    · simp at h

theorem spl_magazine_create_loop_calls (P : Platform) (j : Nat) (n : Nat) :
    ∀ (heap : Heap) (c c1 : spl_kmem_cache_t) (rc : Int),
      spl_magazine_create_loop P j n heap c = some (rc, c1) →
      ctor_addrs c1.skc_events = ctor_addrs c.skc_events ∧
      dtor_addrs c1.skc_events = dtor_addrs c.skc_events := by
  induction n with
  | zero =>
    intro heap c c1 rc h
    simp only [spl_magazine_create_loop, Option.some.injEq, Prod.mk.injEq] at h
    obtain ⟨_, rfl⟩ := h
    exact ⟨rfl, rfl⟩
  | succ n ih =>
    intro heap c c1 rc h
    simp only [spl_magazine_create_loop] at h
    split at h
    · split at h
      · simp at h
      · rename_i es hes
        simp only [Option.some.injEq, Prod.mk.injEq] at h
        obtain ⟨_, rfl⟩ := h
        obtain ⟨a1, a2⟩ := spl_magazine_free_all_calls _ es hes
        simp only [ctor_addrs_append, dtor_addrs_append, a1, a2, List.append_nil]
        exact ⟨by simp [ctor_addrs], by simp [dtor_addrs]⟩
    · obtain ⟨a1, a2⟩ := ih _ _ _ _ h
      rw [a1, a2]
      simp only [ctor_addrs_append, dtor_addrs_append]
      exact ⟨by simp [ctor_addrs], by simp [dtor_addrs]⟩

/-- A cache fresh from `spl_kmem_cache_create` has seen no callback and has
no cell. -/
theorem spl_kmem_cache_create_ledger (P : Platform) (name_len size : Nat)
    (ctor dtor reclaim : Bool) (j : Nat) (heap : Heap) (registry registry1 : List Nat)
    (ev : List Event) (c : spl_kmem_cache_t)
    (h : spl_kmem_cache_create P name_len size ctor dtor reclaim j heap registry
      = some (some c, registry1, ev)) :
    ctor_addrs c.skc_events = [] ∧ dtor_addrs c.skc_events = [] ∧ c.skc_obj_total = 0 ∧
    c.skc_ctor = ctor ∧ c.skc_dtor = dtor := by
  simp only [spl_kmem_cache_create] at h
  split at h
  · simp at h
  · split at h
    · simp at h
    · split at h
      · simp at h
      · split at h
        · simp at h
        · rename_i rc c1 hmc
          split at h
          · simp at h
          · rename_i hrc
            simp only [ne_eq, Decidable.not_not] at hrc
            subst hrc
            simp only [Option.some.injEq, Prod.mk.injEq] at h
            obtain ⟨rfl, _, _⟩ := h
            simp only [spl_magazine_create] at hmc
            obtain ⟨a1, a2⟩ := spl_magazine_create_loop_calls P j P.NCPUS _ _ _ _ hmc
            obtain ⟨d1, _, _⟩ := spl_magazine_create_loop_spec P j P.NCPUS _ _ _ hmc
            refine ⟨?_, ?_, by rw [d1], by rw [d1], by rw [d1]⟩
            · rw [a1]; rfl
            · rw [a2]; rfl

theorem reap_called_inv (P : Platform) (c : spl_kmem_cache_t) (held : List Nat)
    (hinv : Inv P c held) :
    Inv P (reap_called c) held ∧ SameCfg c (reap_called c) ∧
    LedgerStep P c (reap_called c) 0 0 ∧ ParkStep c (reap_called c) ∧
    slabs (reap_called c) = slabs c ∧ (reap_called c).skc_mag = c.skc_mag := by
  simp only [reap_called]
  split
  · obtain ⟨hcore, hpart, hmags⟩ := hinv
    refine ⟨⟨core_perm P c _ hcore (List.Perm.refl _) rfl rfl rfl rfl hcore.comp hcore.sorted
          hcore.total, hpart,
        magok_frame P c _ held hmags rfl (by simp [SameCfg]) (fun p hp => hp)⟩,
      by simp [SameCfg], ⟨rfl, rfl, ?_, ?_, rfl, rfl⟩, rfl, rfl, rfl⟩
    · simp [ctor_calls, ctor_addrs_append, ctor_addrs]
    · simp [dtor_calls, dtor_addrs_append, dtor_addrs]
  · exact ⟨hinv, SameCfg.refl c, ledger_step_refl P c, park_step_refl c, rfl, rfl⟩

/-- `spl_kmem_cache_reap_now` in a consistent state: it returns; after the
flushes of the idle magazines, in state `c0`, the slab scan tears down exactly
the slabs of the partial list that pass its test. -/
theorem spl_kmem_cache_reap_now_exact (P : Platform) (j : Nat) (c : spl_kmem_cache_t)
    (held : List Nat) (hinv : Inv P c held)
    (hcells : c.skc_obj_total = P.SPL_KMEM_CACHE_OBJ_PER_SLAB * c.skc_slab_total) :
    ∃ c0 c1,
      spl_kmem_cache_reap_now_loop P j P.NCPUS 0 (reap_called c) = some c0 ∧
      __spl_slab_reclaim P c0 j
        = some ((c0.skc_partial_list.filter (reapable P c0 j)).length, c1) ∧
      spl_kmem_cache_reap_now P c j = some c1 ∧
      Inv P c0 held ∧ SameCfg c c0 ∧ LedgerStep P c c0 0 0 ∧ ParkStep c c0 ∧
      Inv P c1 held ∧
      c1.skc_partial_list = c0.skc_partial_list.filter (fun s => !reapable P c0 j s) ∧
      c1.skc_complete_list = c0.skc_complete_list ∧
      LedgerStep P c c1 0 (c0.skc_partial_list.filter (reapable P c0 j)).length ∧
      ParkStep c c1 := by
  obtain ⟨i0, cfg0, s0, p0, _, hm0⟩ := reap_called_inv P c held hinv
  have hlen0 : (reap_called c).skc_mag.length = P.NCPUS := by
    rw [hm0]; exact hinv.mags.ncpus
  obtain ⟨c0, h1, _, cfg1, _⟩ :=
    spl_kmem_cache_reap_now_loop_spec P j P.NCPUS 0 _ held i0 (by rw [hlen0]; omega)
  obtain ⟨s1, p1, _, i1⟩ := spl_kmem_cache_reap_now_loop_step P j P.NCPUS 0 _ c0 held i0 h1
  have s01 := ledger_step_trans P c _ c0 0 0 0 0 s0 s1
  have hcells0 : c0.skc_obj_total = P.SPL_KMEM_CACHE_OBJ_PER_SLAB * c0.skc_slab_total := by
    obtain ⟨_, _, _, _, k5, k6⟩ := s01
    simp only [Nat.mul_zero, Nat.add_zero] at k5 k6
    rw [k5, k6, hcells]
  obtain ⟨c1, h2, i2, hp2, hc2, hm2, cfg2, hh2, ha2, hcnt2, s2⟩ :=
    spl_slab_reclaim_exact P j c0 held i1 hcells0
  have p2 : ParkStep c0 c1 := by
    simp only [ParkStep, parked, hm2, hcnt2]
  refine ⟨c0, c1, h1, h2, ?_, i1, cfg0.trans cfg1, s01, park_step_trans _ _ _ p0 p1, i2, hp2,
    hc2, ?_, park_step_trans _ _ _ (park_step_trans _ _ _ p0 p1) p2⟩
  · have h1b := h1
    simp only [reap_called] at h1b
    simp only [spl_kmem_cache_reap_now, h1b, spl_slab_reclaim, h2, Option.map_some']
  · have := ledger_step_trans P c c0 c1 0 0 0 _ s01 s2
    simpa using this

theorem parked_zero (c : spl_kmem_cache_t) (h : ∀ m ∈ c.skc_mag, m.skm_avail = 0) :
    parked c = 0 := by
  simp only [parked]
  apply List.sum_eq_zero
  intro x hx
  simp only [List.mem_map] at hx
  obtain ⟨m, hm, rfl⟩ := hx
  exact h m hm

/-- In every reachable state the callback calls recorded agree with the
statistics of cells and slabs, and every hashed object is parked in a magazine
or in the hands of a caller. -/
theorem reachable_ledger (P : Platform) (hP : P.ok) (c : spl_kmem_cache_t) (held : List Nat)
    (h : Reachable P c held) :
    Ledger P c ∧ c.skc_hash_count = parked c + held.length := by
  induction h with
  | create hc =>
    obtain ⟨_, _, _, _, h5, _, h7, _, h9⟩ :=
      spl_kmem_cache_create_inv P hP _ _ _ _ _ _ _ _ _ _ _ hc
    obtain ⟨e1, e2, e3, _, _⟩ := spl_kmem_cache_create_ledger P _ _ _ _ _ _ _ _ _ _ _ hc
    refine ⟨⟨by rw [e3, h5, Nat.mul_zero], ?_, ?_, ?_⟩, by rw [h7, parked_zero _ h9]; rfl⟩
    · intro _ _
      simp [ctor_calls, dtor_calls, e1, e2, e3]
    · intro _
      simp [ctor_calls, e1]
    · intro _
      simp [dtor_calls, e2]
  | @grow c c1 held env flags j r hr henv hg ih =>
    obtain ⟨g, s⟩ := spl_cache_grow_step P env c c1 flags j r hg
    have p := spl_cache_grow_park P env c c1 flags j r hg
    simp only [ParkStep] at p
    exact ⟨ledger_apply_step P c c1 g 0 ih.1 s, by omega⟩
  | @refill c c1 held env flags id cpu j rc cpu1 hr henv hre ih =>
    obtain ⟨⟨g, s⟩, p⟩ := spl_cache_refill_frame P env c c1 id cpu flags j rc cpu1 hre
    simp only [ParkStep] at p
    exact ⟨ledger_apply_step P c c1 g 0 ih.1 s, by omega⟩
  | @flush c c1 held id k j count hr hf ih =>
    obtain ⟨s, p, _⟩ :=
      spl_cache_flush_step P c c1 held id k j count (reachable_inv P hP c held hr) hf
    simp only [ParkStep] at p
    exact ⟨ledger_apply_step P c c1 0 0 ih.1 s, by omega⟩
  | @alloc c c1 held env flags cpu j fuel obj cpu1 hr henv ha ih =>
    simp only [spl_kmem_cache_alloc] at ha
    split at ha
    · simp at ha
    · obtain ⟨⟨g, s⟩, p⟩ := spl_kmem_cache_alloc_loop_frame P env flags j fuel cpu c c1 obj cpu1 ha
      exact ⟨ledger_apply_step P c c1 g 0 ih.1 s, by simp only [List.length_cons]; omega⟩
  | @free c c1 held cpu obj j hr hobj hf ih =>
    obtain ⟨s, _, p⟩ :=
      spl_kmem_cache_free_step P c c1 held cpu obj j (reachable_inv P hP c held hr) hf
    have hl := List.length_erase_of_mem hobj
    have hpos : 0 < held.length := List.length_pos_of_mem hobj
    exact ⟨ledger_apply_step P c c1 0 0 ih.1 s, by rw [hl]; omega⟩
  | @reclaim c c1 held j rc hr hre ih =>
    obtain ⟨c2, h2, _, _, _, hm2, _, _, _, hcnt2, s2⟩ :=
      spl_slab_reclaim_exact P j c held (reachable_inv P hP c held hr) ih.1.cells
    rw [h2] at hre
    simp only [Option.some.injEq, Prod.mk.injEq] at hre
    obtain ⟨_, rfl⟩ := hre
    exact ⟨ledger_apply_step P c c2 0 _ ih.1 s2, by simp only [parked, hm2, hcnt2]; exact ih.2⟩
  | @reap_now c c1 held j hr hre ih =>
    obtain ⟨c0, c2, _, _, h3, _, _, _, _, _, _, _, s, p⟩ :=
      spl_kmem_cache_reap_now_exact P j c held (reachable_inv P hP c held hr) ih.1.cells
    rw [h3] at hre
    simp only [Option.some.injEq] at hre
    subst hre
    simp only [ParkStep] at p
    exact ⟨ledger_apply_step P c c2 0 _ ih.1 s, by omega⟩

theorem inv_events (P : Platform) (c : spl_kmem_cache_t) (held : List Nat) (ev : List Event)
    (hinv : Inv P c held) : Inv P { c with skc_events := ev } held := by
  obtain ⟨hcore, hpart, hmags⟩ := hinv
  exact ⟨core_perm P c _ hcore (List.Perm.refl _) rfl rfl rfl rfl hcore.comp hcore.sorted
      hcore.total, hpart,
    magok_frame P c _ held hmags rfl (by simp [SameCfg]) (fun p hp => hp)⟩

/-- `spl_kmem_cache_alloc` on a CPU whose magazine holds a body: the top body
is handed out and nothing but the magazine changes. -/
theorem spl_kmem_cache_alloc_pop (P : Platform) (env : Env) (c : spl_kmem_cache_t)
    (held : List Nat) (cpu j fuel : Nat) (m : spl_kmem_magazine_t) (hinv : Inv P c held)
    (hm : c.skc_mag[cpu]? = some m) (hav : m.skm_avail ≠ 0) (hcpu : cpu < 4) :
    ∃ obj, m.skm_objs[m.skm_avail - 1]? = some obj ∧
      spl_kmem_cache_alloc P env c cpu km_flags.KM_SLEEP j (fuel + 1)
        = some (obj, cpu, set_mag c cpu (mag_popped m j)) := by
  have hmm : m ∈ c.skc_mag := List.mem_iff_getElem?.2 ⟨cpu, hm⟩
  obtain ⟨_, _, _, _, s5, s6⟩ := magok_sizes P c held hinv.mags m hmm
  have hlt : m.skm_avail - 1 < m.skm_objs.length := by omega
  have hget : m.skm_objs[m.skm_avail - 1]? = some m.skm_objs[m.skm_avail - 1] :=
    List.getElem?_eq_getElem hlt
  have hlive : m.skm_objs[m.skm_avail - 1] ∈ mags_live c ++ held := by
    simp only [mags_live, List.mem_append, List.mem_flatMap]
    refine Or.inl ⟨m, hmm, ?_⟩
    simp only [mag_live]
    rw [List.mem_take_iff_getElem]
    exact ⟨m.skm_avail - 1, by simp only [Nat.lt_min]; omega, rfl⟩
  have hin := hinv.mags.in_hash _ hlive
  simp only [List.mem_map] at hin
  obtain ⟨o, ho, hoa⟩ := hin
  have hnn : m.skm_objs[m.skm_avail - 1] ≠ 0 := by
    rw [← hoa]
    apply hinv.core.nonnull
    simp only [all_objs, List.mem_append]
    exact Or.inr ho
  refine ⟨_, hget, ?_⟩
  simp only [spl_kmem_cache_alloc, ne_eq, not_true_eq_false, if_false,
    spl_kmem_cache_alloc_loop, hcpu, hm, hav, hget, hnn, set_mag, mag_popped,
    not_false_eq_true, if_true]

/-- Any result of `spl_kmem_cache_alloc` on a CPU whose magazine holds a body
is the one of the pop. -/
theorem spl_kmem_cache_alloc_pop_eq (P : Platform) (env : Env) (c c1 : spl_kmem_cache_t)
    (cpu j fuel obj cpu1 : Nat) (flags : km_flags) (m : spl_kmem_magazine_t)
    (hm : c.skc_mag[cpu]? = some m) (hav : m.skm_avail ≠ 0)
    (h : spl_kmem_cache_alloc P env c cpu flags j fuel = some (obj, cpu1, c1)) :
    c1 = set_mag c cpu (mag_popped m j) ∧ cpu1 = cpu ∧
    m.skm_objs[m.skm_avail - 1]? = some obj := by
  simp only [spl_kmem_cache_alloc] at h
  split at h
  · simp at h
  · cases fuel with
    | zero => simp [spl_kmem_cache_alloc_loop] at h
    | succ fuel =>
      simp only [spl_kmem_cache_alloc_loop, hm, hav] at h
      split at h
      · simp at h
      · split at h
        · simp at h
        · rename_i o ho
          split at h
          · simp at h
          · simp only [Option.some.injEq, Prod.mk.injEq] at h
            obtain ⟨rfl, rfl, rfl⟩ := h
            exact ⟨rfl, rfl, ho⟩

theorem ledger_step_of_quiet (P : Platform) (c c1 : spl_kmem_cache_t) (ev : List Event)
    (hc : c1.skc_ctor = c.skc_ctor) (hd : c1.skc_dtor = c.skc_dtor)
    (hev : c1.skc_events = c.skc_events ++ ev) (h1 : ctor_addrs ev = [])
    (h2 : dtor_addrs ev = []) (hobj : c1.skc_obj_total = c.skc_obj_total)
    (hslab : c1.skc_slab_total = c.skc_slab_total) : LedgerStep P c c1 0 0 := by
  refine ⟨hc, hd, ?_, ?_, ?_, ?_⟩
  · simp [ctor_calls, hev, ctor_addrs_append, h1]
  · simp [dtor_calls, hev, dtor_addrs_append, h2]
  · simp [hobj]
  · simp [hslab]

theorem cells_step (P : Platform) (c c1 : spl_kmem_cache_t) (g f : Nat)
    (h : c.skc_obj_total = P.SPL_KMEM_CACHE_OBJ_PER_SLAB * c.skc_slab_total)
    (hs : LedgerStep P c c1 g f) :
    c1.skc_obj_total = P.SPL_KMEM_CACHE_OBJ_PER_SLAB * c1.skc_slab_total := by
  obtain ⟨_, _, _, _, a5, a6⟩ := hs
  have e : P.SPL_KMEM_CACHE_OBJ_PER_SLAB * (c1.skc_slab_total + f)
      = P.SPL_KMEM_CACHE_OBJ_PER_SLAB * (c.skc_slab_total + g) := by rw [a6]
  simp only [Nat.mul_add] at e
  omega

/-- The loop of `spl_magazine_destroy` in a consistent state: every magazine
it visits is flushed whole, passes the assertion of `spl_magazine_free`, and
no callback is called. -/
theorem spl_magazine_destroy_loop_spec (P : Platform) (j : Nat) (held : List Nat) (n : Nat) :
    ∀ (i : Nat) (c : spl_kmem_cache_t), Inv P c held → i + n ≤ c.skc_mag.length →
      (∀ k m, k < i → c.skc_mag[k]? = some m → m.skm_avail = 0) →
      ∃ c1, spl_magazine_destroy_loop P j n i c = some c1 ∧ Inv P c1 held ∧ SameCfg c c1 ∧
        LedgerStep P c c1 0 0 ∧ ParkStep c c1 ∧ c1.skc_mag.length = c.skc_mag.length ∧
        (∀ k m, k < i + n → c1.skc_mag[k]? = some m → m.skm_avail = 0) := by
  induction n with
  | zero =>
    intro i c hinv _ hz
    exact ⟨c, rfl, hinv, SameCfg.refl c, ledger_step_refl P c, park_step_refl c, rfl, hz⟩
  | succ n ih =>
    intro i c hinv hlen hz
    have hi : i < c.skc_mag.length := by omega
    have hm : c.skc_mag[i]? = some c.skc_mag[i] := List.getElem?_eq_getElem hi
    obtain ⟨c1, _, h2, h3, h4, h5, _⟩ :=
      spl_cache_flush_spec P c held i c.skc_mag[i].skm_avail j c.skc_mag[i] hinv hm
    obtain ⟨s0, p0, _⟩ := spl_cache_flush_step P c _ held i _ j _ hinv h2
    simp only [Nat.min_self] at h2 h3 s0 p0
    have hi1 : i < c1.skc_mag.length := by rw [h4]; exact hi
    have hget : (set_mag c1 i (mag_flushed c.skc_mag[i] c.skc_mag[i].skm_avail)).skc_mag[i]?
        = some (mag_flushed c.skc_mag[i] c.skc_mag[i].skm_avail) := by
      simp only [set_mag, List.getElem?_set_self hi1]
    have hfree : spl_magazine_free (mag_flushed c.skc_mag[i] c.skc_mag[i].skm_avail)
        = some (Event.kfree c.skc_mag[i].skm_ptr) := by
      simp [spl_magazine_free, mag_flushed]
    have hinv3 := inv_events P _ held
      ((set_mag c1 i (mag_flushed c.skc_mag[i] c.skc_mag[i].skm_avail)).skc_events
        ++ [Event.kfree c.skc_mag[i].skm_ptr]) h3
    have hlen3 : (set_mag c1 i (mag_flushed c.skc_mag[i] c.skc_mag[i].skm_avail)).skc_mag.length
        = c.skc_mag.length := by
      simp only [set_mag, List.length_set, h4]
    obtain ⟨c2, e1, e2, e3, e4, e5, e6, e7⟩ := ih (i + 1) _ hinv3 (by
        simp only [set_mag, List.length_set, h4]; omega) (by
        intro k m hk hkm
        simp only [set_mag] at hkm
        by_cases hki : k = i
        · subst hki
          rw [List.getElem?_set_self hi1] at hkm
          simp only [Option.some.injEq] at hkm
          subst hkm
          simp [mag_flushed]
        · rw [List.getElem?_set_ne (fun h => hki h.symm), h4] at hkm
          exact hz k m (by omega) hkm)
    refine ⟨c2, ?_, e2, ?_, ?_, ?_, e6.trans hlen3, ?_⟩
    · simp only [spl_magazine_destroy_loop, hm, h2, hget, hfree]
      exact e1
    · exact (SameCfg.trans h5 (by simp [SameCfg, set_mag])).trans e3
    · have s1 : LedgerStep P (set_mag c1 i (mag_flushed c.skc_mag[i] c.skc_mag[i].skm_avail))
          { set_mag c1 i (mag_flushed c.skc_mag[i] c.skc_mag[i].skm_avail) with
            skc_events := (set_mag c1 i (mag_flushed c.skc_mag[i]
              c.skc_mag[i].skm_avail)).skc_events ++ [Event.kfree c.skc_mag[i].skm_ptr] } 0 0 :=
        ledger_step_of_quiet P _ _ [Event.kfree c.skc_mag[i].skm_ptr] rfl rfl rfl rfl rfl rfl rfl
      exact ledger_step_trans P c _ c2 0 0 0 0 (ledger_step_trans P c _ _ 0 0 0 0 s0 s1) e4
    · exact park_step_trans _ _ _ (park_step_trans _ _ _ p0 rfl) e5
    · intro k m hk hkm
      exact e7 k m (by omega) hkm

/-- The slab loop of `spl_kmem_cache_destroy` over a partial list of empty
slabs: every `spl_slab_free` passes its assertions and the list ends empty. -/
theorem spl_kmem_cache_destroy_loop_spec (P : Platform) (held : List Nat)
    (l : List spl_kmem_slab_t) :
    ∀ (c : spl_kmem_cache_t), Inv P c held →
      c.skc_obj_total = P.SPL_KMEM_CACHE_OBJ_PER_SLAB * c.skc_slab_total →
      c.skc_partial_list = l → (∀ s ∈ l, s.sks_ref = 0) →
      ∃ c1, spl_kmem_cache_destroy_loop P l c = some c1 ∧ Inv P c1 held ∧
        c1.skc_partial_list = [] ∧ c1.skc_complete_list = c.skc_complete_list ∧
        LedgerStep P c c1 0 l.length ∧ c1.skc_mag = c.skc_mag ∧
        c1.skc_hash_count = c.skc_hash_count ∧ SameCfg c c1 := by
  induction l with
  | nil =>
    intro c hinv _ hp _
    exact ⟨c, rfl, hinv, hp, rfl, ledger_step_refl P c, rfl, rfl, SameCfg.refl c⟩
  | cons s rest ih =>
    intro c hinv hcells hp h0
    have hs : s ∈ c.skc_partial_list := by rw [hp]; exact List.mem_cons_self _ _
    have hs0 := h0 s (List.mem_cons_self _ _)
    obtain ⟨c1, h1, hinv1, hp1, _, _, hcl1, hm1, hcfg1, _, _, hc1, _⟩ :=
      spl_slab_free_spec P c held s hinv hs hs0
    obtain ⟨hstep, _, _⟩ := spl_slab_free_ledger P c c1 held s hinv hs hs0 hcells h1
    have hnd := hinv.core.ptrs
    simp only [slabs, hp] at hnd
    obtain ⟨_, hB, _⟩ := nodup_split_ptr [] rest _ s (by simpa using hnd)
    have hp2 : c1.skc_partial_list = rest := by
      rw [hp1, hp]
      exact list_del_split [] rest s (by simp) hB
    obtain ⟨c2, e1, e2, e3, e4, e5, e6, e7, e8⟩ :=
      ih c1 hinv1 (cells_step P c c1 0 1 hcells hstep) hp2
        (fun x hx => h0 x (List.mem_cons_of_mem _ hx))
    refine ⟨c2, ?_, e2, e3, e4.trans hcl1, ?_, e6.trans hm1, e7.trans hc1, hcfg1.trans e8⟩
    · simp only [spl_kmem_cache_destroy_loop, h1]
      exact e1
    · have := ledger_step_trans P c c1 c2 0 1 0 _ hstep e5
      simp only [List.length_cons]
      have e : rest.length + 1 = 1 + rest.length := by omega
      rw [e]
      exact this

/-- `spl_magazine_destroy` in a consistent state: it passes the assertion of
every `spl_magazine_free`, leaves every magazine empty, and the objects left
in the hash are those in the hands of callers. -/
theorem spl_magazine_destroy_spec (P : Platform) (j : Nat) (c : spl_kmem_cache_t)
    (held : List Nat) (hinv : Inv P c held)
    (hpark : c.skc_hash_count = parked c + held.length) :
    ∃ c1, spl_magazine_destroy P c j = some c1 ∧ Inv P c1 held ∧ SameCfg c c1 ∧
      LedgerStep P c c1 0 0 ∧ (∀ m ∈ c1.skc_mag, m.skm_avail = 0) ∧
      c1.skc_hash_count = held.length := by
  obtain ⟨c1, h1, h2, h3, h4, h5, h6, h7⟩ :=
    spl_magazine_destroy_loop_spec P j held P.NCPUS 0 c hinv
      (by rw [hinv.mags.ncpus]; omega) (fun k m hk _ => absurd hk (Nat.not_lt_zero k))
  have hz : ∀ m ∈ c1.skc_mag, m.skm_avail = 0 := by
    intro m hm
    obtain ⟨k, hk⟩ := List.mem_iff_getElem?.1 hm
    have hlt : k < c1.skc_mag.length := (List.getElem?_eq_some.1 hk).1
    exact h7 k m (by rw [h6, hinv.mags.ncpus] at hlt; omega) hk
  refine ⟨c1, h1, h2, h3, h4, hz, ?_⟩
  have := parked_zero c1 hz
  simp only [ParkStep] at h5
  omega

theorem sum_ref_zero (l : List spl_kmem_slab_t)
    (h : (l.map (fun s => s.sks_ref)).sum = 0) : ∀ s ∈ l, s.sks_ref = 0 := by
  intro s hs
  have := List.sum_eq_zero_iff.1 h (s.sks_ref) (List.mem_map_of_mem _ hs)
  exact this

/-- `spl_kmem_cache_destroy` in a consistent state with no object in the hands
of a caller: every assertion holds, all slabs are torn down. -/
theorem spl_kmem_cache_destroy_spec (P : Platform) (hP : P.ok) (j : Nat)
    (c : spl_kmem_cache_t) (registry : List Nat) (hinv : Inv P c [])
    (hled : Ledger P c) (hpark : c.skc_hash_count = parked c) :
    ∃ c1 c2, spl_magazine_destroy P c j = some c1 ∧
      (∀ m ∈ c1.skc_mag, m.skm_avail = 0) ∧ c1.skc_complete_list = [] ∧
      c1.skc_hash_count = 0 ∧ (∀ s ∈ c1.skc_partial_list, s.sks_ref = 0) ∧
      spl_kmem_cache_destroy P c j registry = some (c2, registry.erase c.skc_ptr) ∧
      c2.skc_partial_list = [] ∧ c2.skc_complete_list = [] ∧ c2.skc_slab_total = 0 ∧
      c2.skc_obj_total = 0 ∧ Ledger P c2 ∧ SameCfg c c2 := by
  obtain ⟨c1, h1, hinv1, hcfg1, hs1, hz1, hc1⟩ :=
    spl_magazine_destroy_spec P j c [] hinv (by simpa using hpark)
  simp only [List.length_nil] at hc1
  have hled1 := ledger_apply_step P c c1 0 0 hled hs1
  have hsum := hinv1.core.count_ref
  rw [hc1] at hsum
  have hall := sum_ref_zero _ hsum
  have hcomp : c1.skc_complete_list = [] := by
    cases hcl : c1.skc_complete_list with
    | nil => rfl
    | cons s rest =>
      have hs : s ∈ c1.skc_complete_list := by rw [hcl]; exact List.mem_cons_self _ _
      have hmem : s ∈ slabs c1 := by simp only [slabs, List.mem_append]; exact Or.inr hs
      have e1 := hinv1.core.comp s hs
      have e2 := hinv1.core.objs_eq s hmem
      have e3 := hall s hmem
      have := hP.objs_pos
      omega
  have hpart0 : ∀ s ∈ c1.skc_partial_list, s.sks_ref = 0 := by
    intro s hs
    exact hall s (by simp only [slabs, List.mem_append]; exact Or.inl hs)
  obtain ⟨c2, e1, e2, e3, e4, e5, _, _, e8⟩ :=
    spl_kmem_cache_destroy_loop_spec P [] c1.skc_partial_list c1 hinv1 hled1.cells rfl hpart0
  have hled2 := ledger_apply_step P c1 c2 0 _ hled1 e5
  have htot := e2.core.total
  rw [e3, e4, hcomp] at htot
  simp only [List.length_nil] at htot
  have hobj : c2.skc_obj_total = 0 := by rw [hled2.cells, htot, Nat.mul_zero]
  refine ⟨c1, { c2 with
      skc_events := c2.skc_events ++
        [Event.vmem_free c2.skc_hash_ptr c2.skc_hash_size,
         Event.kmem_free c2.skc_name c2.skc_name_size,
         Event.kmem_free c2.skc_ptr P.SIZEOF_CACHE] },
    h1, hz1, hcomp, hc1, hpart0, ?_, e3, e4.trans hcomp, htot, hobj, ?_,
    (hcfg1.trans e8).trans (by simp [SameCfg])⟩
  · simp only [spl_kmem_cache_destroy, h1, hcomp, hc1, e1, ne_eq, not_true_eq_false, if_false]
  · exact ledger_apply_step P c2 _ 0 0 hled2
      (ledger_step_of_quiet P c2 _ _ rfl rfl rfl rfl rfl rfl rfl)

/-- C12: for a cache in a reachable state in which every object handed out by
alloc has been freed, `spl_kmem_cache_destroy` returns, and when the struct is
released the partial and the complete list are empty, `skc_slab_total` and
`skc_obj_total` are 0, and the constructor has been called as often as the
destructor over the life of the cache (for a cache created with both
callbacks or with neither: a callback that is not set is not called). -/
theorem C12_destroy_balances (P : Platform) (hP : P.ok) (c : spl_kmem_cache_t)
    (j : Nat) (registry : List Nat) (h : Reachable P c []) :
    ∃ c2, spl_kmem_cache_destroy P c j registry = some (c2, registry.erase c.skc_ptr) ∧
      c2.skc_partial_list = [] ∧ c2.skc_complete_list = [] ∧
      c2.skc_slab_total = 0 ∧ c2.skc_obj_total = 0 ∧
      (c.skc_ctor = c.skc_dtor →
        ctor_calls c2.skc_events = dtor_calls c2.skc_events) := by
  have hinv := reachable_inv P hP c [] h
  obtain ⟨hled, hpark⟩ := reachable_ledger P hP c [] h
  obtain ⟨c1, c2, _, _, _, _, _, h6, h7, h8, h9, h10, h11, h12⟩ :=
    spl_kmem_cache_destroy_spec P hP j c registry hinv hled (by simpa using hpark)
  refine ⟨c2, h6, h7, h8, h9, h10, ?_⟩
  intro heq
  have hc := h12.2.2.2.2.2.1
  have hd := h12.2.2.2.2.2.2.1
  cases hct : c.skc_ctor with
  | true =>
    have hdt : c.skc_dtor = true := by rw [← heq]; exact hct
    have := h11.both (by rw [hc]; exact hct) (by rw [hd]; exact hdt)
    omega
  | false =>
    have hdt : c.skc_dtor = false := by rw [← heq]; exact hct
    rw [h11.no_ctor (by rw [hc]; exact hct), h11.no_dtor (by rw [hd]; exact hdt)]

/-- C13: in a reachable state `spl_magazine_destroy` flushes every magazine
and passes the assertion `skm_avail == 0` of every `spl_magazine_free`; it
leaves in the hash exactly the objects still in the hands of callers.  When
every object has been passed back to free, `spl_kmem_cache_destroy` then finds
the complete list empty, `skc_hash_count == 0` and `sks_ref == 0` in every
slab it tears down, and returns.  When a caller still holds an object,
`skc_hash_count` is not 0 after the flushes and `spl_kmem_cache_destroy` stops
at a failed assertion. -/
theorem C13_destroy_assertions (P : Platform) (hP : P.ok) (c : spl_kmem_cache_t)
    (held : List Nat) (j : Nat) (registry : List Nat) (h : Reachable P c held) :
    ∃ c1, spl_magazine_destroy P c j = some c1 ∧
      (∀ m ∈ c1.skc_mag, m.skm_avail = 0) ∧ c1.skc_hash_count = held.length ∧
      (held = [] →
        c1.skc_complete_list = [] ∧ c1.skc_hash_count = 0 ∧
        (∀ s ∈ c1.skc_partial_list, s.sks_ref = 0) ∧
        ∃ c2, spl_kmem_cache_destroy P c j registry = some (c2, registry.erase c.skc_ptr)) ∧
      (held ≠ [] →
        c1.skc_hash_count ≠ 0 ∧ spl_kmem_cache_destroy P c j registry = none) := by
  have hinv := reachable_inv P hP c held h
  obtain ⟨hled, hpark⟩ := reachable_ledger P hP c held h
  obtain ⟨c1, h1, _, _, _, hz1, hc1⟩ := spl_magazine_destroy_spec P j c held hinv hpark
  refine ⟨c1, h1, hz1, hc1, ?_, ?_⟩
  · intro he
    subst he
    obtain ⟨c1b, c2, k1, _, k3, k4, k5, k6, _⟩ :=
      spl_kmem_cache_destroy_spec P hP j c registry hinv hled (by simpa using hpark)
    rw [h1] at k1
    simp only [Option.some.injEq] at k1
    subst k1
    exact ⟨k3, k4, k5, c2, k6⟩
  · intro hne
    have hpos : 0 < held.length := List.length_pos.2 hne
    have hnz : c1.skc_hash_count ≠ 0 := by omega
    refine ⟨hnz, ?_⟩
    simp only [spl_kmem_cache_destroy, h1, hnz, ne_eq, not_false_eq_true, if_true]
    split <;> rfl

theorem free_list_bodies_nodup (P : Platform) (c : spl_kmem_cache_t) (hc : Core P c)
    (s : spl_kmem_slab_t) (hs : s ∈ slabs c) :
    (s.sks_free_list.map (fun o => o.sko_addr)).Nodup := by
  have hb := hc.bodies
  obtain ⟨A, B, hAB⟩ := List.append_of_mem hs
  simp only [all_objs, free_objs, hAB, List.flatMap_append, List.flatMap_cons, List.map_append]
    at hb
  exact (List.nodup_append.1 (List.nodup_append.1 (List.nodup_append.1 hb).1).2.1).1

/-- C11: for a cache with a constructor and a destructor, in every reachable
state the constructor calls less the destructor calls are `skc_obj_total`,
which is `SPL_KMEM_CACHE_OBJ_PER_SLAB * skc_slab_total`; no destructor call
has been made exactly as long as every cell ever constructed is still in the
cache.  `spl_cache_grow` calls the constructor once for each cell of the slab
it links (through `spl_slab_alloc`) and no destructor; `spl_slab_free` calls
the destructor once for each cell of the slab it tears down and no
constructor; alloc from a magazine that holds a body, free and flush call
neither; alloc, whatever it has to grow, calls no destructor; and
`__spl_slab_reclaim` adds the destructor calls of the slabs it reports. -/
theorem C11_callback_calls (P : Platform) (hP : P.ok) (c : spl_kmem_cache_t) (held : List Nat)
    (h : Reachable P c held) (hctor : c.skc_ctor = true) (hdtor : c.skc_dtor = true) :
    ctor_calls c.skc_events = dtor_calls c.skc_events + c.skc_obj_total ∧
    c.skc_obj_total = P.SPL_KMEM_CACHE_OBJ_PER_SLAB * c.skc_slab_total ∧
    (dtor_calls c.skc_events = 0 ↔
      ctor_calls c.skc_events = P.SPL_KMEM_CACHE_OBJ_PER_SLAB * c.skc_slab_total) ∧
    (∀ env flags j ptr c1, EnvFresh P env →
      spl_cache_grow P env c flags j = (some ptr, c1) →
      ∃ sks ev, c1.skc_partial_list = c.skc_partial_list ++ [sks] ∧
        c1.skc_events = c.skc_events ++ ev ∧
        ctor_addrs ev = sks.sks_free_list.map (fun o => o.sko_addr) ∧
        (ctor_addrs ev).Nodup ∧
        sks.sks_free_list.length = P.SPL_KMEM_CACHE_OBJ_PER_SLAB ∧ dtor_addrs ev = []) ∧
    (∀ env flags j c1, spl_cache_grow P env c flags j = (none, c1) →
      ctor_calls c1.skc_events = ctor_calls c.skc_events ∧
      dtor_calls c1.skc_events = dtor_calls c.skc_events) ∧
    (∀ s ∈ c.skc_partial_list, s.sks_ref = 0 →
      ∃ c1 ev, spl_slab_free P c s.sks_ptr = some c1 ∧ c1.skc_events = c.skc_events ++ ev ∧
        dtor_addrs ev = s.sks_free_list.map (fun o => o.sko_addr) ∧ (dtor_addrs ev).Nodup ∧
        s.sks_free_list.length = P.SPL_KMEM_CACHE_OBJ_PER_SLAB ∧ ctor_addrs ev = []) ∧
    (∀ env cpu flags j fuel obj cpu1 c1 m, c.skc_mag[cpu]? = some m → m.skm_avail ≠ 0 →
      spl_kmem_cache_alloc P env c cpu flags j fuel = some (obj, cpu1, c1) →
      c1.skc_events = c.skc_events) ∧
    (∀ cpu obj j c1, spl_kmem_cache_free P c cpu obj j = some c1 →
      c1.skc_events = c.skc_events) ∧
    (∀ id k j count c1, spl_cache_flush P c id k j = some (count, c1) →
      c1.skc_events = c.skc_events) ∧
    (∀ env cpu flags j fuel obj cpu1 c1,
      spl_kmem_cache_alloc P env c cpu flags j fuel = some (obj, cpu1, c1) →
      dtor_calls c1.skc_events = dtor_calls c.skc_events) ∧
    (∀ j, ∃ rc c1, __spl_slab_reclaim P c j = some (rc, c1) ∧
      ctor_calls c1.skc_events = ctor_calls c.skc_events ∧
      dtor_calls c1.skc_events
        = dtor_calls c.skc_events + P.SPL_KMEM_CACHE_OBJ_PER_SLAB * rc) := by
  have hinv := reachable_inv P hP c held h
  obtain ⟨hled, _⟩ := reachable_ledger P hP c held h
  have hboth := hled.both hctor hdtor
  refine ⟨hboth, hled.cells, ?_, ?_, ?_, ?_, ?_, ?_, ?_, ?_, ?_⟩
  · have := hled.cells
    omega
  · intro env flags j ptr c1 henv hg
    obtain ⟨_, _, h2⟩ := spl_cache_grow_ledger P env c c1 flags j _ hg
    obtain ⟨_, sks, ev, k1, _, k3, k4, k5, k6⟩ := h2 ptr rfl
    rw [if_pos hctor] at k6
    refine ⟨sks, ev, k1, k4, k6, ?_, k3, k5⟩
    rw [k6]
    simp only [spl_cache_grow] at hg
    split at hg
    · simp at hg
    · rename_i sks1 ev1 halloc
      simp only [Prod.mk.injEq, Option.some.injEq] at hg
      obtain ⟨_, rfl⟩ := hg
      have hf := (henv c j sks1 ev1 halloc).2.1
      simp only [List.append_cancel_left_eq, List.cons.injEq, and_true] at k1
      rw [← k1]
      exact hf
  · intro env flags j c1 hg
    obtain ⟨_, h1, _⟩ := spl_cache_grow_ledger P env c c1 flags j _ hg
    obtain ⟨_, _, a3, a4, _⟩ := h1 rfl
    simp only [Nat.mul_zero, ite_self, Nat.add_zero] at a3 a4
    exact ⟨a3, a4⟩
  · intro s hs h0
    obtain ⟨c1, h1, _⟩ := spl_slab_free_spec P c held s hinv hs h0
    obtain ⟨_, k2, ev, k3, k4, k5⟩ :=
      spl_slab_free_ledger P c c1 held s hinv hs h0 hled.cells h1
    rw [if_pos hdtor] at k5
    refine ⟨c1, ev, h1, k3, k5, ?_, k2, k4⟩
    rw [k5]
    exact free_list_bodies_nodup P c hinv.core s
      (by simp only [slabs, List.mem_append]; exact Or.inl hs)
  · intro env cpu flags j fuel obj cpu1 c1 m hm hav ha
    obtain ⟨rfl, _, _⟩ := spl_kmem_cache_alloc_pop_eq P env c c1 cpu j fuel obj cpu1 flags m
      hm hav ha
    rfl
  · intro cpu obj j c1 hf
    exact (spl_kmem_cache_free_step P c c1 held cpu obj j hinv hf).2.1
  · intro id k j count c1 hf
    exact (spl_cache_flush_step P c c1 held id k j count hinv hf).2.2
  · intro env cpu flags j fuel obj cpu1 c1 ha
    simp only [spl_kmem_cache_alloc] at ha
    split at ha
    · simp at ha
    · obtain ⟨⟨g, _, _, _, a4, _⟩, _⟩ :=
        spl_kmem_cache_alloc_loop_frame P env flags j fuel cpu c c1 obj cpu1 ha
      simpa using a4
  · intro j
    obtain ⟨c1, h1, _, _, _, _, _, _, _, _, _, _, a3, a4, _⟩ :=
      spl_slab_reclaim_exact P j c held hinv hled.cells
    refine ⟨_, c1, h1, by simpa using a3, ?_⟩
    rw [a4, if_pos hdtor]

theorem touched_refl (j : Nat) (c : spl_kmem_cache_t) : Touched j c c :=
  fun _ hs => Or.inl hs

theorem touched_trans (j : Nat) (c c1 c2 : spl_kmem_cache_t) (h : Touched j c c1)
    (h1 : Touched j c1 c2) : Touched j c c2 := by
  intro s hs
  rcases h1 s hs with h2 | h2
  · exact h s h2
  · exact Or.inr h2

theorem shrink_all_touched (P : Platform) (j : Nat) (xs : List Nat) :
    ∀ (c c1 : spl_kmem_cache_t), Core P c →
      (∀ s ∈ c.skc_partial_list, s.sks_ref < s.sks_objs) → xs.Nodup →
      (∀ x ∈ xs, x ∈ (in_use c).map (fun o => o.sko_addr)) →
      shrink_all P j xs c = some c1 → Touched j c c1 := by
  induction xs with
  | nil =>
    intro c c1 _ _ _ _ h
    simp only [shrink_all, Option.some.injEq] at h
    subst h
    exact touched_refl j c
  | cons x xs ih =>
    intro c c2 hc hpart hnd hin h
    obtain ⟨c1, sko, sks, L, h1, ha, _, _, hu, hs, hs1, hc1, hp1, _⟩ :=
      spl_cache_shrink_spec P c x j hc hpart (hin x (List.mem_cons_self _ _))
    simp only [shrink_all, h1] at h
    rw [List.nodup_cons] at hnd
    have hub := hu.map (fun o => o.sko_addr)
    simp only [List.map_cons, ha] at hub
    have hin1 : ∀ y ∈ xs, y ∈ (in_use c1).map (fun o => o.sko_addr) := by
      intro y hy
      have := hub.subset (hin y (List.mem_cons_of_mem _ hy))
      simp only [List.mem_cons] at this
      rcases this with rfl | h
      · exact absurd hy hnd.1
      · exact h
    have t1 : Touched j c c1 := by
      intro s hsm
      have := hs1.subset hsm
      simp only [List.mem_cons] at this
      rcases this with rfl | hL
      · exact Or.inr rfl
      · exact Or.inl (hs.symm.subset (List.mem_cons_of_mem _ hL))
    exact touched_trans j c c1 c2 t1 (ih c1 c2 hc1 hp1 hnd.2 hin1 h)

theorem spl_cache_flush_touched (P : Platform) (c c2 : spl_kmem_cache_t) (held : List Nat)
    (id k j count : Nat) (hinv : Inv P c held)
    (h : spl_cache_flush P c id k j = some (count, c2)) : Touched j c c2 := by
  cases hm : c.skc_mag[id]? with
  | none => simp [spl_cache_flush, hm] at h
  | some m =>
    obtain ⟨c1, h1, h2, _⟩ := spl_cache_flush_spec P c held id k j m hinv hm
    rw [h2] at h
    simp only [Option.some.injEq, Prod.mk.injEq] at h
    obtain ⟨_, rfl⟩ := h
    have hcnt : min k m.skm_avail ≤ m.skm_avail := Nat.min_le_right _ _
    have hxs : m.skm_objs.take (min k m.skm_avail) = (mag_live m).take (min k m.skm_avail) := by
      simp only [mag_live, List.take_take]
      rw [Nat.min_eq_left hcnt]
    have hsub : ((mag_live m).take (min k m.skm_avail)).Sublist (mags_live c ++ held) := by
      obtain ⟨A, B, _, _, hlive, _⟩ := mags_live_split c.skc_mag id m hm
      simp only [mags_live, hlive]
      refine List.Sublist.trans (List.take_sublist _ _) ?_
      refine List.Sublist.trans ?_ (List.sublist_append_left _ _)
      refine List.Sublist.trans ?_ (List.sublist_append_left _ _)
      exact List.sublist_append_right _ _
    have := shrink_all_touched P j _ c c1 hinv.core hinv.part
      (by rw [hxs]; exact hinv.mags.nodup.sublist hsub)
      (by
        intro x hx
        rw [hxs] at hx
        exact hinv.mags.in_hash x (hsub.subset hx))
      h1
    exact this

theorem spl_kmem_cache_reap_now_loop_touched (P : Platform) (j : Nat) (n : Nat) :
    ∀ (i : Nat) (c c1 : spl_kmem_cache_t) (held : List Nat), Inv P c held →
      spl_kmem_cache_reap_now_loop P j n i c = some c1 → Touched j c c1 := by
  induction n with
  | zero =>
    intro i c c1 held _ h
    simp only [spl_kmem_cache_reap_now_loop, Option.some.injEq] at h
    subst h
    exact touched_refl j c
  | succ n ih =>
    intro i c c1 held hinv h
    simp only [spl_kmem_cache_reap_now_loop] at h
    split at h
    · simp at h
    · rename_i skm hskm
      split at h
      · split at h
        · simp at h
        · rename_i cnt skc1 hf
          have t0 := spl_cache_flush_touched P c skc1 held i _ j _ hinv hf
          have hinv1 : Inv P skc1 held := by
            obtain ⟨c2, _, h2, h3, _⟩ :=
              spl_cache_flush_spec P c held i skm.skm_refill j skm hinv hskm
            rw [h2] at hf
            simp only [Option.some.injEq, Prod.mk.injEq] at hf
            rw [← hf.2]; exact h3
          exact touched_trans j c skc1 c1 t0 (ih _ _ _ held hinv1 h)
      · exact ih _ _ _ held hinv h

theorem parked_eq_zero (c : spl_kmem_cache_t) :
    parked c = 0 ↔ ∀ m ∈ c.skc_mag, m.skm_avail = 0 := by
  constructor
  · intro h m hm
    have : m.skm_avail ≤ (c.skc_mag.map (fun m => m.skm_avail)).sum :=
      le_sum_of_mem _ _ (List.mem_map_of_mem (fun m => m.skm_avail) hm)
    simp only [parked] at h
    rw [h] at this
    omega
  · exact parked_zero c

/-- C17, as the code has it: in every reachable state `skc_obj_alloc` counts
the bodies parked in the magazines together with those in the hands of
callers.  At the end of a cycle, when every object handed out was freed, it
is the sum of `skm_avail` over the magazines; it is 0 only when in addition
every magazine is empty, and right after a free it is at least 1. -/
theorem C17_obj_alloc_counts_parked (P : Platform) (hP : P.ok) (c : spl_kmem_cache_t)
    (held : List Nat) (h : Reachable P c held) :
    c.skc_obj_alloc = parked c + held.length ∧
    (held = [] → c.skc_obj_alloc = parked c) ∧
    (c.skc_obj_alloc = 0 ↔ held = [] ∧ ∀ m ∈ c.skc_mag, m.skm_avail = 0) ∧
    (∀ cpu obj j c1, obj ∈ held → spl_kmem_cache_free P c cpu obj j = some c1 →
      c1.skc_obj_alloc = parked c1 + (held.erase obj).length ∧ 1 ≤ parked c1) := by
  have hinv := reachable_inv P hP c held h
  obtain ⟨_, hpark⟩ := reachable_ledger P hP c held h
  have ha := hinv.core.count_alloc
  refine ⟨by omega, ?_, ?_, ?_⟩
  · intro he
    subst he
    simp only [List.length_nil] at hpark
    omega
  · rw [← parked_eq_zero]
    constructor
    · intro h0
      refine ⟨List.length_eq_zero.1 (by omega), by omega⟩
    · intro ⟨he, hz⟩
      subst he
      simp only [List.length_nil] at hpark
      omega
  · intro cpu obj j c1 hobj hf
    have hr : Reachable P c1 (held.erase obj) := Reachable.free h hobj hf
    have hinv1 := reachable_inv P hP c1 _ hr
    obtain ⟨_, hpark1⟩ := reachable_ledger P hP c1 _ hr
    have ha1 := hinv1.core.count_alloc
    refine ⟨by omega, ?_⟩
    cases hm : c.skc_mag[cpu]? with
    | none => simp [spl_kmem_cache_free, hm] at hf
    | some m =>
      obtain ⟨c0, m0, _, _, _, k4, _, _, _, _, k9, _⟩ :=
        spl_kmem_cache_free_spec P c held cpu obj j m hinv hm
      rw [k9] at hf
      simp only [Option.some.injEq] at hf
      subst hf
      have hlt : cpu < c0.skc_mag.length := (List.getElem?_eq_some.1 k4).1
      have hmem : mag_pushed m0 obj ∈ (set_mag c0 cpu (mag_pushed m0 obj)).skc_mag := by
        simp only [set_mag]
        exact List.mem_iff_getElem?.2 ⟨cpu, List.getElem?_set_self hlt⟩
      have : (mag_pushed m0 obj).skm_avail
          ≤ ((set_mag c0 cpu (mag_pushed m0 obj)).skc_mag.map (fun m => m.skm_avail)).sum :=
        le_sum_of_mem _ _ (List.mem_map_of_mem (fun m => m.skm_avail) hmem)
      have e : (mag_pushed m0 obj).skm_avail = m0.skm_avail + 1 := rfl
      simp only [parked]
      omega

/-- C18, as the code has it: the scan of `__spl_slab_reclaim` stops at the
first slab from the tail of the partial list that has `sks_ref > 0`: a slab
`s` with `sks_ref > 0` and the slabs closer to the head stay.  Of the slabs
behind it the scan tears down every empty one whose last touch is older than
the delay and keeps the others, also when a kept slab lies nearer the tail
than a slab torn down. -/
theorem C18_scan_stops_at_first_in_use (P : Platform) (hP : P.ok) (c : spl_kmem_cache_t)
    (held : List Nat) (j : Nat) (A B : List spl_kmem_slab_t) (s : spl_kmem_slab_t)
    (h : Reachable P c held) (hp : c.skc_partial_list = A ++ s :: B) (hs : 0 < s.sks_ref) :
    ∃ c1, __spl_slab_reclaim P c j = some ((B.filter (reapable P c j)).length, c1) ∧
      c1.skc_partial_list = A ++ s :: B.filter (fun b => !reapable P c j b) ∧
      c1.skc_complete_list = c.skc_complete_list := by
  have hinv := reachable_inv P hP c held h
  obtain ⟨hled, _⟩ := reachable_ledger P hP c held h
  obtain ⟨c1, h1, _, h3, h4, _⟩ := spl_slab_reclaim_exact P j c held hinv hled.cells
  have hA : ∀ a ∈ A ++ [s], reapable P c j a = false := by
    intro a ha
    have ha0 : a.sks_ref ≠ 0 := by
      simp only [List.mem_append, List.mem_singleton] at ha
      rcases ha with ha | rfl
      · have hsorted := hinv.core.sorted
        rw [hp, List.pairwise_append] at hsorted
        intro h0
        have := hsorted.2.2 a ha s (List.mem_cons_self _ _) h0
        omega
      · omega
    simp [reapable, ha0]
  have e0 : A ++ s :: B = (A ++ [s]) ++ B := by simp
  have e1 : (A ++ [s]).filter (reapable P c j) = [] := by
    rw [List.filter_eq_nil_iff]
    intro a ha
    simp [hA a ha]
  have e2 : (A ++ [s]).filter (fun s => !reapable P c j s) = A ++ [s] := by
    rw [List.filter_eq_self]
    intro a ha
    simp [hA a ha]
  rw [hp, e0, List.filter_append, e1] at h1
  rw [hp, e0, List.filter_append, e2] at h3
  exact ⟨c1, by simpa using h1, by simpa using h3, h4⟩

/-- C19: in a reachable state `spl_kmem_cache_reap_now` returns.  With `c0`
the state in which its slab scan starts (after the flushes of the idle
magazines), every slab the scan tears down has `sks_ref == 0` and
`time_after(jiffies, sks_age + skc_delay * HZ)`; the other slabs stay, on
their lists.  When no slab of the cache was last touched more than
`skc_delay * HZ` ticks ago (the delay being less than half the range of
`jiffies`), no slab is torn down and `skc_slab_total` is unchanged. -/
theorem C19_reap_respects_delay (P : Platform) (hP : P.ok) (c : spl_kmem_cache_t)
    (held : List Nat) (j : Nat) (h : Reachable P c held) :
    ∃ c0 c1,
      spl_kmem_cache_reap_now_loop P j P.NCPUS 0 (reap_called c) = some c0 ∧
      spl_kmem_cache_reap_now P c j = some c1 ∧
      c1.skc_complete_list = c0.skc_complete_list ∧
      (∀ s ∈ c1.skc_partial_list, s ∈ c0.skc_partial_list) ∧
      (∀ s ∈ c0.skc_partial_list, s ∉ c1.skc_partial_list →
        s.sks_ref = 0 ∧ time_after P j (s.sks_age + c.skc_delay * P.HZ) = true) ∧
      c1.skc_slab_total + (c0.skc_partial_list.filter (reapable P c0 j)).length
        = c.skc_slab_total ∧
      (0 < P.BITS_PER_LONG → c.skc_delay * P.HZ < 2 ^ (P.BITS_PER_LONG - 1) →
        (∀ s ∈ slabs c, time_after P j (s.sks_age + c.skc_delay * P.HZ) = false) →
        __spl_slab_reclaim P c0 j = some (0, c1) ∧
        c1.skc_partial_list = c0.skc_partial_list ∧
        c1.skc_slab_total = c.skc_slab_total) := by
  have hinv := reachable_inv P hP c held h
  obtain ⟨hled, _⟩ := reachable_ledger P hP c held h
  obtain ⟨c0, c1, h1, h2, h3, hinv0, hcfg0, _, _, _, hp1, hc1, s1, _⟩ :=
    spl_kmem_cache_reap_now_exact P j c held hinv hled.cells
  have hdelay : c0.skc_delay = c.skc_delay := hcfg0.2.2.2.2.1
  have htot := s1.2.2.2.2.2
  simp only [Nat.add_zero] at htot
  refine ⟨c0, c1, h1, h3, hc1, ?_, ?_, htot, ?_⟩
  · intro s hs
    rw [hp1] at hs
    exact (List.mem_filter.1 hs).1
  · intro s hs hns
    have hr : reapable P c0 j s = true := by
      by_contra hne
      apply hns
      rw [hp1, List.mem_filter]
      exact ⟨hs, by simpa using hne⟩
    simp only [reapable, Bool.and_eq_true, decide_eq_true_eq, hdelay] at hr
    exact hr
  · intro hw hD hyoung
    obtain ⟨i0, _, _, _, hsl0, _⟩ := reap_called_inv P c held hinv
    have ht := spl_kmem_cache_reap_now_loop_touched P j P.NCPUS 0 _ c0 held i0 h1
    have hnone : ∀ s ∈ c0.skc_partial_list, reapable P c0 j s = false := by
      intro s hs
      have hy : time_after P j (s.sks_age + c.skc_delay * P.HZ) = false := by
        rcases ht s (by simp only [slabs, List.mem_append]; exact Or.inl hs) with h4 | h4
        · rw [hsl0] at h4
          exact hyoung s h4
        · rw [h4]
          exact time_after_self_add P j _ hD hw
      simp [reapable, hdelay, hy]
    have e1 : c0.skc_partial_list.filter (reapable P c0 j) = [] := by
      rw [List.filter_eq_nil_iff]
      intro a ha
      simp [hnone a ha]
    have e2 : c0.skc_partial_list.filter (fun s => !reapable P c0 j s)
        = c0.skc_partial_list := by
      rw [List.filter_eq_self]
      intro a ha
      simp [hnone a ha]
    rw [e1] at h2 htot
    rw [e2] at hp1
    exact ⟨h2, hp1, by simpa using htot⟩

/-- C20: in a reachable state (such a state has the slab placement of C2)
`__spl_slab_reclaim` returns the number of slabs of the partial list that have
`sks_ref == 0` and a last touch older than `skc_delay * HZ` ticks, and tears
down exactly those: no such slab remains on the partial list, the other slabs
stay where they are, unchanged and in their order, the complete list is
untouched, and `skc_slab_total` has dropped by the number returned. -/
theorem C20_reclaim_frees_stale (P : Platform) (hP : P.ok) (c : spl_kmem_cache_t)
    (held : List Nat) (j : Nat) (h : Reachable P c held) :
    ∃ c1, __spl_slab_reclaim P c j
        = some ((c.skc_partial_list.filter (reapable P c j)).length, c1) ∧
      c1.skc_partial_list = c.skc_partial_list.filter (fun s => !reapable P c j s) ∧
      (∀ s ∈ c1.skc_partial_list, reapable P c1 j s = false) ∧
      (∀ s ∈ c.skc_partial_list, reapable P c j s = false → s ∈ c1.skc_partial_list) ∧
      c1.skc_complete_list = c.skc_complete_list ∧
      c1.skc_slab_total + (c.skc_partial_list.filter (reapable P c j)).length
        = c.skc_slab_total ∧
      c1.skc_slab_total = c1.skc_partial_list.length + c1.skc_complete_list.length := by
  have hinv := reachable_inv P hP c held h
  obtain ⟨hled, _⟩ := reachable_ledger P hP c held h
  obtain ⟨c1, h1, hinv1, h3, h4, _, hcfg, _, _, _, s1⟩ :=
    spl_slab_reclaim_exact P j c held hinv hled.cells
  have hre := reapable_cfg P c c1 j hcfg.2.2.2.2.1
  have htot := s1.2.2.2.2.2
  simp only [Nat.add_zero] at htot
  refine ⟨c1, h1, h3, ?_, ?_, h4, htot, hinv1.core.total⟩
  · intro s hs
    rw [h3, List.mem_filter] at hs
    rw [hre]
    simpa using hs.2
  · intro s hs hr
    rw [h3, List.mem_filter]
    exact ⟨hs, by simp [hr]⟩

theorem demo_reach_drained : Reachable demoP demo_drained [] :=
  @Reachable.flush demoP demo_flushed demo_drained [] 0 1 3400 1 demo_reach_flushed rfl

theorem demo_reach_reaped : Reachable demoP demo_reaped.2 [] :=
  @Reachable.reclaim demoP demo_drained demo_reaped.2 [] 3600 1 demo_reach_drained rfl

set_option maxRecDepth 1000000

set_option maxHeartbeats 40000000

/-- C15, as the code has it: on a fresh cache of 64-byte objects with 32 cells
per slab and no constructor or destructor (4 KiB pages, so magazines of 512
refilled by 256), after 33 calls of `spl_kmem_cache_alloc` on CPU 0 the first
call has refilled the magazine with 256 objects out of eight new slabs:
`skc_obj_alloc == 256` and `skc_slab_total == 8`, all eight slabs are on the
complete list, 33 bodies are with the caller and 223 in the magazine. -/
theorem C15_first_alloc_refills :
    small_c0.skc_obj_size = 64 ∧ small_c0.skc_ctor = false ∧ small_c0.skc_dtor = false ∧
    small_c0.skc_mag_size = 512 ∧ small_c0.skc_mag_refill = 256 ∧
    small_run.map (fun r => r.1.length) = some 33 ∧
    small_run.map (fun r => r.2.skc_obj_alloc) = some 256 ∧
    small_run.map (fun r => r.2.skc_slab_total) = some 8 ∧
    small_run.map (fun r => r.2.skc_complete_list.length) = some 8 ∧
    small_run.map (fun r => r.2.skc_partial_list.length) = some 0 ∧
    small_run.map (fun r => r.2.skc_mag.map (fun m => m.skm_avail)) = some [223, 0] ∧
    (alloc_seq smallP smallEnv 0 1 1001 small_c0).map (fun r => r.2.skc_obj_alloc)
      = some 256 ∧
    (alloc_seq smallP smallEnv 0 1 1001 small_c0).map (fun r => r.2.skc_slab_total)
      = some 8 :=
  ⟨by decide, by decide, by decide, by decide, by decide, by decide, by decide, by decide,
    by decide, by decide, by decide, by decide, by decide⟩

/-- The run of C15 ends with `skc_obj_alloc` other than 33 and
`skc_slab_total` other than 2. -/
theorem C15_counterexample :
    ¬ (small_run.map (fun r => r.2.skc_obj_alloc) = some 33) ∧
    ¬ (small_run.map (fun r => r.2.skc_slab_total) = some 2) :=
  ⟨by decide, by decide⟩

/-- C16, as the code has it: on a fresh cache with magazines of 128 (refill
64), after 200 allocations on CPU 0 the magazine still holds 56 bodies of the
last refill; when the 200 bodies are then freed on CPU 0, last one first, the
first flush happens at free number 73 and flushes 64 entries, the second at
free number 73 + 64 = 137, and no other flush happens. -/
theorem C16_flush_points :
    mid_c0.skc_mag_size = 128 ∧ mid_c0.skc_mag_refill = 64 ∧
    mid_allocated.map (fun r => r.1.length) = some 200 ∧
    mid_allocated.map (fun r => r.2.skc_mag.map (fun m => m.skm_avail)) = some [56, 0] ∧
    mid_run.map (fun r => r.1)
      = some (List.replicate 72 0 ++ [64] ++ List.replicate 63 0 ++ [64]
          ++ List.replicate 63 0) :=
  ⟨by decide, by decide, by decide, by decide, by decide⟩

/-- In the run of C16 free number 129 flushes nothing and free number 73
flushes 64 entries. -/
theorem C16_counterexample :
    mid_run.map (fun r => r.1[128]?) = some (some 0) ∧
    mid_run.map (fun r => r.1[72]?) = some (some 64) :=
  ⟨by decide, by decide⟩

/-- After a cycle of four allocations and four frees on a fresh cache
`skc_obj_alloc` is 4, not 0. -/
theorem C17_counterexample :
    Reachable demoP demo_f4 [] ∧ demo_f4.skc_obj_alloc = 4 ∧ demo_f4.skc_obj_alloc ≠ 0 :=
  ⟨demo_reach_f4, by decide, by decide⟩

/-- In `demo_drained` at tick 3600 the slab at the tail of the partial list
fails the age test, and the scan still tears down the slab before it. -/
theorem C18_counterexample : ¬ ScanStopsAtFirstFailure demoP demo_drained 3600 := by
  intro h
  have h1 := h [demo_slab_old] demo_slab_young [] demo_reaped.1 demo_reaped.2
    (by decide) (by decide) (by simp) (by decide) demo_slab_old (by simp)
  revert h1
  decide

/-- C11 at the scenario state after two slabs were built and one was torn
down: four constructor calls, two destructor calls, one slab of two cells. -/
theorem C11_callback_calls_witness :
    demoP.ok ∧ Reachable demoP demo_reaped.2 [] ∧
    demo_reaped.2.skc_ctor = true ∧ demo_reaped.2.skc_dtor = true ∧
    ctor_calls demo_reaped.2.skc_events = 4 ∧ dtor_calls demo_reaped.2.skc_events = 2 ∧
    ctor_calls demo_reaped.2.skc_events
      = dtor_calls demo_reaped.2.skc_events + demo_reaped.2.skc_obj_total ∧
    demo_reaped.2.skc_obj_total
      = demoP.SPL_KMEM_CACHE_OBJ_PER_SLAB * demo_reaped.2.skc_slab_total :=
  ⟨demoP_ok, demo_reach_reaped, rfl, rfl, by decide, by decide,
    (C11_callback_calls demoP demoP_ok demo_reaped.2 [] demo_reach_reaped rfl rfl).1,
    (C11_callback_calls demoP demoP_ok demo_reaped.2 [] demo_reach_reaped rfl rfl).2.1⟩

/-- C12 at the scenario state after four allocations and four frees. -/
theorem C12_destroy_balances_witness :
    demoP.ok ∧ Reachable demoP demo_f4 [] ∧
    ∃ c2, spl_kmem_cache_destroy demoP demo_f4 5000 [8] = some (c2, []) ∧
      c2.skc_partial_list = [] ∧ c2.skc_slab_total = 0 ∧ c2.skc_obj_total = 0 ∧
      ctor_calls c2.skc_events = dtor_calls c2.skc_events :=
  ⟨demoP_ok, demo_reach_f4,
    match C12_destroy_balances demoP demoP_ok demo_f4 5000 [8] demo_reach_f4 with
    | ⟨c2, h1, h2, _, h4, h5, h6⟩ => ⟨c2, h1, h2, h4, h5, h6 rfl⟩⟩

/-- C13 at the scenario state in which the caller holds four bodies. -/
theorem C13_destroy_assertions_witness :
    demoP.ok ∧
    Reachable demoP demo_a4.2.2 [demo_a4.1, demo_a3.1, demo_a2.1, demo_a1.1] ∧
    spl_kmem_cache_destroy demoP demo_a4.2.2 5000 [8] = none :=
  ⟨demoP_ok, demo_reach_a4,
    match C13_destroy_assertions demoP demoP_ok demo_a4.2.2 _ 5000 [8] demo_reach_a4 with
    | ⟨_, _, _, _, _, h⟩ => (h (by decide)).2⟩

/-- C17 at the scenario state after four allocations and four frees: the four
bodies are parked in the magazine of CPU 0. -/
theorem C17_obj_alloc_counts_parked_witness :
    demoP.ok ∧ Reachable demoP demo_f4 [] ∧
    demo_f4.skc_obj_alloc = parked demo_f4 ∧ parked demo_f4 = 4 :=
  ⟨demoP_ok, demo_reach_f4,
    (C17_obj_alloc_counts_parked demoP demoP_ok demo_f4 [] demo_reach_f4).2.1 rfl,
    by decide⟩

/-- C18 at the scenario state with a slab in use at the head of the partial
list and an empty slab behind it. -/
theorem C18_scan_stops_at_first_in_use_witness :
    demoP.ok ∧ Reachable demoP demo_flushed [] ∧
    demo_flushed.skc_partial_list
      = [] ++ (demo_flushed.skc_partial_list.headD demo_slab_old)
          :: demo_flushed.skc_partial_list.tail ∧
    0 < (demo_flushed.skc_partial_list.headD demo_slab_old).sks_ref ∧
    ∃ c1, __spl_slab_reclaim demoP demo_flushed 3600
        = some ((demo_flushed.skc_partial_list.tail.filter
            (reapable demoP demo_flushed 3600)).length, c1) ∧
      c1.skc_partial_list = [] ++ (demo_flushed.skc_partial_list.headD demo_slab_old)
        :: demo_flushed.skc_partial_list.tail.filter
            (fun b => !reapable demoP demo_flushed 3600 b) :=
  ⟨demoP_ok, demo_reach_flushed, rfl, by decide,
    match C18_scan_stops_at_first_in_use demoP demoP_ok demo_flushed [] 3600 []
      demo_flushed.skc_partial_list.tail (demo_flushed.skc_partial_list.headD demo_slab_old)
      demo_reach_flushed rfl (by decide) with
    | ⟨c1, h1, h2, _⟩ => ⟨c1, h1, h2⟩⟩

/-- C19 at the scenario state right after a flush has touched both slabs: a
reap at the next tick flushes the idle magazine and tears down no slab. -/
theorem C19_reap_respects_delay_witness :
    demoP.ok ∧ Reachable demoP demo_flushed [] ∧
    ∃ c1, spl_kmem_cache_reap_now demoP demo_flushed 3002 = some c1 ∧
      c1.skc_slab_total = demo_flushed.skc_slab_total :=
  ⟨demoP_ok, demo_reach_flushed,
    match C19_reap_respects_delay demoP demoP_ok demo_flushed [] 3002 demo_reach_flushed with
    | ⟨_, c1, _, h2, _, _, _, _, h7⟩ =>
      ⟨c1, h2, (h7 (by decide) (by decide) (by decide)).2.2⟩⟩

/-- C20 at the scenario state with two empty slabs of which one is old
enough: one slab is torn down. -/
theorem C20_reclaim_frees_stale_witness :
    demoP.ok ∧ Reachable demoP demo_drained [] ∧
    ∃ c1, __spl_slab_reclaim demoP demo_drained 3600 = some (1, c1) ∧
      c1.skc_partial_list = [demo_slab_young] ∧
      c1.skc_slab_total + 1 = demo_drained.skc_slab_total := by
  obtain ⟨c1, h1, h2, _, _, _, h6, _⟩ :=
    C20_reclaim_frees_stale demoP demoP_ok demo_drained [] 3600 demo_reach_drained
  have e : (demo_drained.skc_partial_list.filter (reapable demoP demo_drained 3600)).length
      = 1 := by decide
  have e2 : demo_drained.skc_partial_list.filter
      (fun s => !reapable demoP demo_drained 3600 s) = [demo_slab_young] := by decide
  rw [e] at h1 h6
  rw [e2] at h2
  exact ⟨demoP_ok, demo_reach_drained, c1, h1, h2, h6⟩

theorem spl_slab_alloc_vmem_loop_eq (P : Platform) (skc : spl_kmem_cache_t)
    (sko_base obj_base : Nat) (n : Nat) :
    ∀ (i : Nat) (sks : spl_kmem_slab_t),
      spl_slab_alloc_vmem_loop P skc sko_base obj_base n i sks
        = { sks with sks_free_list := sks.sks_free_list ++
              (List.range n).map (fun k =>
                { sko_ptr := sko_base + P.SIZEOF_OBJ * (i + k)
                  sko_addr := obj_base + skc.skc_obj_size * (i + k)
                  sko_slab := sks.sks_ptr }) } := by
  induction n with
  | zero => intro i sks; simp [spl_slab_alloc_vmem_loop]
  | succ n ih =>
    intro i sks
    simp only [spl_slab_alloc_vmem_loop]
    rw [ih (i + 1)]
    simp only [List.range_succ_eq_map, List.map_cons, List.map_map, List.append_assoc,
      List.singleton_append, Nat.add_zero]
    congr 2
    congr 1
    apply List.map_congr_left
    intro k _
    simp only [Function.comp_apply, Nat.succ_eq_add_one]
    have e : i + 1 + k = i + (k + 1) := by omega
    rw [e]

/-- C24, the claim as stated fails: the cache `demo_c0` has an empty magazine
on CPU 0 and no slab, the allocator `failEnv` answers `NULL` to every request
so that `spl_cache_grow` returns `NULL`, and `spl_kmem_cache_alloc` with the
no-sleep flag does not return `NULL`: it stops at its assertion. -/
theorem C24_counterexample :
    (demo_mag0 demo_c0).skm_avail = 0 ∧ demo_c0.skc_mag[0]? = some (demo_mag0 demo_c0) ∧
    (spl_cache_grow demoP failEnv demo_c0 km_flags.KM_NOSLEEP 1001).1 = none ∧
    ¬ ∃ cpu1 c1, spl_kmem_cache_alloc demoP failEnv demo_c0 0 km_flags.KM_NOSLEEP 1001 8
        = some (0, cpu1, c1) := by
  refine ⟨by decide, by decide, by decide, ?_⟩
  rintro ⟨cpu1, c1, h⟩
  simp [spl_kmem_cache_alloc] at h

/-- C24, as the code has it: `spl_kmem_cache_alloc` called with the no-sleep
flag stops at its assertion `ASSERT(flags & KM_SLEEP)`, whatever the state of
the magazine and of the allocator: it does not return `NULL`.  No call of
`spl_kmem_cache_alloc` returns `NULL`: a call that returns was made with the
sleep flag and hands out a body that is not `NULL`. -/
theorem C24_nosleep_not_supported (P : Platform) (env : Env) (c : spl_kmem_cache_t)
    (cpu j fuel : Nat) :
    spl_kmem_cache_alloc P env c cpu km_flags.KM_NOSLEEP j fuel = none ∧
    ∀ flags obj cpu1 c1,
      spl_kmem_cache_alloc P env c cpu flags j fuel = some (obj, cpu1, c1) →
      flags = km_flags.KM_SLEEP ∧ obj ≠ 0 := by
  refine ⟨by simp [spl_kmem_cache_alloc], ?_⟩
  intro flags obj cpu1 c1 h
  simp only [spl_kmem_cache_alloc] at h
  split at h
  · simp at h
  · rename_i hf
    refine ⟨by simpa using hf, ?_⟩
    clear hf
    induction fuel generalizing cpu c with
    | zero => simp [spl_kmem_cache_alloc_loop] at h
    | succ fuel ih =>
      simp only [spl_kmem_cache_alloc_loop] at h
      split at h
      · simp at h
      · split at h
        · simp at h
        · split at h
          · split at h
            · simp at h
            · split at h
              · simp at h
              · rename_i hne
                simp only [Option.some.injEq, Prod.mk.injEq] at h
                obtain ⟨rfl, _, _⟩ := h
                exact hne
          · split at h
            · simp at h
            · exact ih _ _ h

/-- C27: in a reachable state, `spl_kmem_cache_free` of a body `p` held by a
caller, immediately followed by `spl_kmem_cache_alloc` with `KM_SLEEP` on the
same CPU, both return and the allocation hands out `p` again.  When the
magazine was not full (the free did not flush), the final state is the
initial one except for the magazine of that CPU: its tick is the tick of the
allocation and the slot `skm_objs[skm_avail]`, above the top of the stack,
now holds `p`; its count and its entries below the top, the slab lists, the
in-use hash and all counters are as before. -/
theorem C27_free_then_alloc (P : Platform) (hP : P.ok) (env : Env) (c : spl_kmem_cache_t)
    (held : List Nat) (cpu p j j2 fuel : Nat) (m : spl_kmem_magazine_t)
    (hr : Reachable P c held) (hp : p ∈ held) (hm : c.skc_mag[cpu]? = some m)
    (hcpu : cpu < 4) :
    ∃ c1 c2,
      spl_kmem_cache_free P c cpu p j = some c1 ∧
      spl_kmem_cache_alloc P env c1 cpu km_flags.KM_SLEEP j2 (fuel + 1) = some (p, cpu, c2) ∧
      (m.skm_avail < m.skm_size →
        c2 = set_mag c cpu (mag_touched m p j2) ∧
        mag_live (mag_touched m p j2) = mag_live m ∧
        (mag_touched m p j2).skm_avail = m.skm_avail ∧
        c2.skc_partial_list = c.skc_partial_list ∧
        c2.skc_complete_list = c.skc_complete_list ∧
        c2.skc_hash = c.skc_hash ∧
        c2.skc_obj_alloc = c.skc_obj_alloc ∧ c2.skc_obj_total = c.skc_obj_total ∧
        c2.skc_slab_total = c.skc_slab_total ∧ c2.skc_slab_alloc = c.skc_slab_alloc ∧
        c2.skc_hash_count = c.skc_hash_count ∧ mags_live c2 = mags_live c) := by
  have hinv := reachable_inv P hP c held hr
  obtain ⟨c0, m0, hif, hinv0, hcfg0, hm0, hlt0, hsz0, hrf0, hlen0, hfree, hinv1⟩ :=
    spl_kmem_cache_free_spec P c held cpu p j m hinv hm
  have hidlt : cpu < c0.skc_mag.length := (List.getElem?_eq_some.1 hm0).1
  have hm1 : (set_mag c0 cpu (mag_pushed m0 p)).skc_mag[cpu]? = some (mag_pushed m0 p) := by
    simp only [set_mag]
    rw [List.getElem?_set_self hidlt]
  have hav1 : (mag_pushed m0 p).skm_avail ≠ 0 := by
    simp only [mag_pushed]; omega
  obtain ⟨obj, hobj, halloc⟩ := spl_kmem_cache_alloc_pop P env _ (held.erase p) cpu j2 fuel
    (mag_pushed m0 p) (hinv1 hp) hm1 hav1 hcpu
  have hobj2 : obj = p := by
    simp only [mag_pushed, Nat.add_sub_cancel] at hobj
    rw [List.getElem?_set_self (by omega)] at hobj
    exact (Option.some.inj hobj).symm
  subst hobj2
  refine ⟨_, _, hfree, halloc, ?_⟩
  intro hroom
  have hnf : ¬ m.skm_avail ≥ m.skm_size := by omega
  simp only [hnf, if_false] at hif
  obtain ⟨rfl, rfl⟩ := hif
  have hlive : mag_live (mag_touched m0 obj j2) = mag_live m0 := by
    simp only [mag_live, mag_touched]
    apply List.ext_getElem?
    intro i
    by_cases hi : i < m0.skm_avail
    · rw [List.getElem?_take_of_lt hi, List.getElem?_take_of_lt hi,
        List.getElem?_set_ne (by omega)]
    · rw [List.getElem?_eq_none (by simp only [List.length_take]; omega),
        List.getElem?_eq_none (by simp only [List.length_take]; omega)]
  have hc2 : set_mag (set_mag c0 cpu (mag_pushed m0 obj)) cpu (mag_popped (mag_pushed m0 obj) j2)
      = set_mag c0 cpu (mag_touched m0 obj j2) := by
    simp only [set_mag, mag_pushed, mag_popped, mag_touched, List.set_set, Nat.add_sub_cancel]
  rw [hc2]
  refine ⟨rfl, hlive, rfl, rfl, rfl, rfl, rfl, rfl, rfl, rfl, rfl, ?_⟩
  obtain ⟨A, B, hAB, hA, hl, hset⟩ := mags_live_split c0.skc_mag cpu m0 hm
  simp only [mags_live, set_mag]
  rw [hset, hlive, hl]

/-- The statement of C27 on the scenario: after the first allocation the body
handed out is freed on CPU 0 at tick 2001 and the allocation at tick 2002
returns it. -/
theorem C27_free_then_alloc_witness :
    Reachable demoP demo_a1.2.2 [demo_a1.1] ∧ demo_a1.1 ∈ [demo_a1.1] ∧
    demo_a1.2.2.skc_mag[0]? = some (demo_mag0 demo_a1.2.2) ∧
    ∃ c1 c2,
      spl_kmem_cache_free demoP demo_a1.2.2 0 demo_a1.1 2001 = some c1 ∧
      spl_kmem_cache_alloc demoP demoEnv c1 0 km_flags.KM_SLEEP 2002 1
        = some (demo_a1.1, 0, c2) :=
  ⟨demo_reach_a1, by decide, by decide,
    match C27_free_then_alloc demoP demoP_ok demoEnv demo_a1.2.2 [demo_a1.1] 0 demo_a1.1
      2001 2002 0 (demo_mag0 demo_a1.2.2) demo_reach_a1 (by decide) (by decide) (by decide) with
    | ⟨c1, c2, h1, h2, _⟩ => ⟨c1, c2, h1, h2⟩⟩

/-- C21, the claim as stated fails: on `demo_drained` (two empty slabs, last
touched at ticks 3001 and 3400, a delay of 500 ticks) a first
`spl_kmem_cache_reap_now` at tick 3501 frees no slab, and a second call at the
next tick, with nothing done to the cache in between, frees one. -/
theorem C21_counterexample :
    spl_kmem_cache_reap_now demoP demo_drained 3501 = some demo_reap1 ∧
    spl_kmem_cache_reap_now demoP demo_reap1 3502 = some demo_reap2 ∧
    demo_drained.skc_slab_total - demo_reap1.skc_slab_total = 0 ∧
    demo_reap1.skc_slab_total - demo_reap2.skc_slab_total = 1 ∧
    ¬ (demo_reap1.skc_slab_total - demo_reap2.skc_slab_total
        ≤ demo_drained.skc_slab_total - demo_reap1.skc_slab_total) := by
  refine ⟨by decide, by decide, by decide, by decide, by decide⟩

/-- What a second `spl_kmem_cache_reap_now` at tick `j2` tears down, in a
consistent state `c1` whose empty slabs are all younger than the delay at tick
`j1`: only slabs of `c1` that are empty, were not yet old enough at `j1` and
are old enough at `j2`. -/
theorem spl_kmem_cache_reap_now_again (P : Platform) (hP : P.ok) (j1 j2 : Nat)
    (c1 : spl_kmem_cache_t) (held : List Nat) (hinv : Inv P c1 held)
    (hcells : c1.skc_obj_total = P.SPL_KMEM_CACHE_OBJ_PER_SLAB * c1.skc_slab_total)
    (hw : 0 < P.BITS_PER_LONG) (hD : c1.skc_delay * P.HZ < 2 ^ (P.BITS_PER_LONG - 1))
    (hyoung : ∀ s ∈ c1.skc_partial_list, reapable P c1 j1 s = false) :
    ∃ c0 c2,
      spl_kmem_cache_reap_now_loop P j2 P.NCPUS 0 (reap_called c1) = some c0 ∧
      spl_kmem_cache_reap_now P c1 j2 = some c2 ∧
      c2.skc_slab_total + (c0.skc_partial_list.filter (reapable P c0 j2)).length
        = c1.skc_slab_total ∧
      (∀ s ∈ c0.skc_partial_list, s ∉ c2.skc_partial_list →
        s ∈ c1.skc_partial_list ∧ s.sks_ref = 0 ∧
        time_after P j1 (s.sks_age + c1.skc_delay * P.HZ) = false ∧
        time_after P j2 (s.sks_age + c1.skc_delay * P.HZ) = true) ∧
      (j2 = j1 → c0.skc_partial_list.filter (reapable P c0 j2) = [] ∧
        c2.skc_slab_total = c1.skc_slab_total) := by
  obtain ⟨c0, c2, h1, h2, h3, hinv0, hcfg0, _, _, _, hp1, hc1, s1, _⟩ :=
    spl_kmem_cache_reap_now_exact P j2 c1 held hinv hcells
  have hdelay : c0.skc_delay = c1.skc_delay := hcfg0.2.2.2.2.1
  have htot := s1.2.2.2.2.2
  simp only [Nat.add_zero] at htot
  obtain ⟨i0, _, _, _, hsl0, _⟩ := reap_called_inv P c1 held hinv
  have ht := spl_kmem_cache_reap_now_loop_touched P j2 P.NCPUS 0 _ c0 held i0 h1
  have key : ∀ s ∈ c0.skc_partial_list, reapable P c0 j2 s = true →
      s ∈ c1.skc_partial_list ∧ s.sks_ref = 0 ∧
      time_after P j1 (s.sks_age + c1.skc_delay * P.HZ) = false ∧
      time_after P j2 (s.sks_age + c1.skc_delay * P.HZ) = true := by
    intro s hs hr
    simp only [reapable, Bool.and_eq_true, decide_eq_true_eq, hdelay] at hr
    obtain ⟨hr1, hr2⟩ := hr
    rcases ht s (by simp only [slabs, List.mem_append]; exact Or.inl hs) with h4 | h4
    · rw [hsl0] at h4
      simp only [slabs, List.mem_append] at h4
      rcases h4 with h4 | h4
      · have hy := hyoung s h4
        simp only [reapable, hr1, decide_True, Bool.true_and] at hy
        exact ⟨h4, hr1, hy, hr2⟩
      · exfalso
        have e1 := hinv.core.comp s h4
        have e2 := hinv.core.objs_eq s (by simp only [slabs, List.mem_append]; exact Or.inr h4)
        have := hP.objs_pos
        omega
    · exfalso
      rw [h4, time_after_self_add P j2 _ hD hw] at hr2
      exact Bool.false_ne_true hr2
  refine ⟨c0, c2, h1, h3, htot, ?_, ?_⟩
  · intro s hs hns
    apply key s hs
    by_contra hne
    apply hns
    rw [hp1, List.mem_filter]
    exact ⟨hs, by simpa using hne⟩
  · intro hj
    subst hj
    have e1 : c0.skc_partial_list.filter (reapable P c0 j2) = [] := by
      rw [List.filter_eq_nil_iff]
      intro a ha hra
      obtain ⟨_, _, k1, k2⟩ := key a ha hra
      rw [k1] at k2
      exact Bool.false_ne_true k2
    rw [e1] at htot
    exact ⟨e1, by simpa using htot⟩

/-- C21, as the code has it: in a reachable state whose delay is less than
half the range of `jiffies`, two calls of `spl_kmem_cache_reap_now` in
succession both return.  A slab torn down by the second call, at tick `j2`,
was an empty slab of the partial list after the first call that the first
call, at tick `j1`, found not yet old enough and that is old enough at `j2`.
When both calls are made at the same tick the second call tears down no slab,
so it frees no more slabs than the first. -/
theorem C21_second_reap_same_tick (P : Platform) (hP : P.ok) (c : spl_kmem_cache_t)
    (held : List Nat) (j1 j2 : Nat) (h : Reachable P c held)
    (hw : 0 < P.BITS_PER_LONG) (hD : c.skc_delay * P.HZ < 2 ^ (P.BITS_PER_LONG - 1)) :
    ∃ c1 c0 c2,
      spl_kmem_cache_reap_now P c j1 = some c1 ∧
      spl_kmem_cache_reap_now_loop P j2 P.NCPUS 0 (reap_called c1) = some c0 ∧
      spl_kmem_cache_reap_now P c1 j2 = some c2 ∧
      c1.skc_slab_total ≤ c.skc_slab_total ∧ c2.skc_slab_total ≤ c1.skc_slab_total ∧
      (∀ s ∈ c0.skc_partial_list, s ∉ c2.skc_partial_list →
        s ∈ c1.skc_partial_list ∧ s.sks_ref = 0 ∧
        time_after P j1 (s.sks_age + c.skc_delay * P.HZ) = false ∧
        time_after P j2 (s.sks_age + c.skc_delay * P.HZ) = true) ∧
      (j2 = j1 → c2.skc_slab_total = c1.skc_slab_total ∧
        c1.skc_slab_total - c2.skc_slab_total ≤ c.skc_slab_total - c1.skc_slab_total) := by
  have hinv := reachable_inv P hP c held h
  obtain ⟨hled, _⟩ := reachable_ledger P hP c held h
  obtain ⟨d0, c1, g1, g2, g3, ginv0, gcfg0, gs0, _, _, gp1, gc1, gs1, _⟩ :=
    spl_kmem_cache_reap_now_exact P j1 c held hinv hled.cells
  have hr1 : Reachable P c1 held := Reachable.reap_now h g3
  have hinv1 := reachable_inv P hP c1 held hr1
  obtain ⟨hled1, _⟩ := reachable_ledger P hP c1 held hr1
  have hcells0 : d0.skc_obj_total = P.SPL_KMEM_CACHE_OBJ_PER_SLAB * d0.skc_slab_total := by
    obtain ⟨_, _, _, _, k5, k6⟩ := gs0
    simp only [Nat.mul_zero, Nat.add_zero] at k5 k6
    rw [k5, k6, hled.cells]
  obtain ⟨c1b, f1, _, _, _, _, fcfg, _⟩ := spl_slab_reclaim_exact P j1 d0 held ginv0 hcells0
  rw [g2] at f1
  simp only [Option.some.injEq, Prod.mk.injEq, true_and] at f1
  subst f1
  have hd0 : d0.skc_delay = c.skc_delay := gcfg0.2.2.2.2.1
  have hd1 : c1.skc_delay = c.skc_delay := by rw [fcfg.2.2.2.2.1, hd0]
  have hyoung : ∀ s ∈ c1.skc_partial_list, reapable P c1 j1 s = false := by
    intro s hs
    rw [gp1, List.mem_filter] at hs
    rw [reapable_cfg P d0 c1 j1 fcfg.2.2.2.2.1]
    simpa using hs.2
  obtain ⟨c0, c2, a1, a2, a3, a4, a5⟩ :=
    spl_kmem_cache_reap_now_again P hP j1 j2 c1 held hinv1 hled1.cells hw
      (by rw [hd1]; exact hD) hyoung
  have gtot := gs1.2.2.2.2.2
  simp only [Nat.add_zero] at gtot
  refine ⟨c1, c0, c2, g3, a1, a2, by omega, by omega, ?_, ?_⟩
  · intro s hs hns
    have := a4 s hs hns
    rw [hd1] at this
    exact this
  · intro hj
    obtain ⟨_, e⟩ := a5 hj
    exact ⟨e, by omega⟩

/-- The statement of C21 on the scenario: two calls at tick 3501 on
`demo_drained`. -/
theorem C21_second_reap_same_tick_witness :
    Reachable demoP demo_drained [] ∧ 0 < demoP.BITS_PER_LONG ∧
    demo_drained.skc_delay * demoP.HZ < 2 ^ (demoP.BITS_PER_LONG - 1) ∧
    ∃ c1 c2,
      spl_kmem_cache_reap_now demoP demo_drained 3501 = some c1 ∧
      spl_kmem_cache_reap_now demoP c1 3501 = some c2 ∧
      c2.skc_slab_total = c1.skc_slab_total :=
  ⟨demo_reach_drained, by decide, by decide,
    match C21_second_reap_same_tick demoP demoP_ok demo_drained [] 3501 3501
      demo_reach_drained (by decide) (by decide) with
    | ⟨c1, _, c2, h1, _, h2, _, _, _, h3⟩ => ⟨c1, c2, h1, h2, (h3 rfl).1⟩⟩

theorem acquired_append (a b : List Event) : acquired (a ++ b) = acquired a ++ acquired b := by
  simp [acquired, List.filterMap_append]

theorem released_append (a b : List Event) : released (a ++ b) = released a ++ released b := by
  simp [released, List.filterMap_append]

theorem heap_next_eq (heap : Heap) : heap_next heap = (heap.getD 0 0, heap.tail) := by
  cases heap <;> rfl

theorem heap_tail_getD (heap : Heap) (k : Nat) : heap.tail.getD k 0 = heap.getD (k + 1) 0 := by
  cases heap <;> simp

theorem spl_slab_kmem_release_append (skc : spl_kmem_cache_t) (a b : List spl_kmem_obj_t) :
    spl_slab_kmem_release skc (a ++ b)
      = spl_slab_kmem_release skc a ++ spl_slab_kmem_release skc b := by
  induction a with
  | nil => rfl
  | cons o a ih =>
    show Event.kmem_free o.sko_addr skc.skc_obj_size :: Event.obj_cache_free o.sko_ptr ::
        spl_slab_kmem_release skc (a ++ b)
      = Event.kmem_free o.sko_addr skc.skc_obj_size :: Event.obj_cache_free o.sko_ptr ::
        (spl_slab_kmem_release skc a ++ spl_slab_kmem_release skc b)
    rw [ih]

theorem spl_slab_kmem_release_acquired (skc : spl_kmem_cache_t) (l : List spl_kmem_obj_t) :
    acquired (spl_slab_kmem_release skc l) = [] := by
  induction l with
  | nil => rfl
  | cons o l ih =>
    simp only [spl_slab_kmem_release, acquired, List.filterMap_cons] at ih ⊢
    exact ih

/-- The loop of `spl_slab_alloc_kmem` when the allocation of header `i` or of
body `i` is the first to fail: the cells `L` built before are on the free
list, and the record shows what was obtained and the release of the header
whose body failed. -/
theorem spl_slab_alloc_kmem_loop_fail (skc : spl_kmem_cache_t) (i : Nat) :
    ∀ (n : Nat) (sks : spl_kmem_slab_t) (heap : Heap) (ev : List Event), i < n →
      (∀ k, k < 2 * i → heap.getD k 0 ≠ 0) →
      (heap.getD (2 * i) 0 = 0 ∨ heap.getD (2 * i + 1) 0 = 0) →
      ∃ sks1 E L,
        spl_slab_alloc_kmem_loop skc n sks heap ev = (-ENOMEM, sks1, ev ++ E) ∧
        sks1.sks_free_list = L ++ sks.sks_free_list ∧
        acquired E = kmem_cells skc.skc_obj_size i heap ++
          (if heap.getD (2 * i) 0 = 0 then [] else [Res.obj (heap.getD (2 * i) 0)]) ∧
        released E = (if heap.getD (2 * i) 0 = 0 then [] else [Res.obj (heap.getD (2 * i) 0)]) ∧
        List.Perm (released (spl_slab_kmem_release skc L))
          (kmem_cells skc.skc_obj_size i heap) := by
  induction i with
  | zero =>
    intro n sks heap ev hn _ hfail
    obtain ⟨n, rfl⟩ : ∃ m, n = m + 1 := ⟨n - 1, by omega⟩
    simp only [Nat.mul_zero, Nat.zero_add] at hfail ⊢
    simp only [spl_slab_alloc_kmem_loop, heap_next_eq, heap_tail_getD, Nat.zero_add]
    by_cases h0 : heap.getD 0 0 = 0
    · refine ⟨sks, [Event.obj_cache_alloc (heap.getD 0 0)], [], ?_, rfl, ?_, ?_, ?_⟩
      · simp only [h0, if_true]
      · simp only [acquired, kmem_cells, List.filterMap_cons, List.filterMap_nil, h0, if_true,
          List.nil_append]
      · simp only [released, List.filterMap_cons, List.filterMap_nil, h0, if_true]
      · simp only [spl_slab_kmem_release, released, kmem_cells, List.filterMap_nil]
        exact List.Perm.refl _
    · have h1 : heap.getD 1 0 = 0 := by
        rcases hfail with h | h
        · exact absurd h h0
        · exact h
      refine ⟨sks, [Event.obj_cache_alloc (heap.getD 0 0),
        Event.kmem_alloc skc.skc_obj_size (heap.getD 1 0),
        Event.obj_cache_free (heap.getD 0 0)], [], ?_, rfl, ?_, ?_, ?_⟩
      · simp only [h0, h1, if_false, if_true]
      · simp only [acquired, kmem_cells, List.filterMap_cons, List.filterMap_nil, h0, h1,
          if_true, if_false, List.nil_append]
      · simp only [released, List.filterMap_cons, List.filterMap_nil, h0, if_false]
      · simp only [spl_slab_kmem_release, released, kmem_cells, List.filterMap_nil]
        exact List.Perm.refl _
  | succ i ih =>
    intro n sks heap ev hn hok hfail
    obtain ⟨n, rfl⟩ : ∃ m, n = m + 1 := ⟨n - 1, by omega⟩
    have h0 : heap.getD 0 0 ≠ 0 := hok 0 (by omega)
    have h1 : heap.getD 1 0 ≠ 0 := hok 1 (by omega)
    have hg : ∀ k, heap.tail.tail.getD k 0 = heap.getD (k + 2) 0 := by
      intro k
      rw [heap_tail_getD, heap_tail_getD]
    obtain ⟨sks1, E, L, e1, e2, e3, e4, e5⟩ := ih n
      { sks with sks_free_list :=
          { sko_ptr := heap.getD 0 0, sko_addr := heap.getD 1 0, sko_slab := sks.sks_ptr }
            :: sks.sks_free_list }
      heap.tail.tail
      (ev ++ [Event.obj_cache_alloc (heap.getD 0 0),
        Event.kmem_alloc skc.skc_obj_size (heap.getD 1 0)])
      (by omega)
      (by intro k hk; rw [hg]; exact hok _ (by omega))
      (by
        rw [hg, hg]
        have a1 : 2 * i + 2 = 2 * (i + 1) := by omega
        have a2 : 2 * i + 1 + 2 = 2 * (i + 1) + 1 := by omega
        rw [a1, a2]
        exact hfail)
    have a1 : 2 * i + 2 = 2 * (i + 1) := by omega
    rw [hg, a1] at e3 e4
    refine ⟨sks1, [Event.obj_cache_alloc (heap.getD 0 0),
        Event.kmem_alloc skc.skc_obj_size (heap.getD 1 0)] ++ E,
      L ++ [{ sko_ptr := heap.getD 0 0, sko_addr := heap.getD 1 0, sko_slab := sks.sks_ptr }],
      ?_, ?_, ?_, ?_, ?_⟩
    · simp only [spl_slab_alloc_kmem_loop, heap_next_eq, heap_tail_getD, Nat.zero_add, h0, h1,
        if_false]
      rw [e1, List.append_assoc]
    · rw [e2]; simp
    · rw [acquired_append, e3]
      simp only [kmem_cells, heap_next_eq, heap_tail_getD, Nat.zero_add, acquired,
        List.filterMap_cons, List.filterMap_nil, h0, h1, if_false, List.cons_append,
        List.nil_append]
    · rw [released_append, e4]
      simp only [released, List.filterMap_cons, List.filterMap_nil, List.nil_append]
    · rw [spl_slab_kmem_release_append, released_append]
      simp only [kmem_cells, heap_next_eq, heap_tail_getD, Nat.zero_add]
      have s1 : released (spl_slab_kmem_release skc
          [{ sko_ptr := heap.getD 0 0, sko_addr := heap.getD 1 0, sko_slab := sks.sks_ptr }])
          = [Res.kmem (heap.getD 1 0) skc.skc_obj_size, Res.obj (heap.getD 0 0)] := by
        simp only [spl_slab_kmem_release, released, List.filterMap_cons, List.filterMap_nil]
      rw [s1]
      refine (List.perm_append_comm).trans ?_
      simp only [List.cons_append, List.nil_append]
      exact (List.Perm.swap _ _ _).trans ((e5.cons _).cons _)

/-- C23: in a cache of small objects, when the allocation of header `i` or
of body `i` (with `i < SPL_KMEM_CACHE_OBJ_PER_SLAB`) is the first to fail,
`spl_slab_alloc_kmem` returns `-ENOMEM` with the free list of the slab empty;
it had obtained the `i` headers and `i` bodies of the cells before, and the
header of cell `i` when it is the body that failed, and it has released
exactly what it had obtained.  `spl_slab_alloc` then hands the slab struct
back to its cache, returns `NULL` and has called the constructor zero
times. -/
theorem C23_kmem_unwind (P : Platform) (skc : spl_kmem_cache_t) (j ptr : Nat) (heap : Heap)
    (i : Nat) (hsmall : skc.skc_obj_size ≤ P.PAGE_SIZE) (hptr : ptr ≠ 0)
    (hi : i < P.SPL_KMEM_CACHE_OBJ_PER_SLAB)
    (hok : ∀ k, k < 2 * i → heap.getD k 0 ≠ 0)
    (hfail : heap.getD (2 * i) 0 = 0 ∨ heap.getD (2 * i + 1) 0 = 0) :
    ∃ sks1 ev,
      spl_slab_alloc_kmem skc (spl_slab_init P ptr j) heap = (-ENOMEM, sks1, ev) ∧
      sks1.sks_free_list = [] ∧
      acquired ev = kmem_cells skc.skc_obj_size i heap ++
        (if heap.getD (2 * i) 0 = 0 then [] else [Res.obj (heap.getD (2 * i) 0)]) ∧
      List.Perm (released ev) (acquired ev) ∧
      spl_slab_alloc P skc j (ptr :: heap)
        = (none, Event.slab_cache_alloc ptr :: ev ++ [Event.slab_cache_free ptr]) ∧
      acquired (Event.slab_cache_alloc ptr :: ev ++ [Event.slab_cache_free ptr])
        = Res.slab ptr :: acquired ev ∧
      released (Event.slab_cache_alloc ptr :: ev ++ [Event.slab_cache_free ptr])
        = released ev ++ [Res.slab ptr] ∧
      ctor_calls (Event.slab_cache_alloc ptr :: ev ++ [Event.slab_cache_free ptr]) = 0 := by
  obtain ⟨sks1, E, L, e1, e2, e3, e4, e5⟩ := spl_slab_alloc_kmem_loop_fail skc i
    P.SPL_KMEM_CACHE_OBJ_PER_SLAB (spl_slab_init P ptr j) heap [] hi hok hfail
  have hne : (-ENOMEM : Int) ≠ 0 := by decide
  have hk : spl_slab_alloc_kmem skc (spl_slab_init P ptr j) heap
      = (-ENOMEM, { sks1 with sks_free_list := [] },
          E ++ spl_slab_kmem_release skc sks1.sks_free_list) := by
    simp only [spl_slab_alloc_kmem]
    have e0 : (spl_slab_init P ptr j).sks_objs = P.SPL_KMEM_CACHE_OBJ_PER_SLAB := rfl
    rw [e0, e1]
    simp only [hne, ne_eq, not_false_eq_true, if_true, List.nil_append]
  have hL : sks1.sks_free_list = L := by
    rw [e2]; simp [spl_slab_init]
  have hacq : acquired (E ++ spl_slab_kmem_release skc sks1.sks_free_list) = acquired E := by
    rw [acquired_append, spl_slab_kmem_release_acquired, List.append_nil]
  have hcalls := spl_slab_alloc_kmem_calls skc (spl_slab_init P ptr j) heap
  rw [hk] at hcalls
  refine ⟨_, _, hk, rfl, ?_, ?_, ?_, ?_, ?_, ?_⟩
  · rw [hacq, e3]
  · rw [hacq, released_append, e3, e4, hL]
    exact (List.perm_append_comm).trans (e5.append_right _)
  · simp only [spl_slab_alloc, hsmall, if_true, heap_next, hptr, if_false, hk, hne, ne_eq,
      not_false_eq_true]
  · rw [List.cons_append, ← List.singleton_append, acquired_append, acquired_append]
    simp [acquired, hptr]
  · rw [List.cons_append, ← List.singleton_append, released_append, released_append]
    simp [released]
  · simp only [ctor_calls]
    rw [List.cons_append, ← List.singleton_append, ctor_addrs_append, ctor_addrs_append,
      hcalls.1]
    simp [ctor_addrs]

/-- The statement of C23 for the cache `small_c0`, a slab struct at 1000 and
an allocator that gives the header and the body of cell 0, the header of
cell 1, and then fails. -/
theorem C23_kmem_unwind_witness :
    small_c0.skc_obj_size ≤ smallP.PAGE_SIZE ∧
    (∀ k, k < 2 * 1 → [2000, 3000, 4000].getD k 0 ≠ 0) ∧
    ([2000, 3000, 4000].getD (2 * 1) 0 = 0 ∨ [2000, 3000, 4000].getD (2 * 1 + 1) 0 = 0) ∧
    ∃ sks1 ev,
      spl_slab_alloc_kmem small_c0 (spl_slab_init smallP 1000 7) [2000, 3000, 4000]
        = (-ENOMEM, sks1, ev) ∧
      sks1.sks_free_list = [] ∧
      acquired ev = [Res.obj 2000, Res.kmem 3000 64, Res.obj 4000] ∧
      List.Perm (released ev) (acquired ev) :=
  ⟨by decide, by decide, by decide,
    match C23_kmem_unwind smallP small_c0 7 1000 [2000, 3000, 4000] 1 (by decide) (by decide)
      (by decide) (by decide) (by decide) with
    | ⟨sks1, ev, h1, h2, h3, h4, _⟩ => ⟨sks1, ev, h1, h2, h3.trans (by decide), h4⟩⟩

theorem spl_magazine_free_all_released (l : List spl_kmem_magazine_t) (es : List Event)
    (h : spl_magazine_free_all l = some es) :
    released es = l.map (fun m => Res.node m.skm_ptr) ∧ acquired es = [] := by
  induction l generalizing es with
  | nil =>
    simp only [spl_magazine_free_all, Option.some.injEq] at h
    subst h
    exact ⟨rfl, rfl⟩
  | cons m l ih =>
    simp only [spl_magazine_free_all] at h
    split at h
    · rename_i e es1 he hes
      simp only [Option.some.injEq] at h
      subst h
      obtain ⟨a1, a2⟩ := ih es1 hes
      simp only [spl_magazine_free] at he
      split at he
      · simp at he
      · simp only [Option.some.injEq] at he
        subst he
        simp only [released, acquired, List.filterMap_cons, List.map_cons] at a1 a2 ⊢
        exact ⟨by rw [a1], a2⟩
    · simp at h

/-- The loop of `spl_magazine_create` over `n` CPUs, entered with empty
magazines: it returns; with `n` answers of `kmalloc_node` that are not `NULL`
the result is 0 and nothing is released, otherwise the result is `-ENOMEM`
and every magazine of the cache, those made by the loop included, has been
released. -/
theorem spl_magazine_create_loop_res (P : Platform) (j : Nat) (n : Nat) :
    ∀ (heap : Heap) (c : spl_kmem_cache_t), (∀ m ∈ c.skc_mag, m.skm_avail = 0) →
      ∃ rc c1 E, spl_magazine_create_loop P j n heap c = some (rc, c1) ∧
        c1.skc_events = c.skc_events ++ E ∧
        ((∀ k, k < n → heap.getD k 0 ≠ 0) → rc = 0 ∧ released E = []) ∧
        ((∃ k, k < n ∧ heap.getD k 0 = 0) → rc = -ENOMEM ∧
          List.Perm (released E)
            (c.skc_mag.map (fun m => Res.node m.skm_ptr) ++ acquired E)) := by
  induction n with
  | zero =>
    intro heap c _
    refine ⟨0, c, [], rfl, by simp, fun _ => ⟨rfl, rfl⟩, ?_⟩
    rintro ⟨k, hk, _⟩
    omega
  | succ n ih =>
    intro heap c hc
    simp only [spl_magazine_create_loop, heap_next_eq, spl_magazine_alloc]
    by_cases h0 : heap.getD 0 0 = 0
    · obtain ⟨es, hes⟩ := spl_magazine_free_all_total c.skc_mag.reverse
        (fun m hm => hc m (List.mem_reverse.1 hm))
      obtain ⟨r1, r2⟩ := spl_magazine_free_all_released _ es hes
      simp only [h0, if_true, hes]
      refine ⟨_, _, [Event.kmalloc_node
          (P.SIZEOF_MAGAZINE + P.SIZEOF_PTR * c.skc_mag_size) 0] ++ es, rfl,
        by simp only [List.append_assoc], ?_, ?_⟩
      · intro hall
        exact absurd h0 (hall 0 (by omega))
      · intro _
        refine ⟨rfl, ?_⟩
        rw [released_append, acquired_append, r1, r2]
        simp only [released, acquired, List.filterMap_cons, List.filterMap_nil, if_true,
          List.nil_append, List.append_nil, List.map_reverse]
        exact List.reverse_perm _
    · simp only [h0, if_false]
      obtain ⟨rc, c1, E, e1, e2, e3, e4⟩ := ih heap.tail
        { c with
          skc_events := c.skc_events ++
            [Event.kmalloc_node (P.SIZEOF_MAGAZINE + P.SIZEOF_PTR * c.skc_mag_size)
              (heap.getD 0 0)]
          skc_mag := c.skc_mag ++
            [{ skm_ptr := heap.getD 0 0
               skm_avail := 0
               skm_size := c.skc_mag_size
               skm_refill := c.skc_mag_refill
               skm_age := j
               skm_objs := List.replicate c.skc_mag_size 0 }] }
        (by
          intro m hm
          simp only [List.mem_append, List.mem_singleton] at hm
          rcases hm with hm | rfl
          · exact hc m hm
          · rfl)
      refine ⟨rc, c1, [Event.kmalloc_node (P.SIZEOF_MAGAZINE + P.SIZEOF_PTR * c.skc_mag_size)
          (heap.getD 0 0)] ++ E, e1, by rw [e2, List.append_assoc], ?_, ?_⟩
      · intro hall
        obtain ⟨a1, a2⟩ := e3 (by
          intro k hk
          rw [heap_tail_getD]
          exact hall _ (by omega))
        refine ⟨a1, ?_⟩
        rw [released_append, a2]
        simp only [released, List.filterMap_cons, List.filterMap_nil, List.append_nil]
      · rintro ⟨k, hk, hz⟩
        have hk0 : k ≠ 0 := by
          rintro rfl
          exact h0 hz
        obtain ⟨a1, a2⟩ := e4 ⟨k - 1, by omega, by
          rw [heap_tail_getD]
          have e : k - 1 + 1 = k := by omega
          rw [e]
          exact hz⟩
        refine ⟨a1, ?_⟩
        rw [released_append, acquired_append]
        simp only [released, acquired, List.filterMap_cons, List.filterMap_nil, h0, if_false,
          List.nil_append, List.map_append, List.map_cons, List.map_nil, List.append_assoc,
          List.singleton_append] at a2 ⊢
        exact a2

theorem spl_magazine_create_loop_res_of (P : Platform) (j n : Nat) (heap : Heap)
    (c : spl_kmem_cache_t) (r : Option (Int × spl_kmem_cache_t))
    (hc : ∀ m ∈ c.skc_mag, m.skm_avail = 0)
    (h : spl_magazine_create_loop P j n heap c = r) :
    ∃ rc c1 E, r = some (rc, c1) ∧
      c1.skc_events = c.skc_events ++ E ∧
      ((∀ k, k < n → heap.getD k 0 ≠ 0) → rc = 0 ∧ released E = []) ∧
      ((∃ k, k < n ∧ heap.getD k 0 = 0) → rc = -ENOMEM ∧
        List.Perm (released E)
          (c.skc_mag.map (fun m => Res.node m.skm_ptr) ++ acquired E)) := by
  subst h
  exact spl_magazine_create_loop_res P j n heap c hc

/-- C22: `spl_kmem_cache_create` returns.  It returns `NULL` exactly when one
of its `3 + NCPUS` allocations (the cache struct, the name copy, the hash
table, one magazine for each CPU) answers `NULL`.  On a `NULL` return the
registry is unchanged and the memory released is the memory obtained.  On a
return that is not `NULL` the address of the cache is appended to the
registry, nothing was released, both slab lists are empty, every hash chain
is empty, all statistics are 0, there is one magazine for each CPU and every
magazine has `skm_avail == 0`. -/
theorem C22_create (P : Platform) (name_len size : Nat) (ctor dtor reclaim : Bool)
    (j : Nat) (heap : Heap) (registry : List Nat) :
    ∃ r reg ev,
      spl_kmem_cache_create P name_len size ctor dtor reclaim j heap registry
        = some (r, reg, ev) ∧
      (r = none ↔ ∃ i, i < 3 + P.NCPUS ∧ heap.getD i 0 = 0) ∧
      (r = none → reg = registry ∧ List.Perm (released ev) (acquired ev)) ∧
      (∀ c, r = some c →
        reg = registry ++ [c.skc_ptr] ∧ c.skc_ptr = heap.getD 0 0 ∧ c.skc_ptr ≠ 0 ∧
        released ev = [] ∧ ev = c.skc_events ∧
        c.skc_partial_list = [] ∧ c.skc_complete_list = [] ∧
        c.skc_hash.length = P.SPL_KMEM_CACHE_HASH_ELTS ∧ (∀ chain ∈ c.skc_hash, chain = []) ∧
        c.skc_slab_fail = 0 ∧ c.skc_slab_create = 0 ∧ c.skc_slab_destroy = 0 ∧
        c.skc_slab_total = 0 ∧ c.skc_slab_alloc = 0 ∧ c.skc_slab_max = 0 ∧
        c.skc_obj_total = 0 ∧ c.skc_obj_alloc = 0 ∧ c.skc_obj_max = 0 ∧
        c.skc_hash_depth = 0 ∧ c.skc_hash_count = 0 ∧
        c.skc_mag.length = P.NCPUS ∧ ∀ m ∈ c.skc_mag, m.skm_avail = 0) := by
  have g1 : heap.tail.getD 0 0 = heap.getD 1 0 := heap_tail_getD heap 0
  have g2 : heap.tail.tail.getD 0 0 = heap.getD 2 0 := by
    rw [heap_tail_getD, heap_tail_getD]
  have g3 : ∀ k, heap.tail.tail.tail.getD k 0 = heap.getD (k + 3) 0 := by
    intro k
    rw [heap_tail_getD, heap_tail_getD, heap_tail_getD]
  simp only [spl_kmem_cache_create, heap_next_eq, g1, g2]
  by_cases h0 : heap.getD 0 0 = 0
  · simp only [h0, if_true]
    refine ⟨none, registry, _, rfl, ?_, ?_, ?_⟩
    · exact ⟨fun _ => ⟨0, by omega, h0⟩, fun _ => rfl⟩
    · intro _
      refine ⟨rfl, ?_⟩
      simp only [released, acquired, List.filterMap_cons, List.filterMap_nil, if_true]
      exact List.Perm.refl _
    · intro c hc
      simp at hc
  by_cases h1 : heap.getD 1 0 = 0
  · simp only [h0, h1, if_true, if_false]
    refine ⟨none, registry, _, rfl, ?_, ?_, ?_⟩
    · exact ⟨fun _ => ⟨1, by omega, h1⟩, fun _ => rfl⟩
    · intro _
      refine ⟨rfl, ?_⟩
      simp only [released, acquired, List.filterMap_cons, List.filterMap_nil, List.cons_append,
        List.nil_append, h0, if_true, if_false]
      exact List.Perm.refl _
    · intro c hc
      simp at hc
  by_cases h2 : heap.getD 2 0 = 0
  · simp only [h0, h1, h2, if_true, if_false]
    refine ⟨none, registry, _, rfl, ?_, ?_, ?_⟩
    · exact ⟨fun _ => ⟨2, by omega, h2⟩, fun _ => rfl⟩
    · intro _
      refine ⟨rfl, ?_⟩
      simp only [released, acquired, List.filterMap_cons, List.filterMap_nil, List.cons_append,
        List.nil_append, h0, h1, if_true, if_false]
      exact List.Perm.swap _ _ _
    · intro c hc
      simp at hc
  simp only [h0, h1, h2, if_false, spl_magazine_create]
  split
  · rename_i hmc
    obtain ⟨_, _, _, e1, _⟩ := spl_magazine_create_loop_res_of P j _ _ _ _
      (fun m hm => absurd hm (List.not_mem_nil m)) hmc
    simp at e1
  · rename_i rc c1 hmc
    obtain ⟨rc1, c2, E, e1, e2, e3, e4⟩ := spl_magazine_create_loop_res_of P j _ _ _ _
      (fun m hm => absurd hm (List.not_mem_nil m)) hmc
    simp only [Option.some.injEq, Prod.mk.injEq] at e1
    obtain ⟨rfl, rfl⟩ := e1
    dsimp only at e2 e4
    by_cases hall : ∀ k, k < P.NCPUS → heap.getD (k + 3) 0 ≠ 0
    · obtain ⟨hrc, hrel⟩ := e3 (by intro k hk; rw [g3]; exact hall k hk)
      subst hrc
      obtain ⟨a1, a2, a3⟩ := spl_magazine_create_loop_spec P j P.NCPUS _ _ _ hmc
      simp only [ne_eq, not_true_eq_false, if_false]
      refine ⟨some c1, _, _, rfl, ?_, ?_, ?_⟩
      · refine ⟨fun h => by simp at h, ?_⟩
        rintro ⟨i, hi, hz⟩
        exfalso
        by_cases hi3 : i < 3
        · have : i = 0 ∨ i = 1 ∨ i = 2 := by omega
          rcases this with rfl | rfl | rfl
          · exact h0 hz
          · exact h1 hz
          · exact h2 hz
        · have e : i - 3 + 3 = i := by omega
          have := hall (i - 3) (by omega)
          rw [e] at this
          exact this hz
      · intro h
        simp at h
      · intro c hc
        simp only [Option.some.injEq] at hc
        subst hc
        simp only [List.not_mem_nil, false_or, List.length_nil, Nat.zero_add] at a2 a3
        have hp : c1.skc_ptr = heap.getD 0 0 := by rw [a1]
        refine ⟨by rw [hp], hp, by rw [hp]; exact h0, ?_, rfl, by rw [a1], by rw [a1], ?_, ?_,
          by rw [a1], by rw [a1], by rw [a1], by rw [a1], by rw [a1], by rw [a1], by rw [a1],
          by rw [a1], by rw [a1], by rw [a1], by rw [a1], a2, fun m hm => (a3 m hm).1⟩
        · rw [e2, released_append, hrel]
          simp only [released, List.filterMap_cons, List.filterMap_nil, List.cons_append,
            List.nil_append, List.append_nil]
        · rw [a1]; simp
        · rw [a1]
          intro chain hch
          exact List.eq_of_mem_replicate hch
    · have hex : ∃ k, k < P.NCPUS ∧ heap.tail.tail.tail.getD k 0 = 0 := by
        by_contra hne
        apply hall
        intro k hk hz
        apply hne
        exact ⟨k, hk, by rw [g3]; exact hz⟩
      obtain ⟨hrc, hperm⟩ := e4 hex
      subst hrc
      have hne : (-ENOMEM : Int) ≠ 0 := by decide
      simp only [hne, ne_eq, not_false_eq_true, if_true]
      refine ⟨none, registry, _, rfl, ?_, ?_, ?_⟩
      · refine ⟨fun _ => ?_, fun _ => rfl⟩
        obtain ⟨k, hk, hz⟩ := hex
        rw [g3] at hz
        exact ⟨k + 3, by omega, hz⟩
      · intro _
        refine ⟨rfl, ?_⟩
        simp only [List.map_nil, List.nil_append] at hperm
        rw [e2, released_append, released_append, acquired_append, acquired_append]
        simp only [released, acquired, List.filterMap_cons, List.filterMap_nil,
          List.cons_append, List.nil_append, List.append_nil, h0, h1, h2, if_false] at hperm ⊢
        refine (List.perm_append_comm).trans ?_
        simp only [List.cons_append, List.nil_append]
        have p1 : List.Perm
            [Res.vmem (heap.getD 2 0) P.SPL_KMEM_CACHE_HASH_SIZE,
              Res.kmem (heap.getD 1 0) (name_len + 1), Res.kmem (heap.getD 0 0) P.SIZEOF_CACHE]
            [Res.kmem (heap.getD 0 0) P.SIZEOF_CACHE, Res.kmem (heap.getD 1 0) (name_len + 1),
              Res.vmem (heap.getD 2 0) P.SPL_KMEM_CACHE_HASH_SIZE] := by
          have := List.reverse_perm
            [Res.kmem (heap.getD 0 0) P.SIZEOF_CACHE, Res.kmem (heap.getD 1 0) (name_len + 1),
              Res.vmem (heap.getD 2 0) P.SPL_KMEM_CACHE_HASH_SIZE]
          simpa using this
        exact List.Perm.append p1 hperm
      · intro c hc
        simp at hc

/-- The outer loop of `spl_cache_refill` returns, whatever the allocator and
the scheduler do, when it has two passes for every object still to take. -/
theorem spl_cache_refill_loop_total (P : Platform) (env : Env) (id : Nat) (flags : km_flags)
    (j : Nat) (hP : P.ok) (henv : EnvFresh P env) (fuel : Nat) :
    ∀ (cpu refill rc : Nat) (c : spl_kmem_cache_t) (held : List Nat) (m : spl_kmem_magazine_t),
      Inv P c held → c.skc_mag[id]? = some m → m.skm_avail + refill ≤ m.skm_size →
      rc + refill < m.skm_size →
      (2 * refill + 1 ≤ fuel ∨ (c.skc_partial_list ≠ [] ∧ 0 < refill ∧ 2 * refill ≤ fuel)) →
      ∃ r, spl_cache_refill_loop P env id flags j fuel cpu refill rc c = some r := by
  induction fuel with
  | zero =>
    intro cpu refill rc c held m hinv hm hroom hrc hf
    omega
  | succ fuel ih =>
    intro cpu refill rc c held m hinv hm hroom hrc hf
    by_cases hz : refill > 0
    · cases hpl : c.skc_partial_list with
      | nil =>
        cases hg : spl_cache_grow P env c flags j with
        | mk r c1 =>
        obtain ⟨hinv1, hmag1, hcfg1, hh1, hoa1, hhc1, hcl1, hnone, hsome⟩ :=
          spl_cache_grow_spec P env c c1 flags j held r hP hinv henv hg
        have hm1 : c1.skc_mag[id]? = some m := by rw [hmag1]; exact hm
        cases r with
        | none =>
          exact ⟨(rc, env.cpu c1, c1),
            by simp only [spl_cache_refill_loop, hz, if_true, hpl, hg]⟩
        | some ptr =>
          obtain ⟨sks, hp1, _, _, _, _⟩ := hsome ptr rfl
          rw [hpl] at hp1
          by_cases hcpu : id ≠ env.cpu c1
          · exact ⟨(rc, env.cpu c1, c1),
              by simp only [spl_cache_refill_loop, hz, if_true, hpl, hg, hcpu, ne_eq,
                not_false_eq_true]⟩
          · have hmin : min refill (m.skm_size - m.skm_avail) = refill := by omega
            have heq : spl_cache_refill_loop P env id flags j (fuel + 1) cpu refill rc c
                = spl_cache_refill_loop P env id flags j fuel (env.cpu c1) refill rc c1 := by
              simp only [spl_cache_refill_loop, hz, if_true, hpl, hg, hcpu, if_false, hm1,
                hmin]
            rw [heq]
            apply ih (env.cpu c1) refill rc c1 held m hinv1 hm1 hroom hrc
            rcases hf with hf | ⟨hne, _, _⟩
            · exact Or.inr ⟨by rw [hp1]; simp, hz, by omega⟩
            · exact absurd hpl hne
      | cons sks rest =>
        obtain ⟨hcore, hpart, hmags⟩ := hinv
        have hlt : sks.sks_ref < sks.sks_objs := hpart sks (by simp [hpl])
        have hsm : sks ∈ slabs c := by simp [slabs, hpl]
        have hlen := hcore.free_len sks hsm
        have hne : sks.sks_free_list ≠ [] := by
          intro h0
          rw [h0] at hlen
          simp only [List.length_nil] at hlen
          omega
        have hrest : ∀ s ∈ rest, s.sks_ref < s.sks_objs := fun s hs =>
          hpart s (by simp [hpl, hs])
        obtain ⟨c1, sks1, m1, e1, e2, e3, e4, e5, e6, e7, e8, e9, e10, e11, e12, e13, e14,
          e15⟩ := spl_cache_refill_inner_spec P id j refill rc c held sks rest m hcore hmags hpl
            hm hroom hrc
        have hk : 1 ≤ min refill (sks.sks_objs - sks.sks_ref) := by omega
        have hkle : min refill (sks.sks_objs - sks.sks_ref) ≤ refill := Nat.min_le_left _ _
        have hderef1 : slab_deref c1 sks.sks_ptr = some sks1 := by
          simp [slab_deref, e4, slab_find, e5]
        have hinv2 : Inv P
            (if sks1.sks_ref = sks1.sks_objs then
              { c1 with
                skc_partial_list := list_del sks.sks_ptr c1.skc_partial_list
                skc_complete_list := sks1 :: list_del sks.sks_ptr c1.skc_complete_list }
             else c1) held := by
          split
          · rename_i hfull
            have := inv_promote P c1 held sks1 rest e2 e3 e4 hrest hfull
            rw [e5] at this
            exact this
          · rename_i hnf
            refine ⟨e2, ?_, e3⟩
            rw [e4]
            intro s hs
            simp only [List.mem_cons] at hs
            rcases hs with rfl | hs
            · omega
            · exact hrest s hs
        have hm2 : (if sks1.sks_ref = sks1.sks_objs then
              { c1 with
                skc_partial_list := list_del sks.sks_ptr c1.skc_partial_list
                skc_complete_list := sks1 :: list_del sks.sks_ptr c1.skc_complete_list }
             else c1).skc_mag[id]? = some m1 := by
          split <;> exact e9
        have heq : spl_cache_refill_loop P env id flags j (fuel + 1) cpu refill rc c
            = spl_cache_refill_loop P env id flags j fuel cpu
                (refill - min refill (sks.sks_objs - sks.sks_ref))
                (rc + min refill (sks.sks_objs - sks.sks_ref))
                (if sks1.sks_ref = sks1.sks_objs then
                  { c1 with
                    skc_partial_list := list_del sks.sks_ptr c1.skc_partial_list
                    skc_complete_list := sks1 :: list_del sks.sks_ptr c1.skc_complete_list }
                 else c1) := by
          simp only [spl_cache_refill_loop, hz, if_true, hpl, hlt, not_true_eq_false, if_false,
            hne, e1, hderef1]
        rw [heq]
        apply ih cpu (refill - min refill (sks.sks_objs - sks.sks_ref))
          (rc + min refill (sks.sks_objs - sks.sks_ref)) _ held m1 hinv2 hm2
          (by rw [e10, e11]; omega) (by rw [e11]; omega)
        exact Or.inl (by rcases hf with hf | ⟨_, _, hf⟩ <;> omega)
    · exact ⟨(rc, cpu, c), by simp only [spl_cache_refill_loop, hz, if_false]⟩

/-- `spl_cache_refill` returns in every consistent state, whatever the
allocator and the scheduler do. -/
theorem spl_cache_refill_total (P : Platform) (env : Env) (c : spl_kmem_cache_t)
    (held : List Nat) (id cpu : Nat) (flags : km_flags) (j : Nat) (hP : P.ok)
    (henv : EnvFresh P env) (hinv : Inv P c held) (m : spl_kmem_magazine_t)
    (hm : c.skc_mag[id]? = some m) :
    ∃ r, spl_cache_refill P env c id cpu flags j = some r := by
  have hmm : m ∈ c.skc_mag := List.mem_iff_getElem?.2 ⟨id, hm⟩
  obtain ⟨s1, s2, s3, s4, s5, s6⟩ := magok_sizes P c held hinv.mags m hmm
  obtain ⟨r, hr⟩ := spl_cache_refill_loop_total P env id flags j hP henv
    (2 * min m.skm_refill (m.skm_size - m.skm_avail) + 1) cpu
    (min m.skm_refill (m.skm_size - m.skm_avail)) 0 c held m hinv hm (by omega) (by omega)
    (Or.inl (Nat.le_refl _))
  exact ⟨r, by simp only [spl_cache_refill, hm, hr]⟩

/-- `spl_kmem_cache_alloc` returns within two passes when slab construction
succeeds and the thread stays on its CPU. -/
theorem spl_kmem_cache_alloc_total (P : Platform) (env : Env) (c : spl_kmem_cache_t)
    (held : List Nat) (cpu j fuel : Nat) (m : spl_kmem_magazine_t) (hP : P.ok)
    (henv : EnvFresh P env) (hinv : Inv P c held) (hm : c.skc_mag[cpu]? = some m)
    (hcpu : cpu < 4) (hs : EnvSucceeds P env) (hst : EnvStays env cpu) :
    ∃ obj c1, spl_kmem_cache_alloc P env c cpu km_flags.KM_SLEEP j (fuel + 2)
      = some (obj, cpu, c1) := by
  by_cases hav : m.skm_avail ≠ 0
  · obtain ⟨obj, _, h⟩ := spl_kmem_cache_alloc_pop P env c held cpu j (fuel + 1) m hinv hm hav hcpu
    exact ⟨obj, set_mag c cpu (mag_popped m j), h⟩
  · have hav0 : m.skm_avail = 0 := by omega
    have hmm : m ∈ c.skc_mag := List.mem_iff_getElem?.2 ⟨cpu, hm⟩
    obtain ⟨s1, s2, s3, s4, s5, s6⟩ := magok_sizes P c held hinv.mags m hmm
    obtain ⟨hA, hB⟩ := spl_cache_refill_spec P env c held cpu cpu km_flags.KM_SLEEP j hP henv hinv
    obtain ⟨c1, hr⟩ := hB m hm hs hst rfl
    obtain ⟨hinv1, _, m0, m1, k1, k2, k3, k4, _⟩ := hA _ _ _ hr
    rw [hm] at k1
    simp only [Option.some.injEq] at k1
    subst k1
    have hav1 : m1.skm_avail ≠ 0 := by rw [k4]; omega
    obtain ⟨obj, _, h⟩ := spl_kmem_cache_alloc_pop P env c1 held cpu j fuel m1 hinv1 k2 hav1 hcpu
    refine ⟨obj, set_mag c1 cpu (mag_popped m1 j), ?_⟩
    rw [← h]
    simp only [spl_kmem_cache_alloc, ne_eq, not_true_eq_false, if_false]
    conv_lhs => rw [spl_kmem_cache_alloc_loop]
    simp only [hcpu, not_true_eq_false, if_false, hm, hav0, ne_eq, hr]

theorem inv_mag_bounds (P : Platform) (c : spl_kmem_cache_t) (held : List Nat)
    (h : Inv P c held) : MagBounds c := by
  intro m hm
  obtain ⟨_, _, h3, h4⟩ := h.mags.shape m hm
  exact ⟨h4, h3⟩

/-- C26: in every state reached from `spl_kmem_cache_create` every magazine
has `skm_avail <= skm_size`, its pointer array having `skm_size` slots.
`spl_kmem_cache_free`, `spl_cache_flush` and `spl_cache_refill` return and
keep these bounds, and so does every call of
`spl_kmem_cache_alloc` that returns; `spl_kmem_cache_alloc` returns when slab
construction succeeds and the thread stays on its CPU.  An access to
`skm_objs` past the end of the array makes these functions fail, so a result
means that every index used was below `skm_size`; the block moved by the
`memmove` of `spl_cache_flush` ends inside the array. -/
theorem C26_magazine_bounds (P : Platform) (hP : P.ok) (c : spl_kmem_cache_t)
    (held : List Nat) (h : Reachable P c held) :
    MagBounds c ∧
    (∀ cpu p j, cpu < P.NCPUS →
      ∃ c1, spl_kmem_cache_free P c cpu p j = some c1 ∧ MagBounds c1) ∧
    (∀ id k j m, c.skc_mag[id]? = some m →
      ∃ c1, spl_cache_flush P c id k j = some (min k m.skm_avail, c1) ∧ MagBounds c1 ∧
        min k m.skm_avail + (m.skm_avail - min k m.skm_avail) ≤ m.skm_objs.length) ∧
    (∀ env id cpu flags j, EnvFresh P env → id < P.NCPUS →
      ∃ rc cpu1 c1, spl_cache_refill P env c id cpu flags j = some (rc, cpu1, c1) ∧
        MagBounds c1) ∧
    (∀ env cpu flags j fuel obj cpu1 c1, EnvFresh P env →
      spl_kmem_cache_alloc P env c cpu flags j fuel = some (obj, cpu1, c1) → MagBounds c1) ∧
    (∀ env cpu j fuel, EnvFresh P env → EnvSucceeds P env → EnvStays env cpu →
      cpu < P.NCPUS → cpu < 4 →
      ∃ obj c1, spl_kmem_cache_alloc P env c cpu km_flags.KM_SLEEP j (fuel + 2)
        = some (obj, cpu, c1) ∧ MagBounds c1) := by
  have hinv := reachable_inv P hP c held h
  have hget : ∀ id, id < P.NCPUS → ∃ m, c.skc_mag[id]? = some m := by
    intro id hid
    have hl : id < c.skc_mag.length := by rw [hinv.mags.ncpus]; exact hid
    exact ⟨_, List.getElem?_eq_getElem hl⟩
  refine ⟨inv_mag_bounds P c held hinv, ?_, ?_, ?_, ?_, ?_⟩
  · intro cpu p j hcpu
    obtain ⟨m, hm⟩ := hget cpu hcpu
    obtain ⟨c0, m0, _, hinv0, _, _, hlt0, _, _, hlen0, hfree, _⟩ :=
      spl_kmem_cache_free_spec P c held cpu p j m hinv hm
    refine ⟨_, hfree, ?_⟩
    intro m1 hm1
    simp only [set_mag] at hm1
    rcases List.mem_or_eq_of_mem_set hm1 with hm1 | rfl
    · exact inv_mag_bounds P c0 held hinv0 m1 hm1
    · simp only [mag_pushed, List.length_set]
      exact ⟨hlt0, hlen0⟩
  · intro id k j m hm
    obtain ⟨c1, _, hfl, hinv1, _⟩ := spl_cache_flush_spec P c held id k j m hinv hm
    have hmm : m ∈ c.skc_mag := List.mem_iff_getElem?.2 ⟨id, hm⟩
    obtain ⟨hb1, hb2⟩ := inv_mag_bounds P c held hinv m hmm
    exact ⟨_, hfl, inv_mag_bounds P _ _ hinv1, by omega⟩
  · intro env id cpu flags j henv hid
    obtain ⟨m, hm⟩ := hget id hid
    obtain ⟨⟨rc, cpu1, c1⟩, hr⟩ := spl_cache_refill_total P env c held id cpu flags j hP henv hinv
      m hm
    exact ⟨rc, cpu1, c1, hr,
      inv_mag_bounds P _ _ (reachable_inv P hP _ _ (Reachable.refill h henv hr))⟩
  · intro env cpu flags j fuel obj cpu1 c1 henv ha
    exact inv_mag_bounds P _ _ (reachable_inv P hP _ _ (Reachable.alloc h henv ha))
  · intro env cpu j fuel henv hs hst hcpu hcpu4
    obtain ⟨m, hm⟩ := hget cpu hcpu
    obtain ⟨obj, c1, ha⟩ := spl_kmem_cache_alloc_total P env c held cpu j fuel m hP henv hinv hm
      hcpu4 hs hst
    exact ⟨obj, c1, ha,
      inv_mag_bounds P _ _ (reachable_inv P hP _ _ (Reachable.alloc h henv ha))⟩

/-- The statement of C26 on the scenario, in the state where the magazine of
CPU 0 is full. -/
theorem C26_magazine_bounds_witness :
    Reachable demoP demo_f4 [] ∧ MagBounds demo_f4 ∧
    (demo_mag0 demo_f4).skm_avail = 4 ∧ (demo_mag0 demo_f4).skm_size = 4 ∧
    ∃ c1, spl_cache_flush demoP demo_f4 0 3 3001 = some (3, c1) ∧ MagBounds c1 :=
  ⟨demo_reach_f4, (C26_magazine_bounds demoP demoP_ok demo_f4 [] demo_reach_f4).1,
    by decide, by decide,
    match (C26_magazine_bounds demoP demoP_ok demo_f4 [] demo_reach_f4).2.2.1 0 3 3001
      (demo_mag0 demo_f4) (by decide) with
    | ⟨c1, h1, h2, _⟩ => ⟨c1, h1, h2⟩⟩

theorem ctoronly_reach_f1 : Reachable demoP ctoronly_f1 [] :=
  @Reachable.free demoP ctoronly_a1.2.2 ctoronly_f1 [ctoronly_a1.1] 0 ctoronly_a1.1 2001
    (@Reachable.alloc demoP ctoronly_c0 ctoronly_a1.2.2 [] demoEnv km_flags.KM_SLEEP 0 1001 2
      ctoronly_a1.1 ctoronly_a1.2.1
      (@Reachable.create demoP 8 1048577 true false false 1000 [8, 16, 24, 32, 40] [] [8]
        ctoronly_c0.skc_events ctoronly_c0 rfl)
      demoEnv_fresh rfl)
    (by decide) rfl

/-- C11, the claim as stated fails for a cache created with a constructor and
no destructor (`skc_dtor == NULL`): after one allocation, the free of the
body, a flush of the magazine and a slab scan that tears the slab down, the
constructor has been called twice, the destructor never, and `skc_obj_total`
is 0. -/
theorem C11_counterexample :
    Reachable demoP ctoronly_reaped.2 [] ∧
    __spl_slab_reclaim demoP ctoronly_flushed 4000 = some (1, ctoronly_reaped.2) ∧
    ctor_calls ctoronly_reaped.2.skc_events = 2 ∧
    dtor_calls ctoronly_reaped.2.skc_events = 0 ∧
    ctoronly_reaped.2.skc_obj_total = 0 ∧ ctoronly_reaped.2.skc_slab_total = 0 ∧
    ¬ (ctor_calls ctoronly_reaped.2.skc_events
        = dtor_calls ctoronly_reaped.2.skc_events + ctoronly_reaped.2.skc_obj_total) := by
  refine ⟨?_, by decide, by decide, by decide, by decide, by decide, by decide⟩
  exact @Reachable.reclaim demoP ctoronly_flushed ctoronly_reaped.2 [] 4000 1
    (@Reachable.flush demoP ctoronly_f1 ctoronly_flushed [] 0 2 3000 2 ctoronly_reach_f1 rfl)
    rfl

/-- C12, the claim as stated fails for a cache created with a constructor and
no destructor: every body handed out has been freed, `spl_kmem_cache_destroy`
returns with both lists empty and the statistics at 0, and over the life of
the cache the constructor has been called twice and the destructor never. -/
theorem C12_counterexample :
    Reachable demoP ctoronly_f1 [] ∧
    spl_kmem_cache_destroy demoP ctoronly_f1 5000 [8] = some (ctoronly_destroyed, []) ∧
    ctoronly_destroyed.skc_partial_list = [] ∧ ctoronly_destroyed.skc_slab_total = 0 ∧
    ctoronly_destroyed.skc_obj_total = 0 ∧
    ctor_calls ctoronly_destroyed.skc_events = 2 ∧
    dtor_calls ctoronly_destroyed.skc_events = 0 ∧
    ¬ (ctor_calls ctoronly_destroyed.skc_events = dtor_calls ctoronly_destroyed.skc_events) :=
  ⟨ctoronly_reach_f1, by decide, by decide, by decide, by decide, by decide, by decide,
    by decide⟩

theorem to_int_of_lt (x : Nat) (h : x < 2 ^ 31) : to_int x = Int.ofNat x := by
  have h1 : x % 2 ^ 32 = x := Nat.mod_eq_of_lt (by omega)
  simp only [to_int, h1, h, if_true]

theorem to_size_t_ofNat (P : Platform) (x : Nat) (h : x < 2 ^ P.BITS_PER_LONG) :
    to_size_t P (Int.ofNat x) = x := by
  simp only [to_size_t]
  have : Int.ofNat x % Int.ofNat (2 ^ P.BITS_PER_LONG) = Int.ofNat (x % 2 ^ P.BITS_PER_LONG) :=
    rfl
  rw [this, Nat.mod_eq_of_lt h]
  rfl

/-- A size below `2^31` passes through the `int` unchanged. -/
theorem to_size_t_to_int (P : Platform) (x : Nat) (h : x < 2 ^ 31)
    (hb : 31 ≤ P.BITS_PER_LONG) : to_size_t P (to_int x) = x := by
  rw [to_int_of_lt x h]
  apply to_size_t_ofNat
  exact Nat.lt_of_lt_of_le h (Nat.pow_le_pow_right (by decide) hb)

/-- The conversions keep the residue modulo `2^32`. -/
theorem to_size_t_to_int_mod (P : Platform) (x : Nat) (hb : 32 ≤ P.BITS_PER_LONG) :
    to_size_t P (to_int x) % 2 ^ 32 = x % 2 ^ 32 := by
  obtain ⟨k, hk⟩ : ∃ k, P.BITS_PER_LONG = 32 + k := ⟨P.BITS_PER_LONG - 32, by omega⟩
  have hB : 2 ^ P.BITS_PER_LONG = 2 ^ 32 * 2 ^ k := by rw [hk, pow_add]
  have hkpos : 0 < 2 ^ k := Nat.pow_pos (by decide)
  have hr : x % 2 ^ 32 < 2 ^ 32 := Nat.mod_lt _ (by decide)
  simp only [to_int]
  generalize x % 2 ^ 32 = r at hr ⊢
  generalize 2 ^ k = K at hB hkpos
  have e32 : (2 : Nat) ^ 32 = 4294967296 := by norm_num
  have e31 : (2 : Nat) ^ 31 = 2147483648 := by norm_num
  rw [e32] at hB hr
  have hBpos : 4294967296 ≤ 2 ^ P.BITS_PER_LONG := by
    rw [hB]
    exact Nat.le_mul_of_pos_right _ hkpos
  split
  · rw [to_size_t_ofNat P r (by omega)]
    rw [e32]
    exact Nat.mod_eq_of_lt hr
  · rename_i hge
    rw [e31] at hge
    have hv : (Int.ofNat r - Int.ofNat (2 ^ 32)) % Int.ofNat (2 ^ P.BITS_PER_LONG)
        = Int.ofNat (2 ^ P.BITS_PER_LONG - 4294967296 + r) := by
      rw [← Int.add_emod_self]
      rw [Int.emod_eq_of_lt]
      · rw [e32]
        simp only [Int.ofNat_eq_coe]
        omega
      · rw [e32]
        simp only [Int.ofNat_eq_coe]
        omega
      · rw [e32]
        simp only [Int.ofNat_eq_coe]
        omega
    simp only [to_size_t]
    rw [hv]
    have etn : (Int.ofNat (2 ^ P.BITS_PER_LONG - 4294967296 + r)).toNat
        = 2 ^ P.BITS_PER_LONG - 4294967296 + r := rfl
    rw [etn, e32, hB]
    have e : 4294967296 * K - 4294967296 + r = r + 4294967296 * (K - 1) := by
      obtain ⟨K1, rfl⟩ : ∃ K1, K = K1 + 1 := ⟨K - 1, by omega⟩
      simp only [Nat.mul_add, Nat.mul_one, Nat.add_sub_cancel]
      omega
    rw [e, Nat.add_mul_mod_self_left]
    exact Nat.mod_eq_of_lt hr

/-- With a slab struct of a size between 1 and `2^32 - 1`, what the `int`
holds of `s + m` never comes out as `m`. -/
theorem to_size_t_to_int_ne (P : Platform) (s m : Nat) (hs : 0 < s) (hs2 : s < 2 ^ 32)
    (hb : 32 ≤ P.BITS_PER_LONG) : to_size_t P (to_int (s + m)) ≠ m := by
  intro h
  have h1 := to_size_t_to_int_mod P (s + m) hb
  rw [h] at h1
  have e32 : (2 : Nat) ^ 32 = 4294967296 := by norm_num
  rw [e32] at h1 hs2
  omega

/-- C14: a slab built by `spl_slab_alloc_vmem` comes from one `vmem_alloc`
whose size is what the local `int size` holds of `sizeof(spl_kmem_slab_t) +
SPL_KMEM_CACHE_OBJ_PER_SLAB * (object_size + sizeof(spl_kmem_obj_t))`, which
is that number of bytes when it is below `2^31`; `spl_slab_free_vmem`
releases it by one `vmem_free` at the same address, but with a size that
leaves out `sizeof(spl_kmem_slab_t)`: the two expressions are equal only if
the slab struct has size 0, and for a slab struct of 1 to `2^32 - 1` bytes
the size passed to `vmem_alloc` is never the size passed to `vmem_free`. -/
theorem C14_vmem_free_size (P : Platform) (skc : spl_kmem_cache_t) (jiffies : Nat)
    (heap : Heap) (sks : spl_kmem_slab_t) (ev : List Event)
    (h : spl_slab_alloc_vmem P skc jiffies heap = (some sks, ev)) :
    ev = [Event.vmem_alloc (to_size_t P (to_int (P.SIZEOF_SLAB +
      P.SPL_KMEM_CACHE_OBJ_PER_SLAB * (skc.skc_obj_size + P.SIZEOF_OBJ)))) sks.sks_ptr] ∧
    (P.SIZEOF_SLAB + P.SPL_KMEM_CACHE_OBJ_PER_SLAB * (skc.skc_obj_size + P.SIZEOF_OBJ) < 2 ^ 31 →
      31 ≤ P.BITS_PER_LONG →
      ev = [Event.vmem_alloc (P.SIZEOF_SLAB + P.SPL_KMEM_CACHE_OBJ_PER_SLAB *
        (skc.skc_obj_size + P.SIZEOF_OBJ)) sks.sks_ptr]) ∧
    spl_slab_free_vmem P skc sks = [Event.vmem_free sks.sks_ptr
      (P.SPL_KMEM_CACHE_OBJ_PER_SLAB * (skc.skc_obj_size + P.SIZEOF_OBJ))] ∧
    (P.SIZEOF_SLAB + P.SPL_KMEM_CACHE_OBJ_PER_SLAB * (skc.skc_obj_size + P.SIZEOF_OBJ)
      = P.SPL_KMEM_CACHE_OBJ_PER_SLAB * (skc.skc_obj_size + P.SIZEOF_OBJ)
      ↔ P.SIZEOF_SLAB = 0) ∧
    (0 < P.SIZEOF_SLAB → P.SIZEOF_SLAB < 2 ^ 32 → 32 ≤ P.BITS_PER_LONG →
      to_size_t P (to_int (P.SIZEOF_SLAB +
          P.SPL_KMEM_CACHE_OBJ_PER_SLAB * (skc.skc_obj_size + P.SIZEOF_OBJ)))
        ≠ P.SPL_KMEM_CACHE_OBJ_PER_SLAB * (skc.skc_obj_size + P.SIZEOF_OBJ)) := by
  simp only [spl_slab_alloc_vmem] at h
  split at h
  · simp at h
  · rename_i hne
    simp only [Prod.mk.injEq, Option.some.injEq] at h
    obtain ⟨rfl, rfl⟩ := h
    have hptr := (spl_slab_alloc_vmem_loop_wf P skc ((heap_next heap).1 + P.SIZEOF_SLAB)
      ((heap_next heap).1 + P.SIZEOF_SLAB
        + P.SIZEOF_OBJ * (spl_slab_init P (heap_next heap).1 jiffies).sks_objs)
      (by omega) (spl_slab_init P (heap_next heap).1 jiffies).sks_objs 0
      (spl_slab_init P (heap_next heap).1 jiffies)).1
    refine ⟨?_, ?_, ?_, by omega, ?_⟩
    · rw [hptr]; rfl
    · intro hfit hb
      rw [hptr, to_size_t_to_int P _ hfit hb]
      rfl
    · simp only [spl_slab_free_vmem]
    · intro h0 h1 hb
      exact to_size_t_to_int_ne P _ _ h0 h1 hb

/-- C14 at the first slab of the scenario cache: 2097322 bytes are allocated
at 4096 and 2097266 bytes are freed there. -/
theorem C14_vmem_free_size_witness :
    spl_slab_alloc_vmem demoP demo_c0 1001 [4096]
      = (some ⟨4096, 2, 1001, [⟨4152, 4264, 4096⟩, ⟨4208, 1052841, 4096⟩], 0⟩,
          [Event.vmem_alloc 2097322 4096]) ∧
    spl_slab_free_vmem demoP demo_c0
        ⟨4096, 2, 1001, [⟨4152, 4264, 4096⟩, ⟨4208, 1052841, 4096⟩], 0⟩
      = [Event.vmem_free 4096 2097266] ∧
    Event.vmem_alloc 2097322 4096 ∈ demo_reaped.2.skc_events ∧
    Event.vmem_free 4096 2097266 ∈ demo_reaped.2.skc_events :=
  ⟨by decide,
    (C14_vmem_free_size demoP demo_c0 1001 [4096]
      ⟨4096, 2, 1001, [⟨4152, 4264, 4096⟩, ⟨4208, 1052841, 4096⟩], 0⟩
      [Event.vmem_alloc 2097322 4096] (by decide)).2.2.1,
    by decide, by decide⟩

/-- C25: a slab built by `spl_slab_alloc_vmem` at base address `b` with
`N = SPL_KMEM_CACHE_OBJ_PER_SLAB` cells comes from one `vmem_alloc` of the
size `A` that the local `int size` holds of `sizeof(spl_kmem_slab_t) + N *
(object_size + sizeof(spl_kmem_obj_t))`.  Its free list holds the `N` headers
in index order, header `i` at `b + sizeof(spl_kmem_slab_t) +
sizeof(spl_kmem_obj_t) * i` with its body at `b + sizeof(spl_kmem_slab_t) +
sizeof(spl_kmem_obj_t) * N + object_size * i`; the bodies of two different
indices are disjoint and every body starts where the slab struct and all
headers have ended.  When the full size is below `2^31` it is the size
allocated and every body lies inside `[b, b + A)`.  A body lies inside the
region exactly when its end offset is at most `A`, so when the `int` holds
less than the full size the last body ends outside the allocated region. -/
theorem C25_vmem_layout (P : Platform) (skc : spl_kmem_cache_t) (j : Nat) (heap : Heap)
    (sks : spl_kmem_slab_t) (ev : List Event)
    (h : spl_slab_alloc_vmem P skc j heap = (some sks, ev)) :
    sks.sks_ptr ≠ 0 ∧ sks.sks_ptr = (heap_next heap).1 ∧
    ev = [Event.vmem_alloc (to_size_t P (to_int (P.SIZEOF_SLAB +
      P.SPL_KMEM_CACHE_OBJ_PER_SLAB * (skc.skc_obj_size + P.SIZEOF_OBJ)))) sks.sks_ptr] ∧
    sks.sks_objs = P.SPL_KMEM_CACHE_OBJ_PER_SLAB ∧
    sks.sks_free_list = (List.range P.SPL_KMEM_CACHE_OBJ_PER_SLAB).map (fun i =>
      { sko_ptr := sks.sks_ptr + P.SIZEOF_SLAB + P.SIZEOF_OBJ * i
        sko_addr := sks.sks_ptr + P.SIZEOF_SLAB
          + P.SIZEOF_OBJ * P.SPL_KMEM_CACHE_OBJ_PER_SLAB + skc.skc_obj_size * i
        sko_slab := sks.sks_ptr }) ∧
    (∀ i k, i < P.SPL_KMEM_CACHE_OBJ_PER_SLAB → k < P.SPL_KMEM_CACHE_OBJ_PER_SLAB → i ≠ k →
      (sks.sks_ptr + P.SIZEOF_SLAB + P.SIZEOF_OBJ * P.SPL_KMEM_CACHE_OBJ_PER_SLAB
          + skc.skc_obj_size * i) + skc.skc_obj_size
        ≤ sks.sks_ptr + P.SIZEOF_SLAB + P.SIZEOF_OBJ * P.SPL_KMEM_CACHE_OBJ_PER_SLAB
          + skc.skc_obj_size * k ∨
      (sks.sks_ptr + P.SIZEOF_SLAB + P.SIZEOF_OBJ * P.SPL_KMEM_CACHE_OBJ_PER_SLAB
          + skc.skc_obj_size * k) + skc.skc_obj_size
        ≤ sks.sks_ptr + P.SIZEOF_SLAB + P.SIZEOF_OBJ * P.SPL_KMEM_CACHE_OBJ_PER_SLAB
          + skc.skc_obj_size * i) ∧
    (∀ i k, i < P.SPL_KMEM_CACHE_OBJ_PER_SLAB → k < P.SPL_KMEM_CACHE_OBJ_PER_SLAB →
      sks.sks_ptr + P.SIZEOF_SLAB
        ≤ sks.sks_ptr + P.SIZEOF_SLAB + P.SIZEOF_OBJ * P.SPL_KMEM_CACHE_OBJ_PER_SLAB
          + skc.skc_obj_size * i ∧
      (sks.sks_ptr + P.SIZEOF_SLAB + P.SIZEOF_OBJ * k) + P.SIZEOF_OBJ
        ≤ sks.sks_ptr + P.SIZEOF_SLAB + P.SIZEOF_OBJ * P.SPL_KMEM_CACHE_OBJ_PER_SLAB
          + skc.skc_obj_size * i) ∧
    (P.SIZEOF_SLAB + P.SPL_KMEM_CACHE_OBJ_PER_SLAB * (skc.skc_obj_size + P.SIZEOF_OBJ) < 2 ^ 31 →
      31 ≤ P.BITS_PER_LONG →
      ev = [Event.vmem_alloc (P.SIZEOF_SLAB + P.SPL_KMEM_CACHE_OBJ_PER_SLAB *
        (skc.skc_obj_size + P.SIZEOF_OBJ)) sks.sks_ptr] ∧
      ∀ i, i < P.SPL_KMEM_CACHE_OBJ_PER_SLAB →
        sks.sks_ptr ≤ sks.sks_ptr + P.SIZEOF_SLAB
            + P.SIZEOF_OBJ * P.SPL_KMEM_CACHE_OBJ_PER_SLAB + skc.skc_obj_size * i ∧
        (sks.sks_ptr + P.SIZEOF_SLAB + P.SIZEOF_OBJ * P.SPL_KMEM_CACHE_OBJ_PER_SLAB
            + skc.skc_obj_size * i) + skc.skc_obj_size
          ≤ sks.sks_ptr + (P.SIZEOF_SLAB
            + P.SPL_KMEM_CACHE_OBJ_PER_SLAB * (skc.skc_obj_size + P.SIZEOF_OBJ))) ∧
    (∀ i, i < P.SPL_KMEM_CACHE_OBJ_PER_SLAB →
      ((sks.sks_ptr + P.SIZEOF_SLAB + P.SIZEOF_OBJ * P.SPL_KMEM_CACHE_OBJ_PER_SLAB
            + skc.skc_obj_size * i) + skc.skc_obj_size
          ≤ sks.sks_ptr + to_size_t P (to_int (P.SIZEOF_SLAB +
            P.SPL_KMEM_CACHE_OBJ_PER_SLAB * (skc.skc_obj_size + P.SIZEOF_OBJ)))
        ↔ P.SIZEOF_SLAB + P.SIZEOF_OBJ * P.SPL_KMEM_CACHE_OBJ_PER_SLAB
            + skc.skc_obj_size * (i + 1)
          ≤ to_size_t P (to_int (P.SIZEOF_SLAB +
            P.SPL_KMEM_CACHE_OBJ_PER_SLAB * (skc.skc_obj_size + P.SIZEOF_OBJ))))) ∧
    (to_size_t P (to_int (P.SIZEOF_SLAB +
          P.SPL_KMEM_CACHE_OBJ_PER_SLAB * (skc.skc_obj_size + P.SIZEOF_OBJ)))
        < P.SIZEOF_SLAB + P.SPL_KMEM_CACHE_OBJ_PER_SLAB * (skc.skc_obj_size + P.SIZEOF_OBJ) →
      ∀ i, i + 1 = P.SPL_KMEM_CACHE_OBJ_PER_SLAB →
        sks.sks_ptr + to_size_t P (to_int (P.SIZEOF_SLAB +
            P.SPL_KMEM_CACHE_OBJ_PER_SLAB * (skc.skc_obj_size + P.SIZEOF_OBJ)))
          < (sks.sks_ptr + P.SIZEOF_SLAB + P.SIZEOF_OBJ * P.SPL_KMEM_CACHE_OBJ_PER_SLAB
            + skc.skc_obj_size * i) + skc.skc_obj_size) := by
  have hmul : ∀ a i k : Nat, i < k → a * i + a ≤ a * k := by
    intro a i k hik
    have := Nat.mul_le_mul_left a (Nat.succ_le_of_lt hik)
    rw [Nat.mul_succ] at this
    exact this
  have e : P.SPL_KMEM_CACHE_OBJ_PER_SLAB * (skc.skc_obj_size + P.SIZEOF_OBJ)
      = skc.skc_obj_size * P.SPL_KMEM_CACHE_OBJ_PER_SLAB
        + P.SIZEOF_OBJ * P.SPL_KMEM_CACHE_OBJ_PER_SLAB := by
    rw [Nat.mul_add, Nat.mul_comm, Nat.mul_comm P.SPL_KMEM_CACHE_OBJ_PER_SLAB P.SIZEOF_OBJ]
  simp only [spl_slab_alloc_vmem] at h
  split at h
  · simp at h
  · rename_i hne
    simp only [Prod.mk.injEq, Option.some.injEq] at h
    obtain ⟨h1, h2⟩ := h
    rw [spl_slab_alloc_vmem_loop_eq] at h1
    subst h1
    subst h2
    generalize hA : to_size_t P (to_int (P.SIZEOF_SLAB +
      P.SPL_KMEM_CACHE_OBJ_PER_SLAB * (skc.skc_obj_size + P.SIZEOF_OBJ))) = A
    refine ⟨hne, rfl, rfl, rfl, ?_, ?_, ?_, ?_, ?_, ?_⟩
    · simp only [spl_slab_init, List.nil_append, Nat.zero_add]
    · intro i k hi hk hik
      rcases Nat.lt_or_gt_of_ne hik with hlt | hgt
      · left
        have := hmul skc.skc_obj_size i k hlt
        omega
      · right
        have := hmul skc.skc_obj_size k i hgt
        omega
    · intro i k hi hk
      have := hmul P.SIZEOF_OBJ k _ hk
      exact ⟨by omega, by omega⟩
    · intro hfit hb
      rw [to_size_t_to_int P _ hfit hb] at hA
      subst hA
      refine ⟨rfl, ?_⟩
      intro i hi
      have := hmul skc.skc_obj_size i _ hi
      rw [e]
      exact ⟨by omega, by omega⟩
    · intro i hi
      simp only [Nat.mul_succ, spl_slab_init]
      constructor <;> intro hh <;> omega
    · intro hlt i hi
      simp only [spl_slab_init]
      have e2 : skc.skc_obj_size * P.SPL_KMEM_CACHE_OBJ_PER_SLAB
          = skc.skc_obj_size * i + skc.skc_obj_size := by
        rw [← hi, Nat.mul_succ]
      rw [e] at hlt
      omega

/-- C25 at a slab of 32 objects of 128 MiB built at address 4096: the full
size of 4294969144 bytes does not fit the `int`, which holds 1848; 1848 bytes
are allocated, the first body starts at their end and the last body ends
4294967296 bytes further. -/
theorem C25_vmem_layout_witness :
    spl_slab_alloc_vmem smallP huge_c0 1001 [4096]
      = (some huge_slab, [Event.vmem_alloc 1848 4096]) ∧
    huge_c0.skc_obj_size = 134217728 ∧
    smallP.SIZEOF_SLAB + smallP.SPL_KMEM_CACHE_OBJ_PER_SLAB *
      (huge_c0.skc_obj_size + smallP.SIZEOF_OBJ) = 4294969144 ∧
    to_int 4294969144 = 1848 ∧
    huge_slab.sks_free_list.head? = some ⟨4152, 4096 + 1848, 4096⟩ ∧
    huge_slab.sks_ptr + 1848
      < (huge_slab.sks_ptr + smallP.SIZEOF_SLAB
          + smallP.SIZEOF_OBJ * smallP.SPL_KMEM_CACHE_OBJ_PER_SLAB
          + huge_c0.skc_obj_size * 31) + huge_c0.skc_obj_size :=
  ⟨by decide, by decide, by decide, by decide, by decide,
    (C25_vmem_layout smallP huge_c0 1001 [4096] huge_slab [Event.vmem_alloc 1848 4096]
      (by decide)).2.2.2.2.2.2.2.2.2 (by decide) 31 (by decide)⟩

end SplKmem
